import Mathlib

/-!
# CLK: floppy controller (Intel 8272) and Pasti/STX disk image decoder

A shallow embedding of `Components/8272/i8272.cpp`,
`Storage/Disk/DiskImage/Formats/STX.cpp`,
`Machines/Apple/AppleII/LanguageCardSwitches.hpp`, the instruction table of
`Processors/65816/Implementation/65816Storage.cpp` and `output_text` of
`Machines/AppleII/Video.cpp`, followed by theorems about them.

Conventions of the embedding:

* machine integers are `Nat`/`Int`; a cast to an unsigned type of width `w`
  is an explicit `% 2 ^ w`, and `~x` on an unsigned byte is `0xFF ^^^ x`;
* an out-of-range `std::vector::operator[]`, which is undefined behaviour in
  the source, is the result `none`;
* `printf` diagnostics are not part of the controller's state and are left out.
-/

namespace Intel

/-! ## Components/8272/i8272.cpp -/

/-- `StatusRQM`: set indicates ready to send to or receive from the processor. -/
def StatusRQM : Nat := 0x80

/-- The values of `enum class Event8272: int` are declared in `i8272.hpp`, which
is not among the sources; the two flags the code uses are taken as a parameter. -/
structure Event8272 where
  CommandByte : Nat
  Timer : Nat
deriving DecidableEq, Repr

/-- The value `__LINE__` has in the one `WAIT_FOR_EVENT` of `posit_event`
(line 79 of `i8272.cpp`); it is the only `case` label of the `switch`. -/
def wait_point : Nat := 79

/-- The labels `posit_event` jumps to out of its `switch(command_[0] & 0x1f)`. -/
inductive Label where
  | wait_for_complete_command_sequence
  | read_data
  | read_deleted_data
  | write_data
  | write_deleted_data
  | read_track
  | read_id
  | format_track
  | scan_low
  | scan_low_or_equal
  | scan_high_or_equal
  | recalibrate
  | sense_interrupt_status
  | specify
  | sense_drive_status
  | seek
  | invalid
deriving DecidableEq, Repr

/-- The member variables of `class i8272` that `i8272.cpp` reads and writes.
`decisions` is a history variable, not a member: it records, for every
evaluation of `switch(command_[0] & 0x1f)`, the value `command_` had there and
the label the switch jumped to. -/
structure i8272 where
  status_ : Nat
  command_ : List Nat
  interesting_event_mask_ : Nat
  resume_point_ : Nat
  delay_time_ : Int
  step_rate_time_ : Nat
  head_unload_time_ : Nat
  head_load_time_ : Nat
  dma_mode_ : Bool
  decisions : List (List Nat × Label)
deriving DecidableEq, Repr

/-- The `switch(command_[0] & 0x1f)` of `posit_event`, lines 82-144: the label
jumped to, given the command bytes so far and the first of them. -/
def dispatch (command : List Nat) (c0 : Nat) : Label :=
  if c0 &&& 0x1f = 0x06 then
    if command.length < 9 then .wait_for_complete_command_sequence else .read_data
  else if c0 &&& 0x1f = 0x0b then
    if command.length < 9 then .wait_for_complete_command_sequence else .read_deleted_data
  else if c0 &&& 0x1f = 0x05 then
    if command.length < 9 then .wait_for_complete_command_sequence else .write_data
  else if c0 &&& 0x1f = 0x09 then
    if command.length < 9 then .wait_for_complete_command_sequence else .write_deleted_data
  else if c0 &&& 0x1f = 0x02 then
    if command.length < 9 then .wait_for_complete_command_sequence else .read_track
  else if c0 &&& 0x1f = 0x0a then
    if command.length < 2 then .wait_for_complete_command_sequence else .read_id
  else if c0 &&& 0x1f = 0x0d then
    if command.length < 6 then .wait_for_complete_command_sequence else .format_track
  else if c0 &&& 0x1f = 0x11 then
    if command.length < 9 then .wait_for_complete_command_sequence else .scan_low
  else if c0 &&& 0x1f = 0x19 then
    if command.length < 9 then .wait_for_complete_command_sequence else .scan_low_or_equal
  else if c0 &&& 0x1f = 0x1d then
    if command.length < 9 then .wait_for_complete_command_sequence else .scan_high_or_equal
  else if c0 &&& 0x1f = 0x07 then
    if command.length < 2 then .wait_for_complete_command_sequence else .recalibrate
  else if c0 &&& 0x1f = 0x08 then
    .sense_interrupt_status
  else if c0 &&& 0x1f = 0x03 then
    if command.length < 3 then .wait_for_complete_command_sequence else .specify
  else if c0 &&& 0x1f = 0x04 then
    if command.length < 2 then .wait_for_complete_command_sequence else .sense_drive_status
  else if c0 &&& 0x1f = 0x0f then
    if command.length < 3 then .wait_for_complete_command_sequence else .seek
  else
    .invalid

/-- From the label `wait_for_complete_command_sequence` to the `return` inside
`WAIT_FOR_EVENT(Event8272::CommandByte)`, lines 77-79. -/
def wait_for_complete_command_sequence (ev : Event8272) (s : i8272) : i8272 :=
  { s with
    status_ := s.status_ ||| StatusRQM
    resume_point_ := wait_point
    interesting_event_mask_ := ev.CommandByte }

/-- From the label `wait_for_command` onwards, lines 73-79. `set_data_mode`
belongs to the base class `MFMController` and touches none of the members
modelled here. -/
def wait_for_command (ev : Event8272) (s : i8272) : i8272 :=
  wait_for_complete_command_sequence ev { s with command_ := [] }

/-- The handler bodies, lines 146-212: every label but `specify` only prints and
jumps to `wait_for_command`. -/
def handler (ev : Event8272) (s : i8272) : Label → Option i8272
  | .wait_for_complete_command_sequence => some (wait_for_complete_command_sequence ev s)
  | .specify =>
    match s.command_[1]?, s.command_[2]? with
    | some c1, some c2 =>
      some (wait_for_command ev
        { s with
          step_rate_time_ := c1 &&& 0xf0
          head_unload_time_ := c1 &&& 0x0f
          head_load_time_ := c2 &&& 0xfe
          dma_mode_ := decide (c2 &&& 1 = 0) })
    | _, _ => none
  | _ => some (wait_for_command ev s)

/-- `i8272::posit_event(int type)`, lines 67-215. `interesting_event_mask_` is an
`int`; `~type` is taken on 32 bits. -/
def posit_event (ev : Event8272) (s : i8272) (type : Nat) : Option i8272 :=
  if s.interesting_event_mask_ &&& type = 0 then some s
  else
    let s := { s with
      interesting_event_mask_ := s.interesting_event_mask_ &&& (0xFFFFFFFF ^^^ type) }
    if s.resume_point_ = wait_point then
      let s := { s with status_ := s.status_ &&& (0xFF ^^^ StatusRQM) }
      match s.command_[0]? with
      | none => none
      | some c0 =>
        let l := dispatch s.command_ c0
        handler ev { s with decisions := s.decisions ++ [(s.command_, l)] } l
    else
      some (wait_for_command ev s)

/-- `i8272::i8272`, lines 19-26. The constructor initialises `status_`,
`interesting_event_mask_`, `resume_point_` and `delay_time_` only; the Specify
configuration starts with whatever values the four arguments stand for. -/
def i8272.new (ev : Event8272) (step_rate_time head_unload_time head_load_time : Nat)
    (dma_mode : Bool) : Option i8272 :=
  posit_event ev
    { status_ := StatusRQM
      command_ := []
      interesting_event_mask_ := ev.CommandByte
      resume_point_ := 0
      delay_time_ := 0
      step_rate_time_ := step_rate_time
      head_unload_time_ := head_unload_time
      head_load_time_ := head_load_time
      dma_mode_ := dma_mode
      decisions := [] }
    ev.CommandByte

/-- `i8272::run_for(Cycles cycles)`, lines 28-38, with `cycles.as_int()` for
`cycles`. `MFMController::run_for` belongs to the base class and touches none
of the members modelled here. -/
def run_for (ev : Event8272) (s : i8272) (cycles : Int) : Option i8272 :=
  if s.delay_time_ > 0 then
    if cycles ≥ s.delay_time_ then
      posit_event ev { s with delay_time_ := 0 } ev.Timer
    else
      some { s with delay_time_ := s.delay_time_ - cycles }
  else
    some s

/-- `i8272::set_register(int address, uint8_t value)`, lines 40-50. -/
def set_register (ev : Event8272) (s : i8272) (address : Int) (value : Nat) : Option i8272 :=
  if address = 0 then some s
  else if s.status_ &&& StatusRQM = 0 then some s
  else posit_event ev { s with command_ := s.command_ ++ [value % 256] } ev.CommandByte

/-- `i8272::get_register(int address)`, lines 52-60. -/
def get_register (s : i8272) (address : Int) : Nat :=
  if address ≠ 0 then 0xff else s.status_

/-- One call made by the host on a constructed controller. -/
inductive Call where
  | set_register (address : Int) (value : Nat)
  | run_for (cycles : Int)
deriving DecidableEq, Repr

/-- Performs one call. -/
def Call.apply (ev : Event8272) (s : i8272) : Call → Option i8272
  | .set_register address value => Intel.set_register ev s address value
  | .run_for cycles => Intel.run_for ev s cycles

/-- Performs the calls of a list in turn. -/
def calls (ev : Event8272) : i8272 → List Call → Option i8272
  | s, [] => some s
  | s, c :: cs => (c.apply ev s).bind (fun s' => calls ev s' cs)

/-- The Specify configuration of a controller. -/
def i8272.configuration (s : i8272) : Nat × Nat × Nat × Bool :=
  (s.step_rate_time_, s.head_unload_time_, s.head_load_time_, s.dma_mode_)

/-- Construction followed by a list of calls. -/
def started (ev : Event8272) (step_rate_time head_unload_time head_load_time : Nat)
    (dma_mode : Bool) (cs : List Call) : Option i8272 :=
  (i8272.new ev step_rate_time head_unload_time head_load_time dma_mode).bind
    (fun s => calls ev s cs)

/-- The controller is suspended at its wait point with the ready bit set and no
delay pending. -/
def Awaiting (ev : Event8272) (s : i8272) : Prop :=
  s.status_ = StatusRQM ∧ s.resume_point_ = wait_point ∧
    s.interesting_event_mask_ = ev.CommandByte ∧ s.delay_time_ = 0

/-- A data-register write: the address, which is not 0, and the value. -/
structure DataWrite where
  address : Int
  value : Nat
deriving DecidableEq, Repr

/-- The call a data-register write stands for. -/
def DataWrite.call (w : DataWrite) : Call := .set_register w.address w.value

/-- The byte a data-register write hands to the controller (`uint8_t value`). -/
def DataWrite.byte (w : DataWrite) : Nat := w.value % 256

/-! ### The controller as the specification words it

These definitions follow the text of the specification, not the source; the
theorems compare them with the embedding above. -/

/-- The specification's table of recognised commands: opcode (low five bits of
the first command byte) to minimum byte count; sense-interrupt-status, which
dispatches immediately, has minimum 1. -/
def spec_minimum_length (opcode : Nat) : Option Nat :=
  [(0x06, 9), (0x0B, 9), (0x05, 9), (0x09, 9), (0x02, 9), (0x0A, 2), (0x0D, 6), (0x11, 9),
   (0x19, 9), (0x1D, 9), (0x07, 2), (0x08, 1), (0x03, 3), (0x04, 2), (0x0F, 3)].lookup opcode

/-- A command buffer is dispatched, in the specification's words, when its
first byte names no recognised command or when it has reached the minimum
length of the command named. -/
def spec_complete : List Nat → Bool
  | [] => false
  | c0 :: rest =>
    match spec_minimum_length (c0 &&& 0x1f) with
    | none => true
    | some n => decide (n ≤ (c0 :: rest).length)

/-- The buffers the specification has the controller look at: each byte
written to the data register is appended to the bytes pending since the last
dispatch, and a dispatch empties the buffer. -/
def spec_decisions : List Nat → List Nat → List (List Nat)
  | _, [] => []
  | pending, b :: bs =>
    (pending ++ [b]) ::
      spec_decisions (if spec_complete (pending ++ [b]) then [] else pending ++ [b]) bs

/-- The bytes a list of calls writes to the data register, in call order. -/
def data_bytes : List Call → List Nat
  | [] => []
  | .set_register address value :: cs =>
    if address = 0 then data_bytes cs else (value % 256) :: data_bytes cs
  | .run_for _ :: cs => data_bytes cs

/-- The buffer of a waiting controller is empty or shorter than the minimum
length of the recognised command its first byte names. -/
def BufferPending (s : i8272) : Prop :=
  s.command_ = [] ∨ ∃ c0 n, s.command_.head? = some c0 ∧
    spec_minimum_length (c0 &&& 0x1f) = some n ∧ s.command_.length < n

end Intel

namespace Storage

/-! ## Storage/FileHolder (not among the sources) -/

/-- Modelled from the spec: `Storage::FileHolder` (`Storage/FileHolder.cpp`,
absent), the file handle the decoder owns and through which it performs
blocking, synchronous reads; it wraps a C `FILE *`. The state is the bytes of
the file, the position `ftell` reports and the end-of-file indicator. -/
structure FileHolder where
  contents : List Nat
  position : Nat
  eof_ : Bool
deriving DecidableEq, Repr

/-- The `whence` argument of `seek`. -/
inductive Whence where
  | SEEK_SET
  | SEEK_CUR
deriving DecidableEq, Repr

namespace FileHolder

/-- Modelled from the spec: opening `FileHolder` (absent) on a file with the given
bytes, positioned at its start. -/
def open_ (contents : List Nat) : FileHolder :=
  { contents := contents, position := 0, eof_ := false }

/-- Modelled from the spec: `std::fgetc` on the handle of `FileHolder` (absent):
the next byte, or `none` for `EOF`, which sets the end-of-file indicator. -/
def fgetc (f : FileHolder) : Option Nat × FileHolder :=
  match f.contents[f.position]? with
  | some b => (some b, { f with position := f.position + 1 })
  | none => (none, { f with eof_ := true })

/-- The conversion of the `int` returned by `fgetc` to an unsigned integer of
`w` bits; `EOF` is -1. -/
def unsigned (w : Nat) : Option Nat → Nat
  | some b => b % 2 ^ w
  | none => 2 ^ w - 1

/-- Modelled from the spec: `FileHolder::get8` (absent), one byte. -/
def get8 (f : FileHolder) : Nat × FileHolder :=
  let (c, f) := f.fgetc
  (unsigned 8 c, f)

/-- Modelled from the spec: `FileHolder::get16le` (absent), a 2-byte
little-endian value. -/
def get16le (f : FileHolder) : Nat × FileHolder :=
  let (c0, f) := f.fgetc
  let (c1, f) := f.fgetc
  (unsigned 16 c0 ||| (unsigned 16 c1 <<< 8) % 2 ^ 16, f)

/-- Modelled from the spec: `FileHolder::get32le` (absent), a 4-byte
little-endian value. -/
def get32le (f : FileHolder) : Nat × FileHolder :=
  let (c0, f) := f.fgetc
  let (c1, f) := f.fgetc
  let (c2, f) := f.fgetc
  let (c3, f) := f.fgetc
  (unsigned 32 c0 ||| (unsigned 32 c1 <<< 8) % 2 ^ 32 ||| (unsigned 32 c2 <<< 16) % 2 ^ 32
    ||| (unsigned 32 c3 <<< 24) % 2 ^ 32, f)

/-- Modelled from the spec: `FileHolder::read(size)` (absent): the bytes `fread`
delivers, fewer than `size` when the file ends first. -/
def read (f : FileHolder) (size : Nat) : List Nat × FileHolder :=
  let bytes := (f.contents.drop f.position).take size
  (bytes, { f with position := f.position + bytes.length
                   eof_ := f.eof_ || decide (bytes.length < size) })

/-- Modelled from the spec: `FileHolder::seek(offset, whence)` (absent), an
`fseek`: a seek to a negative position fails and changes nothing, any other
seek, also beyond the end of the file, succeeds and clears the end-of-file
indicator. -/
def seek (f : FileHolder) (offset : Int) (whence : Whence) : FileHolder :=
  let target : Int :=
    match whence with
    | .SEEK_SET => offset
    | .SEEK_CUR => f.position + offset
  if target < 0 then f else { f with position := target.toNat, eof_ := false }

/-- Modelled from the spec: `FileHolder::tell` (absent). -/
def tell (f : FileHolder) : Nat := f.position

/-- Modelled from the spec: `FileHolder::eof` (absent), the end-of-file
indicator. -/
def eof (f : FileHolder) : Bool := f.eof_

/-- Modelled from the spec: `FileHolder::check_signature(signature, length)`
(absent): reads `length` bytes and compares them with the signature. -/
def check_signature (f : FileHolder) (signature : List Nat) (length : Nat) :
    Bool × FileHolder :=
  let (stored_signature, f) := f.read length
  (decide (stored_signature.length = length ∧ stored_signature = signature.take length), f)

/-- Modelled from the spec: `FileHolder::read(buffer, size)` (absent), an `fread`
into an existing buffer: the bytes delivered overwrite the start of the buffer. -/
def read_into (f : FileHolder) (buffer : List Nat) (size : Nat) : List Nat × FileHolder :=
  let (bytes, f) := f.read size
  (bytes ++ buffer.drop bytes.length, f)

end FileHolder

namespace Disk

/-! ## Storage/Disk/DiskImage/Formats/STX.cpp -/

/-- `Error::InvalidFormat`, the one error `STX.cpp` throws. -/
inductive Error where
  | InvalidFormat
deriving DecidableEq, Repr

/-- The member variables of `class STX`. `offset_by_track_` is declared in
`STX.hpp`, which is not among the sources, as an array of `long`; it is indexed
by a `uint8_t` in the constructor and has 256 entries. -/
structure STX where
  file_ : FileHolder
  track_count_ : Nat
  is_new_format_ : Bool
  offset_by_track_ : List Nat
deriving DecidableEq, Repr

/-- The `while(true)` loop of the constructor, lines 61-74, run for at most
`fuel` iterations; `none` when the loop has not reached its `break` by then. -/
def STX.parse_tracks : Nat → FileHolder → List Nat → Option (FileHolder × List Nat)
  | 0, _, _ => none
  | fuel + 1, file_, offset_by_track_ =>
    let offset := file_.tell
    let (size, file_) := file_.get32le
    if file_.eof then some (file_, offset_by_track_)
    else
      let file_ := file_.seek 10 .SEEK_CUR
      let (track_position, file_) := file_.get8
      let offset_by_track_ := offset_by_track_.set track_position offset
      let file_ := file_.seek (offset + size) .SEEK_SET
      STX.parse_tracks fuel file_ offset_by_track_

/-- The constructor from line 37 on, past the signature and version checks:
the rest of the header and the track loop. -/
def STX.parse_header (fuel : Nat) (file_ : FileHolder) : Option STX :=
  let file_ := file_.seek 4 .SEEK_CUR
  let (track_count_, file_) := file_.get8
  let (format, file_) := file_.get8
  let is_new_format_ := decide (format = 2)
  let file_ := file_.seek 4 .SEEK_CUR
  let offset_by_track_ := List.replicate 256 0
  match STX.parse_tracks fuel file_ offset_by_track_ with
  | none => none
  | some (file_, offset_by_track_) =>
    some { file_ := file_, track_count_ := track_count_,
           is_new_format_ := is_new_format_, offset_by_track_ := offset_by_track_ }

/-- `STX::STX(const std::string &file_name)`, lines 32-75, on a file with the
given bytes. The result is `none` when the track loop does not finish within
`fuel` iterations, `some (.error e)` when the constructor throws `e`, and
`some (.ok stx)` when it returns. The signature `"RSY"` is passed with length 4
and so includes the terminating zero of the string literal. -/
def STX.new (fuel : Nat) (contents : List Nat) : Option (Except Error STX) :=
  let file_ := FileHolder.open_ contents
  let (signature_ok, file_) := file_.check_signature [0x52, 0x53, 0x59, 0x00] 4
  if !signature_ok then some (.error .InvalidFormat)
  else
    let (version, file_) := file_.get16le
    if version ≠ 3 then some (.error .InvalidFormat)
    else (STX.parse_header fuel file_).map .ok

/-! ### `STX::get_track_at_position`, lines 85-413

Undefined behaviour of the source is the result `none`: an index outside a
`std::vector` or an array, a dereferenced iterator that does not point at an
element, a null `segment`, a shift the language leaves undefined. Iterators
into `potential_marks` are indices; only dereferencing one outside the list is
treated as undefined, not moving it there. -/

/-- The calls `get_track_at_position` makes on the MFM encoder
(`Encodings/MFM/Encoder.hpp`, not among the sources), in order; they are what
the encoder appends to the segment of the resulting track. -/
inductive EncoderCall where
  | add_byte (byte : Nat)
  | add_ID_address_mark
  | add_data_address_mark
  | add_crc (incorrectly : Bool)
deriving DecidableEq, Repr

/-- The two ways in which `get_track_at_position` produces a track: by handing
sector contents to `track_for_sectors` (`Utility/ImplicitSectors.hpp`, not among
the sources), recorded with its arguments, or as a `PCMTrack` of the segment the
encoder has filled. -/
inductive Track where
  | for_sectors (source : List Nat) (number_of_sectors track side first_sector size : Nat)
      (is_double_density : Bool)
  | pcm (segment : List EncoderCall)
deriving DecidableEq, Repr

/-- Modelled from the spec: `track_for_sectors` (`Utility/ImplicitSectors.cpp`,
absent), which synthesises the canonical numbered layout from contiguous sector
contents; the specification has this path always succeed. -/
def track_for_sectors (source : List Nat) (number_of_sectors track side first_sector size : Nat)
    (is_double_density : Bool) : Option Track :=
  some (.for_sectors source number_of_sectors track side first_sector size is_double_density)

/-- The local `struct Sector` of `get_track_at_position`, lines 110-132, with
its default member initialisers. -/
structure Sector where
  data_offset : Nat := 0
  bit_position : Nat := 0
  data_duration : Nat := 0
  address : List Nat := [0, 0, 0, 0, 0, 0]
  status : Nat := 0
  fuzzy_mask : List Nat := []
  contents : List Nat := []
  address_has_crc : Bool := true
  track_offset_of_header : Nat := 0
  track_offset_of_data : Nat := 0
deriving DecidableEq, Repr

/-- `Sector::data_size()`, `uint32_t(128 << address[3])`: the shift of the
`int` 128 is undefined from 25 bits on. -/
def Sector.data_size (sector : Sector) : Option Nat :=
  match sector.address[3]? with
  | none => none
  | some size => if size ≤ 24 then some ((128 <<< size) % 2 ^ 32) else none

/-- The loop that reads the sector records, lines 136-144, for `count`
sectors. -/
def read_sector_records : Nat → FileHolder → List Sector × FileHolder
  | 0, file_ => ([], file_)
  | count + 1, file_ =>
    let (data_offset, file_) := file_.get32le
    let (bit_position, file_) := file_.get16le
    let (data_duration, file_) := file_.get16le
    let (address, file_) := file_.read_into [0, 0, 0, 0, 0, 0] 6
    let (status, file_) := file_.get8
    let file_ := file_.seek 1 .SEEK_CUR
    let (rest, file_) := read_sector_records count file_
    ({ data_offset := data_offset, bit_position := bit_position,
       data_duration := data_duration, address := address, status := status } :: rest, file_)

/-- The loop that reads the fuzzy masks, lines 149-161: the sectors with their
masks, the value of `fuzzy_bytes_read` (a `uint32_t`) and the file after the
loop. -/
def read_fuzzy_masks (fuzzy_size : Nat) :
    List Sector → Nat → FileHolder → Option (List Sector × Nat × FileHolder)
  | [], fuzzy_bytes_read, file_ => some ([], fuzzy_bytes_read, file_)
  | sector :: rest, fuzzy_bytes_read, file_ =>
    if sector.status &&& 0x80 = 0 then
      (read_fuzzy_masks fuzzy_size rest fuzzy_bytes_read file_).map
        (fun r => (sector :: r.1, r.2))
    else
      match sector.data_size with
      | none => none
      | some expected_bytes =>
        if (fuzzy_bytes_read + expected_bytes) % 2 ^ 32 > fuzzy_size then
          some (sector :: rest, fuzzy_bytes_read, file_)
        else
          let (fuzzy_mask, file_) := file_.read expected_bytes
          (read_fuzzy_masks fuzzy_size rest ((fuzzy_bytes_read + expected_bytes) % 2 ^ 32)
              file_).map
            (fun r => ({ sector with fuzzy_mask := fuzzy_mask } :: r.1, r.2))

/-- Lines 134-172: the sector records and the fuzzy masks, for flags with bit 0
set; for other flags the fuzzy region is skipped. -/
def read_sectors (file_ : FileHolder) (fuzzy_size sector_count flags : Nat) :
    Option (List Sector × FileHolder) :=
  if flags &&& 1 ≠ 0 then
    let (sectors, file_) := read_sector_records sector_count file_
    if fuzzy_size ≠ 0 then
      match read_fuzzy_masks fuzzy_size sectors 0 file_ with
      | none => none
      | some (sectors, fuzzy_bytes_read, file_) =>
        some (sectors, file_.seek ((fuzzy_size : Int) - fuzzy_bytes_read) .SEEK_CUR)
    else some (sectors, file_)
  else
    some ([], file_.seek fuzzy_size .SEEK_CUR)

/-- Lines 185-199: the read-track-esque track contents, if the flags announce
them. -/
def read_track_data (file_ : FileHolder) (flags : Nat) : List Nat × FileHolder :=
  if flags &&& 0x40 ≠ 0 then
    if flags &&& 0x80 ≠ 0 then
      let (_first_sync, file_) := file_.get16le
      let (image_size, file_) := file_.get16le
      file_.read image_size
    else
      let (image_size, file_) := file_.get16le
      file_.read image_size
  else ([], file_)

/-- The loop that creates the implied sectors, lines 204-214, from counter `c`
up to `sector_count`; `remaining` is `sector_count - c`. -/
def implied_sectors (position head : Int) : Nat → Nat → FileHolder → List Sector × FileHolder
  | 0, _, file_ => ([], file_)
  | remaining + 1, c, file_ =>
    let (contents, file_) := file_.read 512
    let (rest, file_) := implied_sectors position head remaining (c + 1) file_
    ({ address := [(position % 256).toNat, (head % 256).toNat, (c + 1) % 256, (c + 1) % 256, 0, 0]
       address_has_crc := false
       contents := contents
       bit_position := c } :: rest, file_)

/-- The loop that reads the sector bodies, lines 217-223; the file handed on
carries the position of the last read and `end_of_data` is kept beside it. -/
def read_sector_contents (sector_start : Nat) :
    List Sector → Nat → FileHolder → Option (List Sector × Nat × FileHolder)
  | [], end_of_data, file_ => some ([], end_of_data, file_)
  | sector :: rest, end_of_data, file_ =>
    if sector.status &&& 0x10 = 0 then
      match sector.data_size with
      | none => none
      | some size =>
        let file_ := file_.seek (sector.data_offset + sector_start) .SEEK_SET
        let (contents, file_) := file_.read size
        (read_sector_contents sector_start rest (max end_of_data file_.tell) file_).map
          (fun r => ({ sector with contents := contents } :: r.1, r.2))
    else
      (read_sector_contents sector_start rest end_of_data file_).map
        (fun r => (sector :: r.1, r.2))

/-- Lines 201-225: all sector contents, implied or explicit. -/
def read_contents (file_ : FileHolder) (sectors : List Sector) (sector_start sector_count : Nat)
    (position head : Int) : Option (List Sector × FileHolder) :=
  if sectors.isEmpty then
    some (implied_sectors position head sector_count 0 file_)
  else
    match read_sector_contents sector_start sectors file_.tell file_ with
    | none => none
    | some (sectors, end_of_data, file_) => some (sectors, file_.seek end_of_data .SEEK_SET)

/-- The `std::sort` of line 245, by `bit_position`. The order `std::sort` gives
to sectors of equal `bit_position` is unspecified; this sort keeps them in
their order. -/
def sort_sectors (sectors : List Sector) : List Sector :=
  sectors.insertionSort (fun lhs rhs => lhs.bit_position ≤ rhs.bit_position)

/-- `PotentialMark::Type`. -/
inductive MarkType where
  | ID
  | Data
deriving DecidableEq, Repr

/-- The local `struct PotentialMark`, lines 253-258. -/
structure PotentialMark where
  type : MarkType
  byte_location : Nat
deriving DecidableEq, Repr

/-- The scan for potential marks, lines 260-273, from index `c` on with the
given value of `shifter`. -/
def scan_marks : List Nat → Nat → Nat → List PotentialMark
  | [], _, _ => []
  | byte :: rest, c, shifter =>
    let shifter := ((shifter <<< 8) ||| byte) &&& 0xffffff
    if shifter = 0xa1a1fe then
      { type := .ID, byte_location := c } :: scan_marks rest (c + 1) shifter
    else if shifter = 0xa1a1fb then
      { type := .Data, byte_location := c } :: scan_marks rest (c + 1) shifter
    else
      scan_marks rest (c + 1) shifter

/-- The `potential_marks` of a track image. -/
def potential_marks (track_data : List Nat) : List PotentialMark :=
  scan_marks track_data 0 0

/-- The search for an unconsumed data mark, lines 286-290: the index at which
`data_search` stops, over the marks from index `i` on. -/
def search_data_mark (location : Nat) : List PotentialMark → Nat → Nat
  | [], i => i
  | mark :: rest, i =>
    if mark.type = .Data ∧ mark.byte_location = location then i
    else search_data_mark location rest (i + 1)

/-- The loop receding to a previous ID mark, lines 296-298, from index `i`
down: `some (some j)` when it stops at index `j`, `some none` when it stops
before the first mark, `none` when it dereferences an iterator that points at
no mark. -/
def recede_to_ID (potential_marks : List PotentialMark) (limit : Nat) :
    Nat → Option (Option Nat)
  | 0 =>
    match potential_marks[0]? with
    | none => none
    | some mark =>
      if mark.type = .ID ∧ mark.byte_location ≥ limit then some (some 0) else some none
  | i + 1 =>
    match potential_marks[i + 1]? with
    | none => none
    | some mark =>
      if mark.type = .ID ∧ mark.byte_location ≥ limit then some (some (i + 1))
      else recede_to_ID potential_marks limit i

/-- The loop advancing `next_mark` to the next ID mark, lines 308-309, over the
marks from index `i` on. -/
def skip_to_ID : List PotentialMark → Nat → Nat
  | [], i => i
  | mark :: rest, i => if mark.type ≠ .ID then skip_to_ID rest (i + 1) else i

/-- The count of address bytes that match, lines 319-322, from `c` up to 4;
`remaining` is `4 - c`. -/
def count_matches (track_data : List Nat) (location : Nat) (address : List Nat) :
    Nat → Nat → Option Nat
  | 0, _ => some 0
  | remaining + 1, c =>
    match track_data[location + c]?, address[c]? with
    | some byte, some expected =>
      (count_matches track_data location address remaining (c + 1)).map
        (fun matches_ => matches_ + (if byte = expected then 1 else 0))
    | _, _ => none

/-- The conversion `int(x)` of a `size_t`. -/
def to_int (x : Nat) : Int :=
  if x % 2 ^ 32 < 2 ^ 31 then (x % 2 ^ 32 : Nat) else ((x % 2 ^ 32 : Nat) : Int) - 2 ^ 32

/-- The `size_t` difference `a - b`. -/
def size_t_sub (a b : Nat) : Nat := ((a : Int) - (b : Int)).emod (2 ^ 64) |>.toNat

/-- The loop over the sectors that correlates them with potential marks, lines
278-348; `next_mark` is an index into `potential_marks`. `std::abs` is undefined
at the least `int`. -/
def correlate (track_data : List Nat) (potential_marks : List PotentialMark) :
    List Sector → Nat → Option (List Sector)
  | [], _ => some []
  | sector :: rest, next_mark =>
    if sector.data_offset < track_data.length then
      let sector := { sector with track_offset_of_data := sector.data_offset }
      if next_mark > potential_marks.length then none
      else
        let data_search :=
          search_data_mark sector.track_offset_of_data (potential_marks.drop next_mark) next_mark
        let next_mark := data_search + 1
        match recede_to_ID potential_marks (size_t_sub sector.track_offset_of_data 150)
            data_search with
        | none => none
        | some found =>
          let sector :=
            match found.bind (fun j => potential_marks[j]?) with
            | some mark => { sector with track_offset_of_header := mark.byte_location }
            | none =>
              { sector with
                track_offset_of_header := size_t_sub sector.track_offset_of_data 50 }
          (correlate track_data potential_marks rest next_mark).map (fun r => sector :: r)
    else
      if next_mark > potential_marks.length then none
      else
        let next_mark := skip_to_ID (potential_marks.drop next_mark) next_mark
        match potential_marks[next_mark]? with
        | none => some (sector :: rest)
        | some mark =>
          if sector.status &&& 0x10 ≠ 0 then
            match count_matches track_data mark.byte_location sector.address 4 0 with
            | none => none
            | some matches_ =>
              if matches_ ≥ 2 then
                (correlate track_data potential_marks rest (next_mark + 1)).map
                  (fun r => { sector with track_offset_of_header := mark.byte_location } :: r)
              else
                (correlate track_data potential_marks rest next_mark).map
                  (fun r =>
                    { sector with track_offset_of_header := sector.bit_position >>> 3 } :: r)
          else if mark.type = .ID then
            match potential_marks[next_mark + 1]? with
            | none => none
            | some data_mark =>
              if data_mark.type = .Data then
                let distance :=
                  to_int (size_t_sub mark.byte_location (sector.bit_position >>> 3))
                if distance = -(2 ^ 31) then none
                else if distance.natAbs < 100 then
                  (correlate track_data potential_marks rest (next_mark + 2)).map
                    (fun r =>
                      { sector with
                        track_offset_of_header := mark.byte_location
                        track_offset_of_data := data_mark.byte_location } :: r)
                else
                  (correlate track_data potential_marks rest next_mark).map
                    (fun r => sector :: r)
              else
                (correlate track_data potential_marks rest next_mark).map (fun r => sector :: r)
          else
            (correlate track_data potential_marks rest next_mark).map (fun r => sector :: r)

/-- The bytes `track_data[from]`, ..., `track_data[from + count - 1]` handed to
`add_byte` one after the other; `none` when one of the indices is outside the
image. -/
def copy_bytes (track_data : List Nat) (start count : Nat) : Option (List EncoderCall) :=
  if count = 0 then some []
  else if start + count ≤ track_data.length then
    some (((track_data.drop start).take count).map .add_byte)
  else none

/-- The header of a sector as output in lines 377-388. -/
def output_header (sector : Sector) : Option (List EncoderCall) :=
  match sector.address[0]?, sector.address[1]?, sector.address[2]?, sector.address[3]?,
      sector.address[4]?, sector.address[5]? with
  | some a0, some a1, some a2, some a3, some a4, some a5 =>
    some ([.add_ID_address_mark, .add_byte a0, .add_byte a1, .add_byte a2, .add_byte a3] ++
      (if sector.address_has_crc then [.add_byte a4, .add_byte a5]
       else [.add_crc (decide (sector.status &&& 0x18 = 0x18))]))
  | _, _, _, _, _, _ => none

/-- The body of a sector as output in lines 391-403, from position
`bytes_consumed` of the walk: the encoder calls and the new position. -/
def output_body (track_data : List Nat) (sector : Sector) (bytes_consumed : Nat) :
    Option (List EncoderCall × Nat) :=
  if sector.status &&& 0x10 = 0 then
    match copy_bytes track_data bytes_consumed (sector.track_offset_of_data - bytes_consumed) with
    | none => none
    | some gap =>
      some (gap ++ [.add_data_address_mark] ++ sector.contents.map .add_byte ++
          [.add_crc (decide (sector.status &&& 0x8 ≠ 0))],
        max bytes_consumed sector.track_offset_of_data + (sector.contents.length + 5))
  else some ([], bytes_consumed)

/-- The assembly loop, lines 352-407, from the sector `next_sector` points at
and the position `bytes_consumed` on: the calls made on the encoder. -/
def assemble (track_data : List Nat) (track_length : Nat) :
    List Sector → Nat → Option (List EncoderCall)
  | [], bytes_consumed =>
    if bytes_consumed < track_length then
      copy_bytes track_data bytes_consumed (size_t_sub track_length bytes_consumed)
    else some []
  | sector :: rest, bytes_consumed =>
    if bytes_consumed < track_length then
      match copy_bytes track_data bytes_consumed
          (size_t_sub sector.track_offset_of_header bytes_consumed) with
      | none => none
      | some lead =>
        let bytes_consumed :=
          bytes_consumed + size_t_sub sector.track_offset_of_header bytes_consumed
        match output_header sector with
        | none => none
        | some header =>
          let bytes_consumed := bytes_consumed + 9
          match output_body track_data sector bytes_consumed with
          | none => none
          | some (body, bytes_consumed) =>
            (assemble track_data track_length rest bytes_consumed).map
              (fun r => lead ++ header ++ body ++ r)
    else some []

/-- Lines 247-412: the track built from the track image and the sorted
sectors. With a `track_length` of 0 the assembly loop is not entered and the
`segment` dereferenced in line 409 is null. -/
def build_track (track_data : List Nat) (sectors : List Sector) (track_length : Nat) :
    Option (Option Track) :=
  if track_data.isEmpty then some none
  else
    match correlate track_data (potential_marks track_data) sectors 0 with
    | none => none
    | some sectors =>
      if track_length = 0 then none
      else (assemble track_data track_length sectors 0).map (fun segment => some (.pcm segment))

/-- Lines 109-412, for a track whose flags have bit 0 set. -/
def extended_track (file_ : FileHolder) (fuzzy_size sector_count flags track_length : Nat)
    (position head : Int) : Option (Option Track) :=
  match read_sectors file_ fuzzy_size sector_count flags with
  | none => none
  | some (sectors, file_) =>
    let sector_start := file_.tell
    let (track_data, file_) := read_track_data file_ flags
    match read_contents file_ sectors sector_start sector_count position head with
    | none => none
    | some (sectors, _) => build_track track_data (sort_sectors sectors) track_length

/-- Lines 93-107 and on: the track whose descriptor is at `offset`. -/
def track_at_offset (file_ : FileHolder) (offset : Nat) (position head : Int) :
    Option (Option Track) :=
  let file_ := file_.seek (offset + 4) .SEEK_SET
  let (fuzzy_size, file_) := file_.get32le
  let (sector_count, file_) := file_.get16le
  let (flags, file_) := file_.get16le
  let (track_bytes, file_) := file_.get16le
  let track_length := track_bytes <<< 3
  let file_ := file_.seek 2 .SEEK_CUR
  if flags &&& 1 = 0 then
    let (sector_contents, _) := file_.read (sector_count * 512)
    (track_for_sectors sector_contents sector_count (position % 256).toNat (head % 256).toNat
      1 2 true).map some
  else
    extended_track file_ fuzzy_size sector_count flags track_length position head

/-- `STX::get_track_at_position(Track::Address address)`, lines 85-413, with
`address.head` and `address.position.as_int()` for the address, both `int`:
`some none` is the null pointer, `some (some track)` a track. -/
def STX.get_track_at_position (stx : STX) (head position : Int) : Option (Option Track) :=
  if head > 1 then some none
  else
    let track_index : Int := head * 0x80 + position
    if track_index < 0 then none
    else
      match stx.offset_by_track_[track_index.toNat]? with
      | none => none
      | some offset =>
        if offset = 0 then some none
        else track_at_offset stx.file_ offset position head

/-- The fields of a sector that come from its record in the sector table: data
offset, bit position, data duration, address field and status. -/
def Sector.record (sector : Sector) : Nat × Nat × Nat × List Nat × Nat :=
  (sector.data_offset, sector.bit_position, sector.data_duration, sector.address,
    sector.status)

/-- The image size `read_track_data` reads from the file, lines 189-196, for
flags that announce a track image. -/
def declared_image_size (file_ : FileHolder) (flags : Nat) : Nat :=
  if flags &&& 0x80 ≠ 0 then file_.get16le.2.get16le.1 else file_.get16le.1

/-! ### The container as the specification words it -/

/-- The little-endian 16-bit value stored at an offset of a file, when the file
holds both of its bytes. -/
def spec_le16 (contents : List Nat) (offset : Nat) : Option Nat :=
  match contents[offset]?, contents[offset + 1]? with
  | some lo, some hi => some (lo + 256 * hi)
  | _, _ => none

/-- The little-endian 32-bit value stored at an offset of a file, when the file
holds its four bytes. -/
def spec_le32 (contents : List Nat) (offset : Nat) : Option Nat :=
  match contents[offset]?, contents[offset + 1]?, contents[offset + 2]?,
      contents[offset + 3]? with
  | some b0, some b1, some b2, some b3 =>
    some (b0 + 256 * b1 + 65536 * b2 + 16777216 * b3)
  | _, _, _, _ => none

/-- The fixed 4-byte signature of a container: `R`, `S`, `Y` and a zero byte. -/
def spec_signature : List Nat := [0x52, 0x53, 0x59, 0x00]

/-- The track descriptors of a container from `offset` on, in scan order: a
descriptor is present where its 4-byte record size lies wholly in the file, and
the next one begins that many bytes further. Each is listed with its file
offset and its position byte (byte 14), if the file holds it. `none` when more
than `fuel - 1` descriptors are met. -/
def spec_descriptors : Nat → List Nat → Nat → Option (List (Nat × Option Nat))
  | 0, _, _ => none
  | fuel + 1, contents, offset =>
    match spec_le32 contents offset with
    | none => some []
    | some size =>
      (spec_descriptors fuel contents (offset + size)).map
        (fun ds => (offset, contents[offset + 14]?) :: ds)

/-- The table entry the specification gives a position byte: the file offset of
the last descriptor in scan order that declares it, 0 if there is none. -/
def spec_table_entry (ds : List (Nat × Option Nat)) (position : Nat) : Nat :=
  match (ds.filter (fun d => d.2 = some position)).getLast? with
  | some d => d.1
  | none => 0

/-- A track descriptor record as the specification lays it out: at least the 16
bytes of the descriptor, all of them bytes, the first four holding the length
of the record. -/
def spec_record (record : List Nat) : Prop :=
  16 ≤ record.length ∧ (∀ b ∈ record, b < 256) ∧ spec_le32 record 0 = some record.length

/-- A container header as the specification lays it out: 16 bytes, starting
with the signature and version 3. -/
def spec_header (header : List Nat) : Prop :=
  header.length = 16 ∧ (∀ b ∈ header, b < 256) ∧ header.take 4 = spec_signature ∧
    spec_le16 header 4 = some 3

/-- A container made of a header and track descriptor records in file order. -/
def spec_container (header : List Nat) (records : List (List Nat)) : List Nat :=
  header ++ records.flatten

/-- The records of a container with the file offsets at which they sit, the
first at `start`. -/
def spec_layout : Nat → List (List Nat) → List (Nat × List Nat)
  | _, [] => []
  | start, record :: records => (start, record) :: spec_layout (start + record.length) records

/-- A position byte declares a head in bit 7 and a cylinder in bits 0-6. -/
def spec_declares (position : Nat) (head cylinder : Int) : Prop :=
  ((position / 128 : Nat) : Int) = head ∧ ((position % 128 : Nat) : Int) = cylinder

/-- The header of a sector as the specification has it emitted: an ID address
mark, the four address bytes, then the two recorded CRC bytes if the container
recorded them, else a computed CRC, wrong on purpose exactly when the status has
both bits of 0x18. -/
def spec_header_calls (sector : Sector) : List EncoderCall :=
  [.add_ID_address_mark] ++ (sector.address.take 4).map .add_byte ++
    (if sector.address_has_crc then ((sector.address.drop 4).take 2).map .add_byte
     else [.add_crc (decide (sector.status &&& 0x18 = 0x18))])

/-- The body of a sector as the specification has it emitted from a position of
the walk: nothing for a sector with no data recorded (status bit 0x10), else
the raw bytes up to the data offset, a data address mark, the content bytes and
a CRC, wrong on purpose exactly when the status has bit 0x08. -/
def spec_body_calls (track_data : List Nat) (sector : Sector) (position : Nat) :
    List EncoderCall :=
  if sector.status &&& 0x10 ≠ 0 then []
  else
    ((track_data.drop position).take (sector.track_offset_of_data - position)).map .add_byte ++
      [.add_data_address_mark] ++ sector.contents.map .add_byte ++
      [.add_crc (decide (sector.status &&& 0x08 ≠ 0))]

/-- The mark the specification has the scan record at offset `c` of a track
image: an ID mark if `c ≥ 2` and the bytes at `c - 2`, `c - 1`, `c` are 0xA1,
0xA1, 0xFE, a data mark if they are 0xA1, 0xA1, 0xFB, and none otherwise. -/
def spec_mark_at (track_data : List Nat) (c : Nat) : Option PotentialMark :=
  if c < 2 then none
  else if track_data[c - 2]? = some 0xa1 ∧ track_data[c - 1]? = some 0xa1
      ∧ track_data[c]? = some 0xfe then
    some { type := .ID, byte_location := c }
  else if track_data[c - 2]? = some 0xa1 ∧ track_data[c - 1]? = some 0xa1
      ∧ track_data[c]? = some 0xfb then
    some { type := .Data, byte_location := c }
  else none

/-- The potential marks as the specification words them: the marks of all
offsets of the image, by increasing offset. -/
def spec_potential_marks (track_data : List Nat) : List PotentialMark :=
  (List.range track_data.length).filterMap (spec_mark_at track_data)

/-- The two bytes before offset `c` of an image, as the shift register holds
them: zero where the image has not started. -/
def shifted (track_data : List Nat) (c : Nat) : Nat :=
  (if 2 ≤ c then track_data.getD (c - 2) 0 else 0) * 256 +
    (if 1 ≤ c then track_data.getD (c - 1) 0 else 0)

/-- A record of the sector table as the specification lays it out, with the
6-byte address field of its second description: at offset `p` a 4-byte data
offset, a 2-byte bit position, a 2-byte data duration, the 6 bytes of the
address field, a status byte and a reserved byte, 16 bytes in all. -/
def spec_sector_record (contents : List Nat) (p : Nat) : Option Sector :=
  match spec_le32 contents p, spec_le16 contents (p + 4), spec_le16 contents (p + 6),
      contents[p + 14]?, contents[p + 15]? with
  | some data_offset, some bit_position, some data_duration, some status, some _ =>
    some { data_offset := data_offset, bit_position := bit_position,
           data_duration := data_duration, address := (contents.drop (p + 8)).take 6,
           status := status }
  | _, _, _, _, _ => none

/-- A sector table of `count` such records from offset `p` on. -/
def spec_sector_table (contents : List Nat) : Nat → Nat → Option (List Sector)
  | _, 0 => some []
  | p, count + 1 =>
    match spec_sector_record contents p, spec_sector_table contents (p + 16) count with
    | some sector, some rest => some (sector :: rest)
    | _, _ => none

/-- The size of a sector as the specification has it: `128 << size-code`, where
the size code is byte 3 of the address field. -/
def spec_data_size (sector : Sector) : Nat := 128 <<< sector.address.getD 3 0

/-- The fuzzy masks as the specification hands them out, from file offset
`cursor` on with `remaining` bytes of the declared size left: in table order,
`128 << size-code` bytes for each sector whose status has bit 0x80, and none any
more once such a sector does not fit in what remains. -/
def spec_fuzzy_masks (contents : List Nat) : Nat → Nat → List Sector → List Sector
  | _, _, [] => []
  | cursor, remaining, sector :: rest =>
    if sector.status &&& 0x80 = 0 then
      sector :: spec_fuzzy_masks contents cursor remaining rest
    else if spec_data_size sector > remaining then sector :: rest
    else
      { sector with fuzzy_mask := (contents.drop cursor).take (spec_data_size sector) } ::
        spec_fuzzy_masks contents (cursor + spec_data_size sector)
          (remaining - spec_data_size sector) rest

/-- The body of a sector as the specification has it read: for a status with
bit 0x10 clear the `128 << size-code` file bytes from `sector_start +
data_offset` on, and no body otherwise. -/
def spec_sector_body (contents : List Nat) (sector_start : Nat) (sector : Sector) : Sector :=
  if sector.status &&& 0x10 = 0 then
    { sector with
      contents := (contents.drop (sector_start + sector.data_offset)).take
        (spec_data_size sector) }
  else sector

/-- The file position at which the read of a sector's body ends. -/
def spec_body_end (contents : List Nat) (sector_start : Nat) (sector : Sector) : Nat :=
  sector_start + sector.data_offset +
    ((contents.drop (sector_start + sector.data_offset)).take (spec_data_size sector)).length

/-- The greatest of a position `start` and the positions at which the reads of
the bodies of the sectors end, for the sectors that have one. -/
def spec_body_cursor (contents : List Nat) (sector_start start : Nat) (sectors : List Sector) :
    Nat :=
  ((sectors.filter (fun sector => sector.status &&& 0x10 = 0)).map
    (spec_body_end contents sector_start)).foldl max start

/-- A sector without its fuzzy mask. -/
def Sector.without_mask (sector : Sector) : Sector := { sector with fuzzy_mask := [] }

end Disk

end Storage

namespace Apple.II

/-! ## Machines/Apple/AppleII/LanguageCardSwitches.hpp -/

/-- `LanguageCardSwitches::State`: `bank1` selects the 4kb chunk of RAM visible
at $Dxxx, `read` makes RAM readable in $D000-$FFFF, `write` selects ROM for
writing there. -/
structure State where
  bank1 : Bool := false
  read : Bool := false
  write : Bool := false
deriving DecidableEq, Repr

/-- `State::operator !=`, lines 35-40. -/
def State.ne (lhs rhs : State) : Bool :=
  (lhs.bank1 != rhs.bank1) || (lhs.read != rhs.read) || (lhs.write != rhs.write)

/-- The member variables of `LanguageCardSwitches` other than the reference to
the machine. -/
structure LanguageCardSwitches where
  state_ : State := {}
  pre_write_ : Bool := false
deriving DecidableEq, Repr

/-- `LanguageCardSwitches::access(uint16_t address, bool is_read)`, lines 46-73:
the switches after the access and the number of calls it made to
`machine_.set_language_card_paging()`. -/
def LanguageCardSwitches.access (s : LanguageCardSwitches) (address : Nat) (is_read : Bool) :
    LanguageCardSwitches × Nat :=
  let address := address % 2 ^ 16
  let previous_state := s.state_
  let state_ := s.state_
  let state_ := { state_ with bank1 := decide (address &&& 8 ≠ 0) }
  let state_ :=
    { state_ with read := decide ((((address &&& 2) >>> 1) ^^^ (address &&& 1)) = 0) }
  let state_ :=
    if s.pre_write_ && is_read && decide (address &&& 1 ≠ 0) then { state_ with write := false }
    else state_
  let state_ := if address &&& 1 = 0 then { state_ with write := true } else state_
  let pre_write_ := if is_read then decide (address &&& 1 ≠ 0) else false
  ({ state_ := state_, pre_write_ := pre_write_ },
    if previous_state.ne state_ then 1 else 0)

/-- A sequence of calls of `access` on the switches, each given by its address
and its kind, in order: the switches after the last of them. -/
def LanguageCardSwitches.accesses (s : LanguageCardSwitches) (sequence : List (Nat × Bool)) :
    LanguageCardSwitches :=
  sequence.foldl (fun s a => (s.access a.1 a.2).1) s

/-- Whether the last access of a sequence was a read of an odd address; for the
empty sequence, no. -/
def preceded_by_odd_read (sequence : List (Nat × Bool)) : Bool :=
  match sequence.getLast? with
  | some a => a.2 && decide (a.1 % 2 = 1)
  | none => false

end Apple.II

namespace CPU.WDC65816

/-! ## Processors/65816/Implementation/65816Storage.cpp -/

/-- The values of `Operation` (`65816.hpp`, not among the sources) that
`65816Storage.cpp` names. -/
inductive Operation where
  | ADC | AND | BIT | CMP | CPX | CPY | EOR | ORA | SBC
  | LDA | LDX | LDY
  | JMP | JSR | JML | JSL
  | STA | STX | STY | STZ
deriving DecidableEq, Repr

/-- The values of `MicroOp` (`65816.hpp`, not among the sources) that
`65816Storage.cpp` names. -/
inductive MicroOp where
  | CycleFetchIncrementPC
  | CycleFetchPC
  | CycleFetchIncrementData
  | CycleFetchData
  | CycleStoreIncrementData
  | CycleStoreData
  | CycleStoreDecrementData
  | CyclePush
  | CycleAccessStack
  | OperationConstructAbsolute
  | OperationConstructAbsoluteIndexedIndirect
  | OperationPerform
  | OperationCopyPCToData
  | OperationCopyPBRToData
  | OperationMoveToNextProgram
deriving DecidableEq, Repr

/-- `ProcessorStorageConstructor::AccessType`. -/
inductive AccessType where
  | Read
  | Write
deriving DecidableEq, Repr

/-- `access_type_for_operation`, lines 23-37. -/
def access_type_for_operation : Operation → AccessType
  | .ADC | .AND | .BIT | .CMP | .CPX | .CPY | .EOR | .ORA | .SBC
  | .LDA | .LDX | .LDY
  | .JMP | .JSR | .JML | .JSL => .Read
  | .STA | .STX | .STY | .STZ => .Write

/-- The static generator functions of `ProcessorStorageConstructor`, lines
124-275; a `Generator` is a pointer to one of them. -/
inductive Generator where
  | absolute
  | absolute_jmp
  | absolute_jsr
  | absolute_rmw
  | absolute_indexed_indirect_jmp
  | absolute_indexed_indirect_jsr
  | absolute_indirect_jml
  | absolute_indirect_jmp
  | absolute_long
  | absolute_long_jmp
  | absolute_long_jsl
deriving DecidableEq, Repr

open MicroOp in
/-- The micro-ops a generator hands to its `target`, in order, lines
124-275. -/
def Generator.generate : Generator → AccessType → Bool → List MicroOp
  | .absolute, type, is8bit =>
    [CycleFetchIncrementPC, CycleFetchIncrementPC, OperationConstructAbsolute] ++
    (if type = .Write then
      [OperationPerform] ++ (if !is8bit then [CycleStoreIncrementData] else []) ++
        [CycleStoreData]
    else
      (if !is8bit then [CycleFetchIncrementData] else []) ++
        [CycleFetchIncrementData, OperationPerform])
  | .absolute_jmp, _, _ =>
    [CycleFetchIncrementPC, CycleFetchPC, OperationConstructAbsolute, OperationPerform]
  | .absolute_jsr, _, _ =>
    [CycleFetchIncrementPC, CycleFetchPC, CycleFetchPC, OperationConstructAbsolute,
      OperationPerform, CyclePush, CyclePush]
  | .absolute_rmw, _, is8bit =>
    [CycleFetchIncrementPC, CycleFetchIncrementPC, OperationConstructAbsolute] ++
    (if !is8bit then [CycleFetchIncrementData] else []) ++
    [CycleFetchData] ++
    (if !is8bit then [CycleFetchData] else [CycleStoreData]) ++
    [OperationPerform] ++
    (if !is8bit then [CycleStoreDecrementData] else []) ++
    [CycleStoreData]
  | .absolute_indexed_indirect_jmp, _, _ =>
    [CycleFetchIncrementPC, CycleFetchPC, CycleFetchPC,
      OperationConstructAbsoluteIndexedIndirect, CycleFetchIncrementData, CycleFetchData,
      OperationPerform]
  | .absolute_indexed_indirect_jsr, _, _ =>
    [CycleFetchIncrementPC, OperationCopyPCToData, CyclePush, CyclePush, CycleFetchPC,
      CycleFetchPC, OperationConstructAbsoluteIndexedIndirect, CycleFetchIncrementData,
      CycleFetchData, OperationPerform]
  | .absolute_indirect_jml, _, _ =>
    [CycleFetchIncrementPC, CycleFetchPC, OperationConstructAbsolute, CycleFetchIncrementData,
      CycleFetchIncrementData, CycleFetchData, OperationPerform]
  | .absolute_indirect_jmp, _, _ =>
    [CycleFetchIncrementPC, CycleFetchPC, OperationConstructAbsolute, CycleFetchIncrementData,
      CycleFetchData, OperationPerform]
  | .absolute_long, type, is8bit =>
    [CycleFetchIncrementPC, CycleFetchIncrementPC, CycleFetchPC, OperationConstructAbsolute] ++
    (if type = .Write then
      [OperationPerform] ++ (if !is8bit then [CycleStoreIncrementData] else []) ++
        [CycleStoreData]
    else
      (if !is8bit then [CycleFetchIncrementData] else []) ++
        [CycleFetchData, OperationPerform])
  | .absolute_long_jmp, _, _ =>
    [CycleFetchIncrementPC, CycleFetchIncrementPC, CycleFetchPC, OperationConstructAbsolute,
      OperationPerform]
  | .absolute_long_jsl, _, _ =>
    [CycleFetchIncrementPC, CycleFetchIncrementPC, OperationCopyPBRToData, CyclePush,
      CycleAccessStack, CycleFetchIncrementPC, OperationConstructAbsolute, OperationPerform,
      CyclePush, CyclePush]

/-- An entry of the instruction table (`65816.hpp`, not among the sources): the
two members the constructor assigns. -/
structure Instruction where
  program_offset : Nat
  operation : Operation
deriving DecidableEq, Repr

/-- The members of `ProcessorStorage` that its constructor writes: `micro_ops_`
and the entries 0 to 511 of `instructions`, where `none` is an entry that has
not been assigned. -/
structure ProcessorStorage where
  micro_ops_ : List MicroOp := []
  instructions : List (Option Instruction) := List.replicate 512 none
deriving DecidableEq, Repr

/-- The members of `ProcessorStorageConstructor`, lines 14-45: the storage it
refers to, the map `installed_patterns` as its list of keys and values, and the
`uint8_t opcode`. -/
structure ProcessorStorageConstructor where
  storage_ : ProcessorStorage := {}
  installed_patterns : List ((AccessType × Generator) × (Nat × Nat)) := []
  opcode : Nat := 0
deriving DecidableEq, Repr

/-- The loop of lines 73-81 that compares the 8-bit with the 16-bit program,
from index `c` on: whether they are equal, or `none` when an index leaves
`micro_ops_`. Every turn increments `c`, so `micro_ops_.size() + 1` turns
suffice to leave the vector. -/
def are_equal (micro_ops : List MicroOp) (micro_op_location_8 micro_op_location_16 : Nat) :
    Nat → Nat → Option Bool
  | 0, _ => none
  | turns + 1, c =>
    match micro_ops[micro_op_location_8 + c]?, micro_ops[micro_op_location_16 + c]? with
    | some op8, some op16 =>
      if op8 ≠ op16 then some false
      else if op8 = .OperationMoveToNextProgram then some true
      else are_equal micro_ops micro_op_location_8 micro_op_location_16 turns (c + 1)
    | _, _ => none

/-- `ProcessorStorageConstructor::install(generator, operation)`, lines
46-105. -/
def install (constructor : ProcessorStorageConstructor) (generator : Generator)
    (operation : Operation) : Option ProcessorStorageConstructor :=
  let access_type := access_type_for_operation operation
  let key := (access_type, generator)
  let generated : Option (List MicroOp × List ((AccessType × Generator) × (Nat × Nat)) ×
      Nat × Nat) :=
    match constructor.installed_patterns.lookup key with
    | none =>
      let micro_op_location_8 := constructor.storage_.micro_ops_.length
      let micro_ops := constructor.storage_.micro_ops_ ++ generator.generate access_type true
        ++ [.OperationMoveToNextProgram]
      let micro_op_location_16 := micro_ops.length
      let micro_ops := micro_ops ++ generator.generate access_type false
        ++ [.OperationMoveToNextProgram]
      match are_equal micro_ops micro_op_location_8 micro_op_location_16
          (micro_ops.length + 1) 0 with
      | none => none
      | some true =>
        some (micro_ops.take micro_op_location_16,
          (key, (micro_op_location_8, micro_op_location_8)) :: constructor.installed_patterns,
          micro_op_location_8, micro_op_location_8)
      | some false =>
        some (micro_ops,
          (key, (micro_op_location_8, micro_op_location_16)) :: constructor.installed_patterns,
          micro_op_location_8, micro_op_location_16)
    | some (micro_op_location_8, micro_op_location_16) =>
      some (constructor.storage_.micro_ops_, constructor.installed_patterns,
        micro_op_location_8, micro_op_location_16)
  match generated with
  | none => none
  | some (micro_ops, installed_patterns, micro_op_location_8, micro_op_location_16) =>
    let instructions := constructor.storage_.instructions
    if constructor.opcode + 256 < instructions.length then
      let instructions := instructions.set constructor.opcode
        (some { program_offset := micro_op_location_8, operation := operation })
      let instructions := instructions.set (constructor.opcode + 256)
        (some { program_offset := micro_op_location_16, operation := operation })
      some { storage_ := { micro_ops_ := micro_ops, instructions := instructions }
             installed_patterns := installed_patterns
             opcode := (constructor.opcode + 1) % 256 }
    else none

/-- The `op(x, y)` lines of the constructor of `ProcessorStorage`, lines
285-556, in order, each with the opcode its comment annotates it with. -/
def op_lines : List (Nat × Generator × Operation) :=
  [(0x0d, .absolute, .ORA),
   (0x0f, .absolute_long, .ORA),
   (0x20, .absolute_jsr, .JSR),
   (0x23, .absolute_long_jsl, .JSL),
   (0x2c, .absolute, .BIT),
   (0x2d, .absolute, .AND),
   (0x2f, .absolute_long, .AND),
   (0x4c, .absolute, .JMP),
   (0x4d, .absolute, .EOR),
   (0x4f, .absolute_long, .EOR),
   (0x5c, .absolute_long_jmp, .JML),
   (0x6c, .absolute_indirect_jmp, .JMP),
   (0x6d, .absolute, .ADC),
   (0x6f, .absolute_long, .ADC),
   (0x7c, .absolute_indexed_indirect_jmp, .JMP),
   (0x8c, .absolute, .STY),
   (0x8d, .absolute, .STA),
   (0x8e, .absolute, .STX),
   (0x8f, .absolute_long, .STA),
   (0x9c, .absolute, .STZ),
   (0xac, .absolute, .LDY),
   (0xad, .absolute, .LDA),
   (0xae, .absolute, .LDX),
   (0xaf, .absolute_long, .LDA),
   (0xcc, .absolute, .CPY),
   (0xcd, .absolute, .CMP),
   (0xcf, .absolute_long, .CMP),
   (0xdc, .absolute_indirect_jml, .JML),
   (0xec, .absolute, .CPX),
   (0xed, .absolute, .SBC),
   (0xef, .absolute_long, .SBC),
   (0xfc, .absolute_indexed_indirect_jsr, .JMP)]

/-- The calls of `install` for a list of `op` lines, in order. -/
def install_all : ProcessorStorageConstructor → List (Nat × Generator × Operation) →
    Option ProcessorStorageConstructor
  | constructor, [] => some constructor
  | constructor, (_, generator, operation) :: rest =>
    match install constructor generator operation with
    | none => none
    | some constructor => install_all constructor rest

/-- `ProcessorStorage::ProcessorStorage()`, lines 280-563: the storage once the
constructor has run. -/
def ProcessorStorage.new : Option ProcessorStorage :=
  (install_all {} op_lines).map (fun constructor => constructor.storage_)

/-- The program that starts at an offset of `micro_ops_`: the micro-ops up to
and including the first `OperationMoveToNextProgram`. -/
def program : List MicroOp → List MicroOp
  | [] => []
  | op :: rest => if op = .OperationMoveToNextProgram then [op] else op :: program rest

/-- The program of an entry of the instruction table. -/
def ProcessorStorage.program_of (storage : ProcessorStorage) (entry : Nat) :
    Option (Operation × List MicroOp) :=
  match storage.instructions[entry]? with
  | some (some instruction) =>
    some (instruction.operation, program (storage.micro_ops_.drop instruction.program_offset))
  | _ => none

/-- The program the specification has the store hold for an `install`: what the
generator emits for the access type of the operation and the given width,
followed by the terminator `OperationMoveToNextProgram`. -/
def spec_program (generator : Generator) (operation : Operation) (is8bit : Bool) :
    List MicroOp :=
  generator.generate (access_type_for_operation operation) is8bit ++
    [.OperationMoveToNextProgram]

/-- A state of the constructor in which the table has its 512 entries, `opcode`
is a `uint8_t` and every pair of offsets in `installed_patterns` leads to the
two programs of its key, the same offset exactly when the programs are the
same. -/
def ProcessorStorageConstructor.consistent (constructor : ProcessorStorageConstructor) : Prop :=
  constructor.storage_.instructions.length = 512 ∧ constructor.opcode < 256 ∧
  ∀ (access_type : AccessType) (generator : Generator) (location_8 location_16 : Nat),
    ((access_type, generator), (location_8, location_16)) ∈ constructor.installed_patterns →
    program (constructor.storage_.micro_ops_.drop location_8) =
      generator.generate access_type true ++ [.OperationMoveToNextProgram] ∧
    program (constructor.storage_.micro_ops_.drop location_16) =
      generator.generate access_type false ++ [.OperationMoveToNextProgram] ∧
    (location_8 = location_16 ↔
      generator.generate access_type true = generator.generate access_type false)

end CPU.WDC65816

namespace Apple.II.Video

/-! ## Machines/AppleII/Video.cpp -/

/-- The members of `VideoBase` that `output_text` uses. `flash_length` is a
constant of `Video.hpp`, which is not among the sources; `graphics_carry_` is
the mutable member that `output_text` sets. -/
structure VideoBase where
  is_iie_ : Bool
  alternative_character_set_ : Bool := false
  flash_ : Nat := 0
  flash_length : Nat
  character_rom_ : List Nat := []
  graphics_carry_ : Nat := 0
deriving DecidableEq, Repr

/-- The local array `inverses` of `output_text`, lines 140-145, of four
`uint8_t`. -/
def VideoBase.inverses (video : VideoBase) : List Nat :=
  [0xff,
   if video.is_iie_ then 0xff else ((video.flash_ / video.flash_length) * 0xff) % 256,
   if video.is_iie_ then 0xff else 0x00,
   if video.is_iie_ then 0xff else 0x00]

/-- The local `or_mask` of `output_text`, line 146. -/
def VideoBase.or_mask (video : VideoBase) : Nat :=
  if video.alternative_character_set_ then 0x100 else 0x000

/-- The local `and_mask` of `output_text`, line 147: the bits of the `int`
`~0`, or 0x3f. -/
def VideoBase.and_mask (video : VideoBase) : Nat :=
  if video.is_iie_ then 2 ^ 32 - 1 else 0x3f

/-- The local `character` of the loop of `output_text`, line 150, for a source
byte. -/
def VideoBase.character (video : VideoBase) (byte : Nat) : Nat :=
  (byte ||| video.or_mask) &&& video.and_mask

/-- One turn of the loop of `output_text`, lines 150-164, for a source byte:
the fourteen bytes stored at `target` and the new `graphics_carry_`; `none` when
`inverses` or `character_rom_` is read outside its bounds. -/
def VideoBase.output_character (video : VideoBase) (pixel_row byte : Nat) :
    Option (List Nat × Nat) :=
  let character := video.character byte
  match video.inverses[character >>> 6]? with
  | none => none
  | some xor_mask =>
    let character_address := (character <<< 3) + pixel_row
    match video.character_rom_[character_address]? with
    | none => none
    | some rom =>
      let character_pattern := rom ^^^ xor_mask
      some ([character_pattern &&& 0x40, character_pattern &&& 0x40,
             character_pattern &&& 0x20, character_pattern &&& 0x20,
             character_pattern &&& 0x10, character_pattern &&& 0x10,
             character_pattern &&& 0x08, character_pattern &&& 0x08,
             character_pattern &&& 0x04, character_pattern &&& 0x04,
             character_pattern &&& 0x02, character_pattern &&& 0x02,
             character_pattern &&& 0x01, character_pattern &&& 0x01],
            character_pattern &&& 0x01)

/-- `VideoBase::output_text(target, source, length, pixel_row)`, lines 139-166,
with the `length` bytes at `source` for `source`: the bytes stored from `target`
on and the final `graphics_carry_`. -/
def VideoBase.output_text (video : VideoBase) (pixel_row : Nat) :
    List Nat → Option (List Nat × Nat)
  | [] => some ([], video.graphics_carry_)
  | byte :: rest =>
    match video.output_character pixel_row byte with
    | none => none
    | some (pixels, graphics_carry_) =>
      match VideoBase.output_text { video with graphics_carry_ := graphics_carry_ } pixel_row
          rest with
      | none => none
      | some (more, graphics_carry_) => some (pixels ++ more, graphics_carry_)

end Apple.II.Video

/-! # Theorems -/

namespace Intel

/-! ## i8272: auxiliary facts -/

theorem opcode_lt (c0 : Nat) : c0 &&& 0x1f < 32 :=
  Nat.and_lt_two_pow c0 (by decide : 0x1f < 2 ^ 5)

theorem byte_and (b m : Nat) (hm : 255 &&& m = m) : (b % 256) &&& m = b &&& m := by
  have h : b % 256 = b &&& 255 := (Nat.and_pow_two_sub_one_eq_mod b 8).symm
  rw [h, Nat.and_assoc, hm]

theorem dispatch_specify_length {command : List Nat} {c0 : Nat}
    (h : dispatch command c0 = .specify) : 3 ≤ command.length ∧ c0 &&& 0x1f = 0x03 := by
  unfold dispatch at h
  have hlt := opcode_lt c0
  generalize c0 &&& 0x1f = c at h hlt ⊢
  interval_cases c <;> simp at h ⊢ <;>
    first
      | omega
      | split_ifs at h

theorem dispatch_wait_iff {command : List Nat} {c0 n : Nat} (hne : command ≠ [])
    (h : spec_minimum_length (c0 &&& 0x1f) = some n) :
    dispatch command c0 = .wait_for_complete_command_sequence ↔ command.length < n := by
  unfold dispatch
  have hlt := opcode_lt c0
  generalize c0 &&& 0x1f = c at h hlt ⊢
  interval_cases c <;> simp [spec_minimum_length, List.lookup] at h <;> subst h <;> simp [hne]

theorem dispatch_invalid_iff {command : List Nat} {c0 : Nat} :
    dispatch command c0 = .invalid ↔ spec_minimum_length (c0 &&& 0x1f) = none := by
  unfold dispatch
  have hlt := opcode_lt c0
  generalize c0 &&& 0x1f = c at hlt ⊢
  interval_cases c <;> simp [spec_minimum_length, List.lookup] <;> split_ifs <;> simp

theorem dispatch_specify_iff {command : List Nat} {c0 : Nat} :
    dispatch command c0 = .specify ↔ 3 ≤ command.length ∧ c0 &&& 0x1f = 0x03 := by
  refine ⟨dispatch_specify_length, ?_⟩
  rintro ⟨h1, h2⟩
  have h3 : ¬ command.length < 3 := by omega
  simp [dispatch, h2, h3]

theorem spec_minimum_length_pos {c n : Nat} (h : spec_minimum_length c = some n) : 1 ≤ n := by
  by_cases hc : c < 32
  · interval_cases c <;> simp [spec_minimum_length, List.lookup] at h <;> omega
  · simp only [spec_minimum_length, List.lookup] at h
    have e : ∀ k, k < 32 → (c == k) = false := by
      intro k hk; cases hck : c == k
      · rfl
      · exfalso; have := beq_iff_eq.mp hck; omega
    simp [e] at h

end Intel

namespace Intel

theorem new_eq (ev : Event8272) (hcb : ev.CommandByte ≠ 0) (a b c : Nat) (d : Bool) :
    i8272.new ev a b c d = some
      { status_ := StatusRQM, command_ := [], interesting_event_mask_ := ev.CommandByte,
        resume_point_ := wait_point, delay_time_ := 0, step_rate_time_ := a,
        head_unload_time_ := b, head_load_time_ := c, dma_mode_ := d, decisions := [] } := by
  simp [i8272.new, posit_event, Nat.and_self, hcb, wait_point, wait_for_command,
    wait_for_complete_command_sequence, StatusRQM]

theorem handler_spec (ev : Event8272) (s : i8272) (l : Label)
    (hl : l = .specify → ∃ c1 c2, s.command_[1]? = some c1 ∧ s.command_[2]? = some c2) :
    ∃ s', handler ev s l = some s' ∧
      s'.status_ = s.status_ ||| StatusRQM ∧ s'.resume_point_ = wait_point ∧
      s'.interesting_event_mask_ = ev.CommandByte ∧ s'.delay_time_ = s.delay_time_ ∧
      s'.decisions = s.decisions ∧
      s'.command_ = (if l = .wait_for_complete_command_sequence then s.command_ else []) ∧
      (l ≠ .specify → s'.configuration = s.configuration) ∧
      (l = .specify → ∃ c1 c2, s.command_[1]? = some c1 ∧ s.command_[2]? = some c2 ∧
        s'.configuration = (c1 &&& 0xf0, c1 &&& 0x0f, c2 &&& 0xfe, decide (c2 &&& 1 = 0))) := by
  cases l
  case specify =>
    obtain ⟨c1, c2, h1, h2⟩ := hl rfl
    simp [handler, h1, h2, wait_for_command, wait_for_complete_command_sequence,
      i8272.configuration]
  all_goals
    simp [handler, wait_for_command, wait_for_complete_command_sequence, i8272.configuration]

/-- What one write to the data register does to a controller that is awaiting a
command byte; `cmd` is the buffer with the new byte appended. -/
theorem set_register_awaiting (ev : Event8272) (hcb : ev.CommandByte ≠ 0) (s : i8272)
    (h : Awaiting ev s) (address : Int) (ha : address ≠ 0) (value : Nat) (cmd : List Nat)
    (hcmd : cmd = s.command_ ++ [value % 256]) :
    ∃ s', set_register ev s address value = some s' ∧ Awaiting ev s' ∧
      s'.decisions = s.decisions ++ [(cmd, dispatch cmd (cmd.headD 0))] ∧
      s'.command_ =
        (if dispatch cmd (cmd.headD 0) = .wait_for_complete_command_sequence then cmd else []) ∧
      (dispatch cmd (cmd.headD 0) ≠ .specify → s'.configuration = s.configuration) ∧
      (dispatch cmd (cmd.headD 0) = .specify →
        ∃ c1 c2, cmd[1]? = some c1 ∧ cmd[2]? = some c2 ∧
          s'.configuration = (c1 &&& 0xf0, c1 &&& 0x0f, c2 &&& 0xfe, decide (c2 &&& 1 = 0))) := by
  obtain ⟨h1, h2, h3, h4⟩ := h
  have hne : cmd ≠ [] := by rw [hcmd]; simp
  obtain ⟨c0, rest, rfl⟩ := List.exists_cons_of_ne_nil hne
  have hst : StatusRQM ≠ 0 := by decide
  have hspec : dispatch (c0 :: rest) c0 = .specify →
      ∃ c1 c2, (c0 :: rest)[1]? = some c1 ∧ (c0 :: rest)[2]? = some c2 := by
    intro hl
    obtain ⟨hlen, -⟩ := dispatch_specify_length hl
    match rest, hlen with
    | c1 :: c2 :: rest', _ => exact ⟨c1, c2, by simp, by simp⟩
  obtain ⟨s', e, q1, q2, q3, q4, q5, q6, q7, q8⟩ := handler_spec ev
    { status_ := StatusRQM &&& (255 ^^^ StatusRQM), command_ := c0 :: rest,
      interesting_event_mask_ := ev.CommandByte &&& (4294967295 ^^^ ev.CommandByte),
      resume_point_ := wait_point, delay_time_ := s.delay_time_,
      step_rate_time_ := s.step_rate_time_,
      head_unload_time_ := s.head_unload_time_, head_load_time_ := s.head_load_time_,
      dma_mode_ := s.dma_mode_,
      decisions := s.decisions ++ [(c0 :: rest, dispatch (c0 :: rest) c0)] }
    (dispatch (c0 :: rest) c0) hspec
  refine ⟨s', ?_, ⟨?_, q2, q3, by rw [q4]; exact h4⟩, q5, q6, q7, q8⟩
  · simp only [set_register, ha, if_false, h1, posit_event, h3, Nat.and_self, hcb, h2,
      if_true, ← hcmd, List.getElem?_cons_zero, List.headD_cons, hst]
    exact e
  · rw [q1]; show (StatusRQM &&& (255 ^^^ StatusRQM)) ||| StatusRQM = StatusRQM; decide

theorem run_for_awaiting (ev : Event8272) (s : i8272) (h : Awaiting ev s) (cycles : Int) :
    run_for ev s cycles = some s := by
  obtain ⟨-, -, -, h4⟩ := h
  simp [run_for, h4]

theorem set_register_status (ev : Event8272) (s : i8272) (value : Nat) :
    set_register ev s 0 value = some s := by
  simp [set_register]

theorem calls_append (ev : Event8272) (s : i8272) (xs ys : List Call) :
    calls ev s (xs ++ ys) = (calls ev s xs).bind (fun s' => calls ev s' ys) := by
  induction xs generalizing s with
  | nil => simp [calls]
  | cons x xs ih =>
    simp only [List.cons_append, calls]
    cases h : x.apply ev s with
    | none => simp
    | some s' => simp [ih]

/-- A constructed controller awaits a command byte with an empty buffer. -/
theorem new_awaiting (ev : Event8272) (hcb : ev.CommandByte ≠ 0) (a b c : Nat) (d : Bool) :
    ∃ s, i8272.new ev a b c d = some s ∧ Awaiting ev s ∧ s.command_ = [] ∧
      s.decisions = [] ∧ s.configuration = (a, b, c, d) :=
  ⟨_, new_eq ev hcb a b c d, ⟨rfl, rfl, rfl, rfl⟩, rfl, rfl, rfl⟩

theorem spec_complete_iff (cmd : List Nat) (hne : cmd ≠ []) :
    spec_complete cmd = true ↔
      dispatch cmd (cmd.headD 0) ≠ .wait_for_complete_command_sequence := by
  obtain ⟨c0, rest, rfl⟩ := List.exists_cons_of_ne_nil hne
  simp only [spec_complete, List.headD_cons]
  cases h : spec_minimum_length (c0 &&& 0x1f) with
  | none =>
    have := (@dispatch_invalid_iff (c0 :: rest) c0).mpr h
    simp [this]
  | some n =>
    have := @dispatch_wait_iff (c0 :: rest) c0 n (by simp) h
    simp only [decide_eq_true_eq, ne_eq, this]
    omega

theorem pending_of_wait (cmd : List Nat) (hne : cmd ≠ [])
    (h : dispatch cmd (cmd.headD 0) = .wait_for_complete_command_sequence) :
    ∃ c0 n, cmd.head? = some c0 ∧ spec_minimum_length (c0 &&& 0x1f) = some n ∧
      cmd.length < n := by
  obtain ⟨c0, rest, rfl⟩ := List.exists_cons_of_ne_nil hne
  simp only [List.headD_cons] at h
  cases hn : spec_minimum_length (c0 &&& 0x1f) with
  | none =>
    have := (@dispatch_invalid_iff (c0 :: rest) c0).mpr hn
    rw [this] at h; cases h
  | some n =>
    exact ⟨c0, n, rfl, hn, (dispatch_wait_iff (by simp) hn).mp h⟩

/-- Every list of calls runs to completion on a waiting controller, which is
left waiting; the buffers looked at are those of the specification. -/
theorem calls_awaiting (ev : Event8272) (hcb : ev.CommandByte ≠ 0) (cs : List Call) :
    ∀ s : i8272, Awaiting ev s → BufferPending s →
    ∃ s', calls ev s cs = some s' ∧ Awaiting ev s' ∧ BufferPending s' ∧
      s'.decisions.map Prod.fst =
        s.decisions.map Prod.fst ++ spec_decisions s.command_ (data_bytes cs) := by
  induction cs with
  | nil => intro s h hb; exact ⟨s, rfl, h, hb, by simp [data_bytes, spec_decisions]⟩
  | cons c cs ih =>
    intro s h hb
    cases c with
    | run_for cycles =>
      obtain ⟨s', e, q⟩ := ih s h hb
      exact ⟨s', by simp [calls, Call.apply, run_for_awaiting ev s h, e], q⟩
    | set_register address value =>
      by_cases ha : address = 0
      · subst ha
        obtain ⟨s', e, q⟩ := ih s h hb
        refine ⟨s', by simp [calls, Call.apply, set_register_status, e], ?_⟩
        simpa [data_bytes] using q
      · obtain ⟨s1, e1, a1, d1, c1, -, -⟩ :=
          set_register_awaiting ev hcb s h address ha value _ rfl
        have hne : s.command_ ++ [value % 256] ≠ [] := by simp
        have hb1 : BufferPending s1 := by
          by_cases hw : dispatch (s.command_ ++ [value % 256])
              ((s.command_ ++ [value % 256]).headD 0) = .wait_for_complete_command_sequence
          · right
            rw [c1, if_pos hw]
            exact pending_of_wait _ hne hw
          · left
            rw [c1, if_neg hw]
        obtain ⟨s', e, q1, q2, q3⟩ := ih s1 a1 hb1
        refine ⟨s', by simp [calls, Call.apply, e1, e], q1, q2, ?_⟩
        have key : (if dispatch (s.command_ ++ [value % 256])
              ((s.command_ ++ [value % 256]).headD 0) = .wait_for_complete_command_sequence
            then s.command_ ++ [value % 256] else []) =
            (if spec_complete (s.command_ ++ [value % 256]) = true then []
              else s.command_ ++ [value % 256]) := by
          by_cases hw : dispatch (s.command_ ++ [value % 256])
              ((s.command_ ++ [value % 256]).headD 0) = .wait_for_complete_command_sequence
          · have : ¬ spec_complete (s.command_ ++ [value % 256]) = true := by
              rw [spec_complete_iff _ hne]; exact fun hc => hc hw
            rw [if_pos hw, if_neg this]
          · have : spec_complete (s.command_ ++ [value % 256]) = true := by
              rw [spec_complete_iff _ hne]; exact hw
            rw [if_neg hw, if_pos this]
        rw [q3, d1, c1, key]
        simp only [data_bytes, if_neg ha, spec_decisions, List.map_append, List.map_cons,
          List.map_nil, List.append_assoc, List.singleton_append]

/-- Construction followed by any calls returns a waiting controller. -/
theorem started_awaiting (ev : Event8272) (hcb : ev.CommandByte ≠ 0) (a b c : Nat) (d : Bool)
    (cs : List Call) :
    ∃ s, started ev a b c d cs = some s ∧ Awaiting ev s ∧ BufferPending s ∧
      s.decisions.map Prod.fst = spec_decisions [] (data_bytes cs) := by
  obtain ⟨s0, e0, a0, c0, d0, -⟩ := new_awaiting ev hcb a b c d
  obtain ⟨s, e, q1, q2, q3⟩ := calls_awaiting ev hcb cs s0 a0 (Or.inl c0)
  refine ⟨s, by simp [started, e0, e], q1, q2, ?_⟩
  rw [q3, d0, c0]; rfl

end Intel

namespace Intel

theorem headD_append_cons (l r : List Nat) (x : Nat) :
    (l ++ [x]).headD 0 = (l ++ x :: r).headD 0 := by
  cases l <;> simp

/-- Writes that keep the buffer below the minimum length of the command named by
its first byte are all accumulated, and none of them is dispatched. -/
theorem writes_pending (ev : Event8272) (hcb : ev.CommandByte ≠ 0) (c0 n : Nat)
    (hn : spec_minimum_length (c0 &&& 0x1f) = some n) (ws : List DataWrite) :
    ∀ s : i8272, (∀ w ∈ ws, w.address ≠ 0) → Awaiting ev s →
      (ws ≠ [] → (s.command_ ++ ws.map DataWrite.byte).headD 0 = c0) →
      s.command_.length + ws.length < n →
      ∃ s', calls ev s (ws.map DataWrite.call) = some s' ∧ Awaiting ev s' ∧
        s'.command_ = s.command_ ++ ws.map DataWrite.byte ∧
        s'.configuration = s.configuration ∧
        (ws ≠ [] → s'.decisions.getLast? =
          some (s'.command_, .wait_for_complete_command_sequence)) := by
  induction ws with
  | nil => intro s _ h _ _; exact ⟨s, rfl, h, by simp, rfl, by simp⟩
  | cons w ws ih =>
    intro s hw h hc hlen
    have ha : w.address ≠ 0 := hw w (by simp)
    obtain ⟨s1, e1, a1, d1, c1, k1, -⟩ :=
      set_register_awaiting ev hcb s h w.address ha w.value _ rfl
    have hne : s.command_ ++ [w.value % 256] ≠ [] := by simp
    have hhead : (s.command_ ++ [w.value % 256]).headD 0 = c0 := by
      rw [headD_append_cons s.command_ (ws.map DataWrite.byte)]
      exact hc (by simp)
    have hwait : dispatch (s.command_ ++ [w.value % 256])
        ((s.command_ ++ [w.value % 256]).headD 0) = .wait_for_complete_command_sequence := by
      rw [hhead, dispatch_wait_iff hne hn]
      simp only [List.length_append, List.length_cons, List.length_nil] at hlen ⊢
      omega
    rw [if_pos hwait] at c1
    have k1' := k1 (by rw [hwait]; decide)
    simp only [List.length_cons] at hlen
    obtain ⟨s', e, q1, q2, q3, q4⟩ := ih s1 (fun x hx => hw x (by simp [hx])) a1
      (by intro _; rw [c1]; simpa [DataWrite.byte] using hc (by simp))
      (by rw [c1]; simp only [List.length_append, List.length_cons, List.length_nil]; omega)
    refine ⟨s', ?_, q1, ?_, by rw [q3, k1'], ?_⟩
    · simp [calls, Call.apply, DataWrite.call, e1, e]
    · rw [q2, c1]; simp [DataWrite.byte]
    · intro _
      by_cases hws : ws = []
      · subst hws
        simp only [List.map_nil, calls, Option.some.injEq] at e
        subst e
        rw [d1, c1, hwait]; simp
      · exact q4 hws

end Intel

namespace Intel

theorem awaiting_of_started (ev : Event8272) (hcb : ev.CommandByte ≠ 0) (a b c : Nat)
    (d : Bool) (cs : List Call) (s : i8272) (h : started ev a b c d cs = some s) :
    Awaiting ev s := by
  obtain ⟨s', e, q, -⟩ := started_awaiting ev hcb a b c d cs
  rw [h] at e
  cases e
  exact q

/-! ## i8272: the claims -/

/-- C1 (Specify). From an idle controller (constructed, any calls made, command
buffer empty), three bytes `b0`, `b1`, `b2` with `b0 & 0x1f = 0x03` written in
turn to the data register (any non-zero address) leave
`step_rate_time = b1 & 0xF0`, `head_unload_time = b1 & 0x0F`,
`head_load_time = b2 & 0xFE`, `dma_mode = ((b2 & 1) = 0)`, the ready bit set in
the status register and the command buffer empty. -/
theorem specify_stores_configuration (ev : Event8272) (hcb : ev.CommandByte ≠ 0)
    (a b c : Nat) (d : Bool) (pre : List Call) (idle : i8272)
    (hidle : started ev a b c d pre = some idle) (hempty : idle.command_ = [])
    (a0 a1 a2 : Int) (h0 : a0 ≠ 0) (h1 : a1 ≠ 0) (h2 : a2 ≠ 0)
    (b0 b1 b2 : Nat) (hop : b0 &&& 0x1f = 0x03) :
    ∃ s, calls ev idle [.set_register a0 b0, .set_register a1 b1, .set_register a2 b2]
        = some s ∧
      s.step_rate_time_ = b1 &&& 0xF0 ∧ s.head_unload_time_ = b1 &&& 0x0F ∧
      s.head_load_time_ = b2 &&& 0xFE ∧ s.dma_mode_ = decide (b2 &&& 1 = 0) ∧
      s.status_ &&& StatusRQM = StatusRQM ∧ get_register s 0 = 0x80 ∧
      s.command_ = [] := by
  have hA := awaiting_of_started ev hcb a b c d pre idle hidle
  have hop' : (b0 % 256) &&& 0x1f = 0x03 := by rw [byte_and b0 0x1f (by decide)]; exact hop
  have hd : ∀ cmd : List Nat, dispatch cmd (b0 % 256) =
      if cmd.length < 3 then .wait_for_complete_command_sequence else .specify := by
    intro cmd; simp [dispatch, hop']
  obtain ⟨s1, e1, A1, -, c1, -, -⟩ := set_register_awaiting ev hcb idle hA a0 h0 b0 _ rfl
  rw [hempty] at c1
  simp only [List.nil_append, List.headD_cons, hd, List.length_cons, List.length_nil] at c1
  simp only [show (0 + 1 < 3) from by decide, if_true] at c1
  obtain ⟨s2, e2, A2, -, c2, -, -⟩ := set_register_awaiting ev hcb s1 A1 a1 h1 b1 _ rfl
  rw [c1] at c2
  simp only [List.singleton_append, List.headD_cons, hd, List.length_cons,
    List.length_nil] at c2
  simp only [show (0 + 1 + 1 < 3) from by decide, if_true] at c2
  obtain ⟨s3, e3, A3, -, c3, -, k3⟩ := set_register_awaiting ev hcb s2 A2 a2 h2 b2 _ rfl
  rw [c2] at c3 k3
  simp only [List.cons_append, List.nil_append, List.headD_cons, hd, List.length_cons,
    List.length_nil] at c3 k3
  simp only [show ¬ (0 + 1 + 1 + 1 < 3) from by decide, if_false] at c3 k3
  obtain ⟨x1, x2, hx1, hx2, hcfg⟩ := k3 trivial
  simp only [List.getElem?_cons_succ, List.getElem?_cons_zero, Option.some.injEq] at hx1 hx2
  subst hx1 hx2
  simp only [i8272.configuration, Prod.mk.injEq] at hcfg
  obtain ⟨g1, g2, g3, g4⟩ := hcfg
  refine ⟨s3, by simp [calls, Call.apply, e1, e2, e3], ?_, ?_, ?_, ?_, ?_, ?_, ?_⟩
  · rw [g1]; exact byte_and b1 0xf0 (by decide)
  · rw [g2]; exact byte_and b1 0x0f (by decide)
  · rw [g3]; exact byte_and b2 0xfe (by decide)
  · rw [g4, byte_and b2 1 (by decide)]
  · rw [A3.1]; decide
  · simp [get_register, A3.1, StatusRQM]
  · simpa using c3

/-- C1, at the bytes `[0x03, 0xDF, 0x02]` written to a newly constructed
controller: step rate 0xD0, unload time 0xF, load time 2, DMA mode true. -/
theorem specify_stores_configuration_witness :
    ∃ s, calls ⟨8, 16⟩
        { status_ := 0x80, command_ := [], interesting_event_mask_ := 8, resume_point_ := 79,
          delay_time_ := 0, step_rate_time_ := 0, head_unload_time_ := 0,
          head_load_time_ := 0, dma_mode_ := false, decisions := [] }
        [.set_register 1 0x03, .set_register 1 0xDF, .set_register 1 0x02] = some s ∧
      s.step_rate_time_ = 0xD0 ∧ s.head_unload_time_ = 0xF ∧
      s.head_load_time_ = 2 ∧ s.dma_mode_ = true ∧
      s.status_ &&& StatusRQM = StatusRQM ∧ get_register s 0 = 0x80 ∧
      s.command_ = [] :=
  specify_stores_configuration ⟨8, 16⟩ (by decide) 0 0 0 false [] _ rfl rfl
    1 1 1 (by decide) (by decide) (by decide) 0x03 0xDF 0x02 (by decide)

end Intel

namespace Intel

/-- C2 (dispatch threshold). For every recognised opcode `c` with minimum length
`n` in the specification's table, and every sequence of at most `n` writes to
the data register of an idle controller whose first byte has low five bits `c`:
while fewer than `n` bytes have been written the buffer holds all of them and
the last decision was to wait for more; on the `n`-th write the command is
dispatched to a handler and the buffer is empty on return. -/
theorem dispatch_at_minimum_length (ev : Event8272) (hcb : ev.CommandByte ≠ 0)
    (a b c : Nat) (d : Bool) (pre : List Call) (idle : i8272)
    (hidle : started ev a b c d pre = some idle) (hempty : idle.command_ = [])
    (opcode n : Nat) (hn : spec_minimum_length opcode = some n)
    (first : DataWrite) (rest : List DataWrite)
    (hfirst : first.value &&& 0x1f = opcode)
    (haddr : ∀ w ∈ first :: rest, w.address ≠ 0)
    (hlen : (first :: rest).length ≤ n) :
    ∃ s, calls ev idle ((first :: rest).map DataWrite.call) = some s ∧
      ((first :: rest).length < n →
        s.command_ = (first :: rest).map DataWrite.byte ∧
        s.decisions.getLast? =
          some ((first :: rest).map DataWrite.byte, .wait_for_complete_command_sequence)) ∧
      ((first :: rest).length = n →
        s.command_ = [] ∧
        ∃ l, l ≠ .wait_for_complete_command_sequence ∧ l ≠ .invalid ∧
          s.decisions.getLast? = some ((first :: rest).map DataWrite.byte, l)) := by
  have hA := awaiting_of_started ev hcb a b c d pre idle hidle
  have hop : (first.value % 256) &&& 0x1f = opcode := by
    rw [byte_and _ 0x1f (by decide)]; exact hfirst
  rw [← hop] at hn
  rcases List.eq_nil_or_concat (first :: rest) with h | ⟨init, last, h⟩
  · cases h
  rw [List.concat_eq_append] at h
  have hh : (init.map DataWrite.byte ++ [last.byte]).headD 0 = first.value % 256 := by
    have : (init.map DataWrite.byte ++ [last.byte]) = (first :: rest).map DataWrite.byte := by
      rw [h]; simp
    rw [this]; simp [DataWrite.byte]
  rw [h] at haddr hlen ⊢
  simp only [List.length_append, List.length_cons, List.length_nil] at hlen
  obtain ⟨s1, e1, A1, c1, -, -⟩ := writes_pending ev hcb (first.value % 256) n hn init idle
    (fun w hw => haddr w (by simp [hw])) hA
    (by
      intro hne
      rw [hempty]
      obtain ⟨x, xs, rfl⟩ := List.exists_cons_of_ne_nil hne
      simp only [List.cons_append, List.cons.injEq] at h
      obtain ⟨rfl, -⟩ := h
      simp [DataWrite.byte])
    (by rw [hempty]; simp only [List.length_nil]; omega)
  rw [hempty, List.nil_append] at c1
  have ha : last.address ≠ 0 := haddr last (by simp)
  obtain ⟨s2, e2, -, d2, c2, -, -⟩ :=
    set_register_awaiting ev hcb s1 A1 last.address ha last.value _ rfl
  rw [c1] at d2 c2
  simp only [DataWrite.byte] at hh
  rw [hh] at d2 c2
  have hne : List.map DataWrite.byte init ++ [last.value % 256] ≠ [] := by simp
  have hw := dispatch_wait_iff hne hn
  simp only [List.length_append, List.length_map, List.length_cons, List.length_nil] at hw
  have hmap : List.map DataWrite.byte (init ++ [last]) =
      List.map DataWrite.byte init ++ [last.value % 256] := by simp [DataWrite.byte]
  refine ⟨s2, ?_, ?_, ?_⟩
  · rw [List.map_append, calls_append, e1]
    simp [calls, Call.apply, DataWrite.call, e2]
  · intro hlt
    simp only [List.length_append, List.length_cons, List.length_nil] at hlt
    have hw' := hw.mpr hlt
    rw [hmap]
    refine ⟨by rw [c2, if_pos hw'], ?_⟩
    rw [d2, hw']; simp
  · intro heq
    simp only [List.length_append, List.length_cons, List.length_nil] at heq
    have hw' : ¬ dispatch (List.map DataWrite.byte init ++ [last.value % 256])
        (first.value % 256) = .wait_for_complete_command_sequence := by
      rw [hw]; omega
    refine ⟨by rw [c2, if_neg hw'], _, hw', ?_, ?_⟩
    · rw [Ne, dispatch_invalid_iff, hn]; simp
    · rw [d2, hmap]; simp

/-- C2, at the two-byte Read ID command `[0x4A, 0x00]` (opcode 0x0A, minimum
length 2) written to a newly constructed controller. -/
theorem dispatch_at_minimum_length_witness :
    ∃ s, calls ⟨8, 16⟩
        { status_ := 0x80, command_ := [], interesting_event_mask_ := 8, resume_point_ := 79,
          delay_time_ := 0, step_rate_time_ := 0, head_unload_time_ := 0,
          head_load_time_ := 0, dma_mode_ := false, decisions := [] }
        [.set_register 1 0x4A, .set_register 1 0x00] = some s ∧
      (2 < 2 → s.command_ = [0x4A, 0x00] ∧
        s.decisions.getLast? = some ([0x4A, 0x00], .wait_for_complete_command_sequence)) ∧
      (2 = 2 → s.command_ = [] ∧
        ∃ l, l ≠ .wait_for_complete_command_sequence ∧ l ≠ .invalid ∧
          s.decisions.getLast? = some ([0x4A, 0x00], l)) :=
  dispatch_at_minimum_length ⟨8, 16⟩ (by decide) 0 0 0 false [] _ rfl rfl
    0x0A 2 (by decide) ⟨1, 0x4A⟩ [⟨1, 0x00⟩] (by decide) (by decide) (by decide)

/-- C3 (invalid command). A byte whose low five bits are not a recognised
opcode, written to the data register of an idle controller, is dispatched to
`invalid` within that write: on return the ready bit is set and the command
buffer is empty, and the next byte written is looked at as a one-byte buffer,
the first byte of a new command. -/
theorem invalid_command_returns_to_idle (ev : Event8272) (hcb : ev.CommandByte ≠ 0)
    (a b c : Nat) (d : Bool) (pre : List Call) (idle : i8272)
    (hidle : started ev a b c d pre = some idle) (hempty : idle.command_ = [])
    (address : Int) (ha : address ≠ 0) (value : Nat)
    (hinvalid : spec_minimum_length (value &&& 0x1f) = none) :
    ∃ s, set_register ev idle address value = some s ∧
      s.status_ &&& StatusRQM = StatusRQM ∧ get_register s 0 = 0x80 ∧ s.command_ = [] ∧
      s.decisions = idle.decisions ++ [([value % 256], .invalid)] ∧
      ∀ (address' : Int) (value' : Nat), address' ≠ 0 →
        ∃ s', set_register ev s address' value' = some s' ∧
          s'.decisions = s.decisions ++
            [([value' % 256], dispatch [value' % 256] (value' % 256))] := by
  have hA := awaiting_of_started ev hcb a b c d pre idle hidle
  obtain ⟨s, e, A, d1, c1, -, -⟩ := set_register_awaiting ev hcb idle hA address ha value _ rfl
  rw [hempty] at d1 c1
  simp only [List.nil_append, List.headD_cons] at d1 c1
  have hinv : dispatch [value % 256] (value % 256) = .invalid := by
    rw [dispatch_invalid_iff, byte_and _ 0x1f (by decide)]; exact hinvalid
  rw [hinv] at d1 c1
  simp only [reduceCtorEq, if_false] at c1
  refine ⟨s, e, by rw [A.1]; decide, by simp [get_register, A.1, StatusRQM], c1, d1, ?_⟩
  intro address' value' ha'
  obtain ⟨s', e', -, d', -, -, -⟩ := set_register_awaiting ev hcb s A address' ha' value' _ rfl
  rw [c1] at d'
  exact ⟨s', e', by simpa using d'⟩

/-- C3, at the byte 0x00 written to a newly constructed controller. -/
theorem invalid_command_returns_to_idle_witness :
    ∃ s, set_register ⟨8, 16⟩
        { status_ := 0x80, command_ := [], interesting_event_mask_ := 8, resume_point_ := 79,
          delay_time_ := 0, step_rate_time_ := 0, head_unload_time_ := 0,
          head_load_time_ := 0, dma_mode_ := false, decisions := [] } 1 0x00 = some s ∧
      s.status_ &&& StatusRQM = StatusRQM ∧ get_register s 0 = 0x80 ∧ s.command_ = [] ∧
      s.decisions = [] ++ [([0x00], .invalid)] ∧
      ∀ (address' : Int) (value' : Nat), address' ≠ 0 →
        ∃ s', set_register ⟨8, 16⟩ s address' value' = some s' ∧
          s'.decisions = s.decisions ++
            [([value' % 256], dispatch [value' % 256] (value' % 256))] :=
  invalid_command_returns_to_idle ⟨8, 16⟩ (by decide) 0 0 0 false [] _ rfl rfl
    1 (by decide) 0x00 (by decide)

/-- C4 (status-register writes). For every controller state and every value,
`set_register(0, v)` returns with the whole state unchanged: status, command
buffer, resume point, event mask, delay and the Specify configuration. -/
theorem status_register_write_ignored (ev : Event8272) (s : i8272) (value : Nat) :
    set_register ev s 0 value = some s := by
  simp [set_register]

end Intel

namespace Intel

/-- C5 (idle invariant). After construction and any finite sequence of
`set_register` and `run_for` calls the controller has returned with its status
register equal to 0x80 (`get_register(0)` reports ready) and a command buffer
that is empty or shorter than the minimum length of the recognised command its
first byte names; and any further write that makes the controller dispatch,
to a handler or to `invalid`, returns with the buffer empty and the ready bit
set. -/
theorem idle_invariant (ev : Event8272) (hcb : ev.CommandByte ≠ 0)
    (a b c : Nat) (d : Bool) (cs : List Call) :
    ∃ s, started ev a b c d cs = some s ∧
      s.status_ = 0x80 ∧ get_register s 0 = 0x80 ∧
      (s.command_ = [] ∨ ∃ c0 n, s.command_.head? = some c0 ∧
        spec_minimum_length (c0 &&& 0x1f) = some n ∧ s.command_.length < n) ∧
      ∀ (address : Int) (value : Nat),
        ∃ s', set_register ev s address value = some s' ∧
          ∀ cmd l, s'.decisions = s.decisions ++ [(cmd, l)] →
            l ≠ .wait_for_complete_command_sequence →
            s'.command_ = [] ∧ s'.status_ &&& StatusRQM = StatusRQM := by
  obtain ⟨s, e, A, B, -⟩ := started_awaiting ev hcb a b c d cs
  refine ⟨s, e, A.1, by simp [get_register, A.1, StatusRQM], B, ?_⟩
  intro address value
  by_cases ha : address = 0
  · subst ha
    refine ⟨s, set_register_status ev s value, ?_⟩
    intro cmd l h
    simp at h
  · obtain ⟨s', e', A', d', c', -, -⟩ :=
      set_register_awaiting ev hcb s A address ha value _ rfl
    refine ⟨s', e', ?_⟩
    intro cmd l h hl
    rw [d'] at h
    have h' := List.append_cancel_left h
    simp only [List.cons.injEq, Prod.mk.injEq, and_true] at h'
    obtain ⟨-, h2⟩ := h'
    rw [h2] at c'
    exact ⟨by rw [c', if_neg hl], by rw [A'.1]; decide⟩

/-- C5, at a controller given an incomplete Seek, a time advance and a
status-register write. -/
theorem idle_invariant_witness :
    ∃ s, started ⟨8, 16⟩ 0 0 0 false
        [.set_register 1 0x0F, .run_for 100, .set_register 0 0xFF, .set_register 1 0x01]
        = some s ∧
      s.status_ = 0x80 ∧ get_register s 0 = 0x80 ∧
      (s.command_ = [] ∨ ∃ c0 n, s.command_.head? = some c0 ∧
        spec_minimum_length (c0 &&& 0x1f) = some n ∧ s.command_.length < n) ∧
      ∀ (address : Int) (value : Nat),
        ∃ s', set_register ⟨8, 16⟩ s address value = some s' ∧
          ∀ cmd l, s'.decisions = s.decisions ++ [(cmd, l)] →
            l ≠ .wait_for_complete_command_sequence →
            s'.command_ = [] ∧ s'.status_ &&& StatusRQM = StatusRQM :=
  idle_invariant ⟨8, 16⟩ (by decide) 0 0 0 false _

/-- C6 (resumption). For every sequence of calls made on a constructed
controller (data-register writes, status-register writes and time advances in
any interleaving), the command buffers seen at the successive dispatch
decisions are exactly those of the specification: the bytes written to the
data register since the previous dispatch, in write order, each write looked
at once. -/
theorem decisions_follow_data_writes (ev : Event8272) (hcb : ev.CommandByte ≠ 0)
    (a b c : Nat) (d : Bool) (cs : List Call) :
    ∃ s, started ev a b c d cs = some s ∧
      s.decisions.map Prod.fst = spec_decisions [] (data_bytes cs) := by
  obtain ⟨s, e, -, -, h⟩ := started_awaiting ev hcb a b c d cs
  exact ⟨s, e, h⟩

/-- C6, at a Recalibrate command interleaved with time advances and a
status-register write, followed by the first byte of a Seek. -/
theorem decisions_follow_data_writes_witness :
    ∃ s, started ⟨8, 16⟩ 0 0 0 false
        [.set_register 1 0x07, .run_for 5, .set_register 0 0x55, .run_for 0,
         .set_register 1 0x02, .set_register 1 0x0F] = some s ∧
      s.decisions.map Prod.fst = [[0x07], [0x07, 0x02], [0x0F]] :=
  decisions_follow_data_writes ⟨8, 16⟩ (by decide) 0 0 0 false _

/-- C7 (placeholder commands). In every state reached from construction, a
write to either register whose command buffer names an opcode other than 0x03
(a recognised command other than Specify, complete or not, or an invalid
command) leaves `step_rate_time`, `head_unload_time`, `head_load_time` and
`dma_mode` as they were; and whenever a write changes them, the decision made
in that write was the dispatch of Specify. -/
theorem only_specify_changes_configuration (ev : Event8272) (hcb : ev.CommandByte ≠ 0)
    (a b c : Nat) (d : Bool) (pre : List Call) (s : i8272)
    (hs : started ev a b c d pre = some s) (address : Int) (value : Nat) :
    ∃ s', set_register ev s address value = some s' ∧
      (((s.command_ ++ [value % 256]).headD 0) &&& 0x1f ≠ 0x03 →
        s'.configuration = s.configuration) ∧
      (s'.configuration ≠ s.configuration →
        s'.decisions = s.decisions ++ [(s.command_ ++ [value % 256], .specify)]) := by
  have A := awaiting_of_started ev hcb a b c d pre s hs
  by_cases ha : address = 0
  · subst ha
    exact ⟨s, set_register_status ev s value, fun _ => rfl, fun h => absurd rfl h⟩
  · obtain ⟨s', e', -, d', -, k', -⟩ :=
      set_register_awaiting ev hcb s A address ha value _ rfl
    refine ⟨s', e', ?_, ?_⟩
    · intro hop
      apply k'
      intro hsp
      exact hop (dispatch_specify_length hsp).2
    · intro hne
      by_cases hsp : dispatch (s.command_ ++ [value % 256])
          ((s.command_ ++ [value % 256]).headD 0) = .specify
      · rw [d', hsp]
      · exact absurd (k' hsp) hne

/-- C7, at a complete Seek command `[0x0F, 0x00, 0x10]` whose last byte is
written to a controller configured by an earlier Specify. -/
theorem only_specify_changes_configuration_witness :
    ∃ s', set_register ⟨8, 16⟩
        { status_ := 0x80, command_ := [0x0F, 0x00], interesting_event_mask_ := 8,
          resume_point_ := 79, delay_time_ := 0, step_rate_time_ := 0xD0,
          head_unload_time_ := 0xF, head_load_time_ := 2, dma_mode_ := true,
          decisions := [([0x03], .wait_for_complete_command_sequence),
            ([0x03, 0xDF], .wait_for_complete_command_sequence),
            ([0x03, 0xDF, 0x02], .specify),
            ([0x0F], .wait_for_complete_command_sequence),
            ([0x0F, 0x00], .wait_for_complete_command_sequence)] } 1 0x10 = some s' ∧
      ((([0x0F, 0x00] ++ [0x10 % 256]).headD 0) &&& 0x1f ≠ 0x03 →
        s'.configuration = (0xD0, 0xF, 2, true)) ∧
      (s'.configuration ≠ (0xD0, 0xF, 2, true) →
        s'.decisions =
          [([0x03], .wait_for_complete_command_sequence),
            ([0x03, 0xDF], .wait_for_complete_command_sequence),
            ([0x03, 0xDF, 0x02], .specify),
            ([0x0F], .wait_for_complete_command_sequence),
            ([0x0F, 0x00], .wait_for_complete_command_sequence)] ++
          [([0x0F, 0x00] ++ [0x10 % 256], .specify)]) :=
  only_specify_changes_configuration ⟨8, 16⟩ (by decide) 7 7 7 false
    [.set_register 1 0x03, .set_register 1 0xDF, .set_register 1 0x02,
     .set_register 1 0x0F, .set_register 1 0x00] _ rfl 1 0x10

end Intel

namespace Storage.Disk

/-! ## STX: auxiliary facts -/

theorem le16_value (lo hi : Nat) (hlo : lo < 256) (hhi : hi < 256) :
    FileHolder.unsigned 16 (some lo) ||| (FileHolder.unsigned 16 (some hi) <<< 8) % 2 ^ 16
      = lo + 256 * hi := by
  have h1 : lo % 2 ^ 16 = lo := Nat.mod_eq_of_lt (by omega)
  have h2 : hi % 2 ^ 16 = hi := Nat.mod_eq_of_lt (by omega)
  have h3 : (hi * 2 ^ 8) % 2 ^ 16 = 2 ^ 8 * hi := by
    rw [Nat.mod_eq_of_lt (by omega)]; ring
  simp only [FileHolder.unsigned, h1, h2, Nat.shiftLeft_eq, h3]
  rw [Nat.or_comm, ← Nat.mul_add_lt_is_or (by omega : lo < 2 ^ 8)]
  omega

theorem unsigned_eof_16 (c : Option Nat) :
    FileHolder.unsigned 16 none ||| (FileHolder.unsigned 16 c <<< 8) % 2 ^ 16 ≠ 3 := by
  intro h
  have h0 := congrArg (fun x => x.testBit 2) h
  have h1 : (2 ^ 16 - 1).testBit 2 = true := by decide
  have h3 : Nat.testBit 3 2 = false := by decide
  simp only [FileHolder.unsigned, Nat.testBit_or, h1, h3, Bool.true_or] at h0
  cases h0

theorem unsigned_lo_eof_16 (lo : Nat) :
    FileHolder.unsigned 16 (some lo) ||| (FileHolder.unsigned 16 none <<< 8) % 2 ^ 16 ≠ 3 := by
  intro h
  have h0 := congrArg (fun x => x.testBit 8) h
  have h1 : ((2 ^ 16 - 1) <<< 8 % 2 ^ 16).testBit 8 = true := by decide
  have h3 : Nat.testBit 3 8 = false := by decide
  simp only [FileHolder.unsigned, Nat.testBit_or, h1, h3, Bool.or_true] at h0
  cases h0

/-! ## STX: the claims -/

/-- C8 (open). For every file (a list of bytes) the constructor throws
`InvalidFormat` if and only if the first four bytes are not `R`, `S`, `Y`, 0
or the little-endian 16-bit value at offset 4 is not 3 (or is not wholly in the
file); nothing that follows in the header or in the track descriptors, and no
bound on the track loop, makes it throw. -/
theorem open_fails_iff (fuel : Nat) (contents : List Nat)
    (hbytes : ∀ b ∈ contents, b < 256) :
    STX.new fuel contents = some (.error .InvalidFormat) ↔
      (contents.take 4 ≠ spec_signature ∨ spec_le16 contents 4 ≠ some 3) := by
  by_cases hsig : contents.take 4 = spec_signature
  · rcases contents with _ | ⟨a, _ | ⟨b, _ | ⟨c, _ | ⟨d, rest⟩⟩⟩⟩
    all_goals simp only [spec_signature, List.take, List.cons.injEq, reduceCtorEq,
      and_false, and_true, false_and] at hsig
    obtain ⟨rfl, rfl, rfl, rfl⟩ := hsig
    have hs : ((FileHolder.open_ (0x52 :: 0x53 :: 0x59 :: 0x00 :: rest)).check_signature
        [0x52, 0x53, 0x59, 0x00] 4) =
        (true, { contents := 0x52 :: 0x53 :: 0x59 :: 0x00 :: rest, position := 4,
                 eof_ := false }) := by
      simp [FileHolder.check_signature, FileHolder.read, FileHolder.open_]
    rcases rest with _ | ⟨e, _ | ⟨f, rest⟩⟩
    · have := unsigned_eof_16 none
      simp only [STX.new, hs, FileHolder.get16le, FileHolder.fgetc, spec_le16, spec_signature]
      simp
      exact this
    · have := unsigned_lo_eof_16 e
      simp only [STX.new, hs, FileHolder.get16le, FileHolder.fgetc, spec_le16, spec_signature]
      simp
      exact this
    · have he : e < 256 := hbytes e (by simp)
      have hf : f < 256 := hbytes f (by simp)
      have hv := le16_value e f he hf
      simp only [STX.new, hs, FileHolder.get16le, FileHolder.fgetc, spec_le16, spec_signature]
      simp only [List.getElem?_cons_succ, List.getElem?_cons_zero, hv]
      by_cases h3 : e + 256 * f = 3
      · simp only [h3]
        cases STX.parse_header fuel _ <;> simp
      · simp [h3]
  · have hs : ((FileHolder.open_ contents).check_signature [0x52, 0x53, 0x59, 0x00] 4).1
        = false := by
      simp only [FileHolder.check_signature, FileHolder.read, FileHolder.open_, List.drop_zero,
        decide_eq_false_iff_not, not_and]
      intro _ h
      exact hsig h
    simp only [STX.new]
    generalize (FileHolder.open_ contents).check_signature [0x52, 0x53, 0x59, 0x00] 4 = r at hs
    obtain ⟨ok, f⟩ := r
    simp only at hs
    subst hs
    simp [hsig]

/-- C8, at a file with the signature and version 4. -/
theorem open_fails_iff_witness :
    (∀ b ∈ [0x52, 0x53, 0x59, 0x00, 0x04, 0x00, 0, 0, 0, 0, 0, 0, 0, 0, 0, 0], b < 256) ∧
    (STX.new 1 [0x52, 0x53, 0x59, 0x00, 0x04, 0x00, 0, 0, 0, 0, 0, 0, 0, 0, 0, 0]
        = some (.error .InvalidFormat) ↔
      (([0x52, 0x53, 0x59, 0x00, 0x04, 0x00, 0, 0, 0, 0, 0, 0, 0, 0, 0, 0] : List Nat).take 4
          ≠ spec_signature ∨
        spec_le16 [0x52, 0x53, 0x59, 0x00, 0x04, 0x00, 0, 0, 0, 0, 0, 0, 0, 0, 0, 0] 4
          ≠ some 3)) :=
  ⟨by decide, open_fails_iff 1 _ (by decide)⟩

end Storage.Disk

namespace Storage.Disk

theorem le32_value (b0 b1 b2 b3 : Nat) (h0 : b0 < 256) (h1 : b1 < 256) (h2 : b2 < 256)
    (h3 : b3 < 256) :
    FileHolder.unsigned 32 (some b0) ||| (FileHolder.unsigned 32 (some b1) <<< 8) % 2 ^ 32
      ||| (FileHolder.unsigned 32 (some b2) <<< 16) % 2 ^ 32
      ||| (FileHolder.unsigned 32 (some b3) <<< 24) % 2 ^ 32
      = b0 + 256 * b1 + 65536 * b2 + 16777216 * b3 := by
  have e0 : b0 % 2 ^ 32 = b0 := Nat.mod_eq_of_lt (by omega)
  have e1 : b1 % 2 ^ 32 = b1 := Nat.mod_eq_of_lt (by omega)
  have e2 : b2 % 2 ^ 32 = b2 := Nat.mod_eq_of_lt (by omega)
  have e3 : b3 % 2 ^ 32 = b3 := Nat.mod_eq_of_lt (by omega)
  have s1 : (b1 * 2 ^ 8) % 2 ^ 32 = 2 ^ 8 * b1 := by
    rw [Nat.mod_eq_of_lt (by omega)]; ring
  have s2 : (b2 * 2 ^ 16) % 2 ^ 32 = 2 ^ 16 * b2 := by
    rw [Nat.mod_eq_of_lt (by omega)]; ring
  have s3 : (b3 * 2 ^ 24) % 2 ^ 32 = 2 ^ 24 * b3 := by
    rw [Nat.mod_eq_of_lt (by omega)]; ring
  simp only [FileHolder.unsigned, e0, e1, e2, e3, Nat.shiftLeft_eq, s1, s2, s3]
  have a1 : b0 ||| 2 ^ 8 * b1 = 2 ^ 8 * b1 + b0 := by
    rw [Nat.or_comm, ← Nat.mul_add_lt_is_or (by omega : b0 < 2 ^ 8)]
  have a2 : (2 ^ 8 * b1 + b0) ||| 2 ^ 16 * b2 = 2 ^ 16 * b2 + (2 ^ 8 * b1 + b0) := by
    rw [Nat.or_comm, ← Nat.mul_add_lt_is_or (by omega : 2 ^ 8 * b1 + b0 < 2 ^ 16)]
  have a3 : (2 ^ 16 * b2 + (2 ^ 8 * b1 + b0)) ||| 2 ^ 24 * b3
      = 2 ^ 24 * b3 + (2 ^ 16 * b2 + (2 ^ 8 * b1 + b0)) := by
    rw [Nat.or_comm, ← Nat.mul_add_lt_is_or
      (by omega : 2 ^ 16 * b2 + (2 ^ 8 * b1 + b0) < 2 ^ 24)]
  rw [a1, a2, a3]
  omega

theorem getElem?_lt_256 {contents : List Nat} (hbytes : ∀ b ∈ contents, b < 256)
    {i b : Nat} (h : contents[i]? = some b) : b < 256 :=
  hbytes b (List.getElem?_mem h)

/-- `get32le` where the file holds all four bytes. -/
theorem get32le_some (contents : List Nat) (hbytes : ∀ b ∈ contents, b < 256)
    (offset size : Nat) (h : spec_le32 contents offset = some size) :
    FileHolder.get32le { contents := contents, position := offset, eof_ := false }
      = (size, { contents := contents, position := offset + 4, eof_ := false }) := by
  unfold spec_le32 at h
  split at h
  · rename_i b0 b1 b2 b3 h0 h1 h2 h3
    have v := le32_value b0 b1 b2 b3 (getElem?_lt_256 hbytes h0) (getElem?_lt_256 hbytes h1)
      (getElem?_lt_256 hbytes h2) (getElem?_lt_256 hbytes h3)
    simp only [Option.some.injEq] at h
    simp only [FileHolder.get32le, FileHolder.fgetc, h0, h1, h2, h3, v, h]
  · cases h

/-- `get32le` where the file ends within the four bytes. -/
theorem get32le_none (contents : List Nat) (offset : Nat)
    (h : spec_le32 contents offset = none) :
    (FileHolder.get32le { contents := contents, position := offset, eof_ := false }).2.eof
      = true := by
  unfold spec_le32 at h
  simp only [FileHolder.get32le, FileHolder.fgetc, FileHolder.eof]
  cases h0 : contents[offset]? with
  | none => simp [h0]
  | some b0 =>
    cases h1 : contents[offset + 1]? with
    | none => simp [h0, h1]
    | some b1 =>
      cases h2 : contents[offset + 1 + 1]? with
      | none => simp [h0, h1, h2]
      | some b2 =>
        cases h3 : contents[offset + 1 + 1 + 1]? with
        | none => simp [h0, h1, h2, h3]
        | some b3 =>
          rw [h0, h1] at h
          simp only [Nat.add_assoc, Nat.reduceAdd] at h2 h3
          rw [h2, h3] at h
          cases h

end Storage.Disk

namespace Storage.Disk

/-! ### The file holder -/

theorem seek_cur (data : List Nat) (p : Nat) (e : Bool) (n : Nat) :
    FileHolder.seek { contents := data, position := p, eof_ := e } (n : Int) .SEEK_CUR
      = { contents := data, position := p + n, eof_ := false } := by
  have h : ¬ ((p : Int) + (n : Int) < 0) := by omega
  have h2 : ((p : Int) + n).toNat = p + n := by omega
  simp only [FileHolder.seek, h, if_false, h2]

theorem seek_set (data : List Nat) (p : Nat) (e : Bool) (n : Nat) :
    FileHolder.seek { contents := data, position := p, eof_ := e } (n : Int) .SEEK_SET
      = { contents := data, position := n, eof_ := false } := by
  have h : ¬ ((n : Int) < 0) := by omega
  simp only [FileHolder.seek, h, if_false, Int.toNat_ofNat]

theorem get8_some (data : List Nat) (p : Nat) (e : Bool) (b : Nat) (h : data[p]? = some b)
    (hb : b < 256) :
    FileHolder.get8 { contents := data, position := p, eof_ := e }
      = (b, { contents := data, position := p + 1, eof_ := e }) := by
  simp only [FileHolder.get8, FileHolder.fgetc, h, FileHolder.unsigned]
  rw [Nat.mod_eq_of_lt (by omega)]

theorem get8_none (data : List Nat) (p : Nat) (e : Bool) (h : data[p]? = none) :
    FileHolder.get8 { contents := data, position := p, eof_ := e }
      = (255, { contents := data, position := p, eof_ := true }) := by
  simp only [FileHolder.get8, FileHolder.fgetc, h, FileHolder.unsigned]
  rfl

/-- The table a list of descriptors leaves behind: each is filed under its
position byte, or under 0xFF when the file ends before that byte. -/
theorem parse_tracks_eq (contents : List Nat) (hbytes : ∀ b ∈ contents, b < 256)
    (fuel : Nat) : ∀ (offset : Nat) (table : List Nat),
    (STX.parse_tracks fuel { contents := contents, position := offset, eof_ := false }
        table).map Prod.snd =
      (spec_descriptors fuel contents offset).map
        (fun ds => ds.foldl (fun t d => t.set (d.2.getD 255) d.1) table) := by
  induction fuel with
  | zero => intro offset table; rfl
  | succ fuel ih =>
    intro offset table
    unfold STX.parse_tracks spec_descriptors
    cases hsz : spec_le32 contents offset with
    | none =>
      have h := get32le_none contents offset hsz
      generalize FileHolder.get32le { contents := contents, position := offset, eof_ := false }
        = r at h
      obtain ⟨v, f⟩ := r
      simp only at h
      simp [h]
    | some size =>
      rw [get32le_some contents hbytes offset size hsz]
      have hs := seek_cur contents (offset + 4) false 10
      simp only [Nat.cast_ofNat] at hs
      cases hb : contents[offset + 14]? with
      | none =>
        have hg := get8_none contents (offset + 4 + 10) false hb
        simp only [FileHolder.tell, FileHolder.eof, Bool.false_eq_true, if_false, hs, hg]
        have := seek_set contents (offset + 4 + 10) true (offset + size)
        push_cast at this
        rw [this, ih]
        cases spec_descriptors fuel contents (offset + size) <;> simp
      | some b =>
        have hlt : b < 256 := getElem?_lt_256 hbytes hb
        have hg := get8_some contents (offset + 4 + 10) false b hb hlt
        simp only [FileHolder.tell, FileHolder.eof, Bool.false_eq_true, if_false, hs, hg]
        have := seek_set contents (offset + 4 + 10 + 1) false (offset + size)
        push_cast at this
        rw [this, ih]
        cases spec_descriptors fuel contents (offset + size) <;> simp

end Storage.Disk

namespace Storage.Disk

theorem spec_le32_none_of_short (contents : List Nat) (offset : Nat)
    (h : contents.length ≤ offset) : spec_le32 contents offset = none := by
  have h0 : contents[offset]? = none := List.getElem?_eq_none h
  simp [spec_le32, h0]

theorem spec_descriptors_short (fuel : Nat) (contents : List Nat) (offset offset' : Nat)
    (h : contents.length ≤ offset) (h' : contents.length ≤ offset') :
    spec_descriptors fuel contents offset = spec_descriptors fuel contents offset' := by
  cases fuel with
  | zero => rfl
  | succ fuel =>
    simp [spec_descriptors, spec_le32_none_of_short contents offset h,
      spec_le32_none_of_short contents offset' h']

/-- The table the constructor builds once the signature and version have been
read: the descriptors from offset 16 on, filed one after the other. -/
theorem parse_header_table (contents : List Nat) (hbytes : ∀ b ∈ contents, b < 256)
    (fuel : Nat) :
    (STX.parse_header fuel { contents := contents, position := 6, eof_ := false }).map
        (fun stx => stx.offset_by_track_) =
      (spec_descriptors fuel contents 16).map
        (fun ds => ds.foldl (fun t d => t.set (d.2.getD 255) d.1) (List.replicate 256 0)) := by
  unfold STX.parse_header
  have hs := seek_cur contents 6 false 4
  simp only [Nat.cast_ofNat] at hs
  generalize List.replicate 256 0 = table
  dsimp only
  rw [hs]
  have key : ∀ (p : Nat) (e : Bool) (tc : Nat) (nf : Bool), p + 4 = 16 ∨ (contents.length ≤ p ∧ p ≤ 12) →
      (match STX.parse_tracks fuel
          (FileHolder.seek { contents := contents, position := p, eof_ := e } 4 .SEEK_CUR)
          table with
        | none => none
        | some (file_, offset_by_track_) =>
          some ({ file_ := file_, track_count_ := tc, is_new_format_ := nf,
                  offset_by_track_ := offset_by_track_ } : STX)).map
        (fun stx : STX => stx.offset_by_track_) =
      (spec_descriptors fuel contents 16).map
        (fun ds => ds.foldl (fun t d => t.set (d.2.getD 255) d.1) table) := by
    intro p e tc nf hp
    have hs' := seek_cur contents p e 4
    simp only [Nat.cast_ofNat] at hs'
    rw [hs']
    have h1 := parse_tracks_eq contents hbytes fuel (p + 4) table
    have h2 : spec_descriptors fuel contents (p + 4) = spec_descriptors fuel contents 16 := by
      rcases hp with hp | hp
      · rw [hp]
      · exact spec_descriptors_short fuel contents _ _ (by omega) (by omega)
    rw [h2] at h1
    rw [← h1]
    cases STX.parse_tracks fuel { contents := contents, position := p + 4, eof_ := false } table
      <;> rfl
  cases h10 : contents[6 + 4]? with
  | none =>
    have hlen : contents.length ≤ 6 + 4 := List.getElem?_eq_none_iff.mp h10
    rw [get8_none contents (6 + 4) false h10]
    simp only []
    rw [get8_none contents (6 + 4) true h10]
    exact key _ _ _ _ (Or.inr ⟨hlen, by omega⟩)
  | some b0 =>
    rw [get8_some contents (6 + 4) false b0 h10 (getElem?_lt_256 hbytes h10)]
    simp only []
    cases h11 : contents[6 + 4 + 1]? with
    | none =>
      have hlen : contents.length ≤ 6 + 4 + 1 := List.getElem?_eq_none_iff.mp h11
      rw [get8_none contents (6 + 4 + 1) false h11]
      exact key _ _ _ _ (Or.inr ⟨hlen, by omega⟩)
    | some b1 =>
      rw [get8_some contents (6 + 4 + 1) false b1 h11 (getElem?_lt_256 hbytes h11)]
      exact key _ _ _ _ (Or.inl rfl)

end Storage.Disk

namespace Storage.Disk

/-- The two ways the constructor can go: past both checks, with the file
positioned after the version, or out with `InvalidFormat`. -/
theorem new_cases (fuel : Nat) (contents : List Nat) (hbytes : ∀ b ∈ contents, b < 256) :
    (contents.take 4 = spec_signature ∧ spec_le16 contents 4 = some 3 ∧
      STX.new fuel contents =
        (STX.parse_header fuel { contents := contents, position := 6, eof_ := false }).map
          .ok) ∨
    ((contents.take 4 ≠ spec_signature ∨ spec_le16 contents 4 ≠ some 3) ∧
      STX.new fuel contents = some (.error .InvalidFormat)) := by
  by_cases hsig : contents.take 4 = spec_signature
  · rcases contents with _ | ⟨a, _ | ⟨b, _ | ⟨c, _ | ⟨d, rest⟩⟩⟩⟩
    all_goals simp only [spec_signature, List.take, List.cons.injEq, reduceCtorEq,
      and_false, and_true, false_and] at hsig
    obtain ⟨rfl, rfl, rfl, rfl⟩ := hsig
    have hs : ((FileHolder.open_ (0x52 :: 0x53 :: 0x59 :: 0x00 :: rest)).check_signature
        [0x52, 0x53, 0x59, 0x00] 4) =
        (true, { contents := 0x52 :: 0x53 :: 0x59 :: 0x00 :: rest, position := 4,
                 eof_ := false }) := by
      simp [FileHolder.check_signature, FileHolder.read, FileHolder.open_]
    rcases rest with _ | ⟨e, _ | ⟨f, rest⟩⟩
    · right
      have := unsigned_eof_16 none
      simp only [STX.new, hs, FileHolder.get16le, FileHolder.fgetc, spec_le16, spec_signature]
      simp
      exact this
    · right
      have := unsigned_lo_eof_16 e
      simp only [STX.new, hs, FileHolder.get16le, FileHolder.fgetc, spec_le16, spec_signature]
      simp
      exact this
    · have he : e < 256 := hbytes e (by simp)
      have hf : f < 256 := hbytes f (by simp)
      have hv := le16_value e f he hf
      simp only [STX.new, hs, FileHolder.get16le, FileHolder.fgetc, spec_le16, spec_signature]
      simp only [List.getElem?_cons_succ, List.getElem?_cons_zero, hv]
      by_cases h3 : e + 256 * f = 3
      · left
        simp [h3]
      · right
        simp [h3]
  · right
    have hs : ((FileHolder.open_ contents).check_signature [0x52, 0x53, 0x59, 0x00] 4).1
        = false := by
      simp only [FileHolder.check_signature, FileHolder.read, FileHolder.open_, List.drop_zero,
        decide_eq_false_iff_not, not_and]
      intro _ h
      exact hsig h
    simp only [STX.new]
    generalize (FileHolder.open_ contents).check_signature [0x52, 0x53, 0x59, 0x00] 4 = r at hs
    obtain ⟨ok, f⟩ := r
    simp only at hs
    subst hs
    simp [hsig]

/-- Filing descriptors one after the other leaves each position with the offset
of the last descriptor filed under it. -/
theorem foldl_set_lookup (ds : List (Nat × Option Nat)) :
    ∀ (table : List Nat) (p : Nat), p < table.length → (∀ d ∈ ds, d.2 ≠ none) →
      (ds.foldl (fun t d => t.set (d.2.getD 255) d.1) table)[p]? =
        match (ds.filter (fun d => d.2 = some p)).getLast? with
        | some d => some d.1
        | none => table[p]? := by
  induction ds with
  | nil => intro table p _ _; rfl
  | cons d ds ih =>
    intro table p hp hall
    have hd : d.2 ≠ none := hall d (by simp)
    obtain ⟨o, k⟩ := d
    cases k with
    | none => exact absurd rfl hd
    | some k =>
      simp only [List.foldl_cons, Option.getD_some]
      rw [ih (table.set k o) p (by simpa using hp) (fun x hx => hall x (by simp [hx]))]
      by_cases hk : k = p
      · subst hk
        simp only [List.filter_cons, decide_True, if_true]
        cases hl : (ds.filter (fun d => d.2 = some k)).getLast? with
        | none =>
          have : ds.filter (fun d => d.2 = some k) = [] := List.getLast?_eq_none_iff.mp hl
          simp [this, hp]
        | some x =>
          rw [List.getLast?_cons, hl]
          simp
      · have : ¬ (some k = some p) := by simpa using hk
        simp only [List.filter_cons, this, decide_False, Bool.false_eq_true, if_false]
        cases hl : (ds.filter (fun d => d.2 = some p)).getLast? with
        | none => simp [List.getElem?_set_ne hk]
        | some x => rfl

end Storage.Disk

namespace Storage.Disk

/-- The table of an opened container: the descriptors met from offset 16 on,
filed one after the other in a table of 256 zeros. -/
theorem table_of_new (fuel : Nat) (contents : List Nat) (hbytes : ∀ b ∈ contents, b < 256)
    (stx : STX) (hopen : STX.new fuel contents = some (.ok stx)) :
    ∃ ds, spec_descriptors fuel contents 16 = some ds ∧
      stx.offset_by_track_ =
        ds.foldl (fun t d => t.set (d.2.getD 255) d.1) (List.replicate 256 0) := by
  rcases new_cases fuel contents hbytes with ⟨-, -, h⟩ | ⟨-, h⟩
  · rw [h] at hopen
    have ht := parse_header_table contents hbytes fuel
    cases hp : STX.parse_header fuel { contents := contents, position := 6, eof_ := false } with
    | none => rw [hp] at hopen; cases hopen
    | some stx' =>
      rw [hp] at hopen ht
      simp only [Option.map_some', Option.some.injEq, Except.ok.injEq] at hopen
      subst hopen
      cases hd : spec_descriptors fuel contents 16 with
      | none => rw [hd] at ht; cases ht
      | some ds =>
        rw [hd] at ht
        simp only [Option.map_some', Option.some.injEq] at ht
        exact ⟨ds, rfl, ht⟩
  · rw [h] at hopen; cases hopen

theorem foldl_set_length (ds : List (Nat × Option Nat)) (table : List Nat) :
    (ds.foldl (fun t d => t.set (d.2.getD 255) d.1) table).length = table.length := by
  induction ds generalizing table with
  | nil => rfl
  | cons d ds ih => simp [ih]

/-- The lookup table of an opened container has 256 entries. -/
theorem table_length_of_new (fuel : Nat) (contents : List Nat)
    (hbytes : ∀ b ∈ contents, b < 256) (stx : STX)
    (hopen : STX.new fuel contents = some (.ok stx)) : stx.offset_by_track_.length = 256 := by
  obtain ⟨ds, -, h⟩ := table_of_new fuel contents hbytes stx hopen
  rw [h, foldl_set_length, List.length_replicate]

/-- The table entries of an opened container whose descriptors all hold their
position byte are those of the specification. -/
theorem table_entry_of_new (fuel : Nat) (contents : List Nat)
    (hbytes : ∀ b ∈ contents, b < 256) (stx : STX)
    (hopen : STX.new fuel contents = some (.ok stx)) :
    ∃ ds, spec_descriptors fuel contents 16 = some ds ∧
      ((∀ d ∈ ds, d.2 ≠ none) → ∀ p, p < 256 →
        stx.offset_by_track_[p]? = some (spec_table_entry ds p)) := by
  obtain ⟨ds, hds, h⟩ := table_of_new fuel contents hbytes stx hopen
  refine ⟨ds, hds, ?_⟩
  intro hall p hp
  rw [h, foldl_set_lookup ds _ p (by rw [List.length_replicate]; exact hp) hall]
  unfold spec_table_entry
  cases (ds.filter (fun d => d.2 = some p)).getLast? with
  | none =>
    show (List.replicate 256 0)[p]? = some 0
    rw [List.getElem?_replicate, if_pos hp]
  | some d => rfl

end Storage.Disk

namespace Storage.Disk

/-! ### Containers laid out as records -/

theorem getElem?_in_record (pre record post : List Nat) (i : Nat) (hi : i < record.length) :
    (pre ++ (record ++ post))[pre.length + i]? = record[i]? := by
  rw [List.getElem?_append_right (by omega)]
  rw [show pre.length + i - pre.length = i by omega]
  exact List.getElem?_append_left hi

theorem spec_le32_in_record (pre record post : List Nat) (h : 4 ≤ record.length) :
    spec_le32 (pre ++ (record ++ post)) pre.length = spec_le32 record 0 := by
  unfold spec_le32
  have h0 := getElem?_in_record pre record post 0 (by omega)
  have h1 := getElem?_in_record pre record post 1 (by omega)
  have h2 := getElem?_in_record pre record post 2 (by omega)
  have h3 := getElem?_in_record pre record post 3 (by omega)
  simp only [Nat.add_zero] at h0
  simp only [Nat.add_assoc, Nat.reduceAdd, Nat.zero_add]
  rw [h0, h1, h2, h3]

/-- The descriptors the scan meets in a container laid out as records are the
records, each at its offset. -/
theorem spec_descriptors_of_records (records : List (List Nat)) :
    ∀ (pre : List Nat), (∀ r ∈ records, spec_record r) →
      spec_descriptors (records.length + 1) (pre ++ records.flatten) pre.length =
        some ((spec_layout pre.length records).map (fun x => (x.1, x.2[14]?))) := by
  induction records with
  | nil =>
    intro pre _
    have : spec_le32 (pre ++ ([] : List (List Nat)).flatten) pre.length = none :=
      spec_le32_none_of_short _ _ (by simp)
    show spec_descriptors (0 + 1) _ _ = _
    rw [spec_descriptors, this]
    rfl
  | cons r rs ih =>
    intro pre hall
    obtain ⟨hlen, -, hsize⟩ := hall r (by simp)
    have h32 : spec_le32 (pre ++ (r ++ rs.flatten)) pre.length = some r.length := by
      rw [spec_le32_in_record pre r rs.flatten (by omega), hsize]
    have h14 : (pre ++ (r ++ rs.flatten))[pre.length + 14]? = r[14]? :=
      getElem?_in_record pre r rs.flatten 14 (by omega)
    have hih := ih (pre ++ r) (fun x hx => hall x (by simp [hx]))
    simp only [List.length_append, List.append_assoc] at hih
    show spec_descriptors (rs.length + 1 + 1) (pre ++ (r :: rs).flatten) _ = _
    rw [List.flatten_cons, spec_descriptors, h32]
    simp only [h14, hih, Option.map_some', spec_layout, List.map_cons]

/-- Each record of a container can be read back at its offset. -/
theorem record_at_offset (records : List (List Nat)) :
    ∀ (pre : List Nat) (x : Nat × List Nat), x ∈ spec_layout pre.length records →
      ((pre ++ records.flatten).drop x.1).take x.2.length = x.2 := by
  induction records with
  | nil => intro pre x hx; simp [spec_layout] at hx
  | cons r rs ih =>
    intro pre x hx
    simp only [spec_layout, List.mem_cons] at hx
    rcases hx with rfl | hx
    · simp only [List.flatten_cons]
      rw [List.drop_append_of_le_length (by omega), List.drop_length, List.nil_append,
        List.take_append_of_le_length (by omega), List.take_length]
    · have := ih (pre ++ r) x (by simpa using hx)
      simpa using this

theorem layout_records (records : List (List Nat)) :
    ∀ start : Nat, (spec_layout start records).map Prod.snd = records := by
  induction records with
  | nil => intro start; rfl
  | cons r rs ih => intro start; simp [spec_layout, ih]

/-- Among descriptors with distinct position bytes, the filter by position
keeps the one descriptor that declares it. -/
theorem filter_of_nodup (ds : List (Nat × Option Nat)) (h : (ds.map Prod.snd).Nodup)
    (d : Nat × Option Nat) (hd : d ∈ ds) (p : Nat) (hp : d.2 = some p) :
    ds.filter (fun x => x.2 = some p) = [d] := by
  induction ds with
  | nil => cases hd
  | cons y ys ih =>
    simp only [List.map_cons, List.nodup_cons] at h
    obtain ⟨hy, hys⟩ := h
    simp only [List.mem_cons] at hd
    rcases hd with rfl | hd
    · have hnone : ys.filter (fun x => x.2 = some p) = [] := by
        rw [List.filter_eq_nil_iff]
        intro x hx hxp
        apply hy
        rw [hp]
        have : x.2 = some p := by simpa using hxp
        rw [← this]
        exact List.mem_map_of_mem _ hx
      simp [List.filter_cons, hp, hnone]
    · have hne : ¬ (y.2 = some p) := by
        intro hyp
        apply hy
        rw [hyp, ← hp]
        exact List.mem_map_of_mem _ hd
      simp [List.filter_cons, hne, ih hys hd]

end Storage.Disk

namespace Storage.Disk

theorem container_bytes (header : List Nat) (records : List (List Nat))
    (hh : spec_header header) (hr : ∀ r ∈ records, spec_record r) :
    ∀ b ∈ spec_container header records, b < 256 := by
  intro b hb
  simp only [spec_container, List.mem_append, List.mem_flatten] at hb
  rcases hb with hb | ⟨r, hr', hb⟩
  · exact hh.2.1 b hb
  · exact (hr r hr').2.1 b hb

/-- A container laid out as a header and records with distinct position bytes
opens, and its table sends the position byte of each record to an offset at
which that record can be read back. -/
theorem container_table (header : List Nat) (records : List (List Nat))
    (hh : spec_header header) (hr : ∀ r ∈ records, spec_record r)
    (hnd : (records.map (fun r => r[14]?)).Nodup) :
    ∃ stx, STX.new (records.length + 1) (spec_container header records) = some (.ok stx) ∧
      ∀ r ∈ records, ∀ p, r[14]? = some p →
        ∃ o, stx.offset_by_track_[p]? = some o ∧
          ((spec_container header records).drop o).take r.length = r := by
  have hbytes := container_bytes header records hh hr
  obtain ⟨hlen, -, hsig, hver⟩ := hh
  have hds := spec_descriptors_of_records records header hr
  rw [hlen] at hds
  have hsig' : (spec_container header records).take 4 = spec_signature := by
    rw [spec_container, List.take_append_of_le_length (by omega)]; exact hsig
  have hver' : spec_le16 (spec_container header records) 4 = some 3 := by
    have e4 : (header ++ records.flatten)[4]? = header[4]? :=
      List.getElem?_append_left (by omega)
    have e5 : (header ++ records.flatten)[4 + 1]? = header[4 + 1]? :=
      List.getElem?_append_left (by omega)
    unfold spec_le16 at hver ⊢
    rw [spec_container, e4, e5]; exact hver
  rcases new_cases (records.length + 1) (spec_container header records) hbytes with
    ⟨-, -, hnew⟩ | ⟨hbad, -⟩
  swap
  · rcases hbad with hbad | hbad
    · exact absurd hsig' hbad
    · exact absurd hver' hbad
  have ht := parse_header_table (spec_container header records) hbytes (records.length + 1)
  rw [show spec_descriptors (records.length + 1) (spec_container header records) 16
    = spec_descriptors (records.length + 1) (header ++ records.flatten) 16 from rfl, hds] at ht
  cases hp : STX.parse_header (records.length + 1)
      { contents := spec_container header records, position := 6, eof_ := false } with
  | none => rw [hp] at ht; cases ht
  | some stx =>
    rw [hp] at ht hnew
    simp only [Option.map_some', Option.some.injEq] at ht hnew
    refine ⟨stx, hnew, ?_⟩
    intro r hrmem p hp14
    have hmem : r ∈ (spec_layout 16 records).map Prod.snd := by
      rw [layout_records]; exact hrmem
    obtain ⟨x, hx, rfl⟩ := List.mem_map.mp hmem
    have hall : ∀ d ∈ (spec_layout 16 records).map (fun x => (x.1, x.2[14]?)),
        d.2 ≠ none := by
      intro d hd
      obtain ⟨y, hy, rfl⟩ := List.mem_map.mp hd
      have hy' : y.2 ∈ records := by
        rw [← layout_records records 16]; exact List.mem_map_of_mem _ hy
      have := (hr y.2 hy').1
      simp only [ne_eq, List.getElem?_eq_none_iff, not_le]
      omega
    have hnd' : (((spec_layout 16 records).map (fun x => (x.1, x.2[14]?))).map
        Prod.snd).Nodup := by
      have : ((spec_layout 16 records).map (fun x => (x.1, x.2[14]?))).map Prod.snd
          = records.map (fun r => r[14]?) := by
        rw [List.map_map]
        conv_rhs => rw [← layout_records records 16, List.map_map]
        rfl
      rw [this]; exact hnd
    have hdmem : (x.1, x.2[14]?) ∈ (spec_layout 16 records).map (fun x => (x.1, x.2[14]?)) :=
      List.mem_map_of_mem _ hx
    have hfilter := filter_of_nodup _ hnd' (x.1, x.2[14]?) hdmem p hp14
    have hp256 : p < 256 := (hr x.2 hrmem).2.1 p (List.getElem?_mem hp14)
    have hlook := foldl_set_lookup _ (List.replicate 256 0) p
      (by rw [List.length_replicate]; exact hp256) hall
    rw [hfilter] at hlook
    refine ⟨x.1, ?_, ?_⟩
    · rw [ht]; exact hlook
    · have := record_at_offset records header x (by rw [hlen]; exact hx)
      exact this

end Storage.Disk

namespace Storage.Disk

set_option maxRecDepth 100000 in
/-- C10 as stated fails on a container whose last descriptor is cut short: the
20-byte file below has one descriptor, at offset 16, of which only the record
size is present. No descriptor has a byte 14 at all, so every table entry
should be 0, yet entry 0xFF holds the offset 16. -/
theorem track_table_truncated_descriptor :
    ∃ stx ds,
      STX.new 2 [0x52, 0x53, 0x59, 0x00, 3, 0, 0, 0, 0, 0, 1, 0, 0, 0, 0, 0, 16, 0, 0, 0]
        = some (.ok stx) ∧
      spec_descriptors 2
        [0x52, 0x53, 0x59, 0x00, 3, 0, 0, 0, 0, 0, 1, 0, 0, 0, 0, 0, 16, 0, 0, 0] 16 = some ds ∧
      (∀ p, ∀ d ∈ ds, d.2 ≠ some p) ∧
      spec_table_entry ds 0xFF = 0 ∧
      stx.offset_by_track_[0xFF]? = some 16 := by
  refine ⟨_, _, rfl, rfl, ?_, by rfl, by rfl⟩
  intro p d hd
  simp only [List.mem_singleton] at hd
  subst hd
  simp

/-- C10, amended (track index). First, for every file of bytes on which the
constructor returns: if every track descriptor met by the scan (from offset 16,
each record-size bytes after the previous one) holds its byte 14 within the
file, then for every position byte `p` the entry `offset_by_track_[p]` is the
file offset of the last descriptor in scan order whose byte 14 is `p`, and 0 if
there is none. Second, for two containers made of a valid 16-byte header
followed by the same descriptor records, with distinct position bytes, in a
different file order: both open, and the position byte of each record is sent,
in one container and in the other, to an offset at which that same record is
stored. -/
theorem track_table_by_position :
    (∀ (fuel : Nat) (contents : List Nat) (stx : STX), (∀ b ∈ contents, b < 256) →
      STX.new fuel contents = some (.ok stx) →
      ∃ ds, spec_descriptors fuel contents 16 = some ds ∧
        ((∀ d ∈ ds, d.2 ≠ none) → ∀ p, p < 256 →
          stx.offset_by_track_[p]? = some (spec_table_entry ds p))) ∧
    (∀ (header₁ header₂ : List Nat) (records₁ records₂ : List (List Nat)),
      spec_header header₁ → spec_header header₂ → (∀ r ∈ records₁, spec_record r) →
      records₁.Perm records₂ → (records₁.map (fun r => r[14]?)).Nodup →
      ∃ stx₁ stx₂,
        STX.new (records₁.length + 1) (spec_container header₁ records₁) = some (.ok stx₁) ∧
        STX.new (records₂.length + 1) (spec_container header₂ records₂) = some (.ok stx₂) ∧
        ∀ r ∈ records₁, ∀ p, r[14]? = some p →
          ∃ o₁ o₂, stx₁.offset_by_track_[p]? = some o₁ ∧ stx₂.offset_by_track_[p]? = some o₂ ∧
            ((spec_container header₁ records₁).drop o₁).take r.length = r ∧
            ((spec_container header₂ records₂).drop o₂).take r.length = r) := by
  refine ⟨?_, ?_⟩
  · intro fuel contents stx hbytes hopen
    exact table_entry_of_new fuel contents hbytes stx hopen
  · intro header₁ header₂ records₁ records₂ hh₁ hh₂ hr hperm hnd
    have hr₂ : ∀ r ∈ records₂, spec_record r := fun r hr' => hr r (hperm.mem_iff.mpr hr')
    have hnd₂ : (records₂.map (fun r => r[14]?)).Nodup :=
      ((hperm.map (fun r => r[14]?)).nodup_iff).mp hnd
    obtain ⟨stx₁, e₁, k₁⟩ := container_table header₁ records₁ hh₁ hr hnd
    obtain ⟨stx₂, e₂, k₂⟩ := container_table header₂ records₂ hh₂ hr₂ hnd₂
    refine ⟨stx₁, stx₂, e₁, e₂, ?_⟩
    intro r hrmem p hp
    obtain ⟨o₁, a₁, b₁⟩ := k₁ r hrmem p hp
    obtain ⟨o₂, a₂, b₂⟩ := k₂ r (hperm.mem_iff.mp hrmem) p hp
    exact ⟨o₁, o₂, a₁, a₂, b₁, b₂⟩


/-- C10, amended, at the container holding the descriptor of head 1, cylinder 2
before that of head 0, cylinder 1, and at the container holding them in the other
order. -/
theorem track_table_by_position_witness :
    ∃ stx₁ stx₂,
      STX.new 3 (spec_container [0x52, 0x53, 0x59, 0x00, 3, 0, 0, 0, 0, 0, 2, 0, 0, 0, 0, 0]
        [[16, 0, 0, 0, 0, 0, 0, 0, 0, 0, 1, 0, 0, 0, 0x82, 0],
         [16, 0, 0, 0, 0, 0, 0, 0, 0, 0, 1, 0, 0, 0, 0x01, 0]]) = some (.ok stx₁) ∧
      STX.new 3 (spec_container [0x52, 0x53, 0x59, 0x00, 3, 0, 0, 0, 0, 0, 2, 0, 0, 0, 0, 0]
        [[16, 0, 0, 0, 0, 0, 0, 0, 0, 0, 1, 0, 0, 0, 0x01, 0],
         [16, 0, 0, 0, 0, 0, 0, 0, 0, 0, 1, 0, 0, 0, 0x82, 0]]) = some (.ok stx₂) ∧
      (∀ r ∈ [[16, 0, 0, 0, 0, 0, 0, 0, 0, 0, 1, 0, 0, 0, 0x82, 0],
          [16, 0, 0, 0, 0, 0, 0, 0, 0, 0, 1, 0, 0, 0, 0x01, 0]], ∀ p, r[14]? = some p →
        ∃ o₁ o₂, stx₁.offset_by_track_[p]? = some o₁ ∧ stx₂.offset_by_track_[p]? = some o₂ ∧
          ((spec_container [0x52, 0x53, 0x59, 0x00, 3, 0, 0, 0, 0, 0, 2, 0, 0, 0, 0, 0]
            [[16, 0, 0, 0, 0, 0, 0, 0, 0, 0, 1, 0, 0, 0, 0x82, 0],
             [16, 0, 0, 0, 0, 0, 0, 0, 0, 0, 1, 0, 0, 0, 0x01, 0]]).drop o₁).take r.length
            = r ∧
          ((spec_container [0x52, 0x53, 0x59, 0x00, 3, 0, 0, 0, 0, 0, 2, 0, 0, 0, 0, 0]
            [[16, 0, 0, 0, 0, 0, 0, 0, 0, 0, 1, 0, 0, 0, 0x01, 0],
             [16, 0, 0, 0, 0, 0, 0, 0, 0, 0, 1, 0, 0, 0, 0x82, 0]]).drop o₂).take r.length
            = r) ∧
      ∃ ds, spec_descriptors 3
          (spec_container [0x52, 0x53, 0x59, 0x00, 3, 0, 0, 0, 0, 0, 2, 0, 0, 0, 0, 0]
            [[16, 0, 0, 0, 0, 0, 0, 0, 0, 0, 1, 0, 0, 0, 0x82, 0],
             [16, 0, 0, 0, 0, 0, 0, 0, 0, 0, 1, 0, 0, 0, 0x01, 0]]) 16 = some ds ∧
        ((∀ d ∈ ds, d.2 ≠ none) → ∀ p, p < 256 →
          stx₁.offset_by_track_[p]? = some (spec_table_entry ds p)) := by
  obtain ⟨stx₁, stx₂, e₁, e₂, k⟩ := track_table_by_position.2
    [0x52, 0x53, 0x59, 0x00, 3, 0, 0, 0, 0, 0, 2, 0, 0, 0, 0, 0]
    [0x52, 0x53, 0x59, 0x00, 3, 0, 0, 0, 0, 0, 2, 0, 0, 0, 0, 0]
    [[16, 0, 0, 0, 0, 0, 0, 0, 0, 0, 1, 0, 0, 0, 0x82, 0],
     [16, 0, 0, 0, 0, 0, 0, 0, 0, 0, 1, 0, 0, 0, 0x01, 0]]
    [[16, 0, 0, 0, 0, 0, 0, 0, 0, 0, 1, 0, 0, 0, 0x01, 0],
     [16, 0, 0, 0, 0, 0, 0, 0, 0, 0, 1, 0, 0, 0, 0x82, 0]]
    ⟨by decide, by decide, by decide, by decide⟩
    ⟨by decide, by decide, by decide, by decide⟩
    (by
      intro r hr
      simp only [List.mem_cons, List.mem_singleton, List.not_mem_nil, or_false] at hr
      rcases hr with rfl | rfl <;> exact ⟨by decide, by decide, by decide⟩)
    (List.Perm.swap _ _ _) (by decide)
  exact ⟨stx₁, stx₂, e₁, e₂, k,
    track_table_by_position.1 3 _ stx₁ (by decide) e₁⟩

end Storage.Disk

namespace Storage.Disk

set_option maxRecDepth 100000 in
/-- C9 as stated fails for a cylinder above 127: the container below holds one
descriptor, a plain dump of one sector with position byte 0x82 (head 1,
cylinder 2), so no descriptor declares head 0 with cylinder 130; the address
(head 0, cylinder 130) indexes the same table entry and a track is returned. -/
theorem absent_track_aliased_cylinder :
    ∃ stx ds source,
      STX.new 2 ([0x52, 0x53, 0x59, 0x00, 3, 0, 0, 0, 0, 0, 1, 0, 0, 0, 0, 0] ++
          [16, 2, 0, 0, 0, 0, 0, 0, 1, 0, 0, 0, 0, 2, 0x82, 0] ++ List.replicate 512 0)
        = some (.ok stx) ∧
      spec_descriptors 2 ([0x52, 0x53, 0x59, 0x00, 3, 0, 0, 0, 0, 0, 1, 0, 0, 0, 0, 0] ++
          [16, 2, 0, 0, 0, 0, 0, 0, 1, 0, 0, 0, 0, 2, 0x82, 0] ++ List.replicate 512 0) 16
        = some ds ∧
      (∀ d ∈ ds, ∀ p, d.2 = some p → ¬ spec_declares p 0 130) ∧
      stx.get_track_at_position 0 130 = some (some (.for_sectors source 1 130 0 1 2 true)) := by
  refine ⟨_, _, _, rfl, rfl, ?_, rfl⟩
  intro d _ p _ h
  have := h.2
  omega


/-- A position under which no descriptor is filed keeps its table entry. -/
theorem foldl_set_untouched (ds : List (Nat × Option Nat)) :
    ∀ (table : List Nat) (p : Nat), (∀ d ∈ ds, d.2.getD 255 ≠ p) →
      (ds.foldl (fun t d => t.set (d.2.getD 255) d.1) table)[p]? = table[p]? := by
  induction ds with
  | nil => intro table p _; rfl
  | cons d ds ih =>
    intro table p h
    simp only [List.foldl_cons]
    rw [ih _ p (fun x hx => h x (by simp [hx])), List.getElem?_set_ne (h d (by simp))]

/-- C9, amended (absent track). For every file of bytes on which the
constructor returns and every address: if head > 1, `get_track_at_position`
returns no track; and if head is 0 or 1, the cylinder is between 0 and 127, and
no track descriptor met by the scan declares that head (bit 7 of its position
byte) and that cylinder (bits 0-6), where a descriptor that the file cuts short
before its position byte counts as declaring 0xFF, it returns no track. -/
theorem absent_track (fuel : Nat) (contents : List Nat) (hbytes : ∀ b ∈ contents, b < 256)
    (stx : STX) (hopen : STX.new fuel contents = some (.ok stx)) (head cylinder : Int) :
    (head > 1 → stx.get_track_at_position head cylinder = some none) ∧
    (0 ≤ head → 0 ≤ cylinder → cylinder < 128 →
      ∀ ds, spec_descriptors fuel contents 16 = some ds →
        (∀ d ∈ ds, ¬ spec_declares (d.2.getD 255) head cylinder) →
        stx.get_track_at_position head cylinder = some none) := by
  have hgt : head > 1 → stx.get_track_at_position head cylinder = some none := by
    intro h
    simp [STX.get_track_at_position, h]
  refine ⟨hgt, ?_⟩
  intro h0 hc0 hc ds hds hnone
  by_cases h1 : head > 1
  · exact hgt h1
  obtain ⟨ds', hds', htable⟩ := table_of_new fuel contents hbytes stx hopen
  rw [hds] at hds'
  cases hds'
  obtain ⟨idx, hidx⟩ : ∃ idx : Nat, head * 0x80 + cylinder = (idx : Int) :=
    ⟨(head * 0x80 + cylinder).toNat, by omega⟩
  have hlt : idx < 256 := by omega
  have huntouched : ∀ d ∈ ds, d.2.getD 255 ≠ idx := by
    intro d hd heq
    apply hnone d hd
    rw [heq]
    constructor <;> omega
  have hentry : stx.offset_by_track_[idx]? = some 0 := by
    rw [htable, foldl_set_untouched ds _ idx huntouched, List.getElem?_replicate, if_pos hlt]
  have hneg : ¬ ((idx : Int) < 0) := by omega
  simp only [STX.get_track_at_position, h1, if_false, hneg, hidx, Int.toNat_ofNat, hentry,
    if_true]

/-- C9, amended, at the container with one descriptor, for head 1 and cylinder
2: head 2 with cylinder 2, and head 0 with cylinder 2, have no track. -/
theorem absent_track_witness :
    ∃ stx, STX.new 2 (spec_container [0x52, 0x53, 0x59, 0x00, 3, 0, 0, 0, 0, 0, 1, 0, 0, 0, 0, 0]
        [[16, 0, 0, 0, 0, 0, 0, 0, 0, 0, 1, 0, 0, 0, 0x82, 0]]) = some (.ok stx) ∧
      ((2 : Int) > 1 → stx.get_track_at_position 2 2 = some none) ∧
      ((0 : Int) ≤ 0 → (0 : Int) ≤ 2 → (2 : Int) < 128 →
        ∀ ds, spec_descriptors 2
          (spec_container [0x52, 0x53, 0x59, 0x00, 3, 0, 0, 0, 0, 0, 1, 0, 0, 0, 0, 0]
            [[16, 0, 0, 0, 0, 0, 0, 0, 0, 0, 1, 0, 0, 0, 0x82, 0]]) 16 = some ds →
          (∀ d ∈ ds, ¬ spec_declares (d.2.getD 255) 0 2) →
          stx.get_track_at_position 0 2 = some none) := by
  obtain ⟨stx, e, -⟩ := container_table
    [0x52, 0x53, 0x59, 0x00, 3, 0, 0, 0, 0, 0, 1, 0, 0, 0, 0, 0]
    [[16, 0, 0, 0, 0, 0, 0, 0, 0, 0, 1, 0, 0, 0, 0x82, 0]]
    ⟨by decide, by decide, by decide, by decide⟩
    (by
      intro r hr
      simp only [List.mem_singleton] at hr
      subst hr
      exact ⟨by decide, by decide, by decide⟩)
    (by decide)
  exact ⟨stx, e, (absent_track 2 _ (by decide) stx e 2 2).1,
    (absent_track 2 _ (by decide) stx e 0 2).2⟩

end Storage.Disk

namespace Apple.II

/-! ## Language card switches -/

theorem address_and (address m : Nat) (hm : 15 &&& m = m) :
    (address % 2 ^ 16) &&& m = (address % 16) &&& m := by
  have h16 : address % 2 ^ 16 = address &&& (2 ^ 16 - 1) :=
    (Nat.and_pow_two_sub_one_eq_mod address 16).symm
  have h4 : address % 16 = address &&& (2 ^ 4 - 1) :=
    (Nat.and_pow_two_sub_one_eq_mod address 4).symm
  have hm' : (2 ^ 16 - 1) &&& m = m := by
    have : (2 ^ 16 - 1) &&& 15 = 15 := by decide
    rw [← hm, ← Nat.and_assoc, this]
  rw [h16, h4, Nat.and_assoc, Nat.and_assoc, hm', show (2 ^ 4 - 1) &&& m = m from hm]

/-- C20 (READ ENABLE). For every prior state, every address and either access
kind, after `access(address, is_read)` the flag `read` is set if and only if the
low nibble of the address is one of 0x0, 0x3, 0x4, 0x7, 0x8, 0xB, 0xC, 0xF, that
is if and only if bits 0 and 1 of the address are equal; and `bank1` is bit 3 of
the address. -/
theorem read_enable (s : LanguageCardSwitches) (address : Nat) (is_read : Bool) :
    ((s.access address is_read).1.state_.read = true ↔
      address % 16 ∈ [0x0, 0x3, 0x4, 0x7, 0x8, 0xB, 0xC, 0xF]) ∧
    ((s.access address is_read).1.state_.read = true ↔
      address.testBit 0 = address.testBit 1) ∧
    (s.access address is_read).1.state_.bank1 = address.testBit 3 := by
  have h1 := address_and address 1 (by decide)
  have h2 := address_and address 2 (by decide)
  have h8 := address_and address 8 (by decide)
  have t0 : address.testBit 0 = (address % 16).testBit 0 := by
    rw [show (16 : Nat) = 2 ^ 4 from rfl, Nat.testBit_mod_two_pow]; simp
  have t1 : address.testBit 1 = (address % 16).testBit 1 := by
    rw [show (16 : Nat) = 2 ^ 4 from rfl, Nat.testBit_mod_two_pow]; simp
  have t3 : address.testBit 3 = (address % 16).testBit 3 := by
    rw [show (16 : Nat) = 2 ^ 4 from rfl, Nat.testBit_mod_two_pow]; simp
  have hlt : address % 16 < 16 := Nat.mod_lt _ (by decide)
  have hread : (s.access address is_read).1.state_.read
      = decide (((((address % 16) &&& 2) >>> 1) ^^^ ((address % 16) &&& 1)) = 0) := by
    simp only [LanguageCardSwitches.access, h1, h2]
    split_ifs <;> rfl
  have hbank : (s.access address is_read).1.state_.bank1
      = decide ((address % 16) &&& 8 ≠ 0) := by
    simp only [LanguageCardSwitches.access, h8]
    split_ifs <;> rfl
  rw [hread, hbank, t0, t1, t3]
  generalize address % 16 = n at hlt
  interval_cases n <;> decide

end Apple.II

namespace Storage.Disk

/-! ## STX: track assembly -/

set_option maxRecDepth 100000 in
/-- C17 at two tracks without sectors whose descriptors declare a length of 2
bytes (`track_length` 16): from a raw image of 16 bytes the assembly loop
copies all 16, not 2, since it compares the count of bytes walked with a count
of bits; from a raw image of 2 bytes, as long as declared, it reads
`track_data` beyond its end. -/
theorem track_length_compared_with_bytes :
    (∃ stx, STX.new 2 ([0x52, 0x53, 0x59, 0x00, 3, 0, 0, 0, 0, 0, 1, 0, 0, 0, 0, 0] ++
          [34, 0, 0, 0, 0, 0, 0, 0, 0, 0, 0x41, 0, 2, 0, 0, 0] ++
          [16, 0, 1, 2, 3, 4, 5, 6, 7, 8, 9, 10, 11, 12, 13, 14, 15, 16]) = some (.ok stx) ∧
      stx.get_track_at_position 0 0 = some (some (.pcm
        [.add_byte 1, .add_byte 2, .add_byte 3, .add_byte 4, .add_byte 5, .add_byte 6,
         .add_byte 7, .add_byte 8, .add_byte 9, .add_byte 10, .add_byte 11, .add_byte 12,
         .add_byte 13, .add_byte 14, .add_byte 15, .add_byte 16]))) ∧
    (∃ stx, STX.new 2 ([0x52, 0x53, 0x59, 0x00, 3, 0, 0, 0, 0, 0, 1, 0, 0, 0, 0, 0] ++
          [20, 0, 0, 0, 0, 0, 0, 0, 0, 0, 0x41, 0, 2, 0, 0, 0] ++
          [2, 0, 1, 2]) = some (.ok stx) ∧
      stx.get_track_at_position 0 0 = none) ∧
    assemble [1, 2] 16 [] 0 = none :=
  ⟨⟨_, rfl, rfl⟩, ⟨_, rfl, rfl⟩, rfl⟩

end Storage.Disk

namespace Storage.Disk

set_option maxRecDepth 100000 in
/-- C18 at a track whose raw image holds no mark and whose one sector declares
a data offset inside the image: the search for the data mark ends at the end of
`potential_marks`, and the loop that recedes to an ID mark dereferences that
iterator. The same happens to `data_mark` when an ID mark is the last mark, and
the comparison of address bytes reads beyond the image when an ID mark sits in
its last three bytes. -/
theorem correlation_dereferences_end :
    (∃ stx, STX.new 2 ([82, 83, 89, 0, 3, 0, 0, 0, 0, 0, 1, 0, 0, 0, 0, 0] ++
          [42, 0, 0, 0, 0, 0, 0, 0, 1, 0, 65, 0, 1, 0, 0, 0] ++
          [2, 0, 0, 0, 0, 0, 0, 0, 0, 0, 1, 0, 0, 0, 16, 0, 8, 0, 78, 78, 78, 78, 78, 78, 78, 78]) = some (.ok stx) ∧
      stx.get_track_at_position 0 0 = none) ∧
    correlate [78, 78, 78, 78, 78, 78, 78, 78] (potential_marks [78, 78, 78, 78, 78, 78, 78, 78])
      [{ data_offset := 2, address := [0, 0, 1, 0, 0, 0], status := 0x10 }] 0 = none ∧
    correlate [0xa1, 0xa1, 0xfe, 0, 0, 1, 0] (potential_marks [0xa1, 0xa1, 0xfe, 0, 0, 1, 0])
      [{ data_offset := 100, address := [0, 0, 1, 0, 0, 0], status := 0 }] 0 = none ∧
    correlate [0x4e, 0xa1, 0xa1, 0xfe, 0] (potential_marks [0x4e, 0xa1, 0xa1, 0xfe, 0])
      [{ data_offset := 100, address := [0, 0, 1, 0, 0, 0], status := 0x10 }] 0 = none :=
  ⟨⟨_, rfl, rfl⟩, rfl, rfl, rfl⟩

set_option maxRecDepth 100000 in
/-- C19 at a track of 24 bytes with one sector whose data mark sits at offset
15 of the raw image, an ID mark at offset 4 before it: `15 - 150` wraps around
as a `size_t`, no ID mark passes the test, the header offset becomes `15 - 50`,
which wraps around as well, and the count of bytes to copy before the sector
is 2^64 - 35: the copy loop reads `track_data` beyond its end. -/
theorem assembly_reads_beyond_image :
    (∃ stx, STX.new 2 ([82, 83, 89, 0, 3, 0, 0, 0, 0, 0, 1, 0, 0, 0, 0, 0] ++
          [58, 0, 0, 0, 0, 0, 0, 0, 1, 0, 65, 0, 3, 0, 0, 0] ++
          [15, 0, 0, 0, 104, 0, 0, 0, 0, 0, 1, 0, 17, 34, 16, 0, 24, 0, 78, 78, 161, 161, 254, 0, 0, 1, 0, 17, 34, 78, 78, 161, 161, 251, 78, 78, 78, 78, 78, 78, 78, 78]) = some (.ok stx) ∧
      stx.get_track_at_position 0 0 = none) ∧
    correlate [78, 78, 161, 161, 254, 0, 0, 1, 0, 17, 34, 78, 78, 161, 161, 251, 78, 78, 78, 78, 78, 78, 78, 78]
      (potential_marks [78, 78, 161, 161, 254, 0, 0, 1, 0, 17, 34, 78, 78, 161, 161, 251, 78, 78, 78, 78, 78, 78, 78, 78])
      [{ data_offset := 15, bit_position := 104, address := [0, 0, 1, 0, 0x11, 0x22],
          status := 0x10 }] 0 =
      some [{ data_offset := 15, bit_position := 104, address := [0, 0, 1, 0, 0x11, 0x22],
               status := 0x10, track_offset_of_header := 2 ^ 64 - 35,
               track_offset_of_data := 15 }] ∧
    assemble [78, 78, 161, 161, 254, 0, 0, 1, 0, 17, 34, 78, 78, 161, 161, 251, 78, 78, 78, 78, 78, 78, 78, 78] 24
      [{ data_offset := 15, bit_position := 104, address := [0, 0, 1, 0, 0x11, 0x22],
          status := 0x10, track_offset_of_header := 2 ^ 64 - 35,
          track_offset_of_data := 15 }] 0 = none :=
  ⟨⟨_, rfl, rfl⟩, by decide, by decide⟩

end Storage.Disk

namespace Storage.Disk

/-! ### Reading a track descriptor -/

theorem file_eta (f : FileHolder) :
    f = { contents := f.contents, position := f.position, eof_ := f.eof_ } := rfl

theorem get16le_some (contents : List Nat) (hbytes : ∀ b ∈ contents, b < 256)
    (p : Nat) (e : Bool) (v : Nat) (h : spec_le16 contents p = some v) :
    FileHolder.get16le { contents := contents, position := p, eof_ := e }
      = (v, { contents := contents, position := p + 2, eof_ := e }) := by
  unfold spec_le16 at h
  split at h
  · rename_i lo hi h0 h1
    have hv := le16_value lo hi (getElem?_lt_256 hbytes h0) (getElem?_lt_256 hbytes h1)
    simp only [Option.some.injEq] at h
    simp only [FileHolder.get16le, FileHolder.fgetc, h0, h1, hv, h]
  · cases h

theorem get32le_some_any (contents : List Nat) (hbytes : ∀ b ∈ contents, b < 256)
    (p : Nat) (e : Bool) (v : Nat) (h : spec_le32 contents p = some v) :
    FileHolder.get32le { contents := contents, position := p, eof_ := e }
      = (v, { contents := contents, position := p + 4, eof_ := e }) := by
  unfold spec_le32 at h
  split at h
  · rename_i b0 b1 b2 b3 h0 h1 h2 h3
    have hv := le32_value b0 b1 b2 b3 (getElem?_lt_256 hbytes h0) (getElem?_lt_256 hbytes h1)
      (getElem?_lt_256 hbytes h2) (getElem?_lt_256 hbytes h3)
    simp only [Option.some.injEq] at h
    simp only [FileHolder.get32le, FileHolder.fgetc, h0, h1, h2, h3, hv, h]
  · cases h

theorem getElem?_some_of_lt (contents : List Nat) (i : Nat) (h : i < contents.length) :
    ∃ b, contents[i]? = some b := ⟨contents[i], List.getElem?_eq_getElem h⟩

theorem spec_le16_exists (contents : List Nat) (p : Nat) (h : p + 2 ≤ contents.length) :
    ∃ v, spec_le16 contents p = some v := by
  obtain ⟨lo, h0⟩ := getElem?_some_of_lt contents p (by omega)
  obtain ⟨hi, h1⟩ := getElem?_some_of_lt contents (p + 1) (by omega)
  exact ⟨lo + 256 * hi, by simp only [spec_le16, h0, h1]⟩

theorem spec_le32_exists (contents : List Nat) (p : Nat) (h : p + 4 ≤ contents.length) :
    ∃ v, spec_le32 contents p = some v := by
  obtain ⟨b0, h0⟩ := getElem?_some_of_lt contents p (by omega)
  obtain ⟨b1, h1⟩ := getElem?_some_of_lt contents (p + 1) (by omega)
  obtain ⟨b2, h2⟩ := getElem?_some_of_lt contents (p + 2) (by omega)
  obtain ⟨b3, h3⟩ := getElem?_some_of_lt contents (p + 3) (by omega)
  exact ⟨b0 + 256 * b1 + 65536 * b2 + 16777216 * b3, by simp only [spec_le32, h0, h1, h2, h3]⟩

/-- What `get_track_at_position` does once it has found the offset of a
descriptor that lies wholly in the file: the four fields it reads and the
branch on bit 0 of the flags. -/
theorem track_at_offset_eq (f : FileHolder) (hbytes : ∀ b ∈ f.contents, b < 256)
    (offset : Nat) (position head : Int)
    (fuzzy_size sector_count flags track_bytes : Nat)
    (hf : spec_le32 f.contents (offset + 4) = some fuzzy_size)
    (hc : spec_le16 f.contents (offset + 8) = some sector_count)
    (hfl : spec_le16 f.contents (offset + 10) = some flags)
    (ht : spec_le16 f.contents (offset + 12) = some track_bytes) :
    track_at_offset f offset position head =
      if flags &&& 1 = 0 then
        (track_for_sectors ((f.contents.drop (offset + 16)).take (sector_count * 512))
          sector_count (position % 256).toNat (head % 256).toNat 1 2 true).map some
      else
        extended_track { contents := f.contents, position := offset + 16, eof_ := false }
          fuzzy_size sector_count flags (track_bytes <<< 3) position head := by
  have hseek : f.seek ((offset : Int) + 4) .SEEK_SET
      = { contents := f.contents, position := offset + 4, eof_ := false } := by
    have := seek_set f.contents f.position f.eof_ (offset + 4)
    push_cast at this
    rw [← file_eta] at this
    exact this
  have h1 := get32le_some_any f.contents hbytes (offset + 4) false fuzzy_size hf
  have h2 := get16le_some f.contents hbytes (offset + 4 + 4) false sector_count hc
  have h3 := get16le_some f.contents hbytes (offset + 4 + 4 + 2) false flags hfl
  have h4 := get16le_some f.contents hbytes (offset + 4 + 4 + 2 + 2) false track_bytes ht
  have h5 := seek_cur f.contents (offset + 4 + 4 + 2 + 2 + 2) false 2
  simp only [Nat.cast_ofNat] at h5
  unfold track_at_offset
  dsimp only
  rw [hseek, h1]
  dsimp only
  rw [h2]
  dsimp only
  rw [h3]
  dsimp only
  rw [h4]
  dsimp only
  rw [h5]
  by_cases hb : flags &&& 1 = 0
  · rw [if_pos hb, if_pos hb]
    rfl
  · rw [if_neg hb, if_neg hb]

/-! ### The file holder keeps the bytes of the file -/

theorem fgetc_contents (f : FileHolder) : f.fgetc.2.contents = f.contents := by
  unfold FileHolder.fgetc
  split <;> rfl

theorem get8_contents (f : FileHolder) : f.get8.2.contents = f.contents := by
  simp only [FileHolder.get8, fgetc_contents]

theorem get32le_contents (f : FileHolder) : f.get32le.2.contents = f.contents := by
  simp only [FileHolder.get32le, fgetc_contents]

theorem seek_contents (f : FileHolder) (offset : Int) (whence : Whence) :
    (f.seek offset whence).contents = f.contents := by
  unfold FileHolder.seek
  dsimp only
  split <;> rfl

theorem parse_tracks_contents (fuel : Nat) :
    ∀ (f : FileHolder) (table : List Nat) (r : FileHolder × List Nat),
      STX.parse_tracks fuel f table = some r → r.1.contents = f.contents := by
  induction fuel with
  | zero => intro f table r h; cases h
  | succ fuel ih =>
    intro f table r h
    unfold STX.parse_tracks at h
    dsimp only at h
    split at h
    · cases h
      exact get32le_contents f
    · have := ih _ _ r h
      rw [this, seek_contents, get8_contents, seek_contents, get32le_contents]

theorem parse_header_contents (fuel : Nat) (f : FileHolder) (stx : STX)
    (h : STX.parse_header fuel f = some stx) : stx.file_.contents = f.contents := by
  unfold STX.parse_header at h
  dsimp only at h
  split at h
  · cases h
  · rename_i file_ table heq
    cases h
    have := parse_tracks_contents fuel _ _ _ heq
    rw [this, seek_contents, get8_contents, get8_contents, seek_contents]

/-- An opened container holds the bytes of its file. -/
theorem contents_of_new (fuel : Nat) (contents : List Nat)
    (hbytes : ∀ b ∈ contents, b < 256) (stx : STX)
    (hopen : STX.new fuel contents = some (.ok stx)) : stx.file_.contents = contents := by
  rcases new_cases fuel contents hbytes with ⟨-, -, h⟩ | ⟨-, h⟩
  · rw [h] at hopen
    cases hp : STX.parse_header fuel { contents := contents, position := 6, eof_ := false } with
    | none => rw [hp] at hopen; cases hopen
    | some stx' =>
      rw [hp] at hopen
      simp only [Option.map_some', Option.some.injEq, Except.ok.injEq] at hopen
      subst hopen
      exact parse_header_contents fuel _ _ hp
  · rw [h] at hopen; cases hopen

end Storage.Disk

namespace Storage.Disk

/-! ## STX: reading a track -/

/-- C11 (plain sector dump). For every opened container and every recorded
track (head 0 or 1, a non-zero table entry) whose flags have bit 0 clear, whose
sector count is `N` and whose `N * 512` bytes of sector contents lie in the
file: `get_track_at_position` returns the track that `track_for_sectors` builds
for `N` sectors, the requested cylinder and head, first sector number 1 and
size code 2 (512 bytes), from the `N * 512` file bytes that immediately follow
the 16-byte descriptor, in file order. -/
theorem plain_sector_dump (fuel : Nat) (contents : List Nat)
    (hbytes : ∀ b ∈ contents, b < 256) (stx : STX)
    (hopen : STX.new fuel contents = some (.ok stx))
    (head cylinder : Int) (hhead : 0 ≤ head) (hhead' : head ≤ 1) (hcyl : 0 ≤ cylinder)
    (offset : Nat)
    (hrecorded : stx.offset_by_track_[(head * 0x80 + cylinder).toNat]? = some offset)
    (hpresent : offset ≠ 0)
    (N flags : Nat) (hN : spec_le16 contents (offset + 8) = some N)
    (hflags : spec_le16 contents (offset + 10) = some flags) (hplain : flags &&& 1 = 0)
    (hlen : offset + 16 + N * 512 ≤ contents.length) :
    stx.get_track_at_position head cylinder =
      some (some (.for_sectors ((contents.drop (offset + 16)).take (N * 512)) N
        cylinder.toNat head.toNat 1 2 true)) ∧
    ((contents.drop (offset + 16)).take (N * 512)).length = N * 512 ∧
    128 <<< 2 = 512 := by
  have hc := contents_of_new fuel contents hbytes stx hopen
  have hl := table_length_of_new fuel contents hbytes stx hopen
  have hidx : (head * 0x80 + cylinder).toNat < 256 := by
    have := (List.getElem?_eq_some_iff.mp hrecorded).1
    omega
  obtain ⟨fuzzy_size, hf⟩ := spec_le32_exists contents (offset + 4) (by omega)
  obtain ⟨track_bytes, ht⟩ := spec_le16_exists contents (offset + 12) (by omega)
  have heq := track_at_offset_eq stx.file_ (by rw [hc]; exact hbytes) offset cylinder head
    fuzzy_size N flags track_bytes (by rw [hc]; exact hf) (by rw [hc]; exact hN)
    (by rw [hc]; exact hflags) (by rw [hc]; exact ht)
  rw [if_pos hplain, hc] at heq
  have h1 : ¬ head > 1 := by omega
  have h2 : ¬ (head * 0x80 + cylinder < 0) := by omega
  have hcast : (cylinder % 256).toNat = cylinder.toNat := by omega
  have hcast' : (head % 256).toNat = head.toNat := by omega
  refine ⟨?_, ?_, by decide⟩
  · unfold STX.get_track_at_position
    rw [if_neg h1]
    dsimp only
    rw [if_neg h2, hrecorded]
    dsimp only
    rw [if_neg hpresent, heq, hcast, hcast']
    rfl
  · rw [List.length_take, List.length_drop]
    omega

set_option maxRecDepth 100000 in
/-- C11, at a container with one track, head 1 and cylinder 2, a plain dump of
one sector whose bytes are all 0x42. -/
theorem plain_sector_dump_witness :
    ∃ stx, STX.new 2 ([0x52, 0x53, 0x59, 0x00, 3, 0, 0, 0, 0, 0, 1, 0, 0, 0, 0, 0] ++
          [16, 2, 0, 0, 0, 0, 0, 0, 1, 0, 0, 0, 0, 2, 0x82, 0] ++ List.replicate 512 0x42)
        = some (.ok stx) ∧
      stx.get_track_at_position 1 2 =
        some (some (.for_sectors
          ((([0x52, 0x53, 0x59, 0x00, 3, 0, 0, 0, 0, 0, 1, 0, 0, 0, 0, 0] ++
            [16, 2, 0, 0, 0, 0, 0, 0, 1, 0, 0, 0, 0, 2, 0x82, 0] ++
            List.replicate 512 0x42).drop (16 + 16)).take (1 * 512)) 1
          (2 : Int).toNat (1 : Int).toNat 1 2 true)) ∧
      ((([0x52, 0x53, 0x59, 0x00, 3, 0, 0, 0, 0, 0, 1, 0, 0, 0, 0, 0] ++
            [16, 2, 0, 0, 0, 0, 0, 0, 1, 0, 0, 0, 0, 2, 0x82, 0] ++
            List.replicate 512 0x42).drop (16 + 16)).take (1 * 512)).length = 1 * 512 ∧
      128 <<< 2 = 512 := by
  refine ⟨_, rfl, ?_⟩
  exact plain_sector_dump 2 _ (by decide) _ (by rfl) 1 2 (by decide) (by decide) (by decide)
    16 (by rfl) (by decide) 1 0 (by rfl) (by rfl) (by rfl) (by decide)

end Storage.Disk

namespace Storage.Disk

/-! ### Sectors keep their records -/

theorem data_size_of_record (s t : Sector) (h : s.record = t.record) :
    s.data_size = t.data_size := by
  have : s.address = t.address := by
    simp only [Sector.record, Prod.mk.injEq] at h
    exact h.2.2.2.1
  simp only [Sector.data_size, this]

theorem read_fuzzy_masks_records (fuzzy_size : Nat) (sectors : List Sector) :
    ∀ (n : Nat) (f : FileHolder) (r : List Sector × Nat × FileHolder),
      read_fuzzy_masks fuzzy_size sectors n f = some r →
      r.1.map Sector.record = sectors.map Sector.record := by
  induction sectors with
  | nil => intro n f r h; cases h; rfl
  | cons s rest ih =>
    intro n f r h
    unfold read_fuzzy_masks at h
    split at h
    · cases hr : read_fuzzy_masks fuzzy_size rest n f with
      | none => rw [hr] at h; cases h
      | some r' =>
        rw [hr] at h
        cases h
        simp only [List.map_cons, ih n f r' hr]
    · split at h
      · cases h
      · split at h
        · cases h; rfl
        · dsimp only at h
          cases hr : read_fuzzy_masks fuzzy_size rest _ _ with
          | none => rw [hr] at h; cases h
          | some r' =>
            rw [hr] at h
            cases h
            simp only [List.map_cons, ih _ _ r' hr]
            rfl

theorem read_sector_contents_records (sector_start : Nat) (sectors : List Sector) :
    ∀ (e : Nat) (f : FileHolder) (r : List Sector × Nat × FileHolder),
      read_sector_contents sector_start sectors e f = some r →
      r.1.map Sector.record = sectors.map Sector.record := by
  induction sectors with
  | nil => intro e f r h; cases h; rfl
  | cons s rest ih =>
    intro e f r h
    unfold read_sector_contents at h
    split at h
    · split at h
      · cases h
      · dsimp only at h
        cases hr : read_sector_contents sector_start rest _ _ with
        | none => rw [hr] at h; cases h
        | some r' =>
          rw [hr] at h
          cases h
          simp only [List.map_cons, ih _ _ r' hr]
          rfl
    · cases hr : read_sector_contents sector_start rest e f with
      | none => rw [hr] at h; cases h
      | some r' =>
        rw [hr] at h
        cases h
        simp only [List.map_cons, ih _ _ r' hr]

theorem read_fuzzy_masks_defined (fuzzy_size : Nat) (sectors : List Sector) :
    ∀ (n : Nat) (f : FileHolder), (∀ s ∈ sectors, s.data_size ≠ none) →
      read_fuzzy_masks fuzzy_size sectors n f ≠ none := by
  induction sectors with
  | nil => intro n f _ h; cases h
  | cons s rest ih =>
    intro n f hall
    have hs := hall s (by simp)
    have hrest : ∀ x ∈ rest, x.data_size ≠ none := fun x hx => hall x (by simp [hx])
    unfold read_fuzzy_masks
    split
    · have := ih n f hrest
      cases hr : read_fuzzy_masks fuzzy_size rest n f with
      | none => exact absurd hr this
      | some r => simp
    · split
      · rename_i hd; exact absurd hd hs
      · split
        · simp
        · dsimp only
          cases hr : read_fuzzy_masks fuzzy_size rest _ _ with
          | none => exact absurd hr (ih _ _ hrest)
          | some r => simp

theorem read_sector_contents_defined (sector_start : Nat) (sectors : List Sector) :
    ∀ (e : Nat) (f : FileHolder), (∀ s ∈ sectors, s.data_size ≠ none) →
      read_sector_contents sector_start sectors e f ≠ none := by
  induction sectors with
  | nil => intro e f _ h; cases h
  | cons s rest ih =>
    intro e f hall
    have hs := hall s (by simp)
    have hrest : ∀ x ∈ rest, x.data_size ≠ none := fun x hx => hall x (by simp [hx])
    unfold read_sector_contents
    split
    · split
      · rename_i hd; exact absurd hd hs
      · dsimp only
        cases hr : read_sector_contents sector_start rest _ _ with
        | none => exact absurd hr (ih _ _ hrest)
        | some r => simp
    · have := ih e f hrest
      cases hr : read_sector_contents sector_start rest e f with
      | none => exact absurd hr this
      | some r => simp

end Storage.Disk

namespace Storage.Disk

theorem read_track_data_without_flag (f : FileHolder) (flags : Nat) (h : flags &&& 0x40 = 0) :
    (read_track_data f flags).1 = [] := by
  simp [read_track_data, h]

theorem read_track_data_size_zero (f : FileHolder) (flags : Nat)
    (h : declared_image_size f flags = 0) : (read_track_data f flags).1 = [] := by
  unfold read_track_data
  unfold declared_image_size at h
  by_cases h40 : flags &&& 0x40 ≠ 0
  · rw [if_pos h40]
    by_cases h80 : flags &&& 0x80 ≠ 0
    · rw [if_pos h80] at h ⊢
      dsimp only
      rw [h]
      simp [FileHolder.read]
    · rw [if_neg h80] at h ⊢
      dsimp only
      rw [h]
      simp [FileHolder.read]
  · rw [if_neg h40]

theorem build_track_without_image (sectors : List Sector) (track_length : Nat) :
    build_track [] sectors track_length = some none := rfl

theorem read_sectors_records (f : FileHolder) (fuzzy_size sector_count flags : Nat)
    (hext : flags &&& 1 ≠ 0) (sectors : List Sector) (f1 : FileHolder)
    (h : read_sectors f fuzzy_size sector_count flags = some (sectors, f1)) :
    sectors.map Sector.record = (read_sector_records sector_count f).1.map Sector.record := by
  unfold read_sectors at h
  rw [if_pos hext] at h
  dsimp only at h
  split at h
  · split at h
    · cases h
    · rename_i s' n' f' heq
      cases h
      exact read_fuzzy_masks_records _ _ _ _ _ heq
  · cases h; rfl

theorem read_sectors_defined (f : FileHolder) (fuzzy_size sector_count flags : Nat)
    (hall : ∀ s ∈ (read_sector_records sector_count f).1, s.data_size ≠ none) :
    read_sectors f fuzzy_size sector_count flags ≠ none := by
  unfold read_sectors
  split
  · dsimp only
    split
    · have := read_fuzzy_masks_defined fuzzy_size (read_sector_records sector_count f).1 0
        (read_sector_records sector_count f).2 hall
      split
      · rename_i heq; exact absurd heq this
      · simp
    · simp
  · simp

theorem data_size_defined_of_records (sectors sectors' : List Sector)
    (h : sectors.map Sector.record = sectors'.map Sector.record)
    (hall : ∀ s ∈ sectors', s.data_size ≠ none) : ∀ s ∈ sectors, s.data_size ≠ none := by
  intro s hs
  obtain ⟨i, hi, rfl⟩ := List.getElem_of_mem hs
  have hlen : sectors.length = sectors'.length := by
    have := congrArg List.length h
    simpa using this
  have hi' : i < sectors'.length := by omega
  have hrec : sectors[i].record = sectors'[i].record := by
    have := congrArg (fun l => l[i]?) h
    simp only [List.getElem?_map, List.getElem?_eq_getElem hi, List.getElem?_eq_getElem hi',
      Option.map_some', Option.some.injEq] at this
    exact this
  rw [data_size_of_record _ _ hrec]
  exact hall _ (List.getElem_mem hi')

theorem read_contents_defined (f : FileHolder) (sectors : List Sector)
    (sector_start sector_count : Nat) (position head : Int)
    (hall : ∀ s ∈ sectors, s.data_size ≠ none) :
    read_contents f sectors sector_start sector_count position head ≠ none := by
  unfold read_contents
  split
  · simp
  · have := read_sector_contents_defined sector_start sectors f.tell f hall
    split
    · rename_i heq; exact absurd heq this
    · simp

/-- An extended track for which no raw track bytes are read is no track. -/
theorem extended_track_without_image (f : FileHolder)
    (fuzzy_size sector_count flags track_length : Nat) (position head : Int)
    (hext : flags &&& 1 ≠ 0)
    (hnone : ∀ sectors f1, read_sectors f fuzzy_size sector_count flags = some (sectors, f1) →
      (read_track_data f1 flags).1 = []) :
    (∀ t, extended_track f fuzzy_size sector_count flags track_length position head
      ≠ some (some t)) ∧
    ((∀ s ∈ (read_sector_records sector_count f).1, s.data_size ≠ none) →
      extended_track f fuzzy_size sector_count flags track_length position head
        = some none) := by
  unfold extended_track
  cases hr : read_sectors f fuzzy_size sector_count flags with
  | none =>
    refine ⟨fun t h => (by cases h), fun hall => ?_⟩
    exact absurd hr (read_sectors_defined f fuzzy_size sector_count flags hall)
  | some r =>
    obtain ⟨sectors, f1⟩ := r
    have himg := hnone sectors f1 hr
    have hrec := read_sectors_records f fuzzy_size sector_count flags hext sectors f1 hr
    dsimp only
    generalize hrt : read_track_data f1 flags = rt at himg
    obtain ⟨track_data, f2⟩ := rt
    simp only at himg
    subst himg
    dsimp only
    cases hc : read_contents f2 sectors f1.tell sector_count position head with
    | none =>
      refine ⟨fun t h => (by cases h), fun hall => ?_⟩
      exact absurd hc (read_contents_defined f2 sectors _ _ _ _
        (data_size_defined_of_records _ _ hrec hall))
    | some r' =>
      obtain ⟨sectors', f3⟩ := r'
      dsimp only
      rw [build_track_without_image]
      exact ⟨fun t h => (by cases h), fun _ => rfl⟩

end Storage.Disk

namespace Storage.Disk

/-- For a recorded track, `get_track_at_position` goes on to read the
descriptor at the offset the table holds. -/
theorem get_track_recorded (stx : STX) (head cylinder : Int) (hhead : head ≤ 1)
    (hindex : 0 ≤ head * 0x80 + cylinder) (offset : Nat)
    (hrecorded : stx.offset_by_track_[(head * 0x80 + cylinder).toNat]? = some offset)
    (hpresent : offset ≠ 0) :
    stx.get_track_at_position head cylinder = track_at_offset stx.file_ offset cylinder head := by
  have h1 : ¬ head > 1 := by omega
  have h2 : ¬ (head * 0x80 + cylinder < 0) := by omega
  unfold STX.get_track_at_position
  rw [if_neg h1]
  dsimp only
  rw [if_neg h2, hrecorded]
  dsimp only
  rw [if_neg hpresent]

/-- The track of a descriptor that lies in the file and has bit 0 of its flags
set is the extended track read from the end of the descriptor on. -/
theorem get_track_extended (fuel : Nat) (contents : List Nat)
    (hbytes : ∀ b ∈ contents, b < 256) (stx : STX)
    (hopen : STX.new fuel contents = some (.ok stx))
    (head cylinder : Int) (hhead : head ≤ 1) (hindex : 0 ≤ head * 0x80 + cylinder)
    (offset : Nat)
    (hrecorded : stx.offset_by_track_[(head * 0x80 + cylinder).toNat]? = some offset)
    (hpresent : offset ≠ 0) (fuzzy_size sector_count flags track_bytes : Nat)
    (hf : spec_le32 contents (offset + 4) = some fuzzy_size)
    (hc : spec_le16 contents (offset + 8) = some sector_count)
    (hfl : spec_le16 contents (offset + 10) = some flags)
    (ht : spec_le16 contents (offset + 12) = some track_bytes)
    (hext : flags &&& 1 ≠ 0) :
    stx.get_track_at_position head cylinder =
      extended_track { contents := contents, position := offset + 16, eof_ := false }
        fuzzy_size sector_count flags (track_bytes <<< 3) cylinder head := by
  have hcont := contents_of_new fuel contents hbytes stx hopen
  have heq := track_at_offset_eq stx.file_ (by rw [hcont]; exact hbytes) offset cylinder head
    fuzzy_size sector_count flags track_bytes (by rw [hcont]; exact hf)
    (by rw [hcont]; exact hc) (by rw [hcont]; exact hfl) (by rw [hcont]; exact ht)
  rw [if_neg hext, hcont] at heq
  rw [get_track_recorded stx head cylinder hhead hindex offset hrecorded hpresent, heq]

/-- C13 (no raw image). For every opened container and every recorded track
whose descriptor lies in the file and has bit 0 of its flags set: if no raw
track bytes are read, because flag bit 6 is clear or because the declared image
size is 0, `get_track_at_position` returns no track whatever sectors the table
lists: it never returns a track, and it returns the null pointer whenever
`128 << size-code` is defined for the sectors of the table. -/
theorem no_raw_image (fuel : Nat) (contents : List Nat)
    (hbytes : ∀ b ∈ contents, b < 256) (stx : STX)
    (hopen : STX.new fuel contents = some (.ok stx))
    (head cylinder : Int) (hhead : head ≤ 1) (hindex : 0 ≤ head * 0x80 + cylinder)
    (offset : Nat)
    (hrecorded : stx.offset_by_track_[(head * 0x80 + cylinder).toNat]? = some offset)
    (hpresent : offset ≠ 0) (fuzzy_size sector_count flags track_bytes : Nat)
    (hf : spec_le32 contents (offset + 4) = some fuzzy_size)
    (hc : spec_le16 contents (offset + 8) = some sector_count)
    (hfl : spec_le16 contents (offset + 10) = some flags)
    (ht : spec_le16 contents (offset + 12) = some track_bytes)
    (hext : flags &&& 1 ≠ 0)
    (hnone : flags &&& 0x40 = 0 ∨
      ∀ sectors f1,
        read_sectors { contents := contents, position := offset + 16, eof_ := false }
          fuzzy_size sector_count flags = some (sectors, f1) →
        declared_image_size f1 flags = 0) :
    (∀ t, stx.get_track_at_position head cylinder ≠ some (some t)) ∧
    ((∀ s ∈ (read_sector_records sector_count
          { contents := contents, position := offset + 16, eof_ := false }).1,
        s.data_size ≠ none) →
      stx.get_track_at_position head cylinder = some none) := by
  rw [get_track_extended fuel contents hbytes stx hopen head cylinder hhead hindex offset
    hrecorded hpresent fuzzy_size sector_count flags track_bytes hf hc hfl ht hext]
  apply extended_track_without_image _ _ _ _ _ _ _ hext
  intro sectors f1 hr
  rcases hnone with h | h
  · exact read_track_data_without_flag f1 flags h
  · exact read_track_data_size_zero f1 flags (h sectors f1 hr)

set_option maxRecDepth 100000 in
/-- C13, at a container whose one track has flags 0x01, an explicit sector table
with one sector and no raw image. -/
theorem no_raw_image_witness :
    ∃ stx, STX.new 2 ([0x52, 0x53, 0x59, 0x00, 3, 0, 0, 0, 0, 0, 1, 0, 0, 0, 0, 0] ++
          [32, 0, 0, 0, 0, 0, 0, 0, 1, 0, 0x01, 0, 1, 0, 0, 0] ++
          [0, 0, 0, 0, 0, 0, 0, 0, 0, 0, 1, 0, 0, 0, 0x10, 0]) = some (.ok stx) ∧
      (∀ t, stx.get_track_at_position 0 0 ≠ some (some t)) ∧
      ((∀ s ∈ (read_sector_records 1
          { contents := [0x52, 0x53, 0x59, 0x00, 3, 0, 0, 0, 0, 0, 1, 0, 0, 0, 0, 0] ++
              [32, 0, 0, 0, 0, 0, 0, 0, 1, 0, 0x01, 0, 1, 0, 0, 0] ++
              [0, 0, 0, 0, 0, 0, 0, 0, 0, 0, 1, 0, 0, 0, 0x10, 0],
            position := 16 + 16, eof_ := false }).1,
          s.data_size ≠ none) →
        stx.get_track_at_position 0 0 = some none) := by
  refine ⟨_, rfl, ?_⟩
  exact no_raw_image 2 _ (by decide) _ (by rfl) 0 0 (by decide) (by decide) 16 (by rfl)
    (by decide) 0 1 1 1 (by rfl) (by rfl) (by rfl) (by rfl) (by decide) (Or.inl (by decide))

end Storage.Disk

namespace Storage.Disk

/-! ### Track assembly -/

theorem copy_bytes_eq (track_data : List Nat) (start count : Nat) (out : List EncoderCall)
    (h : copy_bytes track_data start count = some out) :
    out = ((track_data.drop start).take count).map .add_byte := by
  unfold copy_bytes at h
  split at h
  · rename_i h0
    cases h
    simp [h0]
  · split at h
    · cases h; rfl
    · cases h

theorem output_header_eq (sector : Sector) (h6 : sector.address.length = 6) :
    output_header sector = some (spec_header_calls sector) := by
  obtain ⟨data_offset, bit_position, data_duration, address, status, fuzzy_mask, contents,
    address_has_crc, toh, tod⟩ := sector
  simp only at h6
  match address, h6 with
  | [a0, a1, a2, a3, a4, a5], _ =>
    cases address_has_crc <;> simp [output_header, spec_header_calls]

theorem output_body_eq (track_data : List Nat) (sector : Sector) (position : Nat)
    (r : List EncoderCall × Nat) (h : output_body track_data sector position = some r) :
    r.1 = spec_body_calls track_data sector position ∧
    r.2 = (if sector.status &&& 0x10 ≠ 0 then position
      else max position sector.track_offset_of_data + (sector.contents.length + 5)) := by
  unfold output_body at h
  unfold spec_body_calls
  split at h
  · rename_i h10
    split at h
    · cases h
    · rename_i gap hgap
      cases h
      have := copy_bytes_eq _ _ _ _ hgap
      simp [h10, this]
  · rename_i h10
    cases h
    simp [h10]

/-- One turn of the assembly loop at a sector: the raw bytes up to its header
offset, its header, its body, and the loop goes on with the next sector. -/
theorem assemble_cons (track_data : List Nat) (track_length : Nat) (sector : Sector)
    (rest : List Sector) (bytes_consumed : Nat) (out : List EncoderCall)
    (h : assemble track_data track_length (sector :: rest) bytes_consumed = some out)
    (hlt : bytes_consumed < track_length) (h6 : sector.address.length = 6) :
    ∃ lead tail,
      copy_bytes track_data bytes_consumed
        (size_t_sub sector.track_offset_of_header bytes_consumed) = some lead ∧
      assemble track_data track_length rest
        (if sector.status &&& 0x10 ≠ 0 then
          bytes_consumed + size_t_sub sector.track_offset_of_header bytes_consumed + 9
         else
          max (bytes_consumed + size_t_sub sector.track_offset_of_header bytes_consumed + 9)
            sector.track_offset_of_data + (sector.contents.length + 5)) = some tail ∧
      out = lead ++ spec_header_calls sector ++
        spec_body_calls track_data sector
          (bytes_consumed + size_t_sub sector.track_offset_of_header bytes_consumed + 9) ++
        tail := by
  unfold assemble at h
  rw [if_pos hlt] at h
  split at h
  · cases h
  · rename_i lead hlead
    dsimp only at h
    rw [output_header_eq sector h6] at h
    dsimp only at h
    split at h
    · cases h
    · rename_i body c' hbody
      obtain ⟨hb1, hb2⟩ := output_body_eq _ _ _ _ hbody
      simp only at hb1 hb2
      cases htail : assemble track_data track_length rest c' with
      | none => rw [htail] at h; cases h
      | some tail =>
        rw [htail] at h
        simp only [Option.map_some', Option.some.injEq] at h
        refine ⟨lead, tail, hlead, ?_, ?_⟩
        · rw [← hb2]; exact htail
        · rw [← h, hb1]

end Storage.Disk

namespace Storage.Disk

/-- C14 (header emission). In every turn of the assembly loop that reaches a
sector (the walk position is below `track_length`; the address field has its 6
bytes), the encoder receives, after the raw bytes up to the header offset and in
this order: an ID address mark, the four address bytes `address[0..3]`, and then
the two literal bytes `address[4]`, `address[5]` when the container recorded a
header CRC, or else a computed CRC that is wrong on purpose exactly when
`(status & 0x18) = 0x18`; what follows is emitted from the walk position
advanced by 9. -/
theorem header_emission (track_data : List Nat) (track_length : Nat) (sector : Sector)
    (rest : List Sector) (bytes_consumed : Nat) (out : List EncoderCall)
    (h : assemble track_data track_length (sector :: rest) bytes_consumed = some out)
    (hlt : bytes_consumed < track_length) (h6 : sector.address.length = 6) :
    ∃ lead after,
      copy_bytes track_data bytes_consumed
        (size_t_sub sector.track_offset_of_header bytes_consumed) = some lead ∧
      out = lead ++
        ([.add_ID_address_mark] ++ (sector.address.take 4).map .add_byte ++
          (if sector.address_has_crc then ((sector.address.drop 4).take 2).map .add_byte
           else [.add_crc (decide (sector.status &&& 0x18 = 0x18))])) ++ after ∧
      ∃ body position tail,
        output_body track_data sector
          (bytes_consumed + size_t_sub sector.track_offset_of_header bytes_consumed + 9)
          = some (body, position) ∧
        assemble track_data track_length rest position = some tail ∧
        after = body ++ tail := by
  unfold assemble at h
  rw [if_pos hlt] at h
  split at h
  · cases h
  · rename_i lead hlead
    dsimp only at h
    rw [output_header_eq sector h6] at h
    dsimp only at h
    split at h
    · cases h
    · rename_i body c' hbody
      cases htail : assemble track_data track_length rest c' with
      | none => rw [htail] at h; cases h
      | some tail =>
        rw [htail] at h
        simp only [Option.map_some', Option.some.injEq] at h
        refine ⟨lead, body ++ tail, hlead, ?_, body, c', tail, hbody, htail, rfl⟩
        rw [← h]
        simp only [spec_header_calls, List.append_assoc]

/-- C14, at a raw image of 24 bytes and a sector with header offset 4, data
offset 15 and a recorded header CRC. -/
theorem header_emission_witness :
    ∃ out, assemble
        [0x4e, 0x4e, 0xa1, 0xa1, 0xfe, 0, 0, 1, 0, 0x11, 0x22, 0x4e, 0x4e, 0xa1, 0xa1, 0xfb,
         0x4e, 0x4e, 0x4e, 0x4e, 0x4e, 0x4e, 0x4e, 0x4e] 24
        [{ address := [0, 0, 1, 0, 0x11, 0x22], contents := [0xe5, 0xe5],
           track_offset_of_header := 4, track_offset_of_data := 15 }] 0 = some out ∧
      ∃ lead after,
        lead = [.add_byte 0x4e, .add_byte 0x4e, .add_byte 0xa1, .add_byte 0xa1] ∧
        out = lead ++
          [.add_ID_address_mark, .add_byte 0, .add_byte 0, .add_byte 1, .add_byte 0,
           .add_byte 0x11, .add_byte 0x22] ++ after := by
  refine ⟨_, rfl, ?_⟩
  obtain ⟨lead, after, h1, h2, -⟩ := header_emission
    [0x4e, 0x4e, 0xa1, 0xa1, 0xfe, 0, 0, 1, 0, 0x11, 0x22, 0x4e, 0x4e, 0xa1, 0xa1, 0xfb,
     0x4e, 0x4e, 0x4e, 0x4e, 0x4e, 0x4e, 0x4e, 0x4e] 24
    { address := [0, 0, 1, 0, 0x11, 0x22], contents := [0xe5, 0xe5],
      track_offset_of_header := 4, track_offset_of_data := 15 } [] 0 _ rfl (by decide) rfl
  refine ⟨lead, after, ?_, h2⟩
  have : copy_bytes
      [0x4e, 0x4e, 0xa1, 0xa1, 0xfe, 0, 0, 1, 0, 0x11, 0x22, 0x4e, 0x4e, 0xa1, 0xa1, 0xfb,
       0x4e, 0x4e, 0x4e, 0x4e, 0x4e, 0x4e, 0x4e, 0x4e] 0 (size_t_sub 4 0)
      = some [.add_byte 0x4e, .add_byte 0x4e, .add_byte 0xa1, .add_byte 0xa1] := by decide
  rw [this] at h1
  exact (Option.some.inj h1).symm

/-- C15 (body emission). In every turn of the assembly loop that reaches a
sector, what the encoder receives after the header, from the walk position
`p` reached there, is: for a sector whose status has bit 0x10 clear, the raw
image bytes from `p` up to the sector's data offset, copied verbatim, then a
data address mark, then every content byte of the sector in order, then a CRC
that is wrong on purpose if and only if status bit 0x08 is set, after which the
walk stands at `max p data-offset + contents-length + 5`; for a sector with bit
0x10 set, nothing, and the walk stays at `p`. -/
theorem body_emission (track_data : List Nat) (track_length : Nat) (sector : Sector)
    (rest : List Sector) (bytes_consumed : Nat) (out : List EncoderCall)
    (h : assemble track_data track_length (sector :: rest) bytes_consumed = some out)
    (hlt : bytes_consumed < track_length) (h6 : sector.address.length = 6) :
    ∃ before header body tail p p',
      output_header sector = some header ∧
      p = bytes_consumed + size_t_sub sector.track_offset_of_header bytes_consumed + 9 ∧
      out = before ++ header ++ body ++ tail ∧
      assemble track_data track_length rest p' = some tail ∧
      (sector.status &&& 0x10 = 0 →
        body = ((track_data.drop p).take (sector.track_offset_of_data - p)).map .add_byte ++
          [.add_data_address_mark] ++ sector.contents.map .add_byte ++
          [.add_crc (decide (sector.status &&& 0x08 ≠ 0))] ∧
        p' = max p sector.track_offset_of_data + (sector.contents.length + 5)) ∧
      (sector.status &&& 0x10 ≠ 0 → body = [] ∧ p' = p) := by
  obtain ⟨lead, tail, -, htail, hout⟩ :=
    assemble_cons track_data track_length sector rest bytes_consumed out h hlt h6
  refine ⟨lead, spec_header_calls sector, _, tail, _, _, output_header_eq sector h6, rfl,
    hout, htail, ?_, ?_⟩
  · intro h10
    have : ¬ (sector.status &&& 0x10 ≠ 0) := fun hc => hc h10
    simp only [spec_body_calls, if_neg this, and_self]
  · intro h10
    simp only [spec_body_calls, if_pos h10, and_self]

/-- C15, at a raw image of 24 bytes and a sector with header offset 4, data
offset 15 and two content bytes. -/
theorem body_emission_witness :
    ∃ out, assemble
        [0x4e, 0x4e, 0xa1, 0xa1, 0xfe, 0, 0, 1, 0, 0x11, 0x22, 0x4e, 0x4e, 0xa1, 0xa1, 0xfb,
         0x4e, 0x4e, 0x4e, 0x4e, 0x4e, 0x4e, 0x4e, 0x4e] 24
        [{ address := [0, 0, 1, 0, 0x11, 0x22], contents := [0xe5, 0xe5],
           track_offset_of_header := 4, track_offset_of_data := 15 }] 0 = some out ∧
      ∃ before header body tail,
        out = before ++ header ++ body ++ tail ∧
        body = [.add_byte 0xa1, .add_byte 0xa1, .add_data_address_mark, .add_byte 0xe5,
          .add_byte 0xe5, .add_crc false] := by
  refine ⟨_, rfl, ?_⟩
  obtain ⟨before, header, body, tail, p, p', -, hp, hout, -, hbody, -⟩ := body_emission
    [0x4e, 0x4e, 0xa1, 0xa1, 0xfe, 0, 0, 1, 0, 0x11, 0x22, 0x4e, 0x4e, 0xa1, 0xa1, 0xfb,
     0x4e, 0x4e, 0x4e, 0x4e, 0x4e, 0x4e, 0x4e, 0x4e] 24
    { address := [0, 0, 1, 0, 0x11, 0x22], contents := [0xe5, 0xe5],
      track_offset_of_header := 4, track_offset_of_data := 15 } [] 0 _ rfl (by decide) rfl
  refine ⟨before, header, body, tail, hout, ?_⟩
  have hp' : p = 13 := by rw [hp]; decide
  subst hp'
  exact (hbody (by decide)).1

end Storage.Disk

namespace Storage.Disk

/-! ### The order of the sectors -/

section

attribute [local irreducible] FileHolder.get32le FileHolder.get16le FileHolder.get8
  FileHolder.read_into FileHolder.seek

theorem read_sector_records_length (count : Nat) :
    ∀ f : FileHolder, (read_sector_records count f).1.length = count := by
  induction count with
  | zero => intro f; rfl
  | succ n ih =>
    intro f
    unfold read_sector_records
    dsimp only
    rw [List.length_cons, ih]

end

theorem correlate_records (track_data : List Nat) (marks : List PotentialMark)
    (sectors : List Sector) :
    ∀ (next_mark : Nat) (r : List Sector),
      correlate track_data marks sectors next_mark = some r →
      r.map Sector.record = sectors.map Sector.record := by
  induction sectors with
  | nil => intro n r h; cases h; rfl
  | cons s rest ih =>
    intro n r h
    have step : ∀ (m : Nat) (s' : Sector), s'.record = s.record →
        (correlate track_data marks rest m).map (fun r => s' :: r) = some r →
        r.map Sector.record = (s :: rest).map Sector.record := by
      intro m s' hs' hm
      cases hr : correlate track_data marks rest m with
      | none => rw [hr] at hm; cases hm
      | some r' =>
        rw [hr] at hm
        cases hm
        simp only [List.map_cons, ih m r' hr, hs']
    unfold correlate at h
    split at h
    · dsimp only at h
      split at h
      · cases h
      · split at h
        · cases h
        · rename_i found _
          split at h
          · exact step _ _ (by rfl) h
          · exact step _ _ (by rfl) h
    · split at h
      · cases h
      · dsimp only at h
        split at h
        · cases h; rfl
        · split at h
          · split at h
            · cases h
            · split at h
              · exact step _ _ (by rfl) h
              · exact step _ _ (by rfl) h
          · split at h
            · split at h
              · cases h
              · split at h
                · split at h
                  · cases h
                  · split at h
                    · exact step _ _ (by rfl) h
                    · exact step _ _ (by rfl) h
                · exact step _ _ (by rfl) h
            · exact step _ _ (by rfl) h

theorem implied_sectors_zero (position head : Int) (c : Nat) (f : FileHolder) :
    implied_sectors position head 0 c f = ([], f) := rfl

theorem read_contents_records (f : FileHolder) (sectors : List Sector)
    (sector_start sector_count : Nat) (position head : Int)
    (hlen : sectors.length = sector_count) (r : List Sector × FileHolder)
    (h : read_contents f sectors sector_start sector_count position head = some r) :
    r.1.map Sector.record = sectors.map Sector.record := by
  unfold read_contents at h
  split at h
  · rename_i hempty
    have hnil : sectors = [] := List.isEmpty_iff.mp hempty
    subst hnil
    simp only [List.length_nil] at hlen
    subst hlen
    rw [implied_sectors_zero] at h
    cases h
    rfl
  · split at h
    · cases h
    · rename_i s' e' f' heq
      cases h
      exact read_sector_contents_records _ _ _ _ _ heq

theorem bit_position_of_records (l l' : List Sector)
    (h : l.map Sector.record = l'.map Sector.record) :
    l.map (fun s => s.bit_position) = l'.map (fun s => s.bit_position) := by
  have := congrArg (List.map (fun (r : Nat × Nat × Nat × List Nat × Nat) => r.2.1)) h
  simpa [List.map_map, Function.comp_def, Sector.record] using this

theorem sort_sectors_perm (sectors : List Sector) : (sort_sectors sectors).Perm sectors :=
  List.perm_insertionSort _ _

theorem sort_sectors_sorted (sectors : List Sector) :
    ((sort_sectors sectors).map (fun s => s.bit_position)).Pairwise (fun a b => a ≤ b) := by
  haveI : IsTotal Sector (fun lhs rhs => lhs.bit_position ≤ rhs.bit_position) :=
    ⟨fun a b => Nat.le_total _ _⟩
  haveI : IsTrans Sector (fun lhs rhs => lhs.bit_position ≤ rhs.bit_position) :=
    ⟨fun a b c => Nat.le_trans⟩
  have := List.sorted_insertionSort (fun (lhs rhs : Sector) => lhs.bit_position ≤ rhs.bit_position)
    sectors
  rw [List.pairwise_map]
  exact this

end Storage.Disk

namespace Storage.Disk

/-- The sectors of an extended track that is returned: the sorted list handed
to the correlation and the correlated list the assembly walks. -/
theorem extended_track_sectors (f : FileHolder)
    (fuzzy_size sector_count flags track_length : Nat) (position head : Int)
    (hext : flags &&& 1 ≠ 0) (t : Track)
    (h : extended_track f fuzzy_size sector_count flags track_length position head
      = some (some t)) :
    ∃ track_data sorted correlated segment,
      track_data ≠ [] ∧
      (sorted.map Sector.record).Perm
        ((read_sector_records sector_count f).1.map Sector.record) ∧
      (sorted.map (fun s => s.bit_position)).Pairwise (fun a b => a ≤ b) ∧
      correlate track_data (potential_marks track_data) sorted 0 = some correlated ∧
      correlated.map Sector.record = sorted.map Sector.record ∧
      (correlated.map (fun s => s.bit_position)).Pairwise (fun a b => a ≤ b) ∧
      assemble track_data track_length correlated 0 = some segment ∧
      t = .pcm segment := by
  unfold extended_track at h
  cases hr : read_sectors f fuzzy_size sector_count flags with
  | none => rw [hr] at h; cases h
  | some r =>
    obtain ⟨sectors, f1⟩ := r
    have hrec := read_sectors_records f fuzzy_size sector_count flags hext sectors f1 hr
    have hlen : sectors.length = sector_count := by
      have := congrArg List.length hrec
      simpa [read_sector_records_length] using this
    rw [hr] at h
    dsimp only at h
    generalize hrt : read_track_data f1 flags = rt at h
    obtain ⟨track_data, f2⟩ := rt
    dsimp only at h
    cases hc : read_contents f2 sectors f1.tell sector_count position head with
    | none => rw [hc] at h; cases h
    | some r' =>
      obtain ⟨sectors', f3⟩ := r'
      have hrec' := read_contents_records f2 sectors f1.tell sector_count position head hlen
        _ hc
      simp only at hrec'
      rw [hc] at h
      dsimp only at h
      unfold build_track at h
      split at h
      · cases h
      · rename_i hne
        split at h
        · cases h
        · rename_i correlated hcor
          split at h
          · cases h
          · cases ha : assemble track_data track_length correlated 0 with
            | none => rw [ha] at h; cases h
            | some segment =>
              rw [ha] at h
              simp only [Option.map_some', Option.some.injEq] at h
              have hcr := correlate_records _ _ _ _ _ hcor
              have hsorted := sort_sectors_sorted sectors'
              refine ⟨track_data, sort_sectors sectors', correlated, segment, ?_, ?_, hsorted,
                hcor, hcr, ?_, ha, h.symm⟩
              · intro hnil
                apply hne
                rw [hnil]
                rfl
              · rw [← hrec, ← hrec']
                exact (sort_sectors_perm sectors').map _
              · rw [bit_position_of_records _ _ hcr]
                exact hsorted

/-- C12 (sector order). For every opened container and every recorded track
whose descriptor lies in the file and has bit 0 of its flags set (an explicit
sector table), whenever `get_track_at_position` returns a track (which takes a
raw track image): the list of sectors handed to the correlation and the list
the assembly then walks and emits from carry the records of the sector table,
up to a permutation, and are non-decreasing in recorded bit position, whatever
the order of the records in the file. -/
theorem sector_order (fuel : Nat) (contents : List Nat)
    (hbytes : ∀ b ∈ contents, b < 256) (stx : STX)
    (hopen : STX.new fuel contents = some (.ok stx))
    (head cylinder : Int) (hhead : head ≤ 1) (hindex : 0 ≤ head * 0x80 + cylinder)
    (offset : Nat)
    (hrecorded : stx.offset_by_track_[(head * 0x80 + cylinder).toNat]? = some offset)
    (hpresent : offset ≠ 0) (fuzzy_size sector_count flags track_bytes : Nat)
    (hf : spec_le32 contents (offset + 4) = some fuzzy_size)
    (hc : spec_le16 contents (offset + 8) = some sector_count)
    (hfl : spec_le16 contents (offset + 10) = some flags)
    (ht : spec_le16 contents (offset + 12) = some track_bytes)
    (hext : flags &&& 1 ≠ 0) (t : Track)
    (htrack : stx.get_track_at_position head cylinder = some (some t)) :
    ∃ track_data sorted correlated segment,
      track_data ≠ [] ∧
      (sorted.map Sector.record).Perm
        ((read_sector_records sector_count
          { contents := contents, position := offset + 16, eof_ := false }).1.map
          Sector.record) ∧
      (sorted.map (fun s => s.bit_position)).Pairwise (fun a b => a ≤ b) ∧
      correlate track_data (potential_marks track_data) sorted 0 = some correlated ∧
      correlated.map Sector.record = sorted.map Sector.record ∧
      (correlated.map (fun s => s.bit_position)).Pairwise (fun a b => a ≤ b) ∧
      assemble track_data (track_bytes <<< 3) correlated 0 = some segment ∧
      t = .pcm segment := by
  rw [get_track_extended fuel contents hbytes stx hopen head cylinder hhead hindex offset
    hrecorded hpresent fuzzy_size sector_count flags track_bytes hf hc hfl ht hext] at htrack
  exact extended_track_sectors _ _ _ _ _ _ _ hext t htrack

set_option maxRecDepth 100000 in
/-- C12, at a container whose one track lists the sector of bit position 160
before the sector of bit position 16. -/
theorem sector_order_witness :
    ∃ stx t, STX.new 2 ([0x52, 0x53, 0x59, 0x00, 3, 0, 0, 0, 0, 0, 1, 0, 0, 0, 0, 0] ++
          [82, 0, 0, 0, 0, 0, 0, 0, 2, 0, 0x41, 0, 4, 0, 0, 0] ++
          [255, 0, 0, 0, 160, 0, 0, 0, 9, 9, 9, 0, 0, 0, 0x10, 0] ++
          [255, 0, 0, 0, 16, 0, 0, 0, 8, 8, 8, 0, 0, 0, 0x10, 0] ++
          [32, 0] ++ [0x4e, 0x4e, 0x4e, 0x4e, 0x4e, 0xa1, 0xa1, 0xfe] ++
          List.replicate 24 0x4e) = some (.ok stx) ∧
      stx.get_track_at_position 0 0 = some (some t) ∧
      ∃ track_data sorted correlated segment,
        track_data ≠ [] ∧
        (sorted.map Sector.record).Perm
          ((read_sector_records 2
            { contents := [0x52, 0x53, 0x59, 0x00, 3, 0, 0, 0, 0, 0, 1, 0, 0, 0, 0, 0] ++
                [82, 0, 0, 0, 0, 0, 0, 0, 2, 0, 0x41, 0, 4, 0, 0, 0] ++
                [255, 0, 0, 0, 160, 0, 0, 0, 9, 9, 9, 0, 0, 0, 0x10, 0] ++
                [255, 0, 0, 0, 16, 0, 0, 0, 8, 8, 8, 0, 0, 0, 0x10, 0] ++
                [32, 0] ++ [0x4e, 0x4e, 0x4e, 0x4e, 0x4e, 0xa1, 0xa1, 0xfe] ++
                List.replicate 24 0x4e,
              position := 16 + 16, eof_ := false }).1.map Sector.record) ∧
        (sorted.map (fun s => s.bit_position)).Pairwise (fun a b => a ≤ b) ∧
        correlate track_data (potential_marks track_data) sorted 0 = some correlated ∧
        correlated.map Sector.record = sorted.map Sector.record ∧
        (correlated.map (fun s => s.bit_position)).Pairwise (fun a b => a ≤ b) ∧
        assemble track_data (4 <<< 3) correlated 0 = some segment ∧
        t = .pcm segment := by
  refine ⟨_, _, rfl, rfl, ?_⟩
  exact sector_order 2 _ (by decide) _ (by rfl) 0 0 (by decide) (by decide) 16 (by rfl)
    (by decide) 0 2 0x41 4 (by rfl) (by rfl) (by rfl) (by rfl) (by decide) _ (by rfl)

end Storage.Disk

namespace Apple.II

/-! ## Language card switches: WRITE ENABLE' and the notification -/

theorem address_and_one (address : Nat) : (address % 2 ^ 16) &&& 1 = address % 2 := by
  rw [Nat.and_one_is_mod]
  omega

theorem access_pre_write (s : LanguageCardSwitches) (address : Nat) (is_read : Bool) :
    (s.access address is_read).1.pre_write_ = (is_read && decide (address % 2 = 1)) := by
  have h1 := address_and_one address
  have h2 : address % 2 = 0 ∨ address % 2 = 1 := by omega
  simp only [LanguageCardSwitches.access, h1]
  rcases h2 with h | h <;> cases is_read <;> simp [h]

theorem access_write (s : LanguageCardSwitches) (address : Nat) (is_read : Bool) :
    (s.access address is_read).1.state_.write =
      (if address % 2 = 0 then true
       else if is_read && s.pre_write_ then false
       else s.state_.write) := by
  have h1 := address_and_one address
  have h2 : address % 2 = 0 ∨ address % 2 = 1 := by omega
  simp only [LanguageCardSwitches.access, h1]
  rcases h2 with h | h <;> cases is_read <;> cases hp : s.pre_write_ <;> simp [h]

theorem accesses_pre_write (sequence : List (Nat × Bool)) :
    (LanguageCardSwitches.accesses {} sequence).pre_write_ = preceded_by_odd_read sequence := by
  induction sequence using List.reverseRecOn with
  | nil => rfl
  | append_singleton init a _ =>
    have hlast : (init ++ [a]).getLast? = some a := by simp
    simp only [LanguageCardSwitches.accesses, List.foldl_append, List.foldl_cons, List.foldl_nil,
      preceded_by_odd_read, hlast]
    exact access_pre_write _ _ _

/-- C21 (WRITE ENABLE'). For every sequence of accesses to freshly constructed
switches and every further access `access(address, is_read)`: afterwards
`state.write` is true if the address is even; is false if the address is odd,
the access is a read and the immediately preceding access was an odd read, which
is when PRE-WRITE is set; and otherwise keeps its previous value. PRE-WRITE
after the access is set exactly when the access was an odd read. -/
theorem write_enable (sequence : List (Nat × Bool)) (address : Nat) (is_read : Bool) :
    (((LanguageCardSwitches.accesses {} sequence).access address is_read).1.state_.write =
      (if address % 2 = 0 then true
       else if is_read && preceded_by_odd_read sequence then false
       else (LanguageCardSwitches.accesses {} sequence).state_.write)) ∧
    (LanguageCardSwitches.accesses {} sequence).pre_write_ = preceded_by_odd_read sequence ∧
    (((LanguageCardSwitches.accesses {} sequence).access address is_read).1.pre_write_ = true ↔
      is_read = true ∧ address % 2 = 1) := by
  refine ⟨?_, accesses_pre_write sequence, ?_⟩
  · rw [access_write, accesses_pre_write]
  · rw [access_pre_write]
    simp

/-- C22 (notification). For every state of the switches and every access,
`machine.set_language_card_paging()` is called exactly once if the triple
`(bank1, read, write)` after the access differs from the triple before it, and
not at all if the triple is unchanged, whatever happens to PRE-WRITE. -/
theorem notification (s : LanguageCardSwitches) (address : Nat) (is_read : Bool) :
    (s.access address is_read).2 =
      (if ((s.access address is_read).1.state_.bank1, (s.access address is_read).1.state_.read,
            (s.access address is_read).1.state_.write)
          = (s.state_.bank1, s.state_.read, s.state_.write) then 0 else 1) := by
  obtain ⟨⟨b, r, w⟩, p⟩ := s
  simp only [LanguageCardSwitches.access, State.ne]
  split_ifs <;> simp_all

end Apple.II

namespace Storage.Disk

/-! ## STX: the scan for marks -/

theorem shifter_step (s b : Nat) (hb : b < 256) :
    ((s <<< 8) ||| b) &&& 0xffffff = (s % 65536) * 256 + b := by
  have h1 : s <<< 8 = 2 ^ 8 * s := by rw [Nat.shiftLeft_eq]; ring
  have h2 : 2 ^ 8 * s ||| b = 2 ^ 8 * s + b := (Nat.mul_add_lt_is_or hb s).symm
  have h3 : (0xffffff : Nat) = 2 ^ 24 - 1 := by decide
  rw [h1, h2, h3, Nat.and_pow_two_sub_one_eq_mod]
  omega

theorem scan_marks_eq (track_data : List Nat) (hbytes : ∀ b ∈ track_data, b < 256) :
    ∀ (rest : List Nat) (c s : Nat), track_data.drop c = rest →
      s % 65536 = shifted track_data c →
      scan_marks rest c s = (List.range' c rest.length).filterMap (spec_mark_at track_data) := by
  have hget : ∀ i, track_data.getD i 0 < 256 := by
    intro i
    rw [List.getD_eq_getElem?_getD]
    cases h : track_data[i]? with
    | none => simp
    | some b => exact hbytes b (List.getElem?_mem h)
  intro rest
  induction rest with
  | nil => intro c s _ _; rfl
  | cons b rest ih =>
    intro c s hdrop hs
    have hc : track_data[c]? = some b := by
      have := congrArg (fun l => l[0]?) hdrop
      simpa using this
    have hclt : c < track_data.length := (List.getElem?_eq_some_iff.mp hc).1
    have hb : b < 256 := hbytes b (List.getElem?_mem hc)
    have hdrop' : track_data.drop (c + 1) = rest := by
      have := congrArg (List.drop 1) hdrop
      simpa [List.drop_drop, Nat.add_comm] using this
    have hD : track_data.getD c 0 = b := by
      rw [List.getD_eq_getElem?_getD, hc]; rfl
    have h1 : ∀ i, i < track_data.length → track_data[i]? = some (track_data.getD i 0) := by
      intro i hi
      rw [List.getD_eq_getElem?_getD, List.getElem?_eq_getElem hi]; rfl
    have hp1 := hget (c - 2)
    have hp0 := hget (c - 1)
    have hs' : ((s % 65536) * 256 + b) % 65536 = shifted track_data (c + 1) := by
      unfold shifted at hs ⊢
      simp only [Nat.add_sub_cancel, show c + 1 - 2 = c - 1 from by omega, hD]
      split_ifs at hs ⊢ <;> omega
    have ihc := ih (c + 1) ((s % 65536) * 256 + b) hdrop' hs'
    unfold scan_marks
    simp only [shifter_step s b hb, List.length_cons, List.range'_succ, List.filterMap_cons]
    rw [ihc]
    unfold shifted at hs
    by_cases hc2 : c < 2
    · have hne1 : (s % 65536) * 256 + b ≠ 0xa1a1fe := by
        split_ifs at hs <;> omega
      have hne2 : (s % 65536) * 256 + b ≠ 0xa1a1fb := by
        split_ifs at hs <;> omega
      simp only [if_neg hne1, if_neg hne2, spec_mark_at, if_pos hc2]
    · have e2 := h1 (c - 2) (by omega)
      have e1 := h1 (c - 1) (by omega)
      rw [if_pos (by omega : 2 ≤ c), if_pos (by omega : 1 ≤ c)] at hs
      have hid : (s % 65536) * 256 + b = 0xa1a1fe ↔
          (track_data.getD (c - 2) 0 = 0xa1 ∧ track_data.getD (c - 1) 0 = 0xa1 ∧ b = 0xfe) := by
        omega
      have hdm : (s % 65536) * 256 + b = 0xa1a1fb ↔
          (track_data.getD (c - 2) 0 = 0xa1 ∧ track_data.getD (c - 1) 0 = 0xa1 ∧ b = 0xfb) := by
        omega
      simp only [spec_mark_at, if_neg hc2, e2, e1, hc, Option.some.injEq, hid, hdm]
      split_ifs <;> rfl

theorem scan_marks_increasing :
    ∀ (rest : List Nat) (c s : Nat),
      (∀ m ∈ scan_marks rest c s, c ≤ m.byte_location) ∧
      ((scan_marks rest c s).map (fun m => m.byte_location)).Pairwise (fun a b => a < b) := by
  intro rest
  induction rest with
  | nil => intro c s; exact ⟨fun m h => (by cases h), List.Pairwise.nil⟩
  | cons b rest ih =>
    intro c s
    unfold scan_marks
    dsimp only
    obtain ⟨hge, hpw⟩ := ih (c + 1) (((s <<< 8) ||| b) &&& 0xffffff)
    have hge' : ∀ m ∈ scan_marks rest (c + 1) (((s <<< 8) ||| b) &&& 0xffffff),
        c ≤ m.byte_location := fun m hm => Nat.le_of_succ_le (hge m hm)
    split_ifs
    · refine ⟨?_, ?_⟩
      · intro m hm
        rcases List.mem_cons.mp hm with h | h
        · rw [h]
        · exact hge' m h
      · rw [List.map_cons, List.pairwise_cons]
        refine ⟨?_, hpw⟩
        intro a ha
        obtain ⟨m, hm, rfl⟩ := List.mem_map.mp ha
        exact hge m hm
    · refine ⟨?_, ?_⟩
      · intro m hm
        rcases List.mem_cons.mp hm with h | h
        · rw [h]
        · exact hge' m h
      · rw [List.map_cons, List.pairwise_cons]
        refine ⟨?_, hpw⟩
        intro a ha
        obtain ⟨m, hm, rfl⟩ := List.mem_map.mp ha
        exact hge m hm
    · exact ⟨hge', hpw⟩

/-- C30 (sync scan). For every raw track image (a vector of bytes), the list of
potential marks is exactly the list the specification describes: for every
offset `c ≥ 2` at which the bytes `c - 2`, `c - 1`, `c` are 0xA1 0xA1 0xFE an ID
mark at `c`, for every one at which they are 0xA1 0xA1 0xFB a data mark at `c`,
nothing else, by strictly increasing offset. -/
theorem sync_scan (track_data : List Nat) (hbytes : ∀ b ∈ track_data, b < 256) :
    potential_marks track_data = spec_potential_marks track_data ∧
    ((potential_marks track_data).map (fun m => m.byte_location)).Pairwise (fun a b => a < b) ∧
    (∀ m, m ∈ potential_marks track_data ↔
      2 ≤ m.byte_location ∧
      track_data[m.byte_location - 2]? = some 0xa1 ∧
      track_data[m.byte_location - 1]? = some 0xa1 ∧
      track_data[m.byte_location]? = some (if m.type = .ID then 0xfe else 0xfb)) := by
  have heq : potential_marks track_data = spec_potential_marks track_data := by
    unfold potential_marks spec_potential_marks
    rw [scan_marks_eq track_data hbytes track_data 0 0 rfl (by simp [shifted]),
      List.range_eq_range']
  refine ⟨heq, (scan_marks_increasing track_data 0 0).2, ?_⟩
  intro m
  rw [heq]
  unfold spec_potential_marks
  rw [List.mem_filterMap]
  obtain ⟨type, location⟩ := m
  constructor
  · rintro ⟨c, _, hc⟩
    unfold spec_mark_at at hc
    split_ifs at hc with h2 hid hdm
    · cases hc
      exact ⟨Nat.le_of_not_lt h2, hid.1, hid.2.1, by simpa using hid.2.2⟩
    · cases hc
      exact ⟨Nat.le_of_not_lt h2, hdm.1, hdm.2.1, by simpa using hdm.2.2⟩
  · rintro ⟨h2, ha, hb, hc⟩
    simp only at h2 ha hb hc
    refine ⟨location, ?_, ?_⟩
    · rw [List.mem_range]
      exact (List.getElem?_eq_some_iff.mp hc).1
    · unfold spec_mark_at
      rw [if_neg (by omega)]
      cases type
      · simp only [if_true] at hc
        rw [if_pos ⟨ha, hb, hc⟩]
      · simp only [reduceCtorEq, if_false] at hc
        have hne : ¬ (track_data[location - 2]? = some 0xa1 ∧ track_data[location - 1]? = some 0xa1
            ∧ track_data[location]? = some 0xfe) := by
          rintro ⟨-, -, h⟩
          rw [hc] at h
          cases h
        rw [if_neg hne, if_pos ⟨ha, hb, hc⟩]

/-- C30, at an image with an ID mark at offset 3 and a data mark at offset 7. -/
theorem sync_scan_witness :
    potential_marks [0x4e, 0xa1, 0xa1, 0xfe, 0x00, 0xa1, 0xa1, 0xfb, 0xa1, 0xfe]
      = [{ type := .ID, byte_location := 3 }, { type := .Data, byte_location := 7 }] ∧
    potential_marks [0x4e, 0xa1, 0xa1, 0xfe, 0x00, 0xa1, 0xa1, 0xfb, 0xa1, 0xfe]
      = spec_potential_marks [0x4e, 0xa1, 0xa1, 0xfe, 0x00, 0xa1, 0xa1, 0xfb, 0xa1, 0xfe] :=
  ⟨by decide,
   (sync_scan [0x4e, 0xa1, 0xa1, 0xfe, 0x00, 0xa1, 0xa1, 0xfb, 0xa1, 0xfe] (by decide)).1⟩

end Storage.Disk

namespace CPU.WDC65816

/-! ## 65816: the instruction table -/

set_option maxRecDepth 100000 in
/-- C23 (opcode table), as the code has it. After `ProcessorStorage` is
constructed, the `op` line that is the `k`-th in the file, counting from 0,
fills the entries `k` and `k + 256` of the instruction table with its
operation, whatever opcode its comment annotates it with: `install` indexes the
table with a counter that starts at 0. Entry 0x0d holds ADC with the 8-bit
program of absolute long addressing, from the line annotated 0x6f, and not ORA
with the absolute-addressing program; entry 0x00 holds that ORA, from the line
annotated 0x0d; entry 0x20 and all later 8-bit entries are never assigned, so
that entry 0x20 does not hold JSR, which is in entry 0x02. -/
theorem opcode_table_by_counter :
    ∃ storage, ProcessorStorage.new = some storage ∧
      (∀ k, k < 32 →
        (op_lines[k]?).map (fun line => line.2.2) = (storage.program_of k).map (fun p => p.1) ∧
        (op_lines[k]?).map (fun line => line.2.2)
          = (storage.program_of (k + 256)).map (fun p => p.1)) ∧
      (op_lines[0]?).map (fun line => line.1) = some 0x0d ∧
      storage.program_of 0x00 =
        some (.ORA, Generator.absolute.generate .Read true ++ [.OperationMoveToNextProgram]) ∧
      storage.program_of 0x0d =
        some (.ADC, Generator.absolute_long.generate .Read true
          ++ [.OperationMoveToNextProgram]) ∧
      storage.program_of 0x02 =
        some (.JSR, Generator.absolute_jsr.generate .Read true
          ++ [.OperationMoveToNextProgram]) ∧
      (∀ k, k < 256 → 32 ≤ k → storage.instructions[k]? = some none) ∧
      storage.program_of 0x20 = none := by
  refine ⟨_, rfl, ?_, ?_, ?_, ?_, ?_, ?_, ?_⟩ <;> decide

end CPU.WDC65816

namespace Storage.Disk

/-! ## STX: the sector table -/

theorem read_full (data : List Nat) (p size : Nat) (e : Bool) (h : p + size ≤ data.length) :
    FileHolder.read { contents := data, position := p, eof_ := e } size
      = ((data.drop p).take size, { contents := data, position := p + size, eof_ := e }) := by
  have hlen : ((data.drop p).take size).length = size := by
    rw [List.length_take, List.length_drop]
    omega
  simp only [FileHolder.read, hlen, Nat.lt_irrefl, decide_False, Bool.or_false]

theorem read_into_full (data : List Nat) (p : Nat) (e : Bool) (h : p + 6 ≤ data.length) :
    FileHolder.read_into { contents := data, position := p, eof_ := e } [0, 0, 0, 0, 0, 0] 6
      = ((data.drop p).take 6, { contents := data, position := p + 6, eof_ := e }) := by
  have hlen : ((data.drop p).take 6).length = 6 := by
    rw [List.length_take, List.length_drop]
    omega
  unfold FileHolder.read_into
  rw [read_full data p 6 e h]
  simp only [hlen, List.drop_succ_cons, List.drop_nil, List.append_nil]

section

attribute [local irreducible] FileHolder.get32le FileHolder.get16le FileHolder.get8
  FileHolder.read_into FileHolder.seek

theorem read_sector_records_succ (contents : List Nat) (hbytes : ∀ b ∈ contents, b < 256)
    (p count : Nat) (e : Bool) (h : p + 16 ≤ contents.length) :
    ∃ sector, spec_sector_record contents p = some sector ∧
      read_sector_records (count + 1) { contents := contents, position := p, eof_ := e } =
        (sector :: (read_sector_records count
            { contents := contents, position := p + 16, eof_ := false }).1,
          (read_sector_records count
            { contents := contents, position := p + 16, eof_ := false }).2) := by
  obtain ⟨data_offset, h0⟩ := spec_le32_exists contents p (by omega)
  obtain ⟨bit_position, h4⟩ := spec_le16_exists contents (p + 4) (by omega)
  obtain ⟨data_duration, h6⟩ := spec_le16_exists contents (p + 6) (by omega)
  obtain ⟨status, h14⟩ := getElem?_some_of_lt contents (p + 14) (by omega)
  obtain ⟨reserved, h15⟩ := getElem?_some_of_lt contents (p + 15) (by omega)
  refine ⟨{ data_offset := data_offset, bit_position := bit_position,
            data_duration := data_duration, address := (contents.drop (p + 8)).take 6,
            status := status }, ?_, ?_⟩
  · simp only [spec_sector_record, h0, h4, h6, h14, h15]
  · rw [read_sector_records]
    rw [get32le_some_any contents hbytes p e data_offset h0]
    dsimp only
    rw [get16le_some contents hbytes (p + 4) e bit_position h4]
    dsimp only
    rw [show p + 4 + 2 = p + 6 from rfl, get16le_some contents hbytes (p + 6) e data_duration h6]
    dsimp only
    rw [show p + 6 + 2 = p + 8 from rfl, read_into_full contents (p + 8) e (by omega)]
    dsimp only
    rw [show p + 8 + 6 = p + 14 from rfl,
      get8_some contents (p + 14) e status h14 (getElem?_lt_256 hbytes h14)]
    dsimp only
    have hs := seek_cur contents (p + 14 + 1) e 1
    rw [show ((1 : Nat) : Int) = 1 from rfl] at hs
    rw [hs]

end

/-- The sector table of a file that holds all of it: the records are those the
layout of 16 bytes spells and the cursor ends 16 bytes per record further. -/
theorem read_sector_records_eq (contents : List Nat) (hbytes : ∀ b ∈ contents, b < 256) :
    ∀ (count p : Nat) (e : Bool), p + 16 * count ≤ contents.length →
      ∃ records, spec_sector_table contents p count = some records ∧
        (read_sector_records count { contents := contents, position := p, eof_ := e }).1
          = records ∧
        (read_sector_records count { contents := contents, position := p, eof_ := e }).2.contents
          = contents ∧
        (read_sector_records count { contents := contents, position := p, eof_ := e }).2.position
          = p + 16 * count := by
  intro count
  induction count with
  | zero => intro p e _; exact ⟨[], rfl, rfl, rfl, rfl⟩
  | succ n ih =>
    intro p e h
    obtain ⟨sector, hs, hr⟩ := read_sector_records_succ contents hbytes p n e (by omega)
    obtain ⟨rest, ht, h1, h2, h3⟩ := ih (p + 16) false (by omega)
    refine ⟨sector :: rest, ?_, ?_, ?_, ?_⟩
    · simp only [spec_sector_table, hs, ht]
    · rw [hr, h1]
    · rw [hr, h2]
    · rw [hr, h3]
      omega

set_option maxRecDepth 100000 in
/-- C24 as stated fails: a sector-table record is not 12 bytes long. Reading
one record from a file whose bytes are 0, 1, 2, ... leaves the cursor at 16, not
12; the address field has the six bytes 8 to 13, not four, and the status is
byte 14, not byte 12; two records leave the cursor at 32, not 24. -/
theorem sector_record_not_12_bytes :
    (read_sector_records 1
      { contents := List.range 40, position := 0, eof_ := false }).2.position = 16 ∧
    (read_sector_records 1
      { contents := List.range 40, position := 0, eof_ := false }).2.position ≠ 12 * 1 ∧
    ((read_sector_records 1
      { contents := List.range 40, position := 0, eof_ := false }).1.map
        (fun s => (s.address, s.status))) = [([8, 9, 10, 11, 12, 13], 14)] ∧
    (read_sector_records 2
      { contents := List.range 40, position := 0, eof_ := false }).2.position = 32 ∧
    (read_sector_records 2
      { contents := List.range 40, position := 0, eof_ := false }).2.position ≠ 12 * 2 := by
  decide

/-- C24, amended. Each sector-table record that `get_track_at_position`
consumes is 16 bytes long: a 4-byte data offset, a 2-byte bit position, a
2-byte data duration, a 6-byte address field, a 1-byte status and a 1-byte
reserved field, all little-endian; a table of `N` sectors that lies in the file
yields those `N` records in order and advances the file cursor by `16 * N`
bytes. -/
theorem sector_record_size (contents : List Nat) (hbytes : ∀ b ∈ contents, b < 256)
    (N p : Nat) (e : Bool) (h : p + 16 * N ≤ contents.length) :
    ∃ records, spec_sector_table contents p N = some records ∧
      records.length = N ∧
      (read_sector_records N { contents := contents, position := p, eof_ := e }).1 = records ∧
      (read_sector_records N { contents := contents, position := p, eof_ := e }).2.position
        = p + 16 * N := by
  obtain ⟨records, h1, h2, -, h4⟩ := read_sector_records_eq contents hbytes N p e h
  refine ⟨records, h1, ?_, h2, h4⟩
  rw [← h2, read_sector_records_length]

set_option maxRecDepth 100000 in
/-- C24, amended, at a table of two records in a file whose bytes are 0, 1,
2, ... -/
theorem sector_record_size_witness :
    ∃ records, spec_sector_table (List.range 40) 3 2 = some records ∧
      records.length = 2 ∧
      (read_sector_records 2 { contents := List.range 40, position := 3, eof_ := false }).1
        = records ∧
      (read_sector_records 2
        { contents := List.range 40, position := 3, eof_ := false }).2.position = 3 + 16 * 2 :=
  sector_record_size (List.range 40) (by decide) 2 3 false (by decide)

end Storage.Disk

namespace Storage.Disk

/-! ## STX: fuzzy masks and sector bodies -/

theorem data_size_eq (sector : Sector) (size : Nat) (h : sector.data_size = some size) :
    size = spec_data_size sector ∧ size ≤ 2 ^ 31 ∧ 128 ≤ size := by
  unfold Sector.data_size at h
  unfold spec_data_size
  cases hc : sector.address[3]? with
  | none => rw [hc] at h; cases h
  | some c =>
    rw [hc] at h
    have hD : sector.address.getD 3 0 = c := by
      rw [List.getD_eq_getElem?_getD, hc]; rfl
    rw [hD]
    simp only at h
    split at h
    · rename_i hle
      cases h
      interval_cases c <;> decide
    · cases h

theorem read_fuzzy_masks_eq (contents : List Nat) (fuzzy_size : Nat) :
    ∀ (sectors : List Sector) (fuzzy_bytes_read q : Nat) (e : Bool),
      (∀ s ∈ sectors, s.status &&& 0x80 ≠ 0 →
        ∃ size, s.data_size = some size ∧ fuzzy_size + size < 2 ^ 32) →
      fuzzy_bytes_read ≤ fuzzy_size →
      q + (fuzzy_size - fuzzy_bytes_read) ≤ contents.length →
      ∃ fuzzy_bytes_read' q',
        read_fuzzy_masks fuzzy_size sectors fuzzy_bytes_read
            { contents := contents, position := q, eof_ := e } =
          some (spec_fuzzy_masks contents q (fuzzy_size - fuzzy_bytes_read) sectors,
            fuzzy_bytes_read', { contents := contents, position := q', eof_ := e }) ∧
        fuzzy_bytes_read' ≤ fuzzy_size ∧
        q' + (fuzzy_size - fuzzy_bytes_read') = q + (fuzzy_size - fuzzy_bytes_read) := by
  intro sectors
  induction sectors with
  | nil =>
    intro n q e _ hn _
    exact ⟨n, q, rfl, hn, rfl⟩
  | cons s rest ih =>
    intro n q e hall hn hq
    have hrest : ∀ x ∈ rest, x.status &&& 0x80 ≠ 0 →
        ∃ size, x.data_size = some size ∧ fuzzy_size + size < 2 ^ 32 :=
      fun x hx => hall x (List.mem_cons_of_mem _ hx)
    unfold read_fuzzy_masks spec_fuzzy_masks
    by_cases h80 : s.status &&& 0x80 = 0
    · rw [if_pos h80, if_pos h80]
      obtain ⟨n', q', hr, hn', hq'⟩ := ih n q e hrest hn hq
      refine ⟨n', q', ?_, hn', hq'⟩
      rw [hr]
      rfl
    · rw [if_neg h80, if_neg h80]
      obtain ⟨size, hsize, hlt⟩ := hall s (List.mem_cons_self _ _) h80
      obtain ⟨hspec, -, -⟩ := data_size_eq s size hsize
      rw [hsize]
      dsimp only
      rw [← hspec]
      have hmod : (n + size) % 2 ^ 32 = n + size := Nat.mod_eq_of_lt (by omega)
      rw [hmod]
      by_cases hfit : n + size > fuzzy_size
      · rw [if_pos hfit, if_pos (by omega)]
        exact ⟨n, q, rfl, hn, rfl⟩
      · rw [if_neg hfit, if_neg (by omega)]
        rw [read_full contents q size e (by omega)]
        dsimp only
        obtain ⟨n', q', hr, hn', hq'⟩ := ih (n + size) (q + size) e hrest (by omega) (by omega)
        refine ⟨n', q', ?_, hn', by omega⟩
        rw [hr, show fuzzy_size - (n + size) = fuzzy_size - n - size from by omega]
        rfl

end Storage.Disk

namespace Storage.Disk

theorem spec_data_size_pos (sector : Sector) : 0 < spec_data_size sector := by
  unfold spec_data_size
  rw [Nat.shiftLeft_eq]
  positivity

theorem spec_fuzzy_masks_zero (contents : List Nat) (cursor : Nat) (sectors : List Sector) :
    spec_fuzzy_masks contents cursor 0 sectors = sectors := by
  induction sectors with
  | nil => rfl
  | cons s rest ih =>
    unfold spec_fuzzy_masks
    split_ifs with h1 h2
    · rw [ih]
    · rfl
    · exact absurd (spec_data_size_pos s) (by omega)

theorem read_sector_records_file (contents : List Nat) (hbytes : ∀ b ∈ contents, b < 256)
    (count p : Nat) (e : Bool) (h : p + 16 * count ≤ contents.length) :
    ∃ records e', spec_sector_table contents p count = some records ∧
      read_sector_records count { contents := contents, position := p, eof_ := e } =
        (records, { contents := contents, position := p + 16 * count, eof_ := e' }) := by
  obtain ⟨records, h1, h2, h3, h4⟩ := read_sector_records_eq contents hbytes count p e h
  refine ⟨records, (read_sector_records count
    { contents := contents, position := p, eof_ := e }).2.eof_, h1, ?_⟩
  rw [← h2]
  conv_lhs => rw [← Prod.mk.eta (p := read_sector_records count
    { contents := contents, position := p, eof_ := e })]
  rw [file_eta (read_sector_records count
    { contents := contents, position := p, eof_ := e }).2, h3, h4]

/-- The sectors and the cursor after the fuzzy masks of a track whose table and
fuzzy region lie in the file, when the 32-bit count of mask bytes cannot
wrap. -/
theorem read_sectors_eq (contents : List Nat) (hbytes : ∀ b ∈ contents, b < 256)
    (p count flags fuzzy_size : Nat) (e : Bool) (hext : flags &&& 1 ≠ 0)
    (records : List Sector) (hrec : spec_sector_table contents p count = some records)
    (hsizes : ∀ s ∈ records, s.status &&& 0x80 ≠ 0 →
      ∃ size, s.data_size = some size ∧ fuzzy_size + size < 2 ^ 32)
    (hlong : p + 16 * count + fuzzy_size ≤ contents.length) :
    ∃ e', read_sectors { contents := contents, position := p, eof_ := e }
        fuzzy_size count flags =
      some (spec_fuzzy_masks contents (p + 16 * count) fuzzy_size records,
        { contents := contents, position := p + 16 * count + fuzzy_size, eof_ := e' }) := by
  obtain ⟨records', e1, h1, h2⟩ :=
    read_sector_records_file contents hbytes count p e (by omega)
  rw [hrec] at h1
  cases h1
  unfold read_sectors
  rw [if_pos hext, h2]
  dsimp only
  by_cases hF : fuzzy_size = 0
  · subst hF
    rw [if_neg (by simp), spec_fuzzy_masks_zero]
    exact ⟨e1, rfl⟩
  · rw [if_pos hF]
    obtain ⟨n', q', hr, hn', hq'⟩ := read_fuzzy_masks_eq contents fuzzy_size records 0
      (p + 16 * count) e1 hsizes (Nat.zero_le _) (by omega)
    rw [hr]
    dsimp only
    have hoff : (fuzzy_size : Int) - (n' : Int) = ((fuzzy_size - n' : Nat) : Int) := by omega
    rw [hoff, seek_cur]
    refine ⟨false, ?_⟩
    rw [show q' + (fuzzy_size - n') = p + 16 * count + fuzzy_size from by omega]
    rfl

end Storage.Disk

namespace Storage.Disk

/-- The fuzzy loop on two fuzzy sectors of 2^31 bytes each with a declared size
of 2^31: the 32-bit sum wraps to 0 and the second mask is read as well. -/
theorem read_fuzzy_masks_wrap (contents : List Nat) (q : Nat) (e : Bool) (s1 s2 : Sector)
    (h1 : s1.status &&& 0x80 ≠ 0) (h2 : s2.status &&& 0x80 ≠ 0)
    (hd1 : s1.data_size = some (2 ^ 31)) (hd2 : s2.data_size = some (2 ^ 31))
    (hlen : q + 2 ^ 32 ≤ contents.length) :
    read_fuzzy_masks (2 ^ 31) [s1, s2] 0 { contents := contents, position := q, eof_ := e } =
      some ([{ s1 with fuzzy_mask := (contents.drop q).take (2 ^ 31) },
             { s2 with fuzzy_mask := (contents.drop (q + 2 ^ 31)).take (2 ^ 31) }],
        0, { contents := contents, position := q + 2 ^ 31 + 2 ^ 31, eof_ := e }) := by
  have c1 : ¬ ((0 + 2 ^ 31) % 2 ^ 32 > 2 ^ 31) := by decide
  have c2 : ¬ (((0 + 2 ^ 31) % 2 ^ 32 + 2 ^ 31) % 2 ^ 32 > 2 ^ 31) := by decide
  have c3 : ((0 + 2 ^ 31) % 2 ^ 32 + 2 ^ 31) % 2 ^ 32 = 0 := by decide
  rw [read_fuzzy_masks, if_neg h1, hd1]
  dsimp only
  rw [if_neg c1, read_full contents q (2 ^ 31) e (by omega)]
  dsimp only
  rw [read_fuzzy_masks, if_neg h2, hd2]
  dsimp only
  rw [if_neg c2, read_full contents (q + 2 ^ 31) (2 ^ 31) e (by omega)]
  dsimp only
  rw [read_fuzzy_masks, c3]
  rfl

end Storage.Disk

namespace Storage.Disk

theorem read_sectors_wrap (contents : List Nat) (hbytes : ∀ b ∈ contents, b < 256)
    (p flags : Nat) (e : Bool) (hext : flags &&& 1 ≠ 0) (s1 s2 : Sector)
    (hrec : spec_sector_table contents p 2 = some [s1, s2])
    (h1 : s1.status &&& 0x80 ≠ 0) (h2 : s2.status &&& 0x80 ≠ 0)
    (hd1 : s1.data_size = some (2 ^ 31)) (hd2 : s2.data_size = some (2 ^ 31))
    (hlen : p + 32 + 2 ^ 32 ≤ contents.length) :
    read_sectors { contents := contents, position := p, eof_ := e } (2 ^ 31) 2 flags =
      some ([{ s1 with fuzzy_mask := (contents.drop (p + 32)).take (2 ^ 31) },
             { s2 with fuzzy_mask := (contents.drop (p + 32 + 2 ^ 31)).take (2 ^ 31) }],
        { contents := contents, position := p + 32 + 2 ^ 31 + 2 ^ 31 + 2 ^ 31,
          eof_ := false }) := by
  obtain ⟨records, e1, hr1, hr2⟩ := read_sector_records_file contents hbytes 2 p e (by omega)
  rw [hrec] at hr1
  cases hr1
  unfold read_sectors
  rw [if_pos hext, hr2]
  dsimp only
  rw [if_pos (by decide), read_fuzzy_masks_wrap contents (p + 16 * 2) e1 s1 s2 h1 h2 hd1 hd2
    (by omega)]
  dsimp only
  have hoff : ((2 ^ 31 : Nat) : Int) - ((0 : Nat) : Int) = ((2 ^ 31 : Nat) : Int) := by simp
  rw [hoff, seek_cur]

theorem spec_le32_append (pre rest : List Nat) (p : Nat) (h : p + 4 ≤ pre.length) :
    spec_le32 (pre ++ rest) p = spec_le32 pre p := by
  unfold spec_le32
  rw [List.getElem?_append_left (by omega), List.getElem?_append_left (by omega),
    List.getElem?_append_left (by omega), List.getElem?_append_left (by omega)]

theorem spec_le16_append (pre rest : List Nat) (p : Nat) (h : p + 2 ≤ pre.length) :
    spec_le16 (pre ++ rest) p = spec_le16 pre p := by
  unfold spec_le16
  rw [List.getElem?_append_left (by omega), List.getElem?_append_left (by omega)]

theorem spec_sector_record_append (pre rest : List Nat) (p : Nat) (h : p + 16 ≤ pre.length) :
    spec_sector_record (pre ++ rest) p = spec_sector_record pre p := by
  have hd : ((pre ++ rest).drop (p + 8)).take 6 = (pre.drop (p + 8)).take 6 := by
    rw [List.drop_append_of_le_length (by omega), List.take_append_of_le_length]
    rw [List.length_drop]
    omega
  unfold spec_sector_record
  rw [spec_le32_append pre rest p (by omega), spec_le16_append pre rest (p + 4) (by omega),
    spec_le16_append pre rest (p + 6) (by omega), List.getElem?_append_left (by omega),
    List.getElem?_append_left (by omega), hd]

theorem spec_sector_table_append (pre rest : List Nat) :
    ∀ (count p : Nat), p + 16 * count ≤ pre.length →
      spec_sector_table (pre ++ rest) p count = spec_sector_table pre p count := by
  intro count
  induction count with
  | zero => intro p _; rfl
  | succ n ih =>
    intro p h
    unfold spec_sector_table
    rw [spec_sector_record_append pre rest p (by omega), ih (p + 16) (by omega)]

theorem bytes_append_replicate (pre : List Nat) (n v : Nat) (hv : v < 256)
    (h : ∀ b ∈ pre, b < 256) : ∀ b ∈ pre ++ List.replicate n v, b < 256 := by
  intro b hb
  rcases List.mem_append.mp hb with hp | hr
  · exact h b hp
  · rw [(List.mem_replicate.mp hr).2]
    exact hv

/-- C25 at a track whose fuzzy count overflows. With a declared fuzzy size of
0x80000000 and a sector table of two sectors that both have the fuzzy bit 0x80
and size code 24, so `128 << 24 = 0x80000000` bytes each, in a file that holds
2^33 further bytes: the sum `fuzzy_bytes_read + expected_bytes` of the second
sector wraps to 0 in `uint32_t`, the check passes, and both masks are read,
2^32 bytes of fuzzy masks against a declared size of 2^31. -/
theorem fuzzy_bytes_exceed_declared_size :
    ∃ sectors file_,
      read_sectors
        { contents :=
            [0, 0, 0, 0, 0, 0, 0, 0, 0, 0, 0, 24, 0, 0, 0x80, 0,
             0, 0, 0, 0, 0, 0, 0, 0, 0, 0, 0, 24, 0, 0, 0x80, 0] ++ List.replicate (2 ^ 33) 0,
          position := 0, eof_ := false } (2 ^ 31) 2 1 = some (sectors, file_) ∧
      (sectors.map (fun s => s.fuzzy_mask.length)).sum = 2 ^ 32 ∧
      (sectors.map (fun s => s.fuzzy_mask.length)).sum > 2 ^ 31 := by
  have hrec := spec_sector_table_append
    [0, 0, 0, 0, 0, 0, 0, 0, 0, 0, 0, 24, 0, 0, 0x80, 0,
     0, 0, 0, 0, 0, 0, 0, 0, 0, 0, 0, 24, 0, 0, 0x80, 0] (List.replicate (2 ^ 33) 0) 2 0
    (by decide)
  have hlen : ([0, 0, 0, 0, 0, 0, 0, 0, 0, 0, 0, 24, 0, 0, 0x80, 0,
     0, 0, 0, 0, 0, 0, 0, 0, 0, 0, 0, 24, 0, 0, 0x80, 0] ++ List.replicate (2 ^ 33) 0).length
      = 32 + 2 ^ 33 := by
    rw [List.length_append, List.length_replicate]
    rfl
  have h := read_sectors_wrap _
    (bytes_append_replicate _ (2 ^ 33) 0 (by decide) (by decide)) 0 1 false
    (by decide) { address := [0, 0, 0, 24, 0, 0], status := 0x80 }
    { address := [0, 0, 0, 24, 0, 0], status := 0x80 } (hrec.trans (by decide)) (by decide)
    (by decide) (by decide) (by decide) (by rw [hlen]; omega)
  refine ⟨_, _, h, ?_⟩
  simp only [List.map_cons, List.map_nil, List.sum_cons, List.sum_nil, List.length_take,
    List.length_drop, hlen]
  omega

end Storage.Disk

namespace Storage.Disk

/-- C26 at a track whose fuzzy count overflows: a declared fuzzy size of
0x80000000, two fuzzy sectors of size code 24, a file that is long enough.
After the fuzzy masks and the seek over the rest of the region the cursor is
2^32 + 2^31 bytes past the end of the sector table (offset 32), not the
declared 2^31. -/
theorem fuzzy_skip_after_wrap :
    ∃ sectors file_,
      read_sectors
        { contents :=
            [0, 0, 0, 0, 0, 0, 0, 0, 0, 0, 0, 24, 0, 0, 0x80, 0,
             0, 0, 0, 0, 0, 0, 0, 0, 0, 0, 0, 24, 0, 0, 0x80, 0] ++ List.replicate (2 ^ 33) 0,
          position := 0, eof_ := false } (2 ^ 31) 2 1 = some (sectors, file_) ∧
      file_.position = 32 + (2 ^ 32 + 2 ^ 31) ∧
      file_.position ≠ 32 + 2 ^ 31 ∧
      file_.position ≤ file_.contents.length := by
  have hrec := spec_sector_table_append
    [0, 0, 0, 0, 0, 0, 0, 0, 0, 0, 0, 24, 0, 0, 0x80, 0,
     0, 0, 0, 0, 0, 0, 0, 0, 0, 0, 0, 24, 0, 0, 0x80, 0] (List.replicate (2 ^ 33) 0) 2 0
    (by decide)
  have hlen : ([0, 0, 0, 0, 0, 0, 0, 0, 0, 0, 0, 24, 0, 0, 0x80, 0,
     0, 0, 0, 0, 0, 0, 0, 0, 0, 0, 0, 24, 0, 0, 0x80, 0] ++ List.replicate (2 ^ 33) 0).length
      = 32 + 2 ^ 33 := by
    rw [List.length_append, List.length_replicate]
    rfl
  have h := read_sectors_wrap _
    (bytes_append_replicate _ (2 ^ 33) 0 (by decide) (by decide)) 0 1 false
    (by decide) { address := [0, 0, 0, 24, 0, 0], status := 0x80 }
    { address := [0, 0, 0, 24, 0, 0], status := 0x80 } (hrec.trans (by decide)) (by decide)
    (by decide) (by decide) (by decide) (by rw [hlen]; omega)
  refine ⟨_, _, h, ?_, ?_, ?_⟩
  · simp only; omega
  · simp only; omega
  · simp only [hlen]; omega

/-- The fuzzy region where the count cannot overflow. For every track with
flags bit 0 set whose sector table and fuzzy region lie in the file, and for
which `128 << size-code` is defined for
every fuzzy sector and added to the declared fuzzy size stays below 2^32, so
that the 32-bit count of mask bytes cannot wrap: after the fuzzy masks the file
cursor is exactly `fuzzy_size` bytes past the end of the sector table, whether
all, some or none of the masks were read; the masks are handed out in table
order, each of `128 << size-code` bytes, and once one fuzzy sector does not fit
in what remains of the declared size no later sector receives a mask. -/
theorem fuzzy_region_skip (contents : List Nat) (hbytes : ∀ b ∈ contents, b < 256)
    (p count flags fuzzy_size : Nat) (e : Bool) (hext : flags &&& 1 ≠ 0)
    (records : List Sector) (hrec : spec_sector_table contents p count = some records)
    (hsizes : ∀ s ∈ records, s.status &&& 0x80 ≠ 0 →
      ∃ size, s.data_size = some size ∧ fuzzy_size + size < 2 ^ 32)
    (hlong : p + 16 * count + fuzzy_size ≤ contents.length) :
    ∃ file_,
      read_sectors { contents := contents, position := p, eof_ := e } fuzzy_size count flags =
        some (spec_fuzzy_masks contents (p + 16 * count) fuzzy_size records, file_) ∧
      file_.position = p + 16 * count + fuzzy_size ∧
      file_.contents = contents := by
  obtain ⟨e', h⟩ := read_sectors_eq contents hbytes p count flags fuzzy_size e hext records
    hrec hsizes hlong
  exact ⟨_, h, rfl, rfl⟩

set_option maxRecDepth 100000 in
/-- The fuzzy region of a table of a fuzzy sector of 128 bytes, a sector that is
not fuzzy and a second fuzzy sector of 128 bytes, with a declared fuzzy size of
200 bytes: the first fuzzy sector receives the 128 bytes after the table, the
third does not fit, and the cursor ends 200 bytes after the table. -/
theorem fuzzy_region_skip_witness :
    (∃ file_,
      read_sectors
        { contents :=
            [0, 0, 0, 0, 0, 0, 0, 0, 1, 0, 1, 0, 0, 0, 0x80, 0,
             0, 0, 0, 0, 0, 0, 0, 0, 1, 0, 2, 0, 0, 0, 0x00, 0,
             0, 0, 0, 0, 0, 0, 0, 0, 1, 0, 3, 0, 0, 0, 0x80, 0] ++ List.replicate 300 7,
          position := 0, eof_ := false } 200 3 1 =
        some (spec_fuzzy_masks
          ([0, 0, 0, 0, 0, 0, 0, 0, 1, 0, 1, 0, 0, 0, 0x80, 0,
            0, 0, 0, 0, 0, 0, 0, 0, 1, 0, 2, 0, 0, 0, 0x00, 0,
            0, 0, 0, 0, 0, 0, 0, 0, 1, 0, 3, 0, 0, 0, 0x80, 0] ++ List.replicate 300 7)
          (0 + 16 * 3) 200
          [{ address := [1, 0, 1, 0, 0, 0], status := 0x80 },
           { address := [1, 0, 2, 0, 0, 0], status := 0x00 },
           { address := [1, 0, 3, 0, 0, 0], status := 0x80 }], file_) ∧
      file_.position = 0 + 16 * 3 + 200 ∧
      file_.contents =
        [0, 0, 0, 0, 0, 0, 0, 0, 1, 0, 1, 0, 0, 0, 0x80, 0,
         0, 0, 0, 0, 0, 0, 0, 0, 1, 0, 2, 0, 0, 0, 0x00, 0,
         0, 0, 0, 0, 0, 0, 0, 0, 1, 0, 3, 0, 0, 0, 0x80, 0] ++ List.replicate 300 7) ∧
    spec_fuzzy_masks
        ([0, 0, 0, 0, 0, 0, 0, 0, 1, 0, 1, 0, 0, 0, 0x80, 0,
          0, 0, 0, 0, 0, 0, 0, 0, 1, 0, 2, 0, 0, 0, 0x00, 0,
          0, 0, 0, 0, 0, 0, 0, 0, 1, 0, 3, 0, 0, 0, 0x80, 0] ++ List.replicate 300 7)
        (0 + 16 * 3) 200
        [{ address := [1, 0, 1, 0, 0, 0], status := 0x80 },
         { address := [1, 0, 2, 0, 0, 0], status := 0x00 },
         { address := [1, 0, 3, 0, 0, 0], status := 0x80 }] =
      [{ address := [1, 0, 1, 0, 0, 0], status := 0x80, fuzzy_mask := List.replicate 128 7 },
       { address := [1, 0, 2, 0, 0, 0], status := 0x00 },
       { address := [1, 0, 3, 0, 0, 0], status := 0x80 }] := by
  refine ⟨?_, by decide⟩
  refine fuzzy_region_skip _ (bytes_append_replicate _ 300 7 (by decide) (by decide)) 0 3 1
    200 false
    (by decide) _ (by decide) ?_ (by decide)
  intro s hs h80
  simp only [List.mem_cons, List.mem_singleton, List.not_mem_nil, or_false] at hs
  rcases hs with rfl | rfl | rfl
  · exact ⟨128, by decide, by decide⟩
  · exact absurd rfl h80
  · exact ⟨128, by decide, by decide⟩

end Storage.Disk

namespace Storage.Disk

/-! ## STX: the sector bodies -/

theorem read_any (data : List Nat) (p size : Nat) (e : Bool) :
    FileHolder.read { contents := data, position := p, eof_ := e } size
      = ((data.drop p).take size,
          { contents := data, position := p + ((data.drop p).take size).length,
            eof_ := e || decide (((data.drop p).take size).length < size) }) := rfl

theorem spec_body_cursor_cons_pos (contents : List Nat) (sector_start start : Nat)
    (s : Sector) (rest : List Sector) (h : s.status &&& 0x10 = 0) :
    spec_body_cursor contents sector_start start (s :: rest) =
      spec_body_cursor contents sector_start
        (max start (spec_body_end contents sector_start s)) rest := by
  unfold spec_body_cursor
  rw [List.filter_cons_of_pos (by simpa using h)]
  rfl

theorem spec_body_cursor_cons_neg (contents : List Nat) (sector_start start : Nat)
    (s : Sector) (rest : List Sector) (h : ¬ s.status &&& 0x10 = 0) :
    spec_body_cursor contents sector_start start (s :: rest) =
      spec_body_cursor contents sector_start start rest := by
  unfold spec_body_cursor
  rw [List.filter_cons_of_neg (by simpa using h)]

theorem read_sector_contents_eq (contents : List Nat) (sector_start : Nat) :
    ∀ (sectors : List Sector) (end_of_data : Nat) (f : FileHolder), f.contents = contents →
      (∀ s ∈ sectors, s.status &&& 0x10 = 0 → s.data_size ≠ none) →
      ∃ f', read_sector_contents sector_start sectors end_of_data f =
          some (sectors.map (spec_sector_body contents sector_start),
            spec_body_cursor contents sector_start end_of_data sectors, f') ∧
        f'.contents = contents := by
  intro sectors
  induction sectors with
  | nil => intro E f hf _; exact ⟨f, rfl, hf⟩
  | cons s rest ih =>
    intro E f hf hdef
    have hrest : ∀ x ∈ rest, x.status &&& 0x10 = 0 → x.data_size ≠ none :=
      fun x hx => hdef x (List.mem_cons_of_mem _ hx)
    obtain ⟨c, q, e⟩ := f
    simp only at hf
    subst hf
    unfold read_sector_contents
    by_cases h10 : s.status &&& 0x10 = 0
    · rw [if_pos h10]
      cases hd : s.data_size with
      | none => exact absurd hd (hdef s (List.mem_cons_self _ _) h10)
      | some size =>
        obtain ⟨hspec, -, -⟩ := data_size_eq s size hd
        dsimp only
        have hoff : ((s.data_offset : Int) + (sector_start : Int))
            = ((sector_start + s.data_offset : Nat) : Int) := by omega
        rw [hoff, seek_set, read_any]
        dsimp only
        simp only [FileHolder.tell, Bool.false_or]
        generalize decide (((c.drop (sector_start + s.data_offset)).take size).length < size)
          = e'
        obtain ⟨f', hr, hf'⟩ := ih
          (max E (sector_start + s.data_offset +
            ((c.drop (sector_start + s.data_offset)).take size).length))
          ⟨c, sector_start + s.data_offset +
            ((c.drop (sector_start + s.data_offset)).take size).length, e'⟩ rfl hrest
        refine ⟨f', ?_, hf'⟩
        rw [hr, spec_body_cursor_cons_pos c sector_start E s rest h10]
        simp only [Option.map_some', List.map_cons, spec_sector_body, if_pos h10, spec_body_end,
          FileHolder.tell, hspec]
    · rw [if_neg h10]
      obtain ⟨f', hr, hf'⟩ := ih E { contents := c, position := q, eof_ := e } rfl hrest
      refine ⟨f', ?_, hf'⟩
      rw [hr, spec_body_cursor_cons_neg c sector_start E s rest h10]
      simp only [Option.map_some', List.map_cons, spec_sector_body, if_neg h10]

/-- The sectors with their bodies and the cursor after them, for an explicit
sector table. -/
theorem read_contents_eq (f : FileHolder) (sectors : List Sector)
    (sector_start sector_count : Nat) (position head : Int) (hne : sectors ≠ [])
    (hdef : ∀ s ∈ sectors, s.status &&& 0x10 = 0 → s.data_size ≠ none) :
    read_contents f sectors sector_start sector_count position head =
      some (sectors.map (spec_sector_body f.contents sector_start),
        { contents := f.contents,
          position := spec_body_cursor f.contents sector_start f.position sectors,
          eof_ := false }) := by
  unfold read_contents
  have hempty : sectors.isEmpty = false := by
    cases sectors with
    | nil => exact absurd rfl hne
    | cons s rest => rfl
  rw [hempty]
  obtain ⟨f', hr, hf'⟩ := read_sector_contents_eq f.contents sector_start sectors f.tell f rfl hdef
  simp only [Bool.false_eq_true, if_false, hr]
  rw [file_eta f', seek_set, hf']
  rfl

end Storage.Disk

namespace Storage.Disk

theorem read_keeps_contents (f : FileHolder) (size : Nat) :
    (f.read size).2.contents = f.contents := rfl

theorem get16le_contents (f : FileHolder) : f.get16le.2.contents = f.contents := by
  simp only [FileHolder.get16le, fgetc_contents]

theorem read_into_contents (f : FileHolder) (buffer : List Nat) (size : Nat) :
    (f.read_into buffer size).2.contents = f.contents := rfl

section

attribute [local irreducible] FileHolder.get32le FileHolder.get16le FileHolder.get8
  FileHolder.read_into FileHolder.seek

theorem read_sector_records_contents (count : Nat) :
    ∀ f : FileHolder, (read_sector_records count f).2.contents = f.contents := by
  induction count with
  | zero => intro f; rfl
  | succ n ih =>
    intro f
    rw [read_sector_records]
    dsimp only
    rw [ih, seek_contents, get8_contents, read_into_contents, get16le_contents,
      get16le_contents, get32le_contents]

theorem read_sector_records_fresh (count : Nat) :
    ∀ f : FileHolder, ∀ s ∈ (read_sector_records count f).1, s.contents = [] := by
  induction count with
  | zero => intro f s hs; cases hs
  | succ n ih =>
    intro f s hs
    rw [read_sector_records] at hs
    dsimp only at hs
    rcases List.mem_cons.mp hs with h | h
    · rw [h]
    · exact ih _ s h

end

theorem read_fuzzy_masks_keeps (fuzzy_size : Nat) (sectors : List Sector) :
    ∀ (n : Nat) (f : FileHolder) (r : List Sector × Nat × FileHolder),
      read_fuzzy_masks fuzzy_size sectors n f = some r →
      r.1.map (fun s => s.contents) = sectors.map (fun s => s.contents) ∧
      r.2.2.contents = f.contents := by
  induction sectors with
  | nil => intro n f r h; cases h; exact ⟨rfl, rfl⟩
  | cons s rest ih =>
    intro n f r h
    unfold read_fuzzy_masks at h
    split at h
    · cases hr : read_fuzzy_masks fuzzy_size rest n f with
      | none => rw [hr] at h; cases h
      | some r' =>
        rw [hr] at h
        cases h
        obtain ⟨h1, h2⟩ := ih n f r' hr
        exact ⟨by simp only [List.map_cons, h1], h2⟩
    · split at h
      · cases h
      · split at h
        · cases h; exact ⟨rfl, rfl⟩
        · dsimp only at h
          cases hr : read_fuzzy_masks fuzzy_size rest _ _ with
          | none => rw [hr] at h; cases h
          | some r' =>
            rw [hr] at h
            cases h
            obtain ⟨h1, h2⟩ := ih _ _ r' hr
            exact ⟨by simp only [List.map_cons, h1], by rw [h2, read_keeps_contents]⟩

/-- What `read_sectors` hands on for an explicit sector table: the bytes of the
file, one sector per record, none with a body yet. -/
theorem read_sectors_keeps (f : FileHolder) (fuzzy_size sector_count flags : Nat)
    (hext : flags &&& 1 ≠ 0) (sectors : List Sector) (f1 : FileHolder)
    (h : read_sectors f fuzzy_size sector_count flags = some (sectors, f1)) :
    f1.contents = f.contents ∧ (∀ s ∈ sectors, s.contents = []) ∧
      sectors.length = sector_count := by
  have hlen : sectors.length = sector_count := by
    have := congrArg List.length
      (read_sectors_records f fuzzy_size sector_count flags hext sectors f1 h)
    simpa [read_sector_records_length] using this
  have hfresh := read_sector_records_fresh sector_count f
  have hall : ∀ (l : List Sector), l.map (fun s => s.contents)
      = (read_sector_records sector_count f).1.map (fun s => s.contents) →
      ∀ s ∈ l, s.contents = [] := by
    intro l hl s hs
    have hmem : s.contents ∈ l.map (fun s => s.contents) := List.mem_map_of_mem _ hs
    rw [hl] at hmem
    obtain ⟨t, ht, hts⟩ := List.mem_map.mp hmem
    rw [← hts]
    exact hfresh t ht
  unfold read_sectors at h
  rw [if_pos hext] at h
  dsimp only at h
  split at h
  · split at h
    · cases h
    · rename_i s' n' f' heq
      cases h
      obtain ⟨h1, h2⟩ := read_fuzzy_masks_keeps _ _ _ _ _ heq
      simp only at h1 h2
      exact ⟨by rw [seek_contents, h2, read_sector_records_contents], hall _ h1, hlen⟩
  · cases h
    exact ⟨read_sector_records_contents _ _, hfresh, hlen⟩

theorem read_track_data_contents (f : FileHolder) (flags : Nat) :
    (read_track_data f flags).2.contents = f.contents := by
  unfold read_track_data
  split
  · split
    · dsimp only
      rw [read_keeps_contents, get16le_contents, get16le_contents]
    · dsimp only
      rw [read_keeps_contents, get16le_contents]
  · rfl

theorem spec_sector_body_record (contents : List Nat) (sector_start : Nat) (s : Sector) :
    (spec_sector_body contents sector_start s).record = s.record := by
  unfold spec_sector_body
  split <;> rfl

/-- The sectors after their bodies are read, for an explicit sector table of
at least one sector: the sectors `read_sectors` hands on, each with its body. -/
theorem sector_bodies_aux (f : FileHolder) (fuzzy_size sector_count flags : Nat)
    (position head : Int) (hext : flags &&& 1 ≠ 0) (hcount : sector_count ≠ 0)
    (sectors : List Sector) (f1 : FileHolder)
    (h1 : read_sectors f fuzzy_size sector_count flags = some (sectors, f1))
    (hdef : ∀ s ∈ sectors, s.status &&& 0x10 = 0 → s.data_size ≠ none) :
    ∃ (final : { l : List Sector // l = sectors.map (spec_sector_body f.contents f1.tell) })
      (f3 : FileHolder),
      read_contents (read_track_data f1 flags).2 sectors f1.tell sector_count position head
        = some (final.1, f3) ∧ f1.contents = f.contents ∧ (∀ s ∈ sectors, s.contents = []) := by
  obtain ⟨hc, hfresh, hlen⟩ := read_sectors_keeps f fuzzy_size sector_count flags hext sectors
    f1 h1
  have hne : sectors ≠ [] := by
    intro hnil
    rw [hnil] at hlen
    exact hcount hlen.symm
  have hr := read_contents_eq (read_track_data f1 flags).2 sectors f1.tell sector_count
    position head hne hdef
  rw [read_track_data_contents, hc] at hr
  exact ⟨⟨_, rfl⟩, _, hr, hc, hfresh⟩

/-- C28 (sector bodies). For every track with an explicit sector table of at
least one sector, where `sector_start` is the file cursor after the fuzzy masks
have been handled (the position at which the track image, if any, starts), and
wherever `128 << size-code` is defined for the sectors that have a body: after
the bodies are read the sectors are those of the table, in its order; a sector
whose status has bit 0x10 clear has for contents the `128 << size-code` file
bytes from position `sector_start + data_offset` on, as many of them as the
file holds, where the size code is byte 3 of the address field; a sector whose
status has bit 0x10 set has empty contents. -/
theorem sector_bodies (f : FileHolder) (fuzzy_size sector_count flags : Nat)
    (position head : Int) (hext : flags &&& 1 ≠ 0) (hcount : sector_count ≠ 0)
    (sectors : List Sector) (f1 : FileHolder)
    (h1 : read_sectors f fuzzy_size sector_count flags = some (sectors, f1))
    (hdef : ∀ s ∈ sectors, s.status &&& 0x10 = 0 → s.data_size ≠ none) :
    ∃ final f3,
      read_contents (read_track_data f1 flags).2 sectors f1.tell sector_count position head
        = some (final, f3) ∧
      final.map Sector.record = sectors.map Sector.record ∧
      ∀ s ∈ final,
        (s.status &&& 0x10 = 0 →
          s.contents = (f.contents.drop (f1.tell + s.data_offset)).take
            (128 <<< s.address.getD 3 0)) ∧
        (s.status &&& 0x10 ≠ 0 → s.contents = []) := by
  obtain ⟨hc, hfresh, hlen⟩ := read_sectors_keeps f fuzzy_size sector_count flags hext sectors
    f1 h1
  have hne : sectors ≠ [] := by
    intro hnil
    rw [hnil] at hlen
    exact hcount hlen.symm
  have hr := read_contents_eq (read_track_data f1 flags).2 sectors f1.tell sector_count
    position head hne hdef
  rw [read_track_data_contents, hc] at hr
  refine ⟨_, _, hr, ?_, ?_⟩
  · rw [List.map_map]
    apply List.map_congr_left
    intro s _
    exact spec_sector_body_record _ _ s
  · intro s' hs'
    obtain ⟨s, hs, rfl⟩ := List.mem_map.mp hs'
    unfold spec_sector_body
    by_cases h10 : s.status &&& 0x10 = 0
    · rw [if_pos h10]
      exact ⟨fun _ => rfl, fun hn => absurd h10 hn⟩
    · rw [if_neg h10]
      exact ⟨fun hp => absurd hp h10, fun _ => hfresh s hs⟩

end Storage.Disk

namespace Storage.Disk

set_option maxRecDepth 100000 in
/-- C28, at a track of one sector of 128 bytes whose body starts 4 bytes after
the sector table. -/
theorem sector_bodies_witness :
    ∃ final f3,
      read_contents
        (read_track_data
          { contents := [4, 0, 0, 0, 0, 0, 0, 0, 1, 0, 1, 0, 0, 0, 0x00, 0] ++
              [1, 2, 3, 4] ++ List.replicate 128 9,
            position := 16, eof_ := false } 1).2
        [{ data_offset := 4, address := [1, 0, 1, 0, 0, 0], status := 0x00 }]
        (FileHolder.tell
          { contents := [4, 0, 0, 0, 0, 0, 0, 0, 1, 0, 1, 0, 0, 0, 0x00, 0] ++
              [1, 2, 3, 4] ++ List.replicate 128 9,
            position := 16, eof_ := false }) 1 0 0 = some (final, f3) ∧
      final.map Sector.record =
        [({ data_offset := 4, address := [1, 0, 1, 0, 0, 0], status := 0x00 } : Sector)].map
          Sector.record ∧
      ∀ s ∈ final,
        (s.status &&& 0x10 = 0 →
          s.contents =
            ((FileHolder.contents
              { contents := [4, 0, 0, 0, 0, 0, 0, 0, 1, 0, 1, 0, 0, 0, 0x00, 0] ++
                  [1, 2, 3, 4] ++ List.replicate 128 9,
                position := 0, eof_ := false }).drop
              (FileHolder.tell
                { contents := [4, 0, 0, 0, 0, 0, 0, 0, 1, 0, 1, 0, 0, 0, 0x00, 0] ++
                    [1, 2, 3, 4] ++ List.replicate 128 9,
                  position := 16, eof_ := false } + s.data_offset)).take
              (128 <<< s.address.getD 3 0)) ∧
        (s.status &&& 0x10 ≠ 0 → s.contents = []) :=
  sector_bodies
    { contents := [4, 0, 0, 0, 0, 0, 0, 0, 1, 0, 1, 0, 0, 0, 0x00, 0] ++
        [1, 2, 3, 4] ++ List.replicate 128 9,
      position := 0, eof_ := false } 0 1 1 0 0 (by decide) (by decide)
    [{ data_offset := 4, address := [1, 0, 1, 0, 0, 0], status := 0x00 }]
    { contents := [4, 0, 0, 0, 0, 0, 0, 0, 1, 0, 1, 0, 0, 0, 0x00, 0] ++
        [1, 2, 3, 4] ++ List.replicate 128 9,
      position := 16, eof_ := false } (by decide) (by decide)

end Storage.Disk

namespace Storage.Disk

theorem foldl_max_spec (l : List Nat) :
    ∀ a, a ≤ l.foldl max a ∧ (∀ x ∈ l, x ≤ l.foldl max a) ∧
      (l.foldl max a = a ∨ l.foldl max a ∈ l) := by
  induction l with
  | nil => intro a; exact ⟨Nat.le_refl _, fun x hx => (by cases hx), Or.inl rfl⟩
  | cons b rest ih =>
    intro a
    obtain ⟨h1, h2, h3⟩ := ih (max a b)
    rw [List.foldl_cons]
    refine ⟨by omega, ?_, ?_⟩
    · intro x hx
      rcases List.mem_cons.mp hx with h | h
      · rw [h]; omega
      · exact h2 x h
    · rcases h3 with h | h
      · rw [h]
        rcases Nat.le_total a b with hab | hab
        · right; rw [Nat.max_eq_right hab]; exact List.mem_cons_self _ _
        · left; exact Nat.max_eq_left hab
      · right; exact List.mem_cons_of_mem _ h

theorem spec_body_cursor_perm (contents : List Nat) (sector_start start : Nat)
    (sectors sectors' : List Sector) (h : sectors.Perm sectors') :
    spec_body_cursor contents sector_start start sectors =
      spec_body_cursor contents sector_start start sectors' := by
  unfold spec_body_cursor
  apply List.Perm.foldl_eq' ((h.filter _).map _)
  intro x _ y _ z
  omega

set_option maxRecDepth 100000 in
/-- C29 as stated fails. A track whose image of 300 bytes follows a 2-byte
size, and whose one sector has its 128-byte body inside that
image, 2 bytes after `sector_start`: the only body read ends at file position
130, but the cursor after the bodies is 302, where it stood after the image was
read. -/
theorem body_cursor_after_image :
    (read_track_data
      { contents := [0x2c, 0x01] ++ List.replicate 300 7, position := 0, eof_ := false }
      0x41).2.position = 302 ∧
    spec_body_end ([0x2c, 0x01] ++ List.replicate 300 7) 0
      { data_offset := 2, address := [0, 0, 1, 0, 0, 0], status := 0 } = 130 ∧
    (read_contents
      (read_track_data
        { contents := [0x2c, 0x01] ++ List.replicate 300 7, position := 0, eof_ := false }
        0x41).2
      [{ data_offset := 2, address := [0, 0, 1, 0, 0, 0], status := 0 }] 0 1 0 0).map
        (fun r => (r.1.map (fun s => s.contents.length), r.2.position))
      = some ([128], 302) := by
  decide

/-- C29, amended. For every explicit sector table (wherever `128 << size-code`
is defined for the sectors that have a body), the file cursor after all sector
bodies are read equals the maximum of the position at which the cursor stood
before the bodies were read (the end of the track image, if there is one) and
the positions at which the reads of the bodies ended, and it is therefore the
same for every permutation of the sector-table records. -/
theorem body_cursor (f : FileHolder) (sectors sectors' : List Sector)
    (sector_start sector_count : Nat) (position head : Int) (hne : sectors ≠ [])
    (hperm : sectors.Perm sectors')
    (hdef : ∀ s ∈ sectors, s.status &&& 0x10 = 0 → s.data_size ≠ none) :
    ∃ final final' f3 f3',
      read_contents f sectors sector_start sector_count position head = some (final, f3) ∧
      read_contents f sectors' sector_start sector_count position head = some (final', f3') ∧
      f3'.position = f3.position ∧
      f3.position = spec_body_cursor f.contents sector_start f.tell sectors ∧
      f.tell ≤ f3.position ∧
      (∀ s ∈ sectors, s.status &&& 0x10 = 0 →
        spec_body_end f.contents sector_start s ≤ f3.position) ∧
      (f3.position = f.tell ∨
        ∃ s ∈ sectors, s.status &&& 0x10 = 0 ∧
          f3.position = spec_body_end f.contents sector_start s) := by
  have hne' : sectors' ≠ [] := by
    intro hnil
    rw [hnil] at hperm
    exact hne hperm.eq_nil
  have hdef' : ∀ s ∈ sectors', s.status &&& 0x10 = 0 → s.data_size ≠ none :=
    fun s hs => hdef s (hperm.mem_iff.mpr hs)
  have h1 := read_contents_eq f sectors sector_start sector_count position head hne hdef
  have h2 := read_contents_eq f sectors' sector_start sector_count position head hne' hdef'
  obtain ⟨m1, m2, m3⟩ := foldl_max_spec
    ((sectors.filter (fun sector => sector.status &&& 0x10 = 0)).map
      (spec_body_end f.contents sector_start)) f.position
  refine ⟨_, _, _, _, h1, h2, ?_, rfl, m1, ?_, ?_⟩
  · exact (spec_body_cursor_perm f.contents sector_start f.position sectors sectors' hperm).symm
  · intro s hs h10
    apply m2
    apply List.mem_map_of_mem
    rw [List.mem_filter]
    exact ⟨hs, by simpa using h10⟩
  · rcases m3 with h | h
    · left; exact h
    · right
      obtain ⟨s, hs, he⟩ := List.mem_map.mp h
      rw [List.mem_filter] at hs
      exact ⟨s, hs.1, by simpa using hs.2, he.symm⟩

set_option maxRecDepth 100000 in
/-- C29, amended, at two sectors whose bodies end at 133 and at 260, read from
a cursor at 40, in both orders: the cursor ends at 260. -/
theorem body_cursor_witness :
    ∃ final final' f3 f3',
      read_contents { contents := List.replicate 300 7, position := 40, eof_ := false }
        [{ data_offset := 5, address := [0, 0, 1, 0, 0, 0], status := 0 },
         { data_offset := 4, address := [0, 0, 2, 1, 0, 0], status := 0 }] 0 2 0 0
        = some (final, f3) ∧
      read_contents { contents := List.replicate 300 7, position := 40, eof_ := false }
        [{ data_offset := 4, address := [0, 0, 2, 1, 0, 0], status := 0 },
         { data_offset := 5, address := [0, 0, 1, 0, 0, 0], status := 0 }] 0 2 0 0
        = some (final', f3') ∧
      f3'.position = f3.position ∧ f3.position = 260 := by
  obtain ⟨final, final', f3, f3', h1, h2, h3, h4, -⟩ := body_cursor
    { contents := List.replicate 300 7, position := 40, eof_ := false }
    [{ data_offset := 5, address := [0, 0, 1, 0, 0, 0], status := 0 },
     { data_offset := 4, address := [0, 0, 2, 1, 0, 0], status := 0 }]
    [{ data_offset := 4, address := [0, 0, 2, 1, 0, 0], status := 0 },
     { data_offset := 5, address := [0, 0, 1, 0, 0, 0], status := 0 }] 0 2 0 0
    (by decide) (List.Perm.swap _ _ _) (by decide)
  exact ⟨final, final', f3, f3', h1, h2, h3, h4.trans (by decide)⟩

end Storage.Disk

namespace Storage.Disk

theorem spec_sector_table_fresh (contents : List Nat) :
    ∀ (count p : Nat) (records : List Sector),
      spec_sector_table contents p count = some records →
      ∀ s ∈ records, s.fuzzy_mask = [] ∧ s.contents = [] := by
  intro count
  induction count with
  | zero => intro p records h s hs; cases h; cases hs
  | succ n ih =>
    intro p records h s hs
    unfold spec_sector_table at h
    cases h1 : spec_sector_record contents p with
    | none => rw [h1] at h; cases h
    | some sector =>
      cases h2 : spec_sector_table contents (p + 16) n with
      | none => rw [h1, h2] at h; cases h
      | some rest =>
        rw [h1, h2] at h
        cases h
        rcases List.mem_cons.mp hs with hm | hm
        · subst hm
          unfold spec_sector_record at h1
          split at h1
          · cases h1; exact ⟨rfl, rfl⟩
          · cases h1
        · exact ih (p + 16) rest h2 s hm

theorem spec_fuzzy_masks_mem (contents : List Nat) :
    ∀ (sectors : List Sector) (cursor remaining : Nat),
      cursor + remaining ≤ contents.length →
      ∀ s ∈ spec_fuzzy_masks contents cursor remaining sectors,
        ∃ s0 ∈ sectors, s.record = s0.record ∧ s.contents = s0.contents ∧
          (s.fuzzy_mask = s0.fuzzy_mask ∨ s.fuzzy_mask.length = spec_data_size s0) := by
  intro sectors
  induction sectors with
  | nil => intro c r _ s hs; cases hs
  | cons t rest ih =>
    intro c r hlen s hs
    unfold spec_fuzzy_masks at hs
    split_ifs at hs with h80 hfit
    · rcases List.mem_cons.mp hs with hm | hm
      · exact ⟨t, List.mem_cons_self _ _, by rw [hm], by rw [hm], Or.inl (by rw [hm])⟩
      · obtain ⟨s0, hs0, h⟩ := ih c r hlen s hm
        exact ⟨s0, List.mem_cons_of_mem _ hs0, h⟩
    · exact ⟨s, hs, rfl, rfl, Or.inl rfl⟩
    · rcases List.mem_cons.mp hs with hm | hm
      · refine ⟨t, List.mem_cons_self _ _, by rw [hm]; rfl, by rw [hm], Or.inr ?_⟩
        rw [hm]
        simp only [List.length_take, List.length_drop]
        omega
      · obtain ⟨s0, hs0, h⟩ := ih (c + spec_data_size t) (r - spec_data_size t) (by omega) s hm
        exact ⟨s0, List.mem_cons_of_mem _ hs0, h⟩

theorem spec_sector_body_fields (contents : List Nat) (sector_start : Nat) (s : Sector) :
    (spec_sector_body contents sector_start s).status = s.status ∧
    (spec_sector_body contents sector_start s).fuzzy_mask = s.fuzzy_mask ∧
    (spec_sector_body contents sector_start s).address = s.address ∧
    (spec_sector_body contents sector_start s).data_offset = s.data_offset := by
  unfold spec_sector_body
  split <;> exact ⟨rfl, rfl, rfl, rfl⟩

theorem spec_data_size_of_record (s t : Sector) (h : s.record = t.record) :
    spec_data_size s = spec_data_size t := by
  have : s.address = t.address := by
    simp only [Sector.record, Prod.mk.injEq] at h
    exact h.2.2.2.1
  simp only [spec_data_size, this]

set_option maxRecDepth 100000 in
/-- C27 as stated fails. A track with a declared fuzzy size of 128 bytes and
two sectors of 128 bytes that both have the fuzzy bit 0x80: the
first, whose status 0x90 also says that no data is recorded, receives a mask of
128 bytes and has no contents; the second, for which the declared size has
nothing left, receives no mask and has 128 bytes of contents. The whole track
lies in the file. -/
theorem fuzzy_mask_not_as_long_as_contents :
    (match read_sectors
        { contents :=
            [0, 0, 0, 0, 0, 0, 0, 0, 1, 0, 1, 0, 0, 0, 0x90, 0,
             0, 0, 0, 0, 0, 0, 0, 0, 1, 0, 2, 0, 0, 0, 0x80, 0] ++ List.replicate 400 7,
          position := 0, eof_ := false } 128 2 1 with
      | none => none
      | some (sectors, f1) =>
        (read_contents (read_track_data f1 1).2 sectors f1.tell 2 0 0).map
          (fun r => r.1.map (fun s => (s.status, s.fuzzy_mask.length, s.contents.length))))
      = some [(0x90, 128, 0), (0x80, 0, 128)] := by
  decide

/-- C27, amended. For every track with an explicit sector table that lies in
the file together with the declared fuzzy region, and whose 32-bit count of mask
bytes cannot wrap: every sector produced that has the fuzzy bit 0x80 set and
bit 0x10 clear, whose body lies in the file and which has received a fuzzy mask,
has a fuzzy mask of the same length as its contents, `128 << size-code`
bytes. -/
theorem fuzzy_mask_length (contents : List Nat) (hbytes : ∀ b ∈ contents, b < 256)
    (p count flags fuzzy_size : Nat) (e : Bool) (position head : Int)
    (hext : flags &&& 1 ≠ 0) (hcount : count ≠ 0)
    (records : List Sector) (hrec : spec_sector_table contents p count = some records)
    (hsizes : ∀ s ∈ records, s.status &&& 0x80 ≠ 0 →
      ∃ size, s.data_size = some size ∧ fuzzy_size + size < 2 ^ 32)
    (hdef : ∀ s ∈ records, s.status &&& 0x10 = 0 → s.data_size ≠ none)
    (hlong : p + 16 * count + fuzzy_size ≤ contents.length) :
    ∃ sectors f1 final f3,
      read_sectors { contents := contents, position := p, eof_ := e } fuzzy_size count flags
        = some (sectors, f1) ∧
      read_contents (read_track_data f1 flags).2 sectors f1.tell count position head
        = some (final, f3) ∧
      ∀ s ∈ final, s.status &&& 0x80 ≠ 0 → s.status &&& 0x10 = 0 → s.fuzzy_mask ≠ [] →
        f1.tell + s.data_offset + 128 <<< s.address.getD 3 0 ≤ contents.length →
        s.fuzzy_mask.length = s.contents.length ∧
        s.contents.length = 128 <<< s.address.getD 3 0 := by
  obtain ⟨e', h1⟩ := read_sectors_eq contents hbytes p count flags fuzzy_size e hext records
    hrec hsizes hlong
  have hmem := spec_fuzzy_masks_mem contents records (p + 16 * count) fuzzy_size hlong
  have hfresh := spec_sector_table_fresh contents count p records hrec
  have hdef' : ∀ s ∈ spec_fuzzy_masks contents (p + 16 * count) fuzzy_size records,
      s.status &&& 0x10 = 0 → s.data_size ≠ none := by
    intro s hs h10
    obtain ⟨s0, hs0, hr, -, -⟩ := hmem s hs
    have hst : s.status = s0.status := by
      simp only [Sector.record, Prod.mk.injEq] at hr
      exact hr.2.2.2.2
    rw [data_size_of_record s s0 hr]
    exact hdef s0 hs0 (by rw [← hst]; exact h10)
  obtain ⟨final, f3, h2, -, -⟩ := sector_bodies_aux
    { contents := contents, position := p, eof_ := e } fuzzy_size count flags position head
    hext hcount _ _ h1 hdef'
  refine ⟨_, _, final.1, f3, h1, h2, ?_⟩
  intro s' hs' h80 h10 hmask hbody
  rw [final.2] at hs'
  obtain ⟨s, hs, rfl⟩ := List.mem_map.mp hs'
  obtain ⟨s0, hs0, hr, -, hm⟩ := hmem s hs
  have hsz := spec_data_size_of_record s s0 hr
  rw [(spec_sector_body_fields _ _ s).1] at h10
  rw [(spec_sector_body_fields _ _ s).2.1] at hmask ⊢
  rw [(spec_sector_body_fields _ _ s).2.2.1, (spec_sector_body_fields _ _ s).2.2.2] at hbody
  rw [(spec_sector_body_fields _ _ s).2.2.1]
  have hlenm : s.fuzzy_mask.length = spec_data_size s := by
    rcases hm with h | h
    · rw [h, (hfresh s0 hs0).1] at hmask
      exact absurd rfl hmask
    · rw [h, hsz]
  have hlenc : (spec_sector_body
      (FileHolder.contents { contents := contents, position := p, eof_ := e })
      (FileHolder.tell
        { contents := contents, position := p + 16 * count + fuzzy_size, eof_ := e' })
      s).contents.length = spec_data_size s := by
    unfold spec_sector_body
    rw [if_pos h10]
    simp only [List.length_take, List.length_drop]
    simp only [FileHolder.tell, spec_data_size] at hbody ⊢
    omega
  rw [hlenm, hlenc]
  exact ⟨rfl, rfl⟩

end Storage.Disk

namespace Storage.Disk

set_option maxRecDepth 100000 in
/-- C27, amended, at a track of one fuzzy sector of 128 bytes with a declared
fuzzy size of 128 bytes: its mask and its contents both have 128 bytes. -/
theorem fuzzy_mask_length_witness :
    (∃ sectors f1 final f3,
      read_sectors
        { contents := [128, 0, 0, 0, 0, 0, 0, 0, 1, 0, 1, 0, 0, 0, 0x80, 0] ++
            List.replicate 400 7,
          position := 0, eof_ := false } 128 1 1 = some (sectors, f1) ∧
      read_contents (read_track_data f1 1).2 sectors f1.tell 1 0 0 = some (final, f3) ∧
      ∀ s ∈ final, s.status &&& 0x80 ≠ 0 → s.status &&& 0x10 = 0 → s.fuzzy_mask ≠ [] →
        f1.tell + s.data_offset + 128 <<< s.address.getD 3 0 ≤
          ([128, 0, 0, 0, 0, 0, 0, 0, 1, 0, 1, 0, 0, 0, 0x80, 0] ++
            List.replicate 400 7).length →
        s.fuzzy_mask.length = s.contents.length ∧
        s.contents.length = 128 <<< s.address.getD 3 0) ∧
    (match read_sectors
        { contents := [128, 0, 0, 0, 0, 0, 0, 0, 1, 0, 1, 0, 0, 0, 0x80, 0] ++
            List.replicate 400 7,
          position := 0, eof_ := false } 128 1 1 with
      | none => none
      | some (sectors, f1) =>
        (read_contents (read_track_data f1 1).2 sectors f1.tell 1 0 0).map
          (fun r => r.1.map (fun s => (s.status, s.fuzzy_mask.length, s.contents.length))))
      = some [(0x80, 128, 128)] := by
  refine ⟨?_, by decide⟩
  refine fuzzy_mask_length _ (bytes_append_replicate _ 400 7 (by decide) (by decide)) 0 1 1 128
    false 0 0 (by decide) (by decide)
    [{ data_offset := 128, address := [1, 0, 1, 0, 0, 0], status := 0x80 }] (by decide) ?_
    (by decide) (by decide)
  intro s hs _
  simp only [List.mem_singleton] at hs
  subst hs
  exact ⟨128, by decide, by decide⟩

end Storage.Disk

namespace Storage.Disk

/-! ## STX: the fuzzy masks are not used -/

theorem sort_sectors_without_mask (l : List Sector) :
    sort_sectors (l.map Sector.without_mask) = (sort_sectors l).map Sector.without_mask := by
  unfold sort_sectors
  exact (List.map_insertionSort _ _ Sector.without_mask l (fun a _ b _ => Iff.rfl)).symm

theorem assemble_without_mask (track_data : List Nat) (track_length : Nat) (l : List Sector) :
    ∀ c, assemble track_data track_length (l.map Sector.without_mask) c =
      assemble track_data track_length l c := by
  induction l with
  | nil => intro c; rfl
  | cons s rest ih =>
    intro c
    rw [List.map_cons, assemble, assemble]
    have h1 : output_header s.without_mask = output_header s := rfl
    have h2 : ∀ p, output_body track_data s.without_mask p = output_body track_data s p :=
      fun p => rfl
    have h3 : s.without_mask.track_offset_of_header = s.track_offset_of_header := rfl
    simp only [h1, h2, h3, ih]

end Storage.Disk

namespace Storage.Disk

theorem correlate_without_mask (track_data : List Nat) (marks : List PotentialMark)
    (l : List Sector) :
    ∀ n, correlate track_data marks (l.map Sector.without_mask) n =
      (correlate track_data marks l n).map (List.map Sector.without_mask) := by
  induction l with
  | nil => intro n; rfl
  | cons s rest ih =>
    intro n
    have hd : s.without_mask.data_offset = s.data_offset := rfl
    have hs : s.without_mask.status = s.status := rfl
    have ha : s.without_mask.address = s.address := rfl
    have hb : s.without_mask.bit_position = s.bit_position := rfl
    rw [List.map_cons, correlate, correlate]
    simp only [hd, hs, ha, hb]
    repeat' (first
      | rfl
      | (rw [ih]; generalize correlate track_data marks rest _ = r; cases r <;> rfl)
      | (split <;> try dsimp only))

end Storage.Disk

namespace Storage.Disk

theorem build_track_without_mask (track_data : List Nat) (l : List Sector)
    (track_length : Nat) :
    build_track track_data (l.map Sector.without_mask) track_length =
      build_track track_data l track_length := by
  unfold build_track
  rw [correlate_without_mask]
  split
  · rfl
  · cases correlate track_data (potential_marks track_data) l 0 with
    | none => rfl
    | some r =>
      simp only [Option.map_some', assemble_without_mask]

/-- The track built from sorted sectors does not depend on their fuzzy
masks. -/
theorem build_track_of_masks (track_data : List Nat) (track_length : Nat) (l l' : List Sector)
    (h : l.map Sector.without_mask = l'.map Sector.without_mask) :
    build_track track_data (sort_sectors l) track_length =
      build_track track_data (sort_sectors l') track_length := by
  rw [← build_track_without_mask track_data (sort_sectors l),
    ← build_track_without_mask track_data (sort_sectors l'), ← sort_sectors_without_mask,
    ← sort_sectors_without_mask, h]

theorem drop_eq_of_le (x y : List Nat) (ss q : Nat) (h : x.drop ss = y.drop ss)
    (hq : ss ≤ q) : x.drop q = y.drop q := by
  have e1 : x.drop q = (x.drop ss).drop (q - ss) := by
    rw [List.drop_drop]; congr 1; omega
  have e2 : y.drop q = (y.drop ss).drop (q - ss) := by
    rw [List.drop_drop]; congr 1; omega
  rw [e1, e2, h]

theorem getElem?_eq_of_drop (x y : List Nat) (ss q : Nat) (h : x.drop ss = y.drop ss)
    (hq : ss ≤ q) : x[q]? = y[q]? := by
  have := congrArg (fun l => l[0]?) (drop_eq_of_le x y ss q h hq)
  simpa using this

theorem length_eq_of_drop (x y : List Nat) (ss q : Nat) (h : x.drop ss = y.drop ss)
    (hq : ss ≤ q) : x.length - q = y.length - q := by
  have := congrArg List.length (drop_eq_of_le x y ss q h hq)
  simpa using this

/-- Two files that agree outside `[a, b)` have the same bytes from `ss` on, for
`ss` at or after `b`, or at or after their end. -/
theorem drop_eq_of_agree (x y : List Nat) (a b ss : Nat) (hlen : x.length = y.length)
    (hagree : ∀ i, i < a ∨ b ≤ i → x[i]? = y[i]?)
    (hss : b ≤ ss ∨ x.length ≤ ss) : x.drop ss = y.drop ss := by
  rcases hss with h | h
  · apply List.ext_getElem?
    intro i
    rw [List.getElem?_drop, List.getElem?_drop]
    exact hagree _ (Or.inr (by omega))
  · rw [List.drop_eq_nil_of_le h, List.drop_eq_nil_of_le (by omega)]

theorem take_drop_eq_of_below (x y : List Nat) (a k n : Nat)
    (hagree : ∀ i, i < a → x[i]? = y[i]?) (h : k + n ≤ a) :
    (x.drop k).take n = (y.drop k).take n := by
  apply List.ext_getElem?
  intro i
  rw [List.getElem?_take, List.getElem?_take]
  split
  · rw [List.getElem?_drop, List.getElem?_drop]
    exact hagree _ (by omega)
  · rfl

theorem spec_sector_record_agree (x y : List Nat) (a p : Nat)
    (hagree : ∀ i, i < a → x[i]? = y[i]?) (h : p + 16 ≤ a) :
    spec_sector_record x p = spec_sector_record y p := by
  unfold spec_sector_record spec_le32 spec_le16
  rw [hagree p (by omega), hagree (p + 1) (by omega), hagree (p + 2) (by omega),
    hagree (p + 3) (by omega), hagree (p + 4) (by omega), hagree (p + 4 + 1) (by omega),
    hagree (p + 6) (by omega), hagree (p + 6 + 1) (by omega), hagree (p + 14) (by omega),
    hagree (p + 15) (by omega), take_drop_eq_of_below x y a (p + 8) 6 hagree (by omega)]

theorem spec_sector_table_agree (x y : List Nat) (a : Nat)
    (hagree : ∀ i, i < a → x[i]? = y[i]?) :
    ∀ (count p : Nat), p + 16 * count ≤ a →
      spec_sector_table x p count = spec_sector_table y p count := by
  intro count
  induction count with
  | zero => intro p _; rfl
  | succ n ih =>
    intro p h
    unfold spec_sector_table
    rw [spec_sector_record_agree x y a p hagree (by omega), ih (p + 16) (by omega)]

end Storage.Disk

namespace Storage.Disk

theorem get16le_pair (x y : List Nat) (ss q : Nat) (e e' : Bool)
    (h : x.drop ss = y.drop ss) (hq : ss ≤ q) :
    ∃ v p e1 e1', q ≤ p ∧
      FileHolder.get16le { contents := x, position := q, eof_ := e }
        = (v, { contents := x, position := p, eof_ := e1 }) ∧
      FileHolder.get16le { contents := y, position := q, eof_ := e' }
        = (v, { contents := y, position := p, eof_ := e1' }) := by
  have h0 := getElem?_eq_of_drop x y ss q h hq
  have h1 := getElem?_eq_of_drop x y ss (q + 1) h (by omega)
  unfold FileHolder.get16le FileHolder.fgetc
  dsimp only
  rw [h0]
  cases hy0 : y[q]? with
  | none =>
    dsimp only
    rw [h0, hy0]
    exact ⟨_, q, _, _, Nat.le_refl _, rfl, rfl⟩
  | some b0 =>
    dsimp only
    rw [h1]
    cases hy1 : y[q + 1]? with
    | none => exact ⟨_, q + 1, _, _, by omega, rfl, rfl⟩
    | some b1 => exact ⟨_, q + 1 + 1, _, _, by omega, rfl, rfl⟩

theorem read_pair (x y : List Nat) (ss q size : Nat) (e e' : Bool)
    (h : x.drop ss = y.drop ss) (hq : ss ≤ q) :
    (FileHolder.read { contents := x, position := q, eof_ := e } size).1
      = (FileHolder.read { contents := y, position := q, eof_ := e' } size).1 := by
  rw [read_any, read_any, drop_eq_of_le x y ss q h hq]

/-- The track image read from a position from which the two files agree. -/
theorem read_track_data_pair (x y : List Nat) (ss flags : Nat) (e e' : Bool)
    (h : x.drop ss = y.drop ss) :
    (read_track_data { contents := x, position := ss, eof_ := e } flags).1
      = (read_track_data { contents := y, position := ss, eof_ := e' } flags).1 := by
  unfold read_track_data
  split
  · split
    · obtain ⟨v, p, e1, e1', hp, hx, hy⟩ := get16le_pair x y ss ss e e' h (Nat.le_refl _)
      rw [hx, hy]
      dsimp only
      obtain ⟨v2, p2, e2, e2', hp2, hx2, hy2⟩ := get16le_pair x y ss p e1 e1' h hp
      rw [hx2, hy2]
      dsimp only
      exact read_pair x y ss p2 v2 e2 e2' h (by omega)
    · obtain ⟨v, p, e1, e1', hp, hx, hy⟩ := get16le_pair x y ss ss e e' h (Nat.le_refl _)
      rw [hx, hy]
      dsimp only
      exact read_pair x y ss p v e1 e1' h hp
  · rfl

theorem without_mask_fields (s s' : Sector) (h : s.without_mask = s'.without_mask) :
    s.status = s'.status ∧ s.data_offset = s'.data_offset ∧ s.data_size = s'.data_size := by
  have h1 : s.without_mask.status = s'.without_mask.status := by rw [h]
  have h2 : s.without_mask.data_offset = s'.without_mask.data_offset := by rw [h]
  have h3 : s.without_mask.address = s'.without_mask.address := by rw [h]
  have h4 : s.address = s'.address := h3
  exact ⟨h1, h2, by unfold Sector.data_size; rw [h4]⟩

theorem without_mask_contents (s s' : Sector) (bytes : List Nat)
    (h : s.without_mask = s'.without_mask) :
    Sector.without_mask { s with contents := bytes }
      = Sector.without_mask { s' with contents := bytes } := by
  obtain ⟨a1, a2, a3, a4, a5, a6, a7, a8, a9, a10⟩ := s
  obtain ⟨b1, b2, b3, b4, b5, b6, b7, b8, b9, b10⟩ := s'
  simp only [Sector.without_mask, Sector.mk.injEq] at h ⊢
  obtain ⟨h1, h2, h3, h4, h5, -, -, h8, h9, h10⟩ := h
  exact ⟨h1, h2, h3, h4, h5, trivial, trivial, h8, h9, h10⟩

/-- The sector bodies read from two files that agree from `sector_start` on,
for sectors that differ in their fuzzy masks only. -/
theorem read_sector_contents_pair (sector_start : Nat) :
    ∀ (sectors sectors' : List Sector) (E E' : Nat) (f f' : FileHolder),
      sectors.map Sector.without_mask = sectors'.map Sector.without_mask →
      f.contents.drop sector_start = f'.contents.drop sector_start →
      (read_sector_contents sector_start sectors E f).map
          (fun r => r.1.map Sector.without_mask) =
        (read_sector_contents sector_start sectors' E' f').map
          (fun r => r.1.map Sector.without_mask) := by
  intro sectors
  induction sectors with
  | nil =>
    intro sectors' E E' f f' hm _
    cases sectors' with
    | nil => rfl
    | cons s' rest' => cases hm
  | cons s rest ih =>
    intro sectors' E E' f f' hm hd
    cases sectors' with
    | nil => cases hm
    | cons s' rest' =>
      simp only [List.map_cons, List.cons.injEq] at hm
      obtain ⟨hs, hrest⟩ := hm
      obtain ⟨hst, hdo, hds⟩ := without_mask_fields s s' hs
      obtain ⟨x, q, e⟩ := f
      obtain ⟨y, q', e'⟩ := f'
      simp only at hd
      rw [read_sector_contents, read_sector_contents, ← hst, ← hds, ← hdo]
      by_cases h10 : s.status &&& 0x10 = 0
      · rw [if_pos h10, if_pos h10]
        cases hsize : s.data_size with
        | none => rfl
        | some size =>
          dsimp only
          have hoff : ((s.data_offset : Int) + (sector_start : Int))
              = ((sector_start + s.data_offset : Nat) : Int) := by omega
          rw [hoff, seek_set, seek_set, read_any, read_any]
          dsimp only
          rw [drop_eq_of_le x y sector_start (sector_start + s.data_offset) hd (by omega)]
          have := ih rest'
            (max E (FileHolder.tell ⟨x, sector_start + s.data_offset +
              ((y.drop (sector_start + s.data_offset)).take size).length,
              false || decide (((y.drop (sector_start + s.data_offset)).take size).length
                < size)⟩))
            (max E' (FileHolder.tell ⟨y, sector_start + s.data_offset +
              ((y.drop (sector_start + s.data_offset)).take size).length,
              false || decide (((y.drop (sector_start + s.data_offset)).take size).length
                < size)⟩))
            ⟨x, sector_start + s.data_offset +
              ((y.drop (sector_start + s.data_offset)).take size).length,
              false || decide (((y.drop (sector_start + s.data_offset)).take size).length
                < size)⟩
            ⟨y, sector_start + s.data_offset +
              ((y.drop (sector_start + s.data_offset)).take size).length,
              false || decide (((y.drop (sector_start + s.data_offset)).take size).length
                < size)⟩ hrest hd
          rw [Option.map_map, Option.map_map]
          have hw := without_mask_contents s s'
            ((y.drop (sector_start + s.data_offset)).take size) hs
          generalize read_sector_contents sector_start rest _ _ = r at this ⊢
          generalize read_sector_contents sector_start rest' _ _ = r' at this ⊢
          cases r <;> cases r' <;> simp_all
      · rw [if_neg h10, if_neg h10]
        have := ih rest' E E' ⟨x, q, e⟩ ⟨y, q', e'⟩ hrest hd
        rw [Option.map_map, Option.map_map]
        generalize read_sector_contents sector_start rest _ _ = r at this ⊢
        generalize read_sector_contents sector_start rest' _ _ = r' at this ⊢
        cases r <;> cases r' <;> simp_all

end Storage.Disk

namespace Storage.Disk

theorem read_contents_pair (f f' : FileHolder) (sectors sectors' : List Sector)
    (sector_start sector_count : Nat) (position head : Int)
    (hm : sectors.map Sector.without_mask = sectors'.map Sector.without_mask)
    (hd : f.contents.drop sector_start = f'.contents.drop sector_start)
    (hlen : sectors.length = sector_count) :
    (read_contents f sectors sector_start sector_count position head).map
        (fun r => r.1.map Sector.without_mask) =
      (read_contents f' sectors' sector_start sector_count position head).map
        (fun r => r.1.map Sector.without_mask) := by
  unfold read_contents
  cases sectors with
  | nil =>
    cases sectors' with
    | nil =>
      simp only [List.length_nil] at hlen
      subst hlen
      rfl
    | cons s' rest' => cases hm
  | cons s rest =>
    cases sectors' with
    | nil => cases hm
    | cons s' rest' =>
      have := read_sector_contents_pair sector_start (s :: rest) (s' :: rest') f.tell f'.tell
        f f' hm hd
      simp only [List.isEmpty_cons, Bool.false_eq_true, if_false]
      generalize read_sector_contents sector_start (s :: rest) _ _ = r at this ⊢
      generalize read_sector_contents sector_start (s' :: rest') _ _ = r' at this ⊢
      cases r <;> cases r' <;> simp_all

/-- The fuzzy loop on two files of the same length: the same sectors up to
their masks, the same count and the same cursor. -/
theorem read_fuzzy_masks_pair (x y : List Nat) (hlen : x.length = y.length)
    (fuzzy_size : Nat) :
    ∀ (sectors : List Sector) (n q : Nat) (e e' : Bool),
      (read_fuzzy_masks fuzzy_size sectors n { contents := x, position := q, eof_ := e }).map
          (fun r => (r.1.map Sector.without_mask, r.2.1, r.2.2.position)) =
        (read_fuzzy_masks fuzzy_size sectors n { contents := y, position := q, eof_ := e' }).map
          (fun r => (r.1.map Sector.without_mask, r.2.1, r.2.2.position)) := by
  intro sectors
  induction sectors with
  | nil => intro n q e e'; rfl
  | cons s rest ih =>
    intro n q e e'
    rw [read_fuzzy_masks, read_fuzzy_masks]
    split_ifs with h80
    · have := ih n q e e'
      rw [Option.map_map, Option.map_map]
      generalize read_fuzzy_masks fuzzy_size rest n
        { contents := x, position := q, eof_ := e } = r at this ⊢
      generalize read_fuzzy_masks fuzzy_size rest n
        { contents := y, position := q, eof_ := e' } = r' at this ⊢
      cases r <;> cases r' <;> simp_all
    · cases hsize : s.data_size with
      | none => rfl
      | some size =>
        dsimp only
        split_ifs with hfit
        · rfl
        · rw [read_any, read_any]
          dsimp only
          have hl : ((x.drop q).take size).length = ((y.drop q).take size).length := by
            simp only [List.length_take, List.length_drop, hlen]
          rw [hl]
          have := ih ((n + size) % 2 ^ 32) (q + ((y.drop q).take size).length)
            (e || decide (((y.drop q).take size).length < size))
            (e' || decide (((y.drop q).take size).length < size))
          rw [Option.map_map, Option.map_map]
          generalize read_fuzzy_masks fuzzy_size rest _
            { contents := x, position := _, eof_ := _ } = r at this ⊢
          generalize read_fuzzy_masks fuzzy_size rest _
            { contents := y, position := _, eof_ := _ } = r' at this ⊢
          cases r <;> cases r' <;> simp_all [Sector.without_mask]

/-- The count and the cursor of the fuzzy loop: the count never exceeds the
declared size, and the cursor has advanced by at least the count unless it has
reached the end of the file. -/
theorem read_fuzzy_masks_cursor (x : List Nat) (a fuzzy_size : Nat) :
    ∀ (sectors : List Sector) (n q : Nat) (e : Bool) (r : List Sector × Nat × FileHolder),
      read_fuzzy_masks fuzzy_size sectors n { contents := x, position := q, eof_ := e }
        = some r →
      n ≤ fuzzy_size → (a + n ≤ q ∨ x.length ≤ q) →
      r.2.1 ≤ fuzzy_size ∧ (a + r.2.1 ≤ r.2.2.position ∨ x.length ≤ r.2.2.position) := by
  intro sectors
  induction sectors with
  | nil =>
    intro n q e r h hn hq
    cases h
    exact ⟨hn, hq⟩
  | cons s rest ih =>
    intro n q e r h hn hq
    rw [read_fuzzy_masks] at h
    split_ifs at h with h80
    · cases hr : read_fuzzy_masks fuzzy_size rest n
        { contents := x, position := q, eof_ := e } with
      | none => rw [hr] at h; cases h
      | some r' =>
        rw [hr] at h
        cases h
        exact ih n q e r' hr hn hq
    · cases hsize : s.data_size with
      | none => rw [hsize] at h; cases h
      | some size =>
        rw [hsize] at h
        dsimp only at h
        split_ifs at h with hfit
        · cases h
          exact ⟨hn, hq⟩
        · rw [read_any] at h
          dsimp only at h
          cases hr : read_fuzzy_masks fuzzy_size rest ((n + size) % 2 ^ 32)
            { contents := x, position := q + ((x.drop q).take size).length,
              eof_ := e || decide (((x.drop q).take size).length < size) } with
          | none => rw [hr] at h; cases h
          | some r' =>
            rw [hr] at h
            cases h
            refine ih _ _ _ r' hr (by omega) ?_
            have hmod : (n + size) % 2 ^ 32 ≤ n + size := Nat.mod_le _ _
            simp only [List.length_take, List.length_drop]
            omega

end Storage.Disk

namespace Storage.Disk

theorem seek_cur_position (f : FileHolder) (n m : Nat) (h : m ≤ n) :
    (f.seek ((n : Int) - (m : Int)) .SEEK_CUR).position = f.position + (n - m) := by
  obtain ⟨x, q, e⟩ := f
  have hoff : (n : Int) - (m : Int) = ((n - m : Nat) : Int) := by omega
  rw [hoff, seek_cur]

/-- The cursor after the fuzzy masks of a track whose sector table lies in the
file: at least `fuzzy_size` bytes past the table, or at or past the end of the
file. -/
theorem read_sectors_cursor (x : List Nat) (hbytes : ∀ b ∈ x, b < 256)
    (p count flags fuzzy_size : Nat) (e : Bool) (hext : flags &&& 1 ≠ 0)
    (hin : p + 16 * count ≤ x.length) (r : List Sector × FileHolder)
    (h : read_sectors { contents := x, position := p, eof_ := e } fuzzy_size count flags
      = some r) :
    p + 16 * count + fuzzy_size ≤ r.2.position ∨ x.length ≤ r.2.position := by
  obtain ⟨records, e1, -, h2⟩ := read_sector_records_file x hbytes count p e hin
  unfold read_sectors at h
  rw [if_pos hext, h2] at h
  dsimp only at h
  split_ifs at h with hF
  · cases hr : read_fuzzy_masks fuzzy_size records 0
      { contents := x, position := p + 16 * count, eof_ := e1 } with
    | none => rw [hr] at h; cases h
    | some r' =>
      rw [hr] at h
      obtain ⟨hn, hq⟩ := read_fuzzy_masks_cursor x (p + 16 * count) fuzzy_size records 0
        (p + 16 * count) e1 r' hr (Nat.zero_le _) (Or.inl (Nat.le_refl _))
      obtain ⟨sectors, n', f'⟩ := r'
      simp only at hn hq
      dsimp only at h
      cases h
      simp only
      rw [seek_cur_position f' fuzzy_size n' hn]
      omega
  · cases h
    simp only
    omega

theorem read_sectors_pair (x y : List Nat) (hbx : ∀ b ∈ x, b < 256) (hby : ∀ b ∈ y, b < 256)
    (hlen : x.length = y.length) (p count flags fuzzy_size : Nat) (e e' : Bool)
    (hext : flags &&& 1 ≠ 0) (hin : p + 16 * count ≤ x.length)
    (hagree : ∀ i, i < p + 16 * count → x[i]? = y[i]?) :
    (read_sectors { contents := x, position := p, eof_ := e } fuzzy_size count flags).map
        (fun r => (r.1.map Sector.without_mask, r.2.position)) =
      (read_sectors { contents := y, position := p, eof_ := e' } fuzzy_size count flags).map
        (fun r => (r.1.map Sector.without_mask, r.2.position)) := by
  obtain ⟨records, e1, h1, h2⟩ := read_sector_records_file x hbx count p e hin
  obtain ⟨records', e1', h1', h2'⟩ := read_sector_records_file y hby count p e' (by omega)
  rw [spec_sector_table_agree x y (p + 16 * count) hagree count p (Nat.le_refl _), h1'] at h1
  cases h1
  unfold read_sectors
  rw [if_pos hext, if_pos hext, h2, h2']
  dsimp only
  split_ifs with hF
  · have hp := read_fuzzy_masks_pair x y hlen fuzzy_size records 0 (p + 16 * count) e1 e1'
    have hc := read_fuzzy_masks_cursor x (p + 16 * count) fuzzy_size records 0
      (p + 16 * count) e1
    have hc' := read_fuzzy_masks_cursor y (p + 16 * count) fuzzy_size records 0
      (p + 16 * count) e1'
    cases hr : read_fuzzy_masks fuzzy_size records 0
      { contents := x, position := p + 16 * count, eof_ := e1 } with
    | none =>
      rw [hr] at hp
      cases hr' : read_fuzzy_masks fuzzy_size records 0
        { contents := y, position := p + 16 * count, eof_ := e1' } with
      | none => rfl
      | some r' => rw [hr'] at hp; cases hp
    | some r =>
      rw [hr] at hp
      cases hr' : read_fuzzy_masks fuzzy_size records 0
        { contents := y, position := p + 16 * count, eof_ := e1' } with
      | none => rw [hr'] at hp; cases hp
      | some r' =>
        rw [hr'] at hp
        obtain ⟨hn, -⟩ := hc r hr (Nat.zero_le _) (Or.inl (Nat.le_refl _))
        obtain ⟨hn', -⟩ := hc' r' hr' (Nat.zero_le _) (Or.inl (Nat.le_refl _))
        obtain ⟨sectors, n, f⟩ := r
        obtain ⟨sectors', n', f'⟩ := r'
        simp only [Option.map_some', Option.some.injEq, Prod.mk.injEq] at hp
        obtain ⟨hs, hnn, hpos⟩ := hp
        simp only at hn hn'
        simp only [Option.map_some', Option.some.injEq, Prod.mk.injEq]
        rw [seek_cur_position f fuzzy_size n hn, seek_cur_position f' fuzzy_size n' hn', hs,
          hnn, hpos]
        exact ⟨rfl, rfl⟩
  · rfl

/-- An extended track of two files that agree outside the fuzzy region
`[a, a + fuzzy_size)`, where `a` is the end of the sector table. -/
theorem extended_track_pair (x y : List Nat) (hbx : ∀ b ∈ x, b < 256)
    (hby : ∀ b ∈ y, b < 256) (hlen : x.length = y.length)
    (p count flags fuzzy_size track_length : Nat) (position head : Int) (e e' : Bool)
    (hext : flags &&& 1 ≠ 0) (hin : p + 16 * count ≤ x.length)
    (hagree : ∀ i, i < p + 16 * count ∨ p + 16 * count + fuzzy_size ≤ i → x[i]? = y[i]?) :
    extended_track { contents := x, position := p, eof_ := e } fuzzy_size count flags
        track_length position head =
      extended_track { contents := y, position := p, eof_ := e' } fuzzy_size count flags
        track_length position head := by
  have hp := read_sectors_pair x y hbx hby hlen p count flags fuzzy_size e e' hext hin
    (fun i hi => hagree i (Or.inl hi))
  have hc := read_sectors_cursor x hbx p count flags fuzzy_size e hext hin
  unfold extended_track
  cases hr : read_sectors { contents := x, position := p, eof_ := e } fuzzy_size count flags with
  | none =>
    rw [hr] at hp
    cases hr' : read_sectors { contents := y, position := p, eof_ := e' } fuzzy_size count
      flags with
    | none => rfl
    | some r' => rw [hr'] at hp; cases hp
  | some r =>
    rw [hr] at hp
    cases hr' : read_sectors { contents := y, position := p, eof_ := e' } fuzzy_size count
      flags with
    | none => rw [hr'] at hp; cases hp
    | some r' =>
      rw [hr'] at hp
      have hcur := hc r hr
      obtain ⟨sectors, f1⟩ := r
      obtain ⟨sectors', f1'⟩ := r'
      simp only [Option.map_some', Option.some.injEq, Prod.mk.injEq] at hp
      obtain ⟨hs, hpos⟩ := hp
      simp only at hcur
      obtain ⟨hcx, -, hcount⟩ := read_sectors_keeps _ fuzzy_size count flags hext sectors f1 hr
      obtain ⟨hcy, -, -⟩ := read_sectors_keeps _ fuzzy_size count flags hext sectors' f1' hr'
      simp only at hcx hcy
      have hdrop : x.drop f1.position = y.drop f1.position :=
        drop_eq_of_agree x y (p + 16 * count) (p + 16 * count + fuzzy_size) f1.position hlen
          hagree hcur
      have htd : (read_track_data f1 flags).1 = (read_track_data f1' flags).1 := by
        rw [file_eta f1, file_eta f1', hcx, hcy, ← hpos]
        exact read_track_data_pair x y f1.position flags _ _ hdrop
      have hcon := read_contents_pair (read_track_data f1 flags).2 (read_track_data f1' flags).2
        sectors sectors' f1.position count position head hs
        (by rw [read_track_data_contents, read_track_data_contents, hcx, hcy]; exact hdrop)
        hcount
      dsimp only
      simp only [FileHolder.tell, ← hpos, ← htd]
      generalize read_contents (read_track_data f1 flags).2 sectors f1.position count position
        head = c1 at hcon ⊢
      generalize read_contents (read_track_data f1' flags).2 sectors' f1.position count position
        head = c2 at hcon ⊢
      cases c1 with
      | none =>
        cases c2 with
        | none => rfl
        | some v => cases hcon
      | some u =>
        cases c2 with
        | none => cases hcon
        | some v =>
          simp only [Option.map_some', Option.some.injEq] at hcon
          exact build_track_of_masks _ _ _ _ hcon

end Storage.Disk

namespace Storage.Disk

theorem spec_le32_agree (x y : List Nat) (a p : Nat)
    (hagree : ∀ i, i < a → x[i]? = y[i]?) (h : p + 4 ≤ a) :
    spec_le32 x p = spec_le32 y p := by
  unfold spec_le32
  rw [hagree p (by omega), hagree (p + 1) (by omega), hagree (p + 2) (by omega),
    hagree (p + 3) (by omega)]

theorem spec_le16_agree (x y : List Nat) (a p : Nat)
    (hagree : ∀ i, i < a → x[i]? = y[i]?) (h : p + 2 ≤ a) :
    spec_le16 x p = spec_le16 y p := by
  unfold spec_le16
  rw [hagree p (by omega), hagree (p + 1) (by omega)]

theorem track_at_offset_contents (f f' : FileHolder) (h : f.contents = f'.contents)
    (offset : Nat) (position head : Int) :
    track_at_offset f offset position head = track_at_offset f' offset position head := by
  have hseek : ∀ g : FileHolder, g.seek ((offset : Int) + 4) .SEEK_SET
      = { contents := g.contents, position := offset + 4, eof_ := false } := by
    intro g
    have := seek_set g.contents g.position g.eof_ (offset + 4)
    push_cast at this
    rw [← file_eta] at this
    exact this
  unfold track_at_offset
  rw [hseek f, hseek f', h]

theorem agree_append (pre fz fz' post : List Nat) (a n : Nat) (hpre : pre.length = a)
    (hfz : fz.length = n) (hfz' : fz'.length = n) :
    ∀ i, i < a ∨ a + n ≤ i → (pre ++ fz ++ post)[i]? = (pre ++ fz' ++ post)[i]? := by
  intro i hi
  subst hpre hfz
  rcases hi with hlt | hge
  · rw [List.append_assoc, List.append_assoc, List.getElem?_append_left hlt,
      List.getElem?_append_left hlt]
  · rw [List.getElem?_append_right (by rw [List.length_append]; omega),
      List.getElem?_append_right (by rw [List.length_append]; omega)]
    simp only [List.length_append, hfz']

/-- The track of two decoders with the same track table whose files have the
same length and agree outside the fuzzy region of the track. -/
theorem get_track_pair (stx stx' : STX) (head cylinder : Int)
    (offset count flags fuzzy_size : Nat)
    (htable : stx.offset_by_track_ = stx'.offset_by_track_)
    (hbx : ∀ b ∈ stx.file_.contents, b < 256) (hby : ∀ b ∈ stx'.file_.contents, b < 256)
    (hrecorded : stx.offset_by_track_[(head * 0x80 + cylinder).toNat]? = some offset)
    (hf : spec_le32 stx.file_.contents (offset + 4) = some fuzzy_size)
    (hc : spec_le16 stx.file_.contents (offset + 8) = some count)
    (hfl : spec_le16 stx.file_.contents (offset + 10) = some flags)
    (hext : flags &&& 1 ≠ 0)
    (hlen : stx.file_.contents.length = stx'.file_.contents.length)
    (hagree : ∀ i, i < offset + 16 + 16 * count ∨ offset + 16 + 16 * count + fuzzy_size ≤ i →
      stx.file_.contents[i]? = stx'.file_.contents[i]?) :
    stx.get_track_at_position head cylinder = stx'.get_track_at_position head cylinder := by
  unfold STX.get_track_at_position
  rw [← htable]
  by_cases h1 : head > 1
  · rw [if_pos h1, if_pos h1]
  · rw [if_neg h1, if_neg h1]
    dsimp only
    by_cases h2 : head * 0x80 + cylinder < 0
    · rw [if_pos h2, if_pos h2]
    · rw [if_neg h2, if_neg h2, hrecorded]
      dsimp only
      by_cases h0 : offset = 0
      · rw [if_pos h0, if_pos h0]
      · rw [if_neg h0, if_neg h0]
        by_cases hin : offset + 16 + 16 * count ≤ stx.file_.contents.length
        · have hbelow : ∀ i, i < offset + 16 + 16 * count →
              stx.file_.contents[i]? = stx'.file_.contents[i]? := fun i hi => hagree i (Or.inl hi)
          obtain ⟨track_bytes, ht⟩ := spec_le16_exists stx.file_.contents (offset + 12) (by omega)
          have hf' := hf
          have hc' := hc
          have hfl' := hfl
          have ht' := ht
          rw [spec_le32_agree _ _ _ _ hbelow (by omega)] at hf'
          rw [spec_le16_agree _ _ _ _ hbelow (by omega)] at hc' hfl' ht'
          rw [track_at_offset_eq stx.file_ hbx offset cylinder head fuzzy_size count flags
              track_bytes hf hc hfl ht,
            track_at_offset_eq stx'.file_ hby offset cylinder head fuzzy_size count flags
              track_bytes hf' hc' hfl' ht',
            if_neg hext, if_neg hext]
          exact extended_track_pair _ _ hbx hby hlen (offset + 16) count flags fuzzy_size _ _ _ _
            _ hext hin hagree
        · apply track_at_offset_contents
          apply List.ext_getElem?
          intro i
          by_cases hi : i < offset + 16 + 16 * count
          · exact hagree i (Or.inl hi)
          · rw [List.getElem?_eq_none (by omega), List.getElem?_eq_none (by omega)]

/-- C16 (fuzzy masks are advisory). For any two containers that open, whose
descriptors the constructor finds alike (the same offsets and track numbers),
that have the same length and are identical except for the byte values stored
inside the fuzzy-mask region of a track with an explicit sector table, which is
the `fuzzy_size` bytes that follow the sector table of the track:
`get_track_at_position` produces the same result for that track, the same calls
on the encoder or the same absence of a track. -/
theorem fuzzy_masks_advisory (fuel : Nat) (x y : List Nat)
    (hbx : ∀ b ∈ x, b < 256) (hby : ∀ b ∈ y, b < 256) (stx stx' : STX)
    (hopen : STX.new fuel x = some (.ok stx)) (hopen' : STX.new fuel y = some (.ok stx'))
    (hdesc : spec_descriptors fuel x 16 = spec_descriptors fuel y 16)
    (head cylinder : Int) (offset count flags fuzzy_size : Nat)
    (hrecorded : stx.offset_by_track_[(head * 0x80 + cylinder).toNat]? = some offset)
    (hf : spec_le32 x (offset + 4) = some fuzzy_size)
    (hc : spec_le16 x (offset + 8) = some count)
    (hfl : spec_le16 x (offset + 10) = some flags)
    (hext : flags &&& 1 ≠ 0)
    (hlen : x.length = y.length)
    (hagree : ∀ i, i < offset + 16 + 16 * count ∨ offset + 16 + 16 * count + fuzzy_size ≤ i →
      x[i]? = y[i]?) :
    stx.get_track_at_position head cylinder = stx'.get_track_at_position head cylinder := by
  have hcx := contents_of_new fuel x hbx stx hopen
  have hcy := contents_of_new fuel y hby stx' hopen'
  obtain ⟨ds, hds, ht⟩ := table_of_new fuel x hbx stx hopen
  obtain ⟨ds', hds', ht'⟩ := table_of_new fuel y hby stx' hopen'
  rw [hdesc, hds'] at hds
  cases hds
  apply get_track_pair stx stx' head cylinder offset count flags fuzzy_size (by rw [ht, ht'])
    (by rw [hcx]; exact hbx) (by rw [hcy]; exact hby) hrecorded (by rw [hcx]; exact hf)
    (by rw [hcx]; exact hc) (by rw [hcx]; exact hfl) hext (by rw [hcx, hcy]; exact hlen)
  rw [hcx, hcy]
  exact hagree

end Storage.Disk

namespace Storage.Disk

set_option maxRecDepth 100000 in
/-- C16, at two containers whose one track has a fuzzy sector, and whose fuzzy
regions of 128 bytes hold 0xAA in the one and 0x55 in the other: the same track
is returned. -/
theorem fuzzy_masks_advisory_witness :
    ∃ stx stx' t,
      STX.new 2
        (([0x52, 0x53, 0x59, 0x00, 3, 0, 0, 0, 0, 0, 1, 0, 0, 0, 0, 0] ++
          [194, 0, 0, 0, 128, 0, 0, 0, 1, 0, 0x41, 0, 4, 0, 0, 0] ++
          [255, 0, 0, 0, 16, 0, 0, 0, 8, 8, 8, 0, 0, 0, 0x90, 0]) ++
         List.replicate 128 0xaa ++
         ([32, 0] ++ [0x4e, 0x4e, 0x4e, 0x4e, 0x4e, 0xa1, 0xa1, 0xfe] ++
          List.replicate 24 0x4e)) = some (.ok stx) ∧
      STX.new 2
        (([0x52, 0x53, 0x59, 0x00, 3, 0, 0, 0, 0, 0, 1, 0, 0, 0, 0, 0] ++
          [194, 0, 0, 0, 128, 0, 0, 0, 1, 0, 0x41, 0, 4, 0, 0, 0] ++
          [255, 0, 0, 0, 16, 0, 0, 0, 8, 8, 8, 0, 0, 0, 0x90, 0]) ++
         List.replicate 128 0x55 ++
         ([32, 0] ++ [0x4e, 0x4e, 0x4e, 0x4e, 0x4e, 0xa1, 0xa1, 0xfe] ++
          List.replicate 24 0x4e)) = some (.ok stx') ∧
      stx.get_track_at_position 0 0 = some (some t) ∧
      stx.get_track_at_position 0 0 = stx'.get_track_at_position 0 0 := by
  refine ⟨_, _, _, rfl, rfl, rfl, ?_⟩
  exact fuzzy_masks_advisory 2 _ _ (by decide) (by decide) _ _ (by rfl) (by rfl) (by rfl)
    0 0 16 1 0x41 128 (by rfl) (by rfl) (by rfl) (by rfl) (by decide) (by rfl)
    (fun i hi => agree_append
      ([0x52, 0x53, 0x59, 0x00, 3, 0, 0, 0, 0, 0, 1, 0, 0, 0, 0, 0] ++
       [194, 0, 0, 0, 128, 0, 0, 0, 1, 0, 0x41, 0, 4, 0, 0, 0] ++
       [255, 0, 0, 0, 16, 0, 0, 0, 8, 8, 8, 0, 0, 0, 0x90, 0])
      (List.replicate 128 0xaa) (List.replicate 128 0x55)
      ([32, 0] ++ [0x4e, 0x4e, 0x4e, 0x4e, 0x4e, 0xa1, 0xa1, 0xfe] ++ List.replicate 24 0x4e)
      (16 + 16 + 16 * 1) 128 (by decide) (by decide) (by decide) i hi)

end Storage.Disk

namespace Intel

/-! ## i8272: time advances -/

/-- C38 (time advance while awaiting a command). In every state reached from
construction by `set_register` and `run_for` calls, `run_for(n)` returns the
controller as it was, for every `n`: status, command buffer, resume point,
awaited-event mask and Specify configuration are unchanged, and `delay_time_` is
0 and stays 0. The controller awaits `CommandByte` only, so a `Timer` event, a
different bit, is discarded by `posit_event` as well. -/
theorem time_advance_inert (ev : Event8272) (hcb : ev.CommandByte ≠ 0)
    (a b c : Nat) (d : Bool) (cs : List Call) (n : Int) :
    ∃ s, started ev a b c d cs = some s ∧
      run_for ev s n = some s ∧
      s.delay_time_ = 0 ∧
      s.interesting_event_mask_ = ev.CommandByte ∧
      (ev.CommandByte &&& ev.Timer = 0 → posit_event ev s ev.Timer = some s) := by
  obtain ⟨s, e, A, -⟩ := started_awaiting ev hcb a b c d cs
  refine ⟨s, e, run_for_awaiting ev s A n, A.2.2.2, A.2.2.1, ?_⟩
  intro hdisjoint
  unfold posit_event
  rw [A.2.2.1, if_pos hdisjoint]

/-- C38, at a controller given the first byte of a Seek and then a time advance
of 1000 cycles. -/
theorem time_advance_inert_witness :
    ∃ s, started ⟨8, 16⟩ 0 0 0 false [.set_register 1 0x0F, .run_for 7] = some s ∧
      run_for ⟨8, 16⟩ s 1000 = some s ∧
      s.delay_time_ = 0 ∧
      s.interesting_event_mask_ = (⟨8, 16⟩ : Event8272).CommandByte ∧
      ((⟨8, 16⟩ : Event8272).CommandByte &&& (⟨8, 16⟩ : Event8272).Timer = 0 →
        posit_event ⟨8, 16⟩ s (⟨8, 16⟩ : Event8272).Timer = some s) :=
  time_advance_inert ⟨8, 16⟩ (by decide) 0 0 0 false _ 1000

end Intel

namespace Storage.Disk

/-! ## STX: a record of size 0 -/

theorem parse_tracks_size_zero (contents : List Nat) (hbytes : ∀ b ∈ contents, b < 256)
    (offset : Nat) (hsz : spec_le32 contents offset = some 0) :
    ∀ (fuel : Nat) (table : List Nat),
      STX.parse_tracks fuel { contents := contents, position := offset, eof_ := false } table
        = none := by
  intro fuel
  induction fuel with
  | zero => intro table; rfl
  | succ fuel ih =>
    intro table
    unfold STX.parse_tracks
    rw [get32le_some contents hbytes offset 0 hsz]
    have hs := seek_cur contents (offset + 4) false 10
    simp only [Nat.cast_ofNat] at hs
    have hback : ∀ (p : Nat) (e : Bool),
        FileHolder.seek { contents := contents, position := p, eof_ := e }
          ((FileHolder.tell { contents := contents, position := offset, eof_ := false } : Int)
            + ((0 : Nat) : Int)) .SEEK_SET
          = { contents := contents, position := offset, eof_ := false } := by
      intro p e
      have := seek_set contents p e offset
      simpa [FileHolder.tell] using this
    cases hb : contents[offset + 14]? with
    | none =>
      have hg := get8_none contents (offset + 4 + 10) false hb
      simp only [FileHolder.eof, Bool.false_eq_true, if_false, hs, hg, hback]
      exact ih _
    | some b =>
      have hg := get8_some contents (offset + 4 + 10) false b hb (getElem?_lt_256 hbytes hb)
      simp only [FileHolder.eof, Bool.false_eq_true, if_false, hs, hg, hback]
      exact ih _

end Storage.Disk

namespace Storage.Disk

/-- C36 as stated fails on a record of size 0: for every file that passes the
signature and version checks and whose first track descriptor declares a record
size of 0, the scan returns to the same descriptor after each iteration, and the
constructor yields no result whatever the number of iterations allowed. -/
theorem open_loops_on_empty_record (contents : List Nat)
    (hbytes : ∀ b ∈ contents, b < 256)
    (hsig : contents.take 4 = spec_signature) (hver : spec_le16 contents 4 = some 3)
    (hsz : spec_le32 contents 16 = some 0) :
    ∀ fuel : Nat, STX.new fuel contents = none := by
  intro fuel
  have hp := parse_tracks_size_zero contents hbytes 16 hsz fuel (List.replicate 256 0)
  have hd : spec_descriptors fuel contents 16 = none := by
    have := parse_tracks_eq contents hbytes fuel 16 (List.replicate 256 0)
    rw [hp] at this
    cases hs : spec_descriptors fuel contents 16 with
    | none => rfl
    | some ds => rw [hs] at this; cases this
  have hh : STX.parse_header fuel { contents := contents, position := 6, eof_ := false }
      = none := by
    have := parse_header_table contents hbytes fuel
    rw [hd] at this
    cases hs : STX.parse_header fuel { contents := contents, position := 6, eof_ := false } with
    | none => rfl
    | some stx => rw [hs] at this; cases this
  rcases new_cases fuel contents hbytes with ⟨-, -, h⟩ | ⟨h, -⟩
  · rw [h, hh]; rfl
  · rcases h with h | h
    · exact absurd hsig h
    · exact absurd hver h

/-- C36, at a file of the signature, version 3, ten further header bytes and
one track descriptor of sixteen zero bytes, with a million turns of the loop
allowed. -/
theorem open_loops_on_empty_record_witness :
    STX.new 1000000 ([0x52, 0x53, 0x59, 0x00, 3, 0, 0, 0, 0, 0, 1, 0, 0, 0, 0, 0] ++
      List.replicate 16 0) = none :=
  open_loops_on_empty_record _ (by decide) (by decide) (by decide) (by decide) 1000000

end Storage.Disk

namespace Storage.Disk

/-! ## STX: where a potential mark points -/

theorem potential_marks_eq (track_data : List Nat) (hbytes : ∀ b ∈ track_data, b < 256) :
    potential_marks track_data = spec_potential_marks track_data := by
  unfold potential_marks spec_potential_marks
  rw [scan_marks_eq track_data hbytes track_data 0 0 rfl (by simp [shifted]),
    List.range_eq_range']

theorem potential_marks_mem (track_data : List Nat) (hbytes : ∀ b ∈ track_data, b < 256)
    (m : PotentialMark) (hm : m ∈ potential_marks track_data) :
    2 ≤ m.byte_location ∧
    track_data[m.byte_location - 2]? = some 0xa1 ∧
    track_data[m.byte_location - 1]? = some 0xa1 ∧
    track_data[m.byte_location]? = some (if m.type = .ID then 0xfe else 0xfb) := by
  rw [potential_marks_eq track_data hbytes] at hm
  unfold spec_potential_marks at hm
  rw [List.mem_filterMap] at hm
  obtain ⟨type, location⟩ := m
  obtain ⟨c, _, hc⟩ := hm
  unfold spec_mark_at at hc
  split_ifs at hc with h2 hid hdm
  · cases hc
    exact ⟨Nat.le_of_not_lt h2, hid.1, hid.2.1, by simpa using hid.2.2⟩
  · cases hc
    exact ⟨Nat.le_of_not_lt h2, hdm.1, hdm.2.1, by simpa using hdm.2.2⟩

/-- C31 against the scan as written: the `byte_location` p of every potential
mark is the offset of the last byte of the mark itself, so that the image holds
0xA1 0xA1 at p-2, p-1 and 0xFE (ID) or 0xFB (Data) at p; the byte at p-1 is 0xA1
and the three bytes before p are therefore never a mark pattern, and the first
byte of content after the mark is at p+1, not at p. -/
theorem mark_location_is_last_mark_byte (track_data : List Nat)
    (hbytes : ∀ b ∈ track_data, b < 256) (m : PotentialMark)
    (hm : m ∈ potential_marks track_data) :
    2 ≤ m.byte_location ∧
    track_data[m.byte_location - 2]? = some 0xa1 ∧
    track_data[m.byte_location - 1]? = some 0xa1 ∧
    track_data[m.byte_location]? = some (if m.type = .ID then 0xfe else 0xfb) ∧
    track_data[m.byte_location - 1]? ≠ some 0xfe ∧
    track_data[m.byte_location - 1]? ≠ some 0xfb := by
  obtain ⟨h2, ha, hb, hc⟩ := potential_marks_mem track_data hbytes m hm
  refine ⟨h2, ha, hb, hc, ?_, ?_⟩ <;> rw [hb] <;> decide

/-- C31, at an image that holds an ID mark in bytes 1..3 and the address field
1, 0, 3, 2 from byte 4 on: the mark found is at offset 3. -/
theorem mark_location_is_last_mark_byte_witness :
    ({ type := .ID, byte_location := 3 } : PotentialMark) ∈
        potential_marks [0x4e, 0xa1, 0xa1, 0xfe, 1, 0, 3, 2, 0x12, 0x34] ∧
    (2 ≤ 3 ∧
      [0x4e, 0xa1, 0xa1, 0xfe, 1, 0, 3, 2, 0x12, 0x34][3 - 2]? = some 0xa1 ∧
      [0x4e, 0xa1, 0xa1, 0xfe, 1, 0, 3, 2, 0x12, 0x34][3 - 1]? = some 0xa1 ∧
      [0x4e, 0xa1, 0xa1, 0xfe, 1, 0, 3, 2, 0x12, 0x34][3]? = some 0xfe ∧
      [0x4e, 0xa1, 0xa1, 0xfe, 1, 0, 3, 2, 0x12, 0x34][3 - 1]? ≠ some 0xfe ∧
      [0x4e, 0xa1, 0xa1, 0xfe, 1, 0, 3, 2, 0x12, 0x34][3 - 1]? ≠ some 0xfb) :=
  ⟨by decide,
   mark_location_is_last_mark_byte [0x4e, 0xa1, 0xa1, 0xfe, 1, 0, 3, 2, 0x12, 0x34] (by decide)
     { type := .ID, byte_location := 3 } (by decide)⟩

end Storage.Disk

namespace Storage.Disk

/-! ## STX: the in-image branch of the correlation -/

theorem size_t_sub_wrap (a b : Nat) (h : a < b) (hb : b ≤ 2 ^ 64) :
    size_t_sub a b = 2 ^ 64 + a - b := by
  unfold size_t_sub
  have h1 : ((a : Int) - (b : Int)).emod (2 ^ 64) = ((a : Int) - (b : Int)) % (2 ^ 64) := rfl
  rw [h1]
  omega

theorem size_t_sub_le (a b : Nat) (h : b ≤ a) (ha : a < 2 ^ 64) :
    size_t_sub a b = a - b := by
  unfold size_t_sub
  have h1 : ((a : Int) - (b : Int)).emod (2 ^ 64) = ((a : Int) - (b : Int)) % (2 ^ 64) := rfl
  rw [h1]
  omega

theorem recede_to_ID_none (marks : List PotentialMark) (limit : Nat)
    (h : ∀ m ∈ marks, m.byte_location < limit) :
    ∀ i, i < marks.length → recede_to_ID marks limit i = some none := by
  intro i
  induction i with
  | zero =>
    intro hi
    unfold recede_to_ID
    rw [List.getElem?_eq_getElem hi]
    dsimp only
    rw [if_neg]
    rintro ⟨-, hge⟩
    exact absurd (h _ (List.getElem_mem hi)) (Nat.not_lt.mpr hge)
  | succ i ih =>
    intro hi
    unfold recede_to_ID
    rw [List.getElem?_eq_getElem hi]
    dsimp only
    rw [if_neg]
    · exact ih (Nat.lt_of_succ_lt hi)
    · rintro ⟨-, hge⟩
      exact absurd (h _ (List.getElem_mem hi)) (Nat.not_lt.mpr hge)

/-- C32 below 150: for a sector whose data offset lies in the image and is
smaller than 150, with an unconsumed data mark found at exactly that offset, the
test `byte_location >= track_offset_of_data - 150` is made on `size_t` values
and the difference wraps around, so that no ID mark passes it, however near; the
header offset is always the guess `track_offset_of_data - 50`, which wraps
around as well below 50. The body offset is the data offset. -/
theorem header_guess_below_150 (track_data : List Nat) (marks : List PotentialMark)
    (sector : Sector) (rest : List Sector) (next_mark : Nat)
    (hin : sector.data_offset < track_data.length)
    (hlow : sector.data_offset < 150)
    (hnext : next_mark ≤ marks.length)
    (hfound :
      search_data_mark sector.data_offset (marks.drop next_mark) next_mark < marks.length)
    (hloc : ∀ m ∈ marks, m.byte_location < 2 ^ 64 - 150) :
    correlate track_data marks (sector :: rest) next_mark =
      (correlate track_data marks rest
          (search_data_mark sector.data_offset (marks.drop next_mark) next_mark + 1)).map
        (fun r =>
          { sector with
            track_offset_of_data := sector.data_offset
            track_offset_of_header :=
              if sector.data_offset < 50 then 2 ^ 64 + sector.data_offset - 50
              else sector.data_offset - 50 } :: r) := by
  have hwrap : size_t_sub sector.data_offset 150 = 2 ^ 64 + sector.data_offset - 150 :=
    size_t_sub_wrap _ _ hlow (by decide)
  have hnone := recede_to_ID_none marks (size_t_sub sector.data_offset 150)
    (fun m hm => by rw [hwrap]; have := hloc m hm; omega) _ hfound
  have hguess : size_t_sub sector.data_offset 50 =
      if sector.data_offset < 50 then 2 ^ 64 + sector.data_offset - 50
      else sector.data_offset - 50 := by
    split_ifs with h50
    · exact size_t_sub_wrap _ _ h50 (by decide)
    · exact size_t_sub_le _ _ (Nat.le_of_not_lt h50) (by omega)
  rw [correlate, if_pos hin]
  dsimp only
  rw [if_neg (Nat.not_lt.mpr hnext), hnone]
  dsimp only [Option.bind]
  rw [hguess]

set_option maxRecDepth 100000 in
/-- C32, at an image of 110 bytes with an ID mark at offset 60 and a data mark
at offset 100, for a sector whose data offset is 100: the header offset is 50,
not the 60 of the ID mark that lies 40 bytes before the data mark. -/
theorem header_guess_below_150_witness :
    potential_marks
        (List.replicate 58 0x4e ++ [0xa1, 0xa1, 0xfe] ++ List.replicate 37 0x4e ++
          [0xa1, 0xa1, 0xfb] ++ List.replicate 9 0x4e) =
      [{ type := .ID, byte_location := 60 }, { type := .Data, byte_location := 100 }] ∧
    correlate
        (List.replicate 58 0x4e ++ [0xa1, 0xa1, 0xfe] ++ List.replicate 37 0x4e ++
          [0xa1, 0xa1, 0xfb] ++ List.replicate 9 0x4e)
        (potential_marks
          (List.replicate 58 0x4e ++ [0xa1, 0xa1, 0xfe] ++ List.replicate 37 0x4e ++
            [0xa1, 0xa1, 0xfb] ++ List.replicate 9 0x4e))
        [{ data_offset := 100, bit_position := 800 }] 0 =
      some [{ data_offset := 100, bit_position := 800, track_offset_of_data := 100,
              track_offset_of_header := 50 }] :=
  ⟨by decide,
   (header_guess_below_150 _ _ { data_offset := 100, bit_position := 800 } [] 0
      (by decide) (by decide) (by decide) (by decide) (by decide)).trans (by decide)⟩

end Storage.Disk

namespace Storage.Disk

/-! ## STX: marks used twice -/

set_option maxRecDepth 100000 in
/-- C33 at an image of 260 bytes with an ID mark at offset 160 and data marks
at offsets 180 and 250, for two sectors whose data offsets are 180 and 250: the
loop that recedes from the data mark walks back over marks that were consumed
for the sector before, and both sectors are given the ID mark at 160 as their
header. The assembly then computes `160 - 185` for the second sector, which
wraps around, and copies from beyond the image. -/
theorem mark_assigned_to_two_sectors :
    potential_marks
        (List.replicate 158 0x4e ++ [0xa1, 0xa1, 0xfe] ++ List.replicate 17 0x4e ++
          [0xa1, 0xa1, 0xfb] ++ List.replicate 67 0x4e ++ [0xa1, 0xa1, 0xfb] ++
          List.replicate 9 0x4e) =
      [{ type := .ID, byte_location := 160 }, { type := .Data, byte_location := 180 },
       { type := .Data, byte_location := 250 }] ∧
    correlate
        (List.replicate 158 0x4e ++ [0xa1, 0xa1, 0xfe] ++ List.replicate 17 0x4e ++
          [0xa1, 0xa1, 0xfb] ++ List.replicate 67 0x4e ++ [0xa1, 0xa1, 0xfb] ++
          List.replicate 9 0x4e)
        (potential_marks
          (List.replicate 158 0x4e ++ [0xa1, 0xa1, 0xfe] ++ List.replicate 17 0x4e ++
            [0xa1, 0xa1, 0xfb] ++ List.replicate 67 0x4e ++ [0xa1, 0xa1, 0xfb] ++
            List.replicate 9 0x4e))
        [{ data_offset := 180, bit_position := 1440, address := [0, 0, 1, 0, 0, 0] },
         { data_offset := 250, bit_position := 2000, address := [0, 0, 2, 0, 0, 0] }] 0 =
      some
        [{ data_offset := 180, bit_position := 1440, address := [0, 0, 1, 0, 0, 0],
           track_offset_of_header := 160, track_offset_of_data := 180 },
         { data_offset := 250, bit_position := 2000, address := [0, 0, 2, 0, 0, 0],
           track_offset_of_header := 160, track_offset_of_data := 250 }] ∧
    build_track
        (List.replicate 158 0x4e ++ [0xa1, 0xa1, 0xfe] ++ List.replicate 17 0x4e ++
          [0xa1, 0xa1, 0xfb] ++ List.replicate 67 0x4e ++ [0xa1, 0xa1, 0xfb] ++
          List.replicate 9 0x4e)
        [{ data_offset := 180, bit_position := 1440, address := [0, 0, 1, 0, 0, 0] },
         { data_offset := 250, bit_position := 2000, address := [0, 0, 2, 0, 0, 0] }]
        (260 <<< 3) = none := by
  refine ⟨by decide, by decide, by decide⟩

end Storage.Disk

namespace Storage.Disk

/-! ## STX: the branches of the correlation without a data offset -/

theorem skip_to_ID_type (marks : List PotentialMark) (m : PotentialMark) :
    ∀ (rest : List PotentialMark) (i : Nat), marks.drop i = rest →
      marks[skip_to_ID rest i]? = some m → m.type = .ID := by
  intro rest
  induction rest with
  | nil =>
    intro i hdrop h
    unfold skip_to_ID at h
    have hlen : marks.length ≤ i := List.drop_eq_nil_iff.mp hdrop
    rw [List.getElem?_eq_none_iff.mpr hlen] at h
    cases h
  | cons mark rest ih =>
    intro i hdrop h
    unfold skip_to_ID at h
    have hi : marks[i]? = some mark := by
      have := congrArg (fun l => l[0]?) hdrop
      simpa [List.getElem?_drop] using this
    have hrest : marks.drop (i + 1) = rest := by
      have := congrArg (fun l => l.drop 1) hdrop
      simpa [List.drop_drop, Nat.add_comm] using this
    split_ifs at h with hne
    · exact ih (i + 1) hrest h
    · rw [hi] at h
      cases h
      exact not_not.mp hne

theorem count_matches_four (track_data : List Nat) (location b0 b1 b2 b3 a0 a1 a2 a3 : Nat)
    (tail : List Nat)
    (h0 : track_data[location]? = some b0) (h1 : track_data[location + 1]? = some b1)
    (h2 : track_data[location + 2]? = some b2) (h3 : track_data[location + 3]? = some b3) :
    count_matches track_data location (a0 :: a1 :: a2 :: a3 :: tail) 4 0 =
      some ((if b3 = a3 then 1 else 0) + (if b2 = a2 then 1 else 0) + (if b1 = a1 then 1 else 0) +
        (if b0 = a0 then 1 else 0)) := by
  simp [count_matches, h0, h1, h2, h3]

/-- C34 against the comparison as written: for a sector with no in-image data
offset and status bit 0x10, the four image bytes compared with the declared
address bytes 0..3 start at the mark's `byte_location`, which is the 0xFE of
the mark itself. The declared cylinder is compared with 0xFE, the declared head
with the stored cylinder, the declared sector with the stored head and the
declared size with the stored sector; the stored size takes no part. The mark is
accepted when at least 2 of these comparisons succeed. -/
theorem no_data_compares_from_mark_byte (track_data : List Nat)
    (hbytes : ∀ b ∈ track_data, b < 256) (sector : Sector) (rest : List Sector)
    (next_mark : Nat) (id : PotentialMark) (b1 b2 b3 a0 a1 a2 a3 : Nat) (tail : List Nat)
    (hout : ¬ sector.data_offset < track_data.length)
    (hnext : next_mark ≤ (potential_marks track_data).length)
    (hstatus : sector.status &&& 0x10 ≠ 0)
    (haddress : sector.address = a0 :: a1 :: a2 :: a3 :: tail)
    (hid : (potential_marks track_data)[
      skip_to_ID ((potential_marks track_data).drop next_mark) next_mark]? = some id)
    (h1 : track_data[id.byte_location + 1]? = some b1)
    (h2 : track_data[id.byte_location + 2]? = some b2)
    (h3 : track_data[id.byte_location + 3]? = some b3) :
    track_data[id.byte_location]? = some 0xfe ∧
    correlate track_data (potential_marks track_data) (sector :: rest) next_mark =
      if 2 ≤ (if b3 = a3 then 1 else 0) + (if b2 = a2 then 1 else 0) + (if b1 = a1 then 1 else 0) +
          (if 0xfe = a0 then 1 else 0) then
        (correlate track_data (potential_marks track_data) rest
            (skip_to_ID ((potential_marks track_data).drop next_mark) next_mark + 1)).map
          (fun r => { sector with track_offset_of_header := id.byte_location } :: r)
      else
        (correlate track_data (potential_marks track_data) rest
            (skip_to_ID ((potential_marks track_data).drop next_mark) next_mark)).map
          (fun r => { sector with track_offset_of_header := sector.bit_position >>> 3 } :: r) := by
  have htype := skip_to_ID_type (potential_marks track_data) id _ next_mark rfl hid
  have hmem := potential_marks_mem track_data hbytes id (List.getElem?_mem hid)
  have h0 : track_data[id.byte_location]? = some 0xfe := by
    have := hmem.2.2.2
    rwa [if_pos htype] at this
  refine ⟨h0, ?_⟩
  have hcount := count_matches_four track_data id.byte_location 0xfe b1 b2 b3 a0 a1 a2 a3 tail
    h0 h1 h2 h3
  rw [correlate, if_neg hout, if_neg (Nat.not_lt.mpr hnext)]
  dsimp only
  rw [hid]
  dsimp only
  rw [if_pos hstatus, haddress, hcount]

set_option maxRecDepth 100000 in
/-- C34, at an image whose ID mark is followed by the address field 1, 0, 3, 2
and a sector that declares the address 1, 0, 3, 2: all four stored address bytes
equal the declared ones, yet none of the four comparisons made succeeds and the
mark is not accepted; the header offset is `bit_position >> 3`. -/
theorem no_data_compares_from_mark_byte_witness :
    [0x4e, 0xa1, 0xa1, 0xfe, 1, 0, 3, 2, 0x12, 0x34, 0x4e, 0x4e][3]? = some 0xfe ∧
    correlate [0x4e, 0xa1, 0xa1, 0xfe, 1, 0, 3, 2, 0x12, 0x34, 0x4e, 0x4e]
        (potential_marks [0x4e, 0xa1, 0xa1, 0xfe, 1, 0, 3, 2, 0x12, 0x34, 0x4e, 0x4e])
        [{ data_offset := 0xffff, bit_position := 80, address := [1, 0, 3, 2, 0x12, 0x34],
           status := 0x10 }] 0 =
      some [{ data_offset := 0xffff, bit_position := 80, address := [1, 0, 3, 2, 0x12, 0x34],
              status := 0x10, track_offset_of_header := 10 }] :=
  ⟨(no_data_compares_from_mark_byte
      [0x4e, 0xa1, 0xa1, 0xfe, 1, 0, 3, 2, 0x12, 0x34, 0x4e, 0x4e] (by decide)
      { data_offset := 0xffff, bit_position := 80, address := [1, 0, 3, 2, 0x12, 0x34],
        status := 0x10 } [] 0 { type := .ID, byte_location := 3 } 1 0 3 1 0 3 2 [0x12, 0x34]
      (by decide) (by decide) (by decide) rfl (by decide) (by decide) (by decide)
      (by decide)).1,
   (no_data_compares_from_mark_byte
      [0x4e, 0xa1, 0xa1, 0xfe, 1, 0, 3, 2, 0x12, 0x34, 0x4e, 0x4e] (by decide)
      { data_offset := 0xffff, bit_position := 80, address := [1, 0, 3, 2, 0x12, 0x34],
        status := 0x10 } [] 0 { type := .ID, byte_location := 3 } 1 0 3 1 0 3 2 [0x12, 0x34]
      (by decide) (by decide) (by decide) rfl (by decide) (by decide) (by decide)
      (by decide)).2.trans (by decide)⟩

end Storage.Disk

namespace Storage.Disk

theorem to_int_size_t_sub (a b : Nat) (ha : a < 2 ^ 31) (hb : b < 2 ^ 31) :
    to_int (size_t_sub a b) = (a : Int) - (b : Int) := by
  by_cases h : b ≤ a
  · rw [size_t_sub_le a b h (by omega)]
    unfold to_int
    have h1 : (a - b) % 2 ^ 32 = a - b := Nat.mod_eq_of_lt (by omega)
    rw [h1, if_pos (by omega)]
    omega
  · rw [size_t_sub_wrap a b (by omega) (by omega)]
    unfold to_int
    have h1 : (2 ^ 64 + a - b) % 2 ^ 32 = 2 ^ 32 + a - b := by omega
    rw [h1, if_neg (by omega)]
    omega

/-- C35 against the test as written: for a sector with data but no in-image
data offset, whose next unconsumed ID mark is followed by a data mark, the pair
is accepted exactly when the location of the ID mark, not that of the data mark,
is less than 100 bytes away from `bit_position >> 3`; the location of the data
mark takes no part in the decision. -/
theorem pair_distance_from_ID_mark (track_data : List Nat) (marks : List PotentialMark)
    (sector : Sector) (rest : List Sector) (next_mark : Nat) (id data : PotentialMark)
    (hout : ¬ sector.data_offset < track_data.length)
    (hnext : next_mark ≤ marks.length)
    (hstatus : sector.status &&& 0x10 = 0)
    (hid : marks[skip_to_ID (marks.drop next_mark) next_mark]? = some id)
    (hdata : marks[skip_to_ID (marks.drop next_mark) next_mark + 1]? = some data)
    (htype : data.type = .Data)
    (hlocation : id.byte_location < 2 ^ 31) (hposition : sector.bit_position >>> 3 < 2 ^ 31) :
    correlate track_data marks (sector :: rest) next_mark =
      if ((id.byte_location : Int) - ((sector.bit_position >>> 3 : Nat) : Int)).natAbs < 100 then
        (correlate track_data marks rest
            (skip_to_ID (marks.drop next_mark) next_mark + 2)).map
          (fun r =>
            { sector with
              track_offset_of_header := id.byte_location
              track_offset_of_data := data.byte_location } :: r)
      else
        (correlate track_data marks rest (skip_to_ID (marks.drop next_mark) next_mark)).map
          (fun r => sector :: r) := by
  have hidtype := skip_to_ID_type marks id _ next_mark rfl hid
  have hdist := to_int_size_t_sub id.byte_location (sector.bit_position >>> 3) hlocation hposition
  have hne : ¬ ((id.byte_location : Int) - ((sector.bit_position >>> 3 : Nat) : Int) = -(2 ^ 31)) := by
    omega
  rw [correlate, if_neg hout, if_neg (Nat.not_lt.mpr hnext)]
  dsimp only
  rw [hid]
  dsimp only
  rw [if_neg (not_not.mpr hstatus), if_pos hidtype, hdata]
  dsimp only
  rw [if_pos htype, hdist, if_neg hne]

set_option maxRecDepth 100000 in
/-- C35, at an image with an ID mark at offset 3 and a data mark at offset 150:
a sector whose `bit_position >> 3` is 150, the very location of the data mark,
is not given the pair, since the ID mark is 147 bytes away. -/
theorem pair_distance_from_ID_mark_witness :
    potential_marks
        ([0x4e, 0xa1, 0xa1, 0xfe] ++ List.replicate 144 0x4e ++ [0xa1, 0xa1, 0xfb] ++
          List.replicate 9 0x4e) =
      [{ type := .ID, byte_location := 3 }, { type := .Data, byte_location := 150 }] ∧
    correlate
        ([0x4e, 0xa1, 0xa1, 0xfe] ++ List.replicate 144 0x4e ++ [0xa1, 0xa1, 0xfb] ++
          List.replicate 9 0x4e)
        (potential_marks
          ([0x4e, 0xa1, 0xa1, 0xfe] ++ List.replicate 144 0x4e ++ [0xa1, 0xa1, 0xfb] ++
            List.replicate 9 0x4e))
        [{ data_offset := 0xffff, bit_position := 1200 }] 0 =
      some [{ data_offset := 0xffff, bit_position := 1200, track_offset_of_header := 0,
              track_offset_of_data := 0 }] :=
  ⟨by decide,
   (pair_distance_from_ID_mark _ _ { data_offset := 0xffff, bit_position := 1200 } [] 0
      { type := .ID, byte_location := 3 } { type := .Data, byte_location := 150 }
      (by decide) (by decide) (by decide) (by decide) (by decide) rfl (by decide)
      (by decide)).trans (by decide)⟩

end Storage.Disk

namespace Storage.Disk

/-! ## STX: the header CRC of table sectors -/

theorem read_into_length (f : FileHolder) (buffer : List Nat) (size : Nat)
    (h : size ≤ buffer.length) : (f.read_into buffer size).1.length = buffer.length := by
  unfold FileHolder.read_into FileHolder.read
  simp only [List.length_append, List.length_drop, List.length_take]
  omega

section

attribute [local irreducible] FileHolder.get32le FileHolder.get16le FileHolder.get8
  FileHolder.read_into FileHolder.seek

theorem read_sector_records_header (count : Nat) :
    ∀ f : FileHolder, ∀ s ∈ (read_sector_records count f).1,
      s.address.length = 6 ∧ s.address_has_crc = true := by
  induction count with
  | zero => intro f s hs; cases hs
  | succ n ih =>
    intro f s hs
    rw [read_sector_records] at hs
    dsimp only at hs
    rcases List.mem_cons.mp hs with h | h
    · rw [h]
      exact ⟨read_into_length _ _ _ (by decide), rfl⟩
    · exact ih _ s h

end

theorem read_fuzzy_masks_crc (fuzzy_size : Nat) (sectors : List Sector) :
    ∀ (n : Nat) (f : FileHolder) (r : List Sector × Nat × FileHolder),
      read_fuzzy_masks fuzzy_size sectors n f = some r →
      r.1.map Sector.address_has_crc = sectors.map Sector.address_has_crc := by
  induction sectors with
  | nil => intro n f r h; cases h; rfl
  | cons s rest ih =>
    intro n f r h
    unfold read_fuzzy_masks at h
    split at h
    · cases hr : read_fuzzy_masks fuzzy_size rest n f with
      | none => rw [hr] at h; cases h
      | some r' =>
        rw [hr] at h
        cases h
        simp only [List.map_cons, ih n f r' hr]
    · split at h
      · cases h
      · split at h
        · cases h; rfl
        · dsimp only at h
          cases hr : read_fuzzy_masks fuzzy_size rest _ _ with
          | none => rw [hr] at h; cases h
          | some r' =>
            rw [hr] at h
            cases h
            simp only [List.map_cons, ih _ _ r' hr]

theorem read_sector_contents_crc (sector_start : Nat) (sectors : List Sector) :
    ∀ (e : Nat) (f : FileHolder) (r : List Sector × Nat × FileHolder),
      read_sector_contents sector_start sectors e f = some r →
      r.1.map Sector.address_has_crc = sectors.map Sector.address_has_crc := by
  induction sectors with
  | nil => intro e f r h; cases h; rfl
  | cons s rest ih =>
    intro e f r h
    unfold read_sector_contents at h
    split at h
    · split at h
      · cases h
      · dsimp only at h
        cases hr : read_sector_contents sector_start rest _ _ with
        | none => rw [hr] at h; cases h
        | some r' =>
          rw [hr] at h
          cases h
          simp only [List.map_cons, ih _ _ r' hr]
    · cases hr : read_sector_contents sector_start rest e f with
      | none => rw [hr] at h; cases h
      | some r' =>
        rw [hr] at h
        cases h
        simp only [List.map_cons, ih _ _ r' hr]

theorem read_sectors_crc (f : FileHolder) (fuzzy_size sector_count flags : Nat)
    (hext : flags &&& 1 ≠ 0) (sectors : List Sector) (f1 : FileHolder)
    (h : read_sectors f fuzzy_size sector_count flags = some (sectors, f1)) :
    sectors.map Sector.address_has_crc =
      (read_sector_records sector_count f).1.map Sector.address_has_crc := by
  unfold read_sectors at h
  rw [if_pos hext] at h
  dsimp only at h
  split at h
  · split at h
    · cases h
    · rename_i s' n' f' heq
      cases h
      exact read_fuzzy_masks_crc _ _ _ _ _ heq
  · cases h; rfl

theorem correlate_crc (track_data : List Nat) (marks : List PotentialMark)
    (sectors : List Sector) :
    ∀ (next_mark : Nat) (r : List Sector),
      correlate track_data marks sectors next_mark = some r →
      r.map Sector.address_has_crc = sectors.map Sector.address_has_crc := by
  induction sectors with
  | nil => intro n r h; cases h; rfl
  | cons s rest ih =>
    intro n r h
    have step : ∀ (m : Nat) (s' : Sector), s'.address_has_crc = s.address_has_crc →
        (correlate track_data marks rest m).map (fun r => s' :: r) = some r →
        r.map Sector.address_has_crc = (s :: rest).map Sector.address_has_crc := by
      intro m s' hs' hm
      cases hr : correlate track_data marks rest m with
      | none => rw [hr] at hm; cases hm
      | some r' =>
        rw [hr] at hm
        cases hm
        simp only [List.map_cons, ih m r' hr, hs']
    unfold correlate at h
    split at h
    · dsimp only at h
      split at h
      · cases h
      · split at h
        · cases h
        · rename_i found _
          split at h
          · exact step _ _ (by rfl) h
          · exact step _ _ (by rfl) h
    · split at h
      · cases h
      · dsimp only at h
        split at h
        · cases h; rfl
        · split at h
          · split at h
            · cases h
            · split at h
              · exact step _ _ (by rfl) h
              · exact step _ _ (by rfl) h
          · split at h
            · split at h
              · cases h
              · split at h
                · split at h
                  · cases h
                  · split at h
                    · exact step _ _ (by rfl) h
                    · exact step _ _ (by rfl) h
                · exact step _ _ (by rfl) h
            · exact step _ _ (by rfl) h

theorem read_contents_crc (f : FileHolder) (sectors : List Sector)
    (sector_start sector_count : Nat) (position head : Int)
    (hlen : sectors.length = sector_count) (r : List Sector × FileHolder)
    (h : read_contents f sectors sector_start sector_count position head = some r) :
    r.1.map Sector.address_has_crc = sectors.map Sector.address_has_crc := by
  unfold read_contents at h
  split at h
  · rename_i hempty
    have hnil : sectors = [] := List.isEmpty_iff.mp hempty
    subst hnil
    simp only [List.length_nil] at hlen
    subst hlen
    rw [implied_sectors_zero] at h
    cases h
    rfl
  · split at h
    · cases h
    · rename_i s' e' f' heq
      cases h
      exact read_sector_contents_crc _ _ _ _ _ heq

theorem mem_of_map_eq {α : Type} (view : Sector → α) (l l' : List Sector)
    (h : l.map view = l'.map view) (s : Sector) (hs : s ∈ l) :
    ∃ s' ∈ l', view s' = view s := by
  have : view s ∈ l'.map view := by rw [← h]; exact List.mem_map_of_mem view hs
  obtain ⟨s', hs', e⟩ := List.mem_map.mp this
  exact ⟨s', hs', e⟩

theorem output_header_literal (sector : Sector) (h6 : sector.address.length = 6)
    (hcrc : sector.address_has_crc = true) (status : Nat) :
    output_header { sector with status := status } =
      some ([.add_ID_address_mark] ++ (sector.address.take 4).map .add_byte ++
        ((sector.address.drop 4).take 2).map .add_byte) := by
  have h := output_header_eq { sector with status := status } h6
  rw [h]
  simp only [spec_header_calls, hcrc, if_true]

/-- The sectors of an extended track that is returned: as many as the table has
records, each with the six address bytes and `address_has_crc` of its record. -/
theorem extended_track_headers (f : FileHolder)
    (fuzzy_size sector_count flags track_length : Nat) (position head : Int)
    (hext : flags &&& 1 ≠ 0) (t : Track)
    (h : extended_track f fuzzy_size sector_count flags track_length position head
      = some (some t)) :
    ∃ track_data correlated segment,
      assemble track_data track_length correlated 0 = some segment ∧
      t = .pcm segment ∧
      correlated.length = sector_count ∧
      (correlated.map Sector.record).Perm
        ((read_sector_records sector_count f).1.map Sector.record) ∧
      ∀ s ∈ correlated, s.address.length = 6 ∧ s.address_has_crc = true := by
  unfold extended_track at h
  cases hr : read_sectors f fuzzy_size sector_count flags with
  | none => rw [hr] at h; cases h
  | some r =>
    obtain ⟨sectors, f1⟩ := r
    have hrec := read_sectors_records f fuzzy_size sector_count flags hext sectors f1 hr
    have hcrc := read_sectors_crc f fuzzy_size sector_count flags hext sectors f1 hr
    have hlen : sectors.length = sector_count := by
      have := congrArg List.length hrec
      simpa [read_sector_records_length] using this
    rw [hr] at h
    dsimp only at h
    generalize hrt : read_track_data f1 flags = rt at h
    obtain ⟨track_data, f2⟩ := rt
    dsimp only at h
    cases hc : read_contents f2 sectors f1.tell sector_count position head with
    | none => rw [hc] at h; cases h
    | some r' =>
      obtain ⟨sectors', f3⟩ := r'
      have hrec' := read_contents_records f2 sectors f1.tell sector_count position head hlen
        _ hc
      have hcrc' := read_contents_crc f2 sectors f1.tell sector_count position head hlen
        _ hc
      simp only at hrec' hcrc'
      rw [hc] at h
      dsimp only at h
      unfold build_track at h
      split at h
      · cases h
      · split at h
        · cases h
        · rename_i correlated hcor
          split at h
          · cases h
          · cases ha : assemble track_data track_length correlated 0 with
            | none => rw [ha] at h; cases h
            | some segment =>
              rw [ha] at h
              simp only [Option.map_some', Option.some.injEq] at h
              have hcr := correlate_records _ _ _ _ _ hcor
              have hcc := correlate_crc _ _ _ _ _ hcor
              have hperm : (correlated.map Sector.record).Perm
                  ((read_sector_records sector_count f).1.map Sector.record) := by
                rw [hcr, ← hrec, ← hrec']
                exact (sort_sectors_perm sectors').map _
              refine ⟨track_data, correlated, segment, ha, h.symm, ?_, hperm, ?_⟩
              · have := hperm.length_eq
                simpa [read_sector_records_length] using this
              · intro s hs
                obtain ⟨s1, hs1, e1⟩ := mem_of_map_eq Sector.address_has_crc _ _ hcc s hs
                have hs1' : s1 ∈ sectors' := (sort_sectors_perm sectors').mem_iff.mp hs1
                obtain ⟨s2, hs2, e2⟩ := mem_of_map_eq Sector.address_has_crc _ _ hcrc' s1 hs1'
                obtain ⟨s3, hs3, e3⟩ := mem_of_map_eq Sector.address_has_crc _ _ hcrc s2 hs2
                have hmem : s.record ∈ (read_sector_records sector_count f).1.map Sector.record :=
                  hperm.mem_iff.mp (List.mem_map_of_mem _ hs)
                obtain ⟨s4, hs4, e4⟩ := List.mem_map.mp hmem
                have haddr : s4.address = s.address := by
                  simp only [Sector.record, Prod.mk.injEq] at e4
                  exact e4.2.2.2.1
                refine ⟨?_, ?_⟩
                · rw [← haddr]
                  exact (read_sector_records_header sector_count f s4 hs4).1
                · rw [← e1, ← e2, ← e3]
                  exact (read_sector_records_header sector_count f s3 hs3).2

/-- C37 (header CRC of table sectors). For every opened container and every
recorded track whose descriptor lies in the file and has bit 0 of its flags set,
whenever `get_track_at_position` returns a track: the sectors the assembly walks
are as many as the sector table has records and carry the records of the table
(none when `sector_count` is 0, where the loop of implied sectors has no turn),
each has its six address bytes and `address_has_crc = true`, and its header is
the ID address mark, `address[0..3]` and the literal bytes `address[4]`,
`address[5]` whatever its status: a status with `(status & 0x18) = 0x18` and one
with only bit 0x10 give the same header. -/
theorem header_crc_literal (fuel : Nat) (contents : List Nat)
    (hbytes : ∀ b ∈ contents, b < 256) (stx : STX)
    (hopen : STX.new fuel contents = some (.ok stx))
    (head cylinder : Int) (hhead : head ≤ 1) (hindex : 0 ≤ head * 0x80 + cylinder)
    (offset : Nat)
    (hrecorded : stx.offset_by_track_[(head * 0x80 + cylinder).toNat]? = some offset)
    (hpresent : offset ≠ 0) (fuzzy_size sector_count flags track_bytes : Nat)
    (hf : spec_le32 contents (offset + 4) = some fuzzy_size)
    (hc : spec_le16 contents (offset + 8) = some sector_count)
    (hfl : spec_le16 contents (offset + 10) = some flags)
    (ht : spec_le16 contents (offset + 12) = some track_bytes)
    (hext : flags &&& 1 ≠ 0) (t : Track)
    (htrack : stx.get_track_at_position head cylinder = some (some t)) :
    ∃ track_data sectors segment,
      assemble track_data (track_bytes <<< 3) sectors 0 = some segment ∧
      t = .pcm segment ∧
      sectors.length = sector_count ∧
      (sectors.map Sector.record).Perm
        ((read_sector_records sector_count
          { contents := contents, position := offset + 16, eof_ := false }).1.map
          Sector.record) ∧
      ∀ s ∈ sectors, s.address_has_crc = true ∧
        ∀ status : Nat,
          output_header { s with status := status } =
            some ([.add_ID_address_mark] ++ (s.address.take 4).map .add_byte ++
              ((s.address.drop 4).take 2).map .add_byte) := by
  rw [get_track_extended fuel contents hbytes stx hopen head cylinder hhead hindex offset
    hrecorded hpresent fuzzy_size sector_count flags track_bytes hf hc hfl ht hext] at htrack
  obtain ⟨track_data, sectors, segment, ha, ht', hlen, hperm, hall⟩ :=
    extended_track_headers _ _ _ _ _ _ _ hext t htrack
  exact ⟨track_data, sectors, segment, ha, ht', hlen, hperm, fun s hs =>
    ⟨(hall s hs).2, output_header_literal s (hall s hs).1 (hall s hs).2⟩⟩

set_option maxRecDepth 100000 in
/-- C37, at a container whose one track has two sectors, the first with status
0x18 and the second with status 0x10. -/
theorem header_crc_literal_witness :
    ∃ stx t, STX.new 2 ([0x52, 0x53, 0x59, 0x00, 3, 0, 0, 0, 0, 0, 1, 0, 0, 0, 0, 0] ++
          [82, 0, 0, 0, 0, 0, 0, 0, 2, 0, 0x41, 0, 4, 0, 0, 0] ++
          [255, 0, 0, 0, 16, 0, 0, 0, 0, 0, 1, 2, 0x11, 0x22, 0x18, 0] ++
          [255, 0, 0, 0, 160, 0, 0, 0, 0, 0, 2, 2, 0x33, 0x44, 0x10, 0] ++
          [32, 0] ++ [0x4e, 0x4e, 0x4e, 0x4e, 0x4e, 0xa1, 0xa1, 0xfe] ++
          List.replicate 24 0x4e) = some (.ok stx) ∧
      stx.get_track_at_position 0 0 = some (some t) ∧
      ∃ track_data sectors segment,
        assemble track_data (4 <<< 3) sectors 0 = some segment ∧
        t = .pcm segment ∧
        sectors.length = 2 ∧
        (sectors.map Sector.record).Perm
          ((read_sector_records 2
            { contents := [0x52, 0x53, 0x59, 0x00, 3, 0, 0, 0, 0, 0, 1, 0, 0, 0, 0, 0] ++
                [82, 0, 0, 0, 0, 0, 0, 0, 2, 0, 0x41, 0, 4, 0, 0, 0] ++
                [255, 0, 0, 0, 16, 0, 0, 0, 0, 0, 1, 2, 0x11, 0x22, 0x18, 0] ++
                [255, 0, 0, 0, 160, 0, 0, 0, 0, 0, 2, 2, 0x33, 0x44, 0x10, 0] ++
                [32, 0] ++ [0x4e, 0x4e, 0x4e, 0x4e, 0x4e, 0xa1, 0xa1, 0xfe] ++
                List.replicate 24 0x4e,
              position := 16 + 16, eof_ := false }).1.map Sector.record) ∧
        ∀ s ∈ sectors, s.address_has_crc = true ∧
          ∀ status : Nat,
            output_header { s with status := status } =
              some ([.add_ID_address_mark] ++ (s.address.take 4).map .add_byte ++
                ((s.address.drop 4).take 2).map .add_byte) := by
  refine ⟨_, _, rfl, rfl, ?_⟩
  exact header_crc_literal 2 _ (by decide) _ (by rfl) 0 0 (by decide) (by decide) 16 (by rfl)
    (by decide) 0 2 0x41 4 (by rfl) (by rfl) (by rfl) (by rfl) (by decide) _ (by rfl)

end Storage.Disk

namespace Apple.II.Video

/-! ## Apple II: the table of inverses -/

set_option maxRecDepth 100000 in
/-- C39 on a IIe with the alternative character set: for every source byte the
index `character >> 6` lies in 4..7, outside the four-entry table `inverses`,
and `output_text` reads beyond the table for every non-empty source; for the
other three combinations of `is_iie` and `alternative_character_set` the index
is at most 3. -/
theorem inverses_index_beyond_table (video : VideoBase) (byte : Nat) (hbyte : byte < 256) :
    (video.character byte >>> 6 < video.inverses.length ↔
      ¬ (video.is_iie_ = true ∧ video.alternative_character_set_ = true)) ∧
    (video.is_iie_ = true → video.alternative_character_set_ = true →
      4 ≤ video.character byte >>> 6 ∧ video.character byte >>> 6 ≤ 7 ∧
      ∀ (pixel_row : Nat) (rest : List Nat),
        video.output_text pixel_row (byte :: rest) = none) := by
  obtain ⟨iie, alt, flash, flash_length, rom, carry⟩ := video
  have key : ∀ b : Nat, b < 256 →
      ((b ||| 0x100) &&& (2 ^ 32 - 1)) >>> 6 ≥ 4 ∧ ((b ||| 0x100) &&& (2 ^ 32 - 1)) >>> 6 ≤ 7 ∧
      ((b ||| 0) &&& (2 ^ 32 - 1)) >>> 6 < 4 ∧ ((b ||| 0x100) &&& 0x3f) >>> 6 < 4 ∧
      ((b ||| 0) &&& 0x3f) >>> 6 < 4 := by
    decide
  obtain ⟨k1, k2, k3, k4, k5⟩ := key byte hbyte
  cases iie <;> cases alt <;>
    simp only [VideoBase.character, VideoBase.or_mask, VideoBase.and_mask, VideoBase.inverses,
      List.length_cons, List.length_nil, if_true, if_false, Bool.false_eq_true, and_self,
      and_true, true_and, and_false, false_and, not_true_eq_false, not_false_eq_true, iff_true,
      iff_false, false_implies, true_implies, implies_true, not_lt, Nat.reduceAdd]
  · exact k5
  · exact k4
  · exact k3
  · refine ⟨k1, k1, k2, ?_⟩
    intro pixel_row rest
    unfold VideoBase.output_text VideoBase.output_character
    have hnone : (VideoBase.inverses ⟨true, true, flash, flash_length, rom, carry⟩)[
        (VideoBase.character ⟨true, true, flash, flash_length, rom, carry⟩ byte) >>> 6]? = none := by
      rw [List.getElem?_eq_none_iff]
      exact k1
    simp only [hnone]

/-- C39, at the byte 0x41 on a IIe with the alternative character set. -/
theorem inverses_index_beyond_table_witness :
    ((({ is_iie_ := true, alternative_character_set_ := true, flash_length := 1 } :
          VideoBase).character 0x41 >>> 6 <
        ({ is_iie_ := true, alternative_character_set_ := true, flash_length := 1 } :
          VideoBase).inverses.length) ↔
      ¬ (({ is_iie_ := true, alternative_character_set_ := true, flash_length := 1 } :
          VideoBase).is_iie_ = true ∧
        ({ is_iie_ := true, alternative_character_set_ := true, flash_length := 1 } :
          VideoBase).alternative_character_set_ = true)) ∧
    (({ is_iie_ := true, alternative_character_set_ := true, flash_length := 1 } :
          VideoBase).is_iie_ = true →
      ({ is_iie_ := true, alternative_character_set_ := true, flash_length := 1 } :
          VideoBase).alternative_character_set_ = true →
      4 ≤ ({ is_iie_ := true, alternative_character_set_ := true, flash_length := 1 } :
          VideoBase).character 0x41 >>> 6 ∧
      ({ is_iie_ := true, alternative_character_set_ := true, flash_length := 1 } :
          VideoBase).character 0x41 >>> 6 ≤ 7 ∧
      ∀ (pixel_row : Nat) (rest : List Nat),
        ({ is_iie_ := true, alternative_character_set_ := true, flash_length := 1 } :
          VideoBase).output_text pixel_row (0x41 :: rest) = none) :=
  inverses_index_beyond_table
    { is_iie_ := true, alternative_character_set_ := true, flash_length := 1 } 0x41 (by decide)

end Apple.II.Video

namespace CPU.WDC65816

/-! ## 65816: the store of programs -/

theorem generate_no_terminator (g : Generator) (t : AccessType) (b : Bool) :
    MicroOp.OperationMoveToNextProgram ∉ g.generate t b := by
  cases g <;> cases t <;> cases b <;> decide

theorem program_of_terminated (p rest : List MicroOp)
    (hp : MicroOp.OperationMoveToNextProgram ∉ p) :
    program (p ++ .OperationMoveToNextProgram :: rest) = p ++ [.OperationMoveToNextProgram] := by
  induction p with
  | nil => simp [program]
  | cons x p ih =>
    have hx : x ≠ .OperationMoveToNextProgram := fun h => hp (by simp [h])
    have hp' : MicroOp.OperationMoveToNextProgram ∉ p := fun h => hp (List.mem_cons_of_mem _ h)
    simp [program, hx, ih hp']

theorem program_append (xs s : List MicroOp)
    (h : MicroOp.OperationMoveToNextProgram ∈ program xs) :
    program (xs ++ s) = program xs := by
  induction xs with
  | nil => simp [program] at h
  | cons x xs ih =>
    by_cases hx : x = .OperationMoveToNextProgram
    · simp [program, hx]
    · simp only [program, hx, if_false, List.mem_cons, List.cons_append] at h ⊢
      rcases h with h | h
      · exact absurd h.symm hx
      · exact congrArg (List.cons x) (ih h)

theorem program_stable (m s : List MicroOp) (l : Nat) (p : List MicroOp)
    (h : program (m.drop l) = p ++ [.OperationMoveToNextProgram]) :
    program ((m ++ s).drop l) = p ++ [.OperationMoveToNextProgram] := by
  have hne : m.drop l ≠ [] := by
    intro e
    rw [e] at h
    simp [program] at h
  have hl : l ≤ m.length := by
    by_contra hc
    exact hne (List.drop_eq_nil_of_le (by omega))
  rw [List.drop_append_of_le_length hl, program_append _ _ (by rw [h]; simp), h]

theorem are_equal_eq (m : List MicroOp) (l8 l16 : Nat) :
    ∀ (a b ra rb : List MicroOp) (c fuel : Nat),
      MicroOp.OperationMoveToNextProgram ∉ a → MicroOp.OperationMoveToNextProgram ∉ b →
      m.drop (l8 + c) = a ++ .OperationMoveToNextProgram :: ra →
      m.drop (l16 + c) = b ++ .OperationMoveToNextProgram :: rb →
      a.length < fuel →
      are_equal m l8 l16 fuel c = some (decide (a = b)) := by
  have head : ∀ (n : Nat) (x : MicroOp) (xs : List MicroOp), m.drop n = x :: xs →
      m[n]? = some x ∧ m.drop (n + 1) = xs := by
    intro n x xs h
    constructor
    · have := congrArg (fun l => l[0]?) h
      simpa [List.getElem?_drop] using this
    · have := congrArg (fun l => l.drop 1) h
      simpa [List.drop_drop, Nat.add_comm] using this
  intro a
  induction a with
  | nil =>
    intro b ra rb c fuel _ hb h8 h16 hfuel
    obtain ⟨fuel, rfl⟩ : ∃ f, fuel = f + 1 := ⟨fuel - 1, by simp at hfuel; omega⟩
    obtain ⟨e8, -⟩ := head _ _ _ h8
    unfold are_equal
    cases b with
    | nil =>
      obtain ⟨e16, -⟩ := head _ _ _ h16
      simp [e8, e16]
    | cons y b =>
      obtain ⟨e16, -⟩ := head _ _ _ h16
      have hy : y ≠ .OperationMoveToNextProgram := fun h => hb (by simp [h])
      simp [e8, e16, Ne.symm hy]
  | cons x a ih =>
    intro b ra rb c fuel ha hb h8 h16 hfuel
    obtain ⟨fuel, rfl⟩ : ∃ f, fuel = f + 1 := ⟨fuel - 1, by simp at hfuel; omega⟩
    have hx : x ≠ .OperationMoveToNextProgram := fun h => ha (by simp [h])
    have ha' : MicroOp.OperationMoveToNextProgram ∉ a := fun h => ha (List.mem_cons_of_mem _ h)
    obtain ⟨e8, d8⟩ := head _ _ _ h8
    unfold are_equal
    cases b with
    | nil =>
      obtain ⟨e16, -⟩ := head _ _ _ h16
      simp [e8, e16, hx]
    | cons y b =>
      obtain ⟨e16, d16⟩ := head _ _ _ h16
      have hb' : MicroOp.OperationMoveToNextProgram ∉ b :=
        fun h => hb (List.mem_cons_of_mem _ h)
      by_cases hxy : x = y
      · subst hxy
        have := ih b ra rb (c + 1) fuel ha' hb' d8 d16 (by simp at hfuel; omega)
        simp [e8, e16, hx, this]
      · simp [e8, e16, hxy]

end CPU.WDC65816

namespace CPU.WDC65816

theorem lookup_mem {α β : Type} [BEq α] [LawfulBEq α] (k : α) :
    ∀ (l : List (α × β)) (v : β), l.lookup k = some v → (k, v) ∈ l := by
  intro l
  induction l with
  | nil => intro v h; cases h
  | cons kv l ih =>
    intro v h
    obtain ⟨k', v'⟩ := kv
    rw [List.lookup_cons] at h
    cases hk : (k == k') with
    | true =>
      rw [hk] at h
      cases h
      rw [eq_of_beq hk]
      exact List.mem_cons_self _ _
    | false =>
      rw [hk] at h
      exact List.mem_cons_of_mem _ (ih v h)

theorem install_step (c : ProcessorStorageConstructor) (g : Generator) (op : Operation)
    (hc : c.consistent) :
    ∃ c' l8 l16 suffix,
      install c g op = some c' ∧ c'.consistent ∧
      c'.storage_.micro_ops_ = c.storage_.micro_ops_ ++ suffix ∧
      c'.storage_.instructions =
        (c.storage_.instructions.set c.opcode (some ⟨l8, op⟩)).set (c.opcode + 256)
          (some ⟨l16, op⟩) ∧
      c'.opcode = (c.opcode + 1) % 256 ∧
      program (c'.storage_.micro_ops_.drop l8) = spec_program g op true ∧
      program (c'.storage_.micro_ops_.drop l16) = spec_program g op false ∧
      (l8 = l16 ↔
        g.generate (access_type_for_operation op) true =
          g.generate (access_type_for_operation op) false) := by
  obtain ⟨hlen, hop, hmap⟩ := hc
  obtain ⟨⟨m, ins⟩, pats, opc⟩ := c
  simp only at hlen hop hmap
  have hlt : opc + 256 < ins.length := by omega
  have hn8 := generate_no_terminator g (access_type_for_operation op) true
  have hn16 := generate_no_terminator g (access_type_for_operation op) false
  cases hlook : pats.lookup (access_type_for_operation op, g) with
  | some v =>
    obtain ⟨l8, l16⟩ := v
    have hmem := lookup_mem _ _ _ hlook
    obtain ⟨h8, h16, hiff⟩ := hmap _ _ _ _ hmem
    refine ⟨{ storage_ := { micro_ops_ := m
                            instructions := (ins.set opc (some ⟨l8, op⟩)).set (opc + 256)
                              (some ⟨l16, op⟩) }
              installed_patterns := pats
              opcode := (opc + 1) % 256 }, l8, l16, [], ?_, ⟨?_, ?_, ?_⟩, ?_, rfl, rfl, ?_, ?_,
      hiff⟩
    · simp only [install, hlook, if_pos hlt]
    · simp only [List.length_set]; exact hlen
    · exact Nat.mod_lt _ (by decide)
    · exact hmap
    · simp
    · exact h8
    · exact h16
  | none =>
    set g8 := g.generate (access_type_for_operation op) true with hg8
    set g16 := g.generate (access_type_for_operation op) false with hg16
    have hshape : (m ++ g8 ++ [MicroOp.OperationMoveToNextProgram] ++ g16 ++
          [MicroOp.OperationMoveToNextProgram]) =
          (m ++ g8 ++ [MicroOp.OperationMoveToNextProgram]) ++
            (g16 ++ [MicroOp.OperationMoveToNextProgram]) := by
      simp [List.append_assoc]
    have hshape8 : (m ++ g8 ++ [MicroOp.OperationMoveToNextProgram]) =
          m ++ (g8 ++ [MicroOp.OperationMoveToNextProgram]) := by
      simp [List.append_assoc]
    have heq : are_equal
        (m ++ g8 ++ [MicroOp.OperationMoveToNextProgram] ++ g16 ++
          [MicroOp.OperationMoveToNextProgram])
        m.length (m ++ g8 ++ [MicroOp.OperationMoveToNextProgram]).length
        ((m ++ g8 ++ [MicroOp.OperationMoveToNextProgram] ++ g16 ++
          [MicroOp.OperationMoveToNextProgram]).length + 1) 0 = some (decide (g8 = g16)) := by
      apply are_equal_eq _ _ _ g8 g16 (g16 ++ [MicroOp.OperationMoveToNextProgram]) [] 0 _ hn8 hn16
      · simp [List.append_assoc]
      · rw [hshape, Nat.add_zero, List.drop_left]
      · simp; omega
    have hp8 : ∀ rest, program ((m ++ (g8 ++ MicroOp.OperationMoveToNextProgram :: rest)).drop
        m.length) = g8 ++ [.OperationMoveToNextProgram] := by
      intro rest
      rw [List.drop_left]
      exact program_of_terminated _ _ hn8
    by_cases hsame : g8 = g16
    · refine ⟨{ storage_ := { micro_ops_ := m ++ g8 ++ [.OperationMoveToNextProgram]
                              instructions := (ins.set opc (some ⟨m.length, op⟩)).set (opc + 256)
                                (some ⟨m.length, op⟩) }
                installed_patterns :=
                  ((access_type_for_operation op, g), (m.length, m.length)) :: pats
                opcode := (opc + 1) % 256 }, m.length, m.length,
        g8 ++ [.OperationMoveToNextProgram], ?_, ⟨?_, ?_, ?_⟩, ?_, rfl, rfl, ?_, ?_, ?_⟩
      · have heq' := heq
        rw [decide_eq_true hsame] at heq'
        simp only [install, hlook, ← hg8, ← hg16, heq', if_pos hlt]
        rw [hshape, List.take_left]
      · simp only [List.length_set]; exact hlen
      · exact Nat.mod_lt _ (by decide)
      · intro t g' a b hmem
        simp only at hmem ⊢
        rcases List.mem_cons.mp hmem with e | hmem
        · simp only [Prod.mk.injEq] at e
          obtain ⟨⟨rfl, rfl⟩, rfl, rfl⟩ := e
          rw [hshape8]
          have := hp8 []
          refine ⟨this, ?_, by simp [← hg8, ← hg16, hsame]⟩
          rw [this, ← hg16, ← hsame]
        · obtain ⟨h1, h2, h3⟩ := hmap _ _ _ _ hmem
          rw [hshape8]
          exact ⟨program_stable _ _ _ _ h1, program_stable _ _ _ _ h2, h3⟩
      · simp [List.append_assoc]
      · simp only [spec_program, ← hg8]
        rw [hshape8]
        exact hp8 []
      · simp only [spec_program, ← hg16, ← hsame]
        rw [hshape8]
        exact hp8 []
      · simp [hsame]
    · have hp16 : program ((m ++ g8 ++ [MicroOp.OperationMoveToNextProgram] ++ g16 ++
          [MicroOp.OperationMoveToNextProgram]).drop
            (m ++ g8 ++ [MicroOp.OperationMoveToNextProgram]).length) =
          g16 ++ [.OperationMoveToNextProgram] := by
        rw [hshape, List.drop_left]
        exact program_of_terminated _ _ hn16
      have hp8' : program ((m ++ g8 ++ [MicroOp.OperationMoveToNextProgram] ++ g16 ++
          [MicroOp.OperationMoveToNextProgram]).drop m.length) =
          g8 ++ [.OperationMoveToNextProgram] := by
        have := hp8 (g16 ++ [MicroOp.OperationMoveToNextProgram])
        simpa [List.append_assoc] using this
      have hne : m.length ≠ (m ++ g8 ++ [MicroOp.OperationMoveToNextProgram]).length := by
        simp
      refine ⟨{ storage_ := { micro_ops_ := m ++ g8 ++ [.OperationMoveToNextProgram] ++ g16 ++
                                [.OperationMoveToNextProgram]
                              instructions := (ins.set opc (some ⟨m.length, op⟩)).set (opc + 256)
                                (some ⟨(m ++ g8 ++ [MicroOp.OperationMoveToNextProgram]).length,
                                  op⟩) }
                installed_patterns :=
                  ((access_type_for_operation op, g),
                    (m.length, (m ++ g8 ++ [MicroOp.OperationMoveToNextProgram]).length)) :: pats
                opcode := (opc + 1) % 256 }, m.length,
        (m ++ g8 ++ [MicroOp.OperationMoveToNextProgram]).length,
        g8 ++ [.OperationMoveToNextProgram] ++ g16 ++ [.OperationMoveToNextProgram],
        ?_, ⟨?_, ?_, ?_⟩, ?_, rfl, rfl, ?_, ?_, ?_⟩
      · have heq' := heq
        rw [decide_eq_false hsame] at heq'
        simp only [install, hlook, ← hg8, ← hg16, heq', if_pos hlt]
      · simp only [List.length_set]; exact hlen
      · exact Nat.mod_lt _ (by decide)
      · intro t g' a b hmem
        simp only at hmem ⊢
        rcases List.mem_cons.mp hmem with e | hmem
        · simp only [Prod.mk.injEq] at e
          obtain ⟨⟨rfl, rfl⟩, rfl, rfl⟩ := e
          exact ⟨hp8', hp16, by simp only [← hg8, ← hg16, hsame, iff_false]; exact hne⟩
        · obtain ⟨h1, h2, h3⟩ := hmap _ _ _ _ hmem
          have hs : (m ++ g8 ++ [MicroOp.OperationMoveToNextProgram] ++ g16 ++
              [MicroOp.OperationMoveToNextProgram]) =
              m ++ (g8 ++ [MicroOp.OperationMoveToNextProgram] ++ g16 ++
                [MicroOp.OperationMoveToNextProgram]) := by
            simp [List.append_assoc]
          rw [hs]
          exact ⟨program_stable _ _ _ _ h1, program_stable _ _ _ _ h2, h3⟩
      · simp [List.append_assoc]
      · simp only [spec_program, ← hg8]
        exact hp8'
      · simp only [spec_program, ← hg16]
        exact hp16
      · simp only [← hg8, ← hg16, hsame, iff_false]
        exact hne

end CPU.WDC65816

namespace CPU.WDC65816

theorem install_all_append (l1 l2 : List (Nat × Generator × Operation)) :
    ∀ c : ProcessorStorageConstructor,
      install_all c (l1 ++ l2) = (install_all c l1).bind (fun c' => install_all c' l2) := by
  induction l1 with
  | nil => intro c; rfl
  | cons x l1 ih =>
    intro c
    obtain ⟨a, g, op⟩ := x
    simp only [List.cons_append, install_all]
    cases install c g op with
    | none => rfl
    | some c1 => exact ih c1

theorem consistent_new : ({} : ProcessorStorageConstructor).consistent := by
  refine ⟨List.length_replicate 512 none, by decide, ?_⟩
  intro t g a b h
  cases h

theorem install_all_run (more : List (Nat × Generator × Operation)) :
    ∀ c : ProcessorStorageConstructor, c.consistent →
      ∃ c' suffix,
        install_all c more = some c' ∧ c'.consistent ∧
        c'.storage_.micro_ops_ = c.storage_.micro_ops_ ++ suffix ∧
        c'.opcode = (c.opcode + more.length) % 256 ∧
        ∀ e, e < 256 → (∀ j, j < more.length → (c.opcode + j) % 256 ≠ e) →
          c'.storage_.instructions[e]? = c.storage_.instructions[e]? ∧
          c'.storage_.instructions[e + 256]? = c.storage_.instructions[e + 256]? := by
  induction more with
  | nil =>
    intro c hc
    exact ⟨c, [], rfl, hc, by simp, by simp [Nat.mod_eq_of_lt hc.2.1], fun e _ _ => ⟨rfl, rfl⟩⟩
  | cons x more ih =>
    intro c hc
    obtain ⟨a, g, op⟩ := x
    obtain ⟨c1, l8, l16, s1, h1, hc1, hm1, hi1, ho1, -, -, -⟩ := install_step c g op hc
    obtain ⟨c', s2, h2, hc', hm2, ho2, hu2⟩ := ih c1 hc1
    refine ⟨c', s1 ++ s2, ?_, hc', ?_, ?_, ?_⟩
    · simp only [install_all, h1, h2]
    · rw [hm2, hm1, List.append_assoc]
    · rw [ho2, ho1, List.length_cons]
      omega
    · intro e he hj
      have h0 := hj 0 (by simp)
      have hop := hc.2.1
      rw [Nat.add_zero, Nat.mod_eq_of_lt hop] at h0
      obtain ⟨u1, u2⟩ := hu2 e he (by
        intro j hjlt
        have := hj (j + 1) (by simp; omega)
        rw [ho1]
        omega)
      rw [u1, u2, hi1]
      constructor
      · rw [List.getElem?_set_ne (by omega), List.getElem?_set_ne (by omega)]
      · rw [List.getElem?_set_ne (by omega), List.getElem?_set_ne (by omega)]

end CPU.WDC65816

namespace CPU.WDC65816

/-- C40 (program store with elision). For every sequence of `install` calls on
a fresh constructor, the calls all return, and for the entry of every call that
has not been overwritten since (`opcode` is a `uint8_t`, so the call 256 later
takes the same entry): the table entries `opcode` and `opcode + 256` hold the
operation and offsets `l8`, `l16` at which the micro-ops up to and including the
first `OperationMoveToNextProgram` are what the generator emits for the access
type of the operation with `is8bit` true, respectively false, followed by the
terminator; `l8 = l16` exactly when the two generated sequences are equal; and
after any further calls the programs at `l8` and `l16` are still the same, and
so are the two table entries as long as the further calls do not reach the
same `opcode` again. -/
theorem program_store_with_elision (lines more : List (Nat × Generator × Operation)) :
    ∃ c c', install_all {} lines = some c ∧ install_all {} (lines ++ more) = some c' ∧
      ∀ (k number : Nat) (generator : Generator) (operation : Operation),
        lines[k]? = some (number, generator, operation) → lines.length ≤ k + 256 →
        ∃ l8 l16,
          c.storage_.instructions[k % 256]? = some (some ⟨l8, operation⟩) ∧
          c.storage_.instructions[k % 256 + 256]? = some (some ⟨l16, operation⟩) ∧
          c.storage_.program_of (k % 256) =
            some (operation, spec_program generator operation true) ∧
          c.storage_.program_of (k % 256 + 256) =
            some (operation, spec_program generator operation false) ∧
          (l8 = l16 ↔
            generator.generate (access_type_for_operation operation) true =
              generator.generate (access_type_for_operation operation) false) ∧
          program (c'.storage_.micro_ops_.drop l8) = spec_program generator operation true ∧
          program (c'.storage_.micro_ops_.drop l16) = spec_program generator operation false ∧
          (lines.length + more.length ≤ k + 256 →
            c'.storage_.instructions[k % 256]? = some (some ⟨l8, operation⟩) ∧
            c'.storage_.instructions[k % 256 + 256]? = some (some ⟨l16, operation⟩)) := by
  obtain ⟨c, s, hrun, hcons, hm, hopc, -⟩ := install_all_run lines {} consistent_new
  obtain ⟨c', s', hrun', hcons', hm', hopc', hun'⟩ := install_all_run more c hcons
  refine ⟨c, c', hrun, by rw [install_all_append, hrun]; exact hrun', ?_⟩
  intro k number g op hk hlen
  have hklt : k < lines.length := by
    by_contra hge
    rw [List.getElem?_eq_none_iff.mpr (Nat.le_of_not_lt hge)] at hk
    cases hk
  have hsplit : lines.take k ++ (number, g, op) :: lines.drop (k + 1) = lines := by
    have h1 : lines.drop k = (number, g, op) :: lines.drop (k + 1) := by
      rw [List.drop_eq_getElem_cons hklt]
      congr 1
      have := List.getElem?_eq_getElem hklt
      rw [hk] at this
      exact (Option.some.inj this).symm
    rw [← h1, List.take_append_drop]
  obtain ⟨c1, s1, hr1, hc1, hm1, ho1, -⟩ := install_all_run (lines.take k) {} consistent_new
  obtain ⟨c2, l8, l16, s2, hr2, hc2, hm2, hi2, ho2, hp8, hp16, hiff⟩ := install_step c1 g op hc1
  obtain ⟨c3, s3, hr3, hc3, hm3, ho3, hu3⟩ := install_all_run (lines.drop (k + 1)) c2 hc2
  have hc3eq : c3 = c := by
    have h : install_all {} (lines.take k ++ (number, g, op) :: lines.drop (k + 1)) = some c3 := by
      rw [install_all_append, hr1]
      simp only [Option.bind, install_all, hr2]
      exact hr3
    rw [hsplit, hrun] at h
    exact (Option.some.inj h).symm
  subst hc3eq
  have ho1' : c1.opcode = k % 256 := by
    rw [ho1, List.length_take, Nat.min_eq_left (Nat.le_of_lt hklt)]
    show (0 + k) % 256 = k % 256
    rw [Nat.zero_add]
  have hk256 : k % 256 < 256 := Nat.mod_lt _ (by decide)
  have hlen1 := hc1.1
  have he2 : c2.storage_.instructions[k % 256]? = some (some ⟨l8, op⟩) ∧
      c2.storage_.instructions[k % 256 + 256]? = some (some ⟨l16, op⟩) := by
    rw [hi2, ho1']
    constructor
    · rw [List.getElem?_set_ne (by omega), List.getElem?_set_eq_of_lt _ (by omega)]
    · rw [List.getElem?_set_eq_of_lt _ (by rw [List.length_set]; omega)]
  have hpost : ∀ j, j < (lines.drop (k + 1)).length → (c2.opcode + j) % 256 ≠ k % 256 := by
    intro j hj
    rw [List.length_drop] at hj
    rw [ho2, ho1']
    omega
  obtain ⟨u1, u2⟩ := hu3 (k % 256) hk256 hpost
  have hp8c : program (c3.storage_.micro_ops_.drop l8) = spec_program g op true := by
    rw [hm3]
    exact program_stable _ _ _ _ hp8
  have hp16c : program (c3.storage_.micro_ops_.drop l16) = spec_program g op false := by
    rw [hm3]
    exact program_stable _ _ _ _ hp16
  refine ⟨l8, l16, u1.trans he2.1, u2.trans he2.2, ?_, ?_, hiff, ?_, ?_, ?_⟩
  · simp only [ProcessorStorage.program_of, u1.trans he2.1, hp8c]
  · simp only [ProcessorStorage.program_of, u2.trans he2.2, hp16c]
  · rw [hm']
    exact program_stable _ _ _ _ hp8c
  · rw [hm']
    exact program_stable _ _ _ _ hp16c
  · intro hle
    have hmore : ∀ j, j < more.length → (c3.opcode + j) % 256 ≠ k % 256 := by
      intro j hj
      rw [hopc]
      show ((0 + lines.length) % 256 + j) % 256 ≠ k % 256
      omega
    obtain ⟨v1, v2⟩ := hun' (k % 256) hk256 hmore
    exact ⟨v1.trans (u1.trans he2.1), v2.trans (u2.trans he2.2)⟩

end CPU.WDC65816

namespace CPU.WDC65816

set_option maxRecDepth 100000 in
/-- C40, at the constructor of `ProcessorStorage`: the third `op` line installs
JSR with the generator `absolute_jsr`, whose 8-bit and 16-bit programs are the
same, and the first installs ORA with `absolute`, whose programs differ. -/
theorem program_store_with_elision_witness :
    ∃ storage, ProcessorStorage.new = some storage ∧
      storage.program_of 2 = some (.JSR, spec_program .absolute_jsr .JSR true) ∧
      storage.program_of 258 = some (.JSR, spec_program .absolute_jsr .JSR false) ∧
      storage.program_of 0 = some (.ORA, spec_program .absolute .ORA true) ∧
      storage.program_of 256 = some (.ORA, spec_program .absolute .ORA false) := by
  obtain ⟨c, c', h, -, hall⟩ := program_store_with_elision op_lines []
  obtain ⟨-, -, -, -, p2, p258, -⟩ := hall 2 0x20 .absolute_jsr .JSR (by decide) (by decide)
  obtain ⟨-, -, -, -, p0, p256, -⟩ := hall 0 0x0d .absolute .ORA (by decide) (by decide)
  exact ⟨c.storage_, by simp only [ProcessorStorage.new, h, Option.map_some'], p2, p258, p0, p256⟩

end CPU.WDC65816
